import Mathlib

/-! # TABI-PB: treecode-accelerated boundary integral Poisson–Boltzmann solver

A shallow embedding of the parts of the repository that its specification
makes claims about, followed by the theorems that settle those claims.

Conventions of the embedding.

* `double` values live in a type `K`.  Functions that only move data need `K`
  to have a zero; functions that compute need a linearly ordered field; the
  theorems are stated for every such `K` or for the reals.  The library
  functions `sqrt` and `exp` are passed as arguments, so every definition can
  be evaluated.
* A C array or `std::vector` is a `List`; `a[i]` is `rd a i`, `a[i] = v` is
  `List.set`.  Counted loops are left folds over the index range (`forLoop`).
* Global and member variables that a function mutates are threaded explicitly.
* `int`, `long int` and `std::size_t` values are unbounded (`Nat` / `Int`):
  signed overflow is undefined behaviour in C, so every defined execution
  agrees with the unbounded arithmetic.
-/

namespace TABIPB

/-! ## Arrays and loops -/

/-- Read `a[i]` from an array of doubles (a read outside the array gives `0`). -/
def rd {K : Type} [Zero K] (a : List K) (i : Nat) : K := a.getD i 0

/-- Read `a[i]` from an array of indices (a read outside the array gives `0`). -/
def rdIdx (a : List Nat) (i : Nat) : Nat := a.getD i 0

/-- The loop `for (i = lo; i < hi; ++i) body(i)`, threading the state it mutates. -/
def forLoop {σ : Type} (lo hi : Nat) (body : Nat → σ → σ) (s : σ) : σ :=
  (List.range' lo (hi - lo)).foldl (fun s i => body i s) s

/-- A sequence of array writes `a[w.1] = w.2`, applied in order. -/
def writes {K : Type} (ws : List (Nat × K)) (a : List K) : List K :=
  ws.foldl (fun a w => a.set w.1 w.2) a

/-! ## `treecode.c`: reordering of the particle arrays -/

/-- The fields of the C `struct Particles` (`TreeParticles`) used by the treecode. -/
structure TreeParticles (K : Type) where
  num : Nat
  x : List K
  y : List K
  z : List K
  nx : List K
  ny : List K
  nz : List K
  area : List K
  source_term : List K
  xvct : List K
  order : List Nat

/-- The body of the reordering loop of `TreecodeInitialization` (treecode.c:199-206). -/
def TreecodeInitialization_body {K : Type} [Zero K] (s_numpars : Nat) (order : List Nat)
    (temp_normal0 temp_normal1 temp_normal2 temp_area temp_source : List K)
    (i : Nat) (p : TreeParticles K) : TreeParticles K :=
  { p with
    nx := p.nx.set i (rd temp_normal0 (rdIdx order i))
    ny := p.ny.set i (rd temp_normal1 (rdIdx order i))
    nz := p.nz.set i (rd temp_normal2 (rdIdx order i))
    area := p.area.set i (rd temp_area (rdIdx order i))
    source_term := (p.source_term.set i (rd temp_source (rdIdx order i))).set (i + s_numpars)
        (rd temp_source (rdIdx order i + s_numpars)) }

/-- The reordering done by `TreecodeInitialization` (treecode.c:193-206) once the tree
has been built and `particles->order` records the permutation applied to the positions:
the normals, areas and both halves of the source term are gathered through `order`. -/
def TreecodeInitialization {K : Type} [Zero K] (particles : TreeParticles K) :
    TreeParticles K :=
  let s_numpars := particles.num
  let temp_normal0 := particles.nx.take s_numpars
  let temp_normal1 := particles.ny.take s_numpars
  let temp_normal2 := particles.nz.take s_numpars
  let temp_area := particles.area.take s_numpars
  let temp_source := particles.source_term.take (2 * s_numpars)
  forLoop 0 s_numpars
    (TreecodeInitialization_body s_numpars particles.order
      temp_normal0 temp_normal1 temp_normal2 temp_area temp_source) particles

/-- The body of the reordering loop of `TreecodeFinalization` (treecode.c:253-267). -/
def TreecodeFinalization_body {K : Type} [Zero K] (s_numpars : Nat) (order : List Nat)
    (temp_position0 temp_position1 temp_position2 temp_normal0 temp_normal1 temp_normal2
      temp_area temp_source temp_xvct : List K)
    (i : Nat) (p : TreeParticles K) : TreeParticles K :=
  { p with
    x := p.x.set (rdIdx order i) (rd temp_position0 i)
    y := p.y.set (rdIdx order i) (rd temp_position1 i)
    z := p.z.set (rdIdx order i) (rd temp_position2 i)
    nx := p.nx.set (rdIdx order i) (rd temp_normal0 i)
    ny := p.ny.set (rdIdx order i) (rd temp_normal1 i)
    nz := p.nz.set (rdIdx order i) (rd temp_normal2 i)
    area := p.area.set (rdIdx order i) (rd temp_area i)
    source_term := (p.source_term.set (rdIdx order i) (rd temp_source i)).set
        (rdIdx order i + s_numpars) (rd temp_source (i + s_numpars))
    xvct := (p.xvct.set (rdIdx order i) (rd temp_xvct i)).set
        (rdIdx order i + s_numpars) (rd temp_xvct (i + s_numpars)) }

/-- The reordering done by `TreecodeFinalization` (treecode.c:243-267): every array is
scattered back through `order`. -/
def TreecodeFinalization {K : Type} [Zero K] (particles : TreeParticles K) :
    TreeParticles K :=
  let s_numpars := particles.num
  let temp_position0 := particles.x.take s_numpars
  let temp_position1 := particles.y.take s_numpars
  let temp_position2 := particles.z.take s_numpars
  let temp_normal0 := particles.nx.take s_numpars
  let temp_normal1 := particles.ny.take s_numpars
  let temp_normal2 := particles.nz.take s_numpars
  let temp_area := particles.area.take s_numpars
  let temp_source := particles.source_term.take (2 * s_numpars)
  let temp_xvct := particles.xvct.take (2 * s_numpars)
  forLoop 0 s_numpars
    (TreecodeFinalization_body s_numpars particles.order
      temp_position0 temp_position1 temp_position2 temp_normal0 temp_normal1 temp_normal2
      temp_area temp_source temp_xvct) particles

/-! ## `particles.cpp`: `apply_order`, `reorder`, `unorder` -/

/-- The members of the C++ class `Particles` that the modelled functions touch. -/
structure Particles (K : Type) where
  num_ : Nat
  x_ : List K
  y_ : List K
  z_ : List K
  nx_ : List K
  ny_ : List K
  nz_ : List K
  area_ : List K
  source_term_ : List K
  order_ : List Nat
  surface_area_ : K
  target_charge_ : List K := []
  target_charge_dx_ : List K := []
  target_charge_dy_ : List K := []
  target_charge_dz_ : List K := []
  source_charge_ : List K := []
  source_charge_dx_ : List K := []
  source_charge_dy_ : List K := []
  source_charge_dz_ : List K := []

/-- The template `apply_order` (particles.cpp:559-570).  `v` is the vector the value
iterator points into and `v_begin` the iterator's offset.  `tmp` copies the
`distance(order_begin, order_end) + 1` values starting at `v_begin`; then for each
`idx` of `order`, in sequence, `*v_begin = tmp[idx]` and the iterator advances. -/
def apply_order {K : Type} [Zero K] (order : List Nat) (v : List K) (v_begin : Nat) :
    List K :=
  let tmp := (v.drop v_begin).take (order.length + 1)
  (order.foldl (fun (st : List K × Nat) idx => (st.1.set st.2 (rd tmp idx), st.2 + 1))
    (v, v_begin)).1

/-- The method `Particles::reorder` (particles.cpp:477-486). -/
def Particles.reorder {K : Type} [Zero K] (p : Particles K) : Particles K :=
  let p := { p with nx_ := apply_order p.order_ p.nx_ 0 }
  let p := { p with ny_ := apply_order p.order_ p.ny_ 0 }
  let p := { p with nz_ := apply_order p.order_ p.nz_ 0 }
  let p := { p with area_ := apply_order p.order_ p.area_ 0 }
  let p := { p with source_term_ := apply_order p.order_ p.source_term_ 0 }
  { p with source_term_ := apply_order p.order_ p.source_term_ p.num_ }

/-- The method `Particles::unorder` (particles.cpp:489-505); `potential` is passed by
reference, so the new vector is returned with the object. -/
def Particles.unorder {K : Type} [Zero K] (p : Particles K) (potential : List K) :
    Particles K × List K :=
  let p := { p with x_ := apply_order p.order_ p.x_ 0 }
  let p := { p with y_ := apply_order p.order_ p.y_ 0 }
  let p := { p with z_ := apply_order p.order_ p.z_ 0 }
  let p := { p with nx_ := apply_order p.order_ p.nx_ 0 }
  let p := { p with ny_ := apply_order p.order_ p.ny_ 0 }
  let p := { p with nz_ := apply_order p.order_ p.nz_ 0 }
  let p := { p with area_ := apply_order p.order_ p.area_ 0 }
  let p := { p with source_term_ := apply_order p.order_ p.source_term_ 0 }
  let p := { p with source_term_ := apply_order p.order_ p.source_term_ p.num_ }
  let potential := apply_order p.order_ potential 0
  let potential := apply_order p.order_ potential p.num_
  (p, potential)

/-! ## Sample inputs -/

/-- Three particles in the C layout whose tree order is the cyclic shift `[1, 2, 0]`. -/
def sampleTreeParticles : TreeParticles ℚ where
  num := 3
  x := [0, 1, 2]
  y := [0, 0, 0]
  z := [0, 0, 0]
  nx := [10, 20, 30]
  ny := [11, 21, 31]
  nz := [12, 22, 32]
  area := [1, 2, 3]
  source_term := [4, 5, 6, 7, 8, 9]
  xvct := [0, 0, 0, 0, 0, 0]
  order := [1, 2, 0]

/-- The same three particles as a C++ `Particles` object. -/
def sampleParticles : Particles ℚ where
  num_ := 3
  x_ := [0, 1, 2]
  y_ := [0, 0, 0]
  z_ := [0, 0, 0]
  nx_ := [10, 20, 30]
  ny_ := [11, 21, 31]
  nz_ := [12, 22, 32]
  area_ := [1, 2, 3]
  source_term_ := [4, 5, 6, 7, 8, 9]
  order_ := [1, 2, 0]
  surface_area_ := 6

/-! ## `gmres.cpp`: the restarted GMRES driver `Treecode::gmres_`

The driver's control flow is embedded statement by statement.  Its numerical kernels
(the operators `matrix_vector` and `precondition`, the BLAS calls and the norms) act on
the memory `x`, `work`, `h`, which is kept abstract: they are the fields of
`GmresKernels`, so a statement about every instance holds whatever the operators
return. -/

/-- The numerical kernels of `gmres_` over a memory `S` (the arrays `b`, `x`, `work`,
`h`) with residual ratios in `R`. -/
structure GmresKernels (S R : Type) where
  /-- The copy `work[2*ldw + idx] = b[idx]` (gmres.cpp:159, 165, 281). -/
  copy_b : S → S
  /-- The test `dnrm2_(n, x) != 0.` (gmres.cpp:162). -/
  x_is_nonzero : S → Bool
  /-- The call `matrix_vector(-1., x, 1., &work[2*ldw])` (gmres.cpp:167, 283). -/
  matrix_vector_residual : S → S
  /-- The call `precondition(work, &work[2*ldw])` (gmres.cpp:170, 284). -/
  precondition_residual : S → S
  /-- The value `dnrm2_(n, work) / bnrm2` (gmres.cpp:173-179, 287-288). -/
  relative_residual : S → R
  /-- The first column of `V` and the vector `S` (gmres.cpp:190-201). -/
  first_column : S → S
  /-- The call `matrix_vector(1., &work[(3+i)*ldw], 0., &work[2*ldw])` (gmres.cpp:206). -/
  matrix_vector_basis : Int → S → S
  /-- The call `precondition(&work[2*ldw], &work[2*ldw])` (gmres.cpp:208). -/
  precondition_basis : S → S
  /-- The call of `basis_` and the Givens rotations of step `i` (gmres.cpp:213-261). -/
  orthogonalize : Int → S → S
  /-- The value `fabs(work[i + 1 + ldw]) / bnrm2` (gmres.cpp:263). -/
  rotated_residual : Int → S → R
  /-- The call `update_(i, n, x, h, ldh, ...)` (gmres.cpp:268, 275). -/
  update : Int → S → S
  /-- The store `work[restrt + ldw] = dnrm2_(n, work)` (gmres.cpp:287). -/
  store_norm : S → S

/-- The state `gmres_` works on: the memory, the in/out arguments `iter` and `resid`, and
two counters of the operator calls made so far (ghost state of the embedding). -/
structure GmresState (S R : Type) where
  mem : S
  iter : Int
  resid : R
  matvec_calls : Nat
  precond_calls : Nat

/-- The inner loop `for (i = 0; i < restrt; ++i)` of `gmres_` (gmres.cpp:203-271), with
`m` iterations left of which the next has index `i`.  The flag tells whether the loop
left through `return 0` (gmres.cpp:267-270). -/
def gmres_inner {S R : Type} [LE R] [DecidableRel (fun a b : R => a ≤ b)]
    (k : GmresKernels S R) (tol : R) :
    Nat → Int → GmresState S R → GmresState S R × Bool
  | 0, _, st => (st, false)
  | m + 1, i, st =>
    let st := { st with iter := st.iter + 1 }
    let st := { st with mem := k.matrix_vector_basis i st.mem,
                        matvec_calls := st.matvec_calls + 1 }
    let st := { st with mem := k.precondition_basis st.mem,
                        precond_calls := st.precond_calls + 1 }
    let st := { st with mem := k.orthogonalize i st.mem }
    let st := { st with resid := k.rotated_residual i st.mem }
    if st.resid ≤ tol then
      ({ st with mem := k.update (i + 1) st.mem }, true)
    else
      gmres_inner k tol m (i + 1) st

/-- The restart loop `while (true)` of `gmres_` (gmres.cpp:185-299).  `fuel` bounds the
number of restart cycles; `none` means the loop is still running when it is used up. -/
def gmres_restart {S R : Type} [LE R] [DecidableRel (fun a b : R => a ≤ b)]
    (k : GmresKernels S R) (restrt maxit : Int) (tol : R) :
    Nat → GmresState S R → Option (Int × GmresState S R)
  | 0, _ => none
  | fuel + 1, st =>
    let st := { st with mem := k.first_column st.mem }
    match gmres_inner k tol restrt.toNat 0 st with
    | (st, true) => some (0, st)
    | (st, false) =>
      let st := { st with mem := k.update restrt st.mem }
      let st := { st with mem := k.copy_b st.mem }
      let st := { st with mem := k.matrix_vector_residual st.mem,
                          matvec_calls := st.matvec_calls + 1 }
      let st := { st with mem := k.precondition_residual st.mem,
                          precond_calls := st.precond_calls + 1 }
      let st := { st with mem := k.store_norm st.mem }
      let st := { st with resid := k.relative_residual st.mem }
      if st.resid ≤ tol then some (0, st)
      else if st.iter = maxit then some (1, st)
      else gmres_restart k restrt maxit tol fuel st

/-- The function `Treecode::gmres_` (gmres.cpp:134-300).  The result is the returned
code with the final state, or `none` when the restart loop outlives `fuel` cycles.  The
residual ratios `R` need only the two comparisons, so that `R` can be an ordered field
or the type `Double`, in which a comparison with NaN is false. -/
def gmres_ {S R : Type} [LT R] [LE R] [DecidableRel (fun a b : R => a < b)]
    [DecidableRel (fun a b : R => a ≤ b)] (k : GmresKernels S R)
    (n restrt ldw ldh : Int) (fuel : Nat) (st : GmresState S R) :
    Option (Int × GmresState S R) :=
  if n < 0 then some (-1, st)
  else if ldw < max 1 n then some (-2, st)
  else if st.iter ≤ 0 then some (-3, st)
  else if ldh < restrt + 1 then some (-4, st)
  else
    let maxit := st.iter
    let tol := st.resid
    let st := { st with mem := k.copy_b st.mem }
    let st := if k.x_is_nonzero st.mem then
        { st with mem := k.matrix_vector_residual (k.copy_b st.mem),
                  matvec_calls := st.matvec_calls + 1 }
      else st
    let st := { st with mem := k.precondition_residual st.mem,
                        precond_calls := st.precond_calls + 1 }
    if k.relative_residual st.mem < tol then some (0, st)
    else gmres_restart k restrt maxit tol fuel { st with iter := 0 }

/-- Kernels of a solver run whose residual tests are decided by the number of inner
iterations made so far (the memory is that number): the ratio is `1` until
`converge_at` iterations have been made and `0` from then on. -/
def countingKernels (converge_at : Nat) : GmresKernels Nat ℚ where
  copy_b := fun s => s
  x_is_nonzero := fun _ => false
  matrix_vector_residual := fun s => s
  precondition_residual := fun s => s
  relative_residual := fun s => if converge_at ≤ s then 0 else 1
  first_column := fun s => s
  matrix_vector_basis := fun _ s => s + 1
  precondition_basis := fun s => s
  orthogonalize := fun _ s => s
  rotated_residual := fun _ s => if converge_at ≤ s then 0 else 1
  update := fun _ s => s
  store_norm := fun s => s

/-- Kernels of a stagnating run: every residual ratio is `1`. -/
def stagnatingKernels : GmresKernels Unit ℚ where
  copy_b := fun s => s
  x_is_nonzero := fun _ => false
  matrix_vector_residual := fun s => s
  precondition_residual := fun s => s
  relative_residual := fun _ => 1
  first_column := fun s => s
  matrix_vector_basis := fun _ s => s
  precondition_basis := fun s => s
  orthogonalize := fun _ s => s
  rotated_residual := fun _ _ => 1
  update := fun _ s => s
  store_norm := fun s => s

/-- The call `gmres_(..., restrt = 10, ..., iter = 5, resid = 1e-18)` on a fresh state. -/
def gmresStart (S : Type) (mem : S) : GmresState S ℚ where
  mem := mem
  iter := 5
  resid := 1 / 10 ^ 18
  matvec_calls := 0
  precond_calls := 0

/-! ## `particles.cpp`: `bounds` and `partition_8` -/

/-- The smallest element of a non-empty range, as found by `std::minmax_element`. -/
def minElement {K : Type} [LinearOrder K] : List K → Option K
  | [] => none
  | a :: l => some (l.foldl min a)

/-- The largest element of a non-empty range, as found by `std::minmax_element`. -/
def maxElement {K : Type} [LinearOrder K] : List K → Option K
  | [] => none
  | a :: l => some (l.foldl max a)

/-- The slice `[begin, end)` of a vector. -/
def slice {K : Type} (a : List K) (begin_ end_ : Nat) : List K :=
  (a.drop begin_).take (end_ - begin_)

/-- The method `Particles::bounds` (particles.cpp:360-369).  On an empty range
`std::minmax_element` returns the end iterator, which must not be dereferenced: the
result is `none`. -/
def Particles.bounds {K : Type} [LinearOrder K] (p : Particles K) (begin_ end_ : Nat) :
    Option (List K) :=
  match minElement (slice p.x_ begin_ end_), maxElement (slice p.x_ begin_ end_),
        minElement (slice p.y_ begin_ end_), maxElement (slice p.y_ begin_ end_),
        minElement (slice p.z_ begin_ end_), maxElement (slice p.z_ begin_ end_) with
  | some x_min, some x_max, some y_min, some y_max, some z_min, some z_max =>
    some [x_min, x_max, y_min, y_max, z_min, z_max]
  | _, _, _, _, _, _ => none

/-- What a call of the helper `partition<double>` (partition.h, not part of the sources)
leaves behind: the four arrays it permutes in place and the pivot index it returns. -/
structure Partitioned (K : Type) where
  key : List K
  a : List K
  b : List K
  order : List Nat
  pivot : Nat

/-- The type of the helper `partition<double>(key, a, b, order, begin, end, mid)`. -/
abbrev PartitionFn (K : Type) :=
  List K → List K → List K → List Nat → Nat → Nat → K → Partitioned K

/-- The contract of the helper that `partition_8` relies on: the pivot lies in the range
it was asked to partition. -/
def PivotInRange {K : Type} (partition : PartitionFn K) : Prop :=
  ∀ key a b order node_begin node_end mid, node_begin ≤ node_end →
    node_begin ≤ (partition key a b order node_begin node_end mid).pivot ∧
    (partition key a b order node_begin node_end mid).pivot ≤ node_end

/-- Modelled from the spec: the helper `partition<double>` of partition.h, which is not
part of the sources.  It partitions the range `[begin, end)` "in-place around the
midpoint, tracking swaps in σ": the elements whose key is below `mid` come first (in
their old relative order), the pivot is the index of the first element of the other
part, and the three other arrays are permuted alike. -/
def stablePartition {K : Type} [LinearOrderedField K] : PartitionFn K :=
  fun key a b order node_begin node_end mid =>
    let idxs := List.range' node_begin (node_end - node_begin)
    let perm := idxs.filter (fun i => decide (rd key i < mid))
      ++ idxs.filter (fun i => !decide (rd key i < mid))
    { key := key.take node_begin ++ perm.map (rd key) ++ key.drop node_end
      a := a.take node_begin ++ perm.map (rd a) ++ a.drop node_end
      b := b.take node_begin ++ perm.map (rd b) ++ b.drop node_end
      order := order.take node_begin ++ perm.map (rdIdx order) ++ order.drop node_end
      pivot := node_begin + (idxs.filter (fun i => decide (rd key i < mid))).length }

/-- The call `partition<double>(x_, y_, z_, order_, node_begin, node_end, x_mid)`
(particles.cpp:426) with its effect on the object. -/
def Particles.partition_x {K : Type} (partition : PartitionFn K) (mid : K)
    (p : Particles K) (node_begin node_end : Nat) : Particles K × Nat :=
  let r := partition p.x_ p.y_ p.z_ p.order_ node_begin node_end mid
  ({ p with x_ := r.key, y_ := r.a, z_ := r.b, order_ := r.order }, r.pivot)

/-- The call `partition<double>(y_, x_, z_, order_, node_begin, node_end, y_mid)`
(particles.cpp:443) with its effect on the object. -/
def Particles.partition_y {K : Type} (partition : PartitionFn K) (mid : K)
    (p : Particles K) (node_begin node_end : Nat) : Particles K × Nat :=
  let r := partition p.y_ p.x_ p.z_ p.order_ node_begin node_end mid
  ({ p with y_ := r.key, x_ := r.a, z_ := r.b, order_ := r.order }, r.pivot)

/-- The call `partition<double>(z_, x_, y_, order_, node_begin, node_end, z_mid)`
(particles.cpp:461) with its effect on the object. -/
def Particles.partition_z {K : Type} (partition : PartitionFn K) (mid : K)
    (p : Particles K) (node_begin node_end : Nat) : Particles K × Nat :=
  let r := partition p.z_ p.x_ p.y_ p.order_ node_begin node_end mid
  ({ p with z_ := r.key, x_ := r.a, y_ := r.b, order_ := r.order }, r.pivot)

/-- The body shared by the loops `for (int i = 0; i < num_children; ++i)` of
`partition_8` (particles.cpp:438-449 and 456-467): child `i` is split at the pivot, its
upper part becomes child `num_children + i`.  `call` is the partition call of the axis. -/
def split_child {K : Type} (call : Particles K → Nat → Nat → Particles K × Nat)
    (num_children i : Nat) (st : Particles K × List Nat) : Particles K × List Nat :=
  let partitioned_bounds := st.2
  let node_begin := rdIdx partitioned_bounds (2 * i + 0)
  let node_end := rdIdx partitioned_bounds (2 * i + 1)
  let r := call st.1 node_begin node_end
  let pivot_idx := r.2
  let partitioned_bounds := partitioned_bounds.set (2 * (num_children + i) + 0) pivot_idx
  let partitioned_bounds := partitioned_bounds.set (2 * (num_children + i) + 1)
    (rdIdx partitioned_bounds (2 * i + 1))
  let partitioned_bounds := partitioned_bounds.set (2 * i + 1) pivot_idx
  (r.1, partitioned_bounds)

/-- The three blocks `if (divide_x)`, `if (divide_y)`, `if (divide_z)` of `partition_8`
(particles.cpp:403-472), entered with `partitioned_bounds[0] = begin`,
`partitioned_bounds[1] = end` and `num_children = 1`.  The result is `num_children`,
the object and `partitioned_bounds`. -/
def Particles.partition_8_divide {K : Type} (partition : PartitionFn K)
    (divide_x divide_y divide_z : Bool) (x_mid y_mid z_mid : K) (p : Particles K)
    (partitioned_bounds : List Nat) : Nat × Particles K × List Nat :=
  let num_children := 1
  let st : Nat × Particles K × List Nat :=
    if divide_x then
      let node_begin := rdIdx partitioned_bounds 0
      let node_end := rdIdx partitioned_bounds 1
      let r := p.partition_x partition x_mid node_begin node_end
      let pivot_idx := r.2
      let partitioned_bounds := partitioned_bounds.set 2 pivot_idx
      let partitioned_bounds := partitioned_bounds.set 3 (rdIdx partitioned_bounds 1)
      let partitioned_bounds := partitioned_bounds.set 1 pivot_idx
      (num_children * 2, r.1, partitioned_bounds)
    else (num_children, p, partitioned_bounds)
  let st : Nat × Particles K × List Nat :=
    if divide_y then
      (st.1 * 2, forLoop 0 st.1 (split_child (Particles.partition_y partition y_mid) st.1) st.2)
    else st
  let st : Nat × Particles K × List Nat :=
    if divide_z then
      (st.1 * 2, forLoop 0 st.1 (split_child (Particles.partition_z partition z_mid) st.1) st.2)
    else st
  st

/-- The method `Particles::partition_8` (particles.cpp:372-474).  `partitioned_bounds` is
the caller's `std::array<std::size_t, 16>`; the result is the returned `num_children`
with the array and the object as the call leaves them, or `none` when `bounds` is
undefined. -/
def Particles.partition_8 {K : Type} [LinearOrderedField K] (sqrt : K → K)
    (partition : PartitionFn K) (p : Particles K) (begin_ end_ : Nat)
    (partitioned_bounds : List Nat) : Option (Nat × List Nat × Particles K) :=
  let partitioned_bounds := partitioned_bounds.set 0 begin_
  let partitioned_bounds := partitioned_bounds.set 1 end_
  match p.bounds begin_ end_ with
  | none => none
  | some bounds =>
    let x_len := rd bounds 1 - rd bounds 0
    let y_len := rd bounds 3 - rd bounds 2
    let z_len := rd bounds 5 - rd bounds 4
    let x_mid := (rd bounds 1 + rd bounds 0) / 2
    let y_mid := (rd bounds 3 + rd bounds 2) / 2
    let z_mid := (rd bounds 5 + rd bounds 4) / 2
    let max_len := x_len
    let max_len := if max_len < y_len then y_len else max_len
    let max_len := if max_len < z_len then z_len else max_len
    let critical_len := max_len / sqrt 2
    let divide_x := decide (x_len > critical_len)
    let divide_y := decide (y_len > critical_len)
    let divide_z := decide (z_len > critical_len)
    let st := p.partition_8_divide partition divide_x divide_y divide_z x_mid y_mid z_mid
      partitioned_bounds
    some (st.1, st.2.2, st.2.1)

/-- The child ranges `[partitioned_bounds[2 i], partitioned_bounds[2 i + 1])`, taken in
the order `ord` of child indices, follow one another from `b` to `e`: the first starts at
`b`, each is a range that starts where the one before ends, and the last ends at `e`. -/
def Consecutive (partitioned_bounds : List Nat) : List Nat → Nat → Nat → Prop
  | [], b, e => b = e
  | i :: ord, b, e =>
    rdIdx partitioned_bounds (2 * i) = b ∧ b ≤ rdIdx partitioned_bounds (2 * i + 1) ∧
    Consecutive partitioned_bounds ord (rdIdx partitioned_bounds (2 * i + 1)) e

/-- The order in which the child ranges written by `partition_8` follow one another in
the particle array, for each possible number of children. -/
def childOrder : Nat → List Nat
  | 2 => [0, 1]
  | 4 => [0, 2, 1, 3]
  | 8 => [0, 4, 2, 6, 1, 5, 3, 7]
  | _ => [0]

/-- Two particles at the same position. -/
def coincidentParticles : Particles ℝ where
  num_ := 2
  x_ := [1, 1]
  y_ := [2, 2]
  z_ := [3, 3]
  nx_ := [1, 1]
  ny_ := [0, 0]
  nz_ := [0, 0]
  area_ := [1, 1]
  source_term_ := [0, 0, 0, 0]
  order_ := [0, 1]
  surface_area_ := 2

/-- Four particles at the corners of the unit square of the plane `z = 0`. -/
def squareParticles : Particles ℝ where
  num_ := 4
  x_ := [0, 0, 1, 1]
  y_ := [0, 1, 0, 1]
  z_ := [0, 0, 0, 0]
  nx_ := [0, 0, 0, 0]
  ny_ := [0, 0, 0, 0]
  nz_ := [1, 1, 1, 1]
  area_ := [1, 1, 1, 1]
  source_term_ := [0, 0, 0, 0, 0, 0, 0, 0]
  order_ := [0, 1, 2, 3]
  surface_area_ := 4

/-! ## `elements.cpp`, `particles.cpp`: vertex areas -/

/-- The function `triangle_area` (elements.cpp:688-703, particles.cpp:540-556): Heron's
formula on the edge lengths; `v i k` is coordinate `i` of corner `k`. -/
def triangle_area {K : Type} [Field K] (sqrt : K → K) (v : Nat → Nat → K) : K :=
  let a : Nat → K := fun i => v i 0 - v i 1
  let b : Nat → K := fun i => v i 0 - v i 2
  let c : Nat → K := fun i => v i 1 - v i 2
  let aa := sqrt (a 0 * a 0 + a 1 * a 1 + a 2 * a 2)
  let bb := sqrt (b 0 * b 0 + b 1 * b 1 + b 2 * b 2)
  let cc := sqrt (c 0 * c 0 + c 1 * c 1 + c 2 * c 2)
  let ss := 1 / 2 * (aa + bb + cc)
  sqrt (ss * (ss - aa) * (ss - bb) * (ss - cc))

/-- The corner indices `iface` of face `i`. -/
def iface (face_x face_y face_z : List Nat) (i : Nat) (k : Nat) : Nat :=
  match k with
  | 0 => rdIdx face_x i
  | 1 => rdIdx face_y i
  | _ => rdIdx face_z i

/-- The corner coordinates `r` of face `i` (elements.cpp:361-365, particles.cpp:240-244):
`r[0][ii] = x_[iface[ii] - shift]` and likewise for `y_`, `z_`. -/
def face_corners {K : Type} [Zero K] (x_ y_ z_ : List K) (face_x face_y face_z : List Nat)
    (shift : Nat) (i : Nat) : Nat → Nat → K :=
  fun c ii =>
    match c with
    | 0 => rd x_ (iface face_x face_y face_z i ii - shift)
    | 1 => rd y_ (iface face_x face_y face_z i ii - shift)
    | _ => rd z_ (iface face_x face_y face_z i ii - shift)

/-- The loop over the faces shared by `Elements::generate_elements` (elements.cpp:357-370)
and `Particles::generate_particles` (particles.cpp:235-249): the area of each face is
added to the entry of each of its three corners. -/
def accumulate_face_areas {K : Type} [Field K] (sqrt : K → K) (x_ y_ z_ : List K)
    (face_x face_y face_z : List Nat) (shift num_faces : Nat) (area_ : List K) : List K :=
  forLoop 0 num_faces (fun i area_ =>
    forLoop 0 3 (fun j area_ =>
      area_.set (iface face_x face_y face_z i j - shift)
        (rd area_ (iface face_x face_y face_z i j - shift)
          + triangle_area sqrt (face_corners x_ y_ z_ face_x face_y face_z shift i))) area_)
    area_

/-- The two mesh formats of `Params::MeshFormat`. -/
inductive MeshFormat where
  | MSMS
  | PLY
  deriving DecidableEq

/-- The members of the C++ class `Elements` that the modelled functions touch. -/
structure Elements (K : Type) where
  num_ : Nat
  x_ : List K
  y_ : List K
  z_ : List K
  nx_ : List K
  ny_ : List K
  nz_ : List K
  num_faces_ : Nat
  face_x_ : List Nat
  face_y_ : List Nat
  face_z_ : List Nat
  area_ : List K
  surface_area_ : K
  source_term_ : List K

/-- The method `Elements::generate_elements` from the point where the mesh has been read
(elements.cpp:348-375): the vertex areas and the surface area. -/
def Elements.generate_elements {K : Type} [Field K] (sqrt : K → K)
    (mesh_format : MeshFormat) (e : Elements K) : Elements K :=
  let area_ := List.replicate e.num_ (0 : K)
  let face_vertex_index_shift := if mesh_format = MeshFormat.PLY then 0 else 1
  let area_ := accumulate_face_areas sqrt e.x_ e.y_ e.z_ e.face_x_ e.face_y_ e.face_z_
    face_vertex_index_shift e.num_faces_ area_
  let area_ := area_.map (fun x => x / 3)
  { e with area_ := area_, surface_area_ := area_.foldl (fun s a => s + a) 0 }

/-- The method `Particles::generate_particles` from the point where the mesh has been read
into the vertex arrays and the local face arrays (particles.cpp:233-253). -/
def Particles.generate_particles {K : Type} [Field K] (sqrt : K → K)
    (num_faces : Nat) (face_x face_y face_z : List Nat) (p : Particles K) : Particles K :=
  let area_ := List.replicate p.num_ (0 : K)
  let area_ := accumulate_face_areas sqrt p.x_ p.y_ p.z_ face_x face_y face_z 1 num_faces area_
  let area_ := area_.map (fun x => x / 3)
  { p with area_ := area_, surface_area_ := area_.foldl (fun s a => s + a) 0 }

/-- A tetrahedron read from an MSMS mesh (1-based face indices). -/
def sampleElements : Elements ℝ where
  num_ := 4
  x_ := [0, 4, 0, 0]
  y_ := [0, 0, 4, 0]
  z_ := [0, 0, 0, 4]
  nx_ := [0, 1, 0, 0]
  ny_ := [0, 0, 1, 0]
  nz_ := [0, 0, 0, 1]
  num_faces_ := 4
  face_x_ := [1, 1, 1, 2]
  face_y_ := [2, 2, 3, 3]
  face_z_ := [3, 4, 4, 4]
  area_ := []
  surface_area_ := 0
  source_term_ := [0, 0, 0, 0, 0, 0, 0, 0]

/-! ## `elements.cpp`, `particles.cpp`, `tabipb.c`: the source term -/

/-- The constant `ONE_OVER_4PI` (global_params.h; `constants::ONE_OVER_4PI` in the C++
sources). -/
def ONE_OVER_4PI {K : Type} [Field K] : K := 79577471545948 / 1000000000000000

/-- The atoms as `Elements` reads them: `molecule_.num()`, `x_ptr()`, `y_ptr()`,
`z_ptr()`, `charge_ptr()`. -/
structure Molecule (K : Type) where
  num : Nat
  x : List K
  y : List K
  z : List K
  charge : List K

/-- The atoms as `Particles` reads them: `molecule_.num_atoms()`, `coords_ptr()` (three
coordinates per atom), `charge_ptr()`. -/
structure MoleculeCoords (K : Type) where
  num_atoms : Nat
  coords : List K
  charge : List K

/-- The fields of `TABIPBvars` read by `s_ComputeSourceTerm`. -/
structure TABIPBvars (K : Type) where
  natm : Nat
  nface : Nat
  chrpos : List K
  atmchr : List K

/-- The fields of the particle struct of tabipb.c: `position[0..2][i]`, `normal[0..2][i]`
and `source_term`. -/
structure TabipbParticles (K : Type) where
  position : List (List K)
  normal : List (List K)
  source_term : List K

/-- Read `a[r][i]` from a matrix of doubles. -/
def rd2 {K : Type} [Zero K] (a : List (List K)) (r i : Nat) : K := rd (a.getD r []) i

/-- The body of the loop over the elements `i` of `Elements::compute_source_term()`
(elements.cpp:414-450): the two sums over the atoms are formed in local accumulators and
then added to `source_term_[i]` and `source_term_[num + i]`. -/
def Elements.compute_source_term_body {K : Type} [Field K] (sqrt : K → K) (eps_solute : K)
    (molecule_ : Molecule K) (e : Elements K) (i : Nat) (source_term : List K) : List K :=
  let num_atoms := molecule_.num
  let num := e.num_
  let acc := forLoop 0 num_atoms (fun j (acc : K × K) =>
    let x_dist := rd molecule_.x j - rd e.x_ i
    let y_dist := rd molecule_.y j - rd e.y_ i
    let z_dist := rd molecule_.z j - rd e.z_ i
    let dist := sqrt (x_dist * x_dist + y_dist * y_dist + z_dist * z_dist)
    let cos_theta := (rd e.nx_ i * x_dist + rd e.ny_ i * y_dist + rd e.nz_ i * z_dist) / dist
    let G0 := ONE_OVER_4PI / dist
    let G1 := cos_theta * G0 / dist
    (acc.1 + rd molecule_.charge j * G0 / eps_solute,
     acc.2 + rd molecule_.charge j * G1 / eps_solute)) (0, 0)
  let source_term := source_term.set i (rd source_term i + acc.1)
  source_term.set (num + i) (rd source_term (num + i) + acc.2)

/-- The method `Elements::compute_source_term()` (elements.cpp:381-455); `eps_solute` is
`params_.phys_eps_solute_`. -/
def Elements.compute_source_term {K : Type} [Field K] (sqrt : K → K) (eps_solute : K)
    (molecule_ : Molecule K) (e : Elements K) : Elements K :=
  { e with source_term_ :=
      (forLoop 0 e.num_ (e.compute_source_term_body sqrt eps_solute molecule_)
        e.source_term_) }

/-- The body of the loop over the elements `i` of `Particles::compute_source_term`
(particles.cpp:280-302): the loop over the atoms adds to `source_term_[i]` and
`source_term_[num_ + i]`. -/
def Particles.compute_source_term_body {K : Type} [Field K] (sqrt : K → K) (eps_solute : K)
    (molecule_ : MoleculeCoords K) (p : Particles K) (i : Nat) (source_term : List K) :
    List K :=
  forLoop 0 molecule_.num_atoms (fun j source_term =>
    let x_dist := rd molecule_.coords (3 * j + 0) - rd p.x_ i
    let y_dist := rd molecule_.coords (3 * j + 1) - rd p.y_ i
    let z_dist := rd molecule_.coords (3 * j + 2) - rd p.z_ i
    let dist := sqrt (x_dist * x_dist + y_dist * y_dist + z_dist * z_dist)
    let cos_theta := (rd p.nx_ i * x_dist + rd p.ny_ i * y_dist + rd p.nz_ i * z_dist) / dist
    let G0 := ONE_OVER_4PI / dist
    let G1 := cos_theta * G0 / dist
    let source_term := source_term.set i
      (rd source_term i + rd molecule_.charge j * G0 / eps_solute)
    source_term.set (p.num_ + i)
      (rd source_term (p.num_ + i) + rd molecule_.charge j * G1 / eps_solute))
    source_term

/-- The method `Particles::compute_source_term` (particles.cpp:259-304). -/
def Particles.compute_source_term {K : Type} [Field K] (sqrt : K → K) (eps_solute : K)
    (molecule_ : MoleculeCoords K) (p : Particles K) : Particles K :=
  let source_term := List.replicate (2 * p.num_) (0 : K)
  { p with source_term_ :=
      (forLoop 0 p.num_ (p.compute_source_term_body sqrt eps_solute molecule_) source_term) }

/-- The body of the loop over the elements `i` of `s_ComputeSourceTerm`
(tabipb.c:161-188): both entries are zeroed, then the loop over the atoms adds to them. -/
def s_ComputeSourceTerm_body {K : Type} [Field K] (sqrt : K → K) (epsp : K)
    (vars : TABIPBvars K) (particles : TabipbParticles K) (i : Nat) (source_term : List K) :
    List K :=
  let source_term := source_term.set i 0
  let source_term := source_term.set (i + vars.nface) 0
  forLoop 0 vars.natm (fun j source_term =>
    let r_s0 := rd vars.chrpos (3 * j) - rd2 particles.position 0 i
    let r_s1 := rd vars.chrpos (3 * j + 1) - rd2 particles.position 1 i
    let r_s2 := rd vars.chrpos (3 * j + 2) - rd2 particles.position 2 i
    let sumrs := r_s0 * r_s0 + r_s1 * r_s1 + r_s2 * r_s2
    let cos_theta := rd2 particles.normal 0 i * r_s0 + rd2 particles.normal 1 i * r_s1
      + rd2 particles.normal 2 i * r_s2
    let irs := 1 / sqrt sumrs
    let cos_theta := cos_theta * irs
    let G0 := ONE_OVER_4PI * irs
    let G1 := cos_theta * G0 * irs
    let source_term := source_term.set i (rd source_term i + rd vars.atmchr j * G0 / epsp)
    source_term.set (vars.nface + i)
      (rd source_term (vars.nface + i) + rd vars.atmchr j * G1 / epsp))
    source_term

/-- The function `s_ComputeSourceTerm` (tabipb.c:149-192); `epsp` is `parm->epsp`. -/
def s_ComputeSourceTerm {K : Type} [Field K] (sqrt : K → K) (epsp : K)
    (vars : TABIPBvars K) (particles : TabipbParticles K) : TabipbParticles K :=
  { particles with source_term :=
      (forLoop 0 vars.nface (s_ComputeSourceTerm_body sqrt epsp vars particles)
        particles.source_term) }

/-- The source term as the specification states it, for an element at `(x, y, z)` with
normal `(nx, ny, nz)` and atoms `j < num_atoms` at `(px j, py j, pz j)` with charge
`q j`: `s1 = Σ q_j / (4π d_j ε_p)` and `s2 = Σ q_j (n · (p_j - x)) / (4π d_j³ ε_p)`, where
`d_j = |p_j - x|` and `1/(4π)` is the constant `ONE_OVER_4PI`. -/
def source_term_spec {K : Type} [Field K] (sqrt : K → K) (eps_p : K) (num_atoms : Nat)
    (q px py pz : Nat → K) (x y z nx ny nz : K) : K × K :=
  (∑ j in Finset.range num_atoms,
      q j * ONE_OVER_4PI
        / (sqrt ((px j - x) * (px j - x) + (py j - y) * (py j - y) + (pz j - z) * (pz j - z))
            * eps_p),
   ∑ j in Finset.range num_atoms,
      q j * (nx * (px j - x) + ny * (py j - y) + nz * (pz j - z)) * ONE_OVER_4PI
        / (sqrt ((px j - x) * (px j - x) + (py j - y) * (py j - y) + (pz j - z) * (pz j - z)) ^ 3
            * eps_p))

/-- One unit charge inside the tetrahedron of `sampleElements`. -/
def sampleMolecule : Molecule ℝ where
  num := 1
  x := [1]
  y := [1]
  z := [1]
  charge := [1]

/-- The atom of `sampleMolecule` in the interleaved layout. -/
def sampleMoleculeCoords : MoleculeCoords ℝ where
  num_atoms := 1
  coords := [1, 1, 1]
  charge := [1]

/-- The vertices of `sampleElements` as a `Particles` object. -/
def tetraParticles : Particles ℝ where
  num_ := 4
  x_ := [0, 4, 0, 0]
  y_ := [0, 0, 4, 0]
  z_ := [0, 0, 0, 4]
  nx_ := [0, 1, 0, 0]
  ny_ := [0, 0, 1, 0]
  nz_ := [0, 0, 0, 1]
  area_ := [0, 0, 0, 0]
  source_term_ := []
  order_ := [0, 1, 2, 3]
  surface_area_ := 0

/-- The atom of `sampleMolecule` and the element count as `TABIPBvars`. -/
def sampleVars : TABIPBvars ℝ where
  natm := 1
  nface := 4
  chrpos := [1, 1, 1]
  atmchr := [1]

/-- The vertices of `sampleElements` in the layout of tabipb.c, with a source term that
has not been initialised. -/
def sampleTabipbParticles : TabipbParticles ℝ where
  position := [[0, 4, 0, 0], [0, 0, 4, 0], [0, 0, 0, 4]]
  normal := [[0, 1, 0, 0], [0, 0, 1, 0], [0, 0, 0, 1]]
  source_term := [7, 7, 7, 7, 7, 7, 7, 7]

/-! ## `treecode.cpp`: the matrix-vector product of the C++ treecode -/

/-- The physical parameters read from `params_`. -/
structure Params (K : Type) where
  phys_eps_ : K
  phys_kappa_ : K
  phys_kappa2_ : K

/-- The data of the class `Clusters` (clusters.h is not part of the sources) that the
interaction routines reach through its accessors. -/
structure Clusters (K : Type) where
  num_interp_pts_per_node : Nat
  num_charges_per_node : Nat
  interp_x : List K
  interp_y : List K
  interp_z : List K
  interp_charge : List K
  interp_charge_dx : List K
  interp_charge_dy : List K
  interp_charge_dz : List K
  interp_potential : List K
  interp_potential_dx : List K
  interp_potential_dy : List K
  interp_potential_dz : List K

/-- The data of the class `Tree` (tree.h is not part of the sources) read by
`matrix_vector`: the number of nodes and the particle range `[begin, end)` of each. -/
structure Tree where
  num_nodes : Nat
  node_particle_idxs : List (Nat × Nat)

/-- The four lists of source nodes of each target node (interaction_list.h is not part
of the sources). -/
structure InteractionList where
  particle_particle : List (List Nat)
  particle_cluster : List (List Nat)
  cluster_particle : List (List Nat)
  cluster_cluster : List (List Nat)

/-- The methods of `Clusters` called by `matrix_vector`; their bodies are not part of the
sources, so they are parameters of the embedding. -/
structure ClusterMethods (K : Type) where
  upward_pass : Particles K → Clusters K → Clusters K
  clear_potentials : Clusters K → Clusters K
  downward_pass : Particles K → Clusters K → List K → List K

/-- The members of the class `Treecode`. -/
structure Treecode (K : Type) where
  particles_ : Particles K
  clusters_ : Clusters K
  tree_ : Tree
  interaction_list_ : InteractionList
  params_ : Params K
  potential_ : List K

/-- The method `Particles::compute_charges` (particles.cpp:508-537). -/
def Particles.compute_charges {K : Type} [Field K] (p : Particles K) (potential : List K) :
    Particles K :=
  forLoop 0 p.num_ (fun i p =>
    { p with
      target_charge_ := p.target_charge_.set i ONE_OVER_4PI
      target_charge_dx_ := p.target_charge_dx_.set i (ONE_OVER_4PI * rd p.nx_ i)
      target_charge_dy_ := p.target_charge_dy_.set i (ONE_OVER_4PI * rd p.ny_ i)
      target_charge_dz_ := p.target_charge_dz_.set i (ONE_OVER_4PI * rd p.nz_ i)
      source_charge_ := p.source_charge_.set i (rd p.area_ i * rd potential (p.num_ + i))
      source_charge_dx_ := p.source_charge_dx_.set i (rd p.nx_ i * rd p.area_ i * rd potential i)
      source_charge_dy_ := p.source_charge_dy_.set i (rd p.ny_ i * rd p.area_ i * rd potential i)
      source_charge_dz_ := p.source_charge_dz_.set i
        (rd p.nz_ i * rd p.area_ i * rd potential i) }) p

/-- The coefficients `(L1, L2, L3, L4)` of a source at distance `r > 0` as
`Treecode::particle_particle_interact` computes them (treecode.cpp:145-164); `dist` is
source minus target. -/
def pair_coefficients {K : Type} [Field K] (exp : K → K) (eps kappa kappa2 : K)
    (r dist_x dist_y dist_z source_nx source_ny source_nz target_nx target_ny target_nz : K) :
    K × K × K × K :=
  let one_over_r := 1 / r
  let G0 := ONE_OVER_4PI * one_over_r
  let kappa_r := kappa * r
  let exp_kappa_r := exp (-kappa_r)
  let Gk := exp_kappa_r * G0
  let cos_theta := (source_nx * dist_x + source_ny * dist_y + source_nz * dist_z) * one_over_r
  let cos_theta0 := (target_nx * dist_x + target_ny * dist_y + target_nz * dist_z) * one_over_r
  let tp1 := G0 * one_over_r
  let tp2 := (1 + kappa_r) * exp_kappa_r
  let dot_tqsq := source_nx * target_nx + source_ny * target_ny + source_nz * target_nz
  let G3 := (dot_tqsq - 3 * cos_theta0 * cos_theta) * one_over_r * tp1
  let G4 := tp2 * G3 - kappa2 * cos_theta0 * cos_theta * Gk
  let L1 := cos_theta * tp1 * (1 - tp2 * eps)
  let L2 := G0 - Gk
  let L3 := G4 - G3
  let L4 := cos_theta0 * tp1 * (1 - tp2 / eps)
  (L1, L2, L3, L4)

/-- The method `Treecode::particle_particle_interact` (treecode.cpp:89-171). -/
def Treecode.particle_particle_interact {K : Type} [LinearOrderedField K]
    (sqrt exp : K → K) (tc : Treecode K) (potential potential_old : List K)
    (target_node_particle_idxs source_node_particle_idxs : Nat × Nat) : List K :=
  let eps := tc.params_.phys_eps_
  let kappa := tc.params_.phys_kappa_
  let kappa2 := tc.params_.phys_kappa2_
  let num_particles := tc.particles_.num_
  forLoop target_node_particle_idxs.1 target_node_particle_idxs.2 (fun j potential =>
    let target_x := rd tc.particles_.x_ j
    let target_y := rd tc.particles_.y_ j
    let target_z := rd tc.particles_.z_ j
    let target_nx := rd tc.particles_.nx_ j
    let target_ny := rd tc.particles_.ny_ j
    let target_nz := rd tc.particles_.nz_ j
    forLoop source_node_particle_idxs.1 source_node_particle_idxs.2 (fun k potential =>
      let source_x := rd tc.particles_.x_ k
      let source_y := rd tc.particles_.y_ k
      let source_z := rd tc.particles_.z_ k
      let source_nx := rd tc.particles_.nx_ k
      let source_ny := rd tc.particles_.ny_ k
      let source_nz := rd tc.particles_.nz_ k
      let source_area := rd tc.particles_.area_ k
      let potential_old_0 := rd potential_old k
      let potential_old_1 := rd potential_old (k + num_particles)
      let dist_x := source_x - target_x
      let dist_y := source_y - target_y
      let dist_z := source_z - target_z
      let r := sqrt (dist_x * dist_x + dist_y * dist_y + dist_z * dist_z)
      if r > 0 then
        let L := pair_coefficients exp eps kappa kappa2 r dist_x dist_y dist_z
          source_nx source_ny source_nz target_nx target_ny target_nz
        let potential := potential.set j
          (rd potential j + (L.1 * potential_old_0 + L.2.1 * potential_old_1) * source_area)
        potential.set (j + num_particles)
          (rd potential (j + num_particles)
            + (L.2.2.1 * potential_old_0 + L.2.2.2 * potential_old_1) * source_area)
      else potential) potential) potential

/-- The kernel of the innermost loops of `particle_cluster_interact`,
`cluster_particle_interact` and `cluster_cluster_interact` (treecode.cpp:233-265, and
the same lines of the two other routines): the four increments of `pot_comp_`,
`pot_comp_dx`, `pot_comp_dy`, `pot_comp_dz` for the separation `(dx, dy, dz)` and the
source charges `(q, q_dx, q_dy, q_dz)`. -/
def cluster_kernel {K : Type} [Field K] (sqrt exp : K → K) (eps kappa : K)
    (dx dy dz q q_dx q_dy q_dz : K) : K × K × K × K :=
  let r2 := dx * dx + dy * dy + dz * dz
  let r := sqrt r2
  let rinv := 1 / r
  let r3inv := rinv * rinv * rinv
  let r5inv := r3inv * rinv * rinv
  let expkr := exp (-kappa * r)
  let d1term := r3inv * expkr * (1 + (kappa * r))
  let d1term1 := -r3inv + d1term * eps
  let d1term2 := -r3inv + d1term / eps
  let d2term := r5inv * (-3 + expkr * (3 + (3 * kappa * r) + (kappa * kappa * r2)))
  let d3term := r3inv * (1 - expkr * (1 + kappa * r))
  (rinv * (1 - expkr) * q + d1term1 * (q_dx * dx + q_dy * dy + q_dz * dz),
   q * (d1term2 * dx)
     - (q_dx * (dx * dx * d2term + d3term) + q_dy * (dx * dy * d2term)
        + q_dz * (dx * dz * d2term)),
   q * d1term2 * dy
     - (q_dx * (dx * dy * d2term) + q_dy * (dy * dy * d2term + d3term)
        + q_dz * (dy * dz * d2term)),
   q * d1term2 * dz
     - (q_dx * (dx * dz * d2term) + q_dy * (dy * dz * d2term)
        + q_dz * (dz * dz * d2term + d3term)))

/-- The componentwise sum of two quadruples of accumulators. -/
def add4 {K : Type} [Add K] (a b : K × K × K × K) : K × K × K × K :=
  (a.1 + b.1, a.2.1 + b.2.1, a.2.2.1 + b.2.2.1, a.2.2.2 + b.2.2.2)

/-- The triple loop over the interpolation points `(k1, k2, k3)` of a source cluster
(treecode.cpp:221-268, 383-420): the kernel summed against the cluster charges, seen
from the point `(target_x, target_y, target_z)`. -/
def cluster_sum {K : Type} [Field K] (sqrt exp : K → K) (eps kappa : K) (clusters_ : Clusters K)
    (source_node_idx : Nat) (target_x target_y target_z : K) : K × K × K × K :=
  let n := clusters_.num_interp_pts_per_node
  let source_cluster_interp_pts_begin := source_node_idx * n
  let source_cluster_charges_begin := source_node_idx * clusters_.num_charges_per_node
  forLoop 0 n (fun k1 acc =>
    forLoop 0 n (fun k2 acc =>
      forLoop 0 n (fun k3 acc =>
        let kk := source_cluster_charges_begin + k1 * n * n + k2 * n + k3
        let dx := target_x - rd clusters_.interp_x (source_cluster_interp_pts_begin + k1)
        let dy := target_y - rd clusters_.interp_y (source_cluster_interp_pts_begin + k2)
        let dz := target_z - rd clusters_.interp_z (source_cluster_interp_pts_begin + k3)
        add4 acc (cluster_kernel sqrt exp eps kappa dx dy dz
          (rd clusters_.interp_charge kk) (rd clusters_.interp_charge_dx kk)
          (rd clusters_.interp_charge_dy kk) (rd clusters_.interp_charge_dz kk))) acc) acc)
    (0, 0, 0, 0)

/-- The method `Treecode::particle_cluster_interact` (treecode.cpp:174-275). -/
def Treecode.particle_cluster_interact {K : Type} [Field K] (sqrt exp : K → K)
    (tc : Treecode K) (potential : List K) (target_node_particle_idxs : Nat × Nat)
    (source_node_idx : Nat) : List K :=
  let num_particles := tc.particles_.num_
  let eps := tc.params_.phys_eps_
  let kappa := tc.params_.phys_kappa_
  forLoop target_node_particle_idxs.1 target_node_particle_idxs.2 (fun j potential =>
    let target_x := rd tc.particles_.x_ j
    let target_y := rd tc.particles_.y_ j
    let target_z := rd tc.particles_.z_ j
    let pot_comp := cluster_sum sqrt exp eps kappa tc.clusters_ source_node_idx
      target_x target_y target_z
    let potential := potential.set j
      (rd potential j + rd tc.particles_.target_charge_ j * pot_comp.1)
    potential.set (j + num_particles)
      (rd potential (j + num_particles)
        + (rd tc.particles_.target_charge_dx_ j * pot_comp.2.1
          + rd tc.particles_.target_charge_dy_ j * pot_comp.2.2.1
          + rd tc.particles_.target_charge_dz_ j * pot_comp.2.2.2))) potential

/-- The loop over the source particles of `cluster_particle_interact`
(treecode.cpp:327-360): the kernel summed against the source charges of the particles. -/
def particle_sum {K : Type} [Field K] (sqrt exp : K → K) (eps kappa : K)
    (particles_ : Particles K) (source_node_particle_idxs : Nat × Nat)
    (target_x target_y target_z : K) : K × K × K × K :=
  forLoop source_node_particle_idxs.1 source_node_particle_idxs.2 (fun k acc =>
    let dx := target_x - rd particles_.x_ k
    let dy := target_y - rd particles_.y_ k
    let dz := target_z - rd particles_.z_ k
    add4 acc (cluster_kernel sqrt exp eps kappa dx dy dz
      (rd particles_.source_charge_ k) (rd particles_.source_charge_dx_ k)
      (rd particles_.source_charge_dy_ k) (rd particles_.source_charge_dz_ k)))
    (0, 0, 0, 0)

/-- The triple loop over the interpolation points `(j1, j2, j3)` of a target cluster
shared by `cluster_particle_interact` and `cluster_cluster_interact`
(treecode.cpp:310-368, 400-462): `inner` is the sum formed for one target point, which
is added to the four cluster potentials at `jj`. -/
def cluster_target_loop {K : Type} [Field K] (clusters_ : Clusters K) (target_node_idx : Nat)
    (inner : K → K → K → K × K × K × K) : Clusters K :=
  let n := clusters_.num_interp_pts_per_node
  let target_cluster_interp_pts_begin := target_node_idx * n
  let target_cluster_potentials_begin := target_node_idx * clusters_.num_charges_per_node
  forLoop 0 n (fun j1 c =>
    forLoop 0 n (fun j2 c =>
      forLoop 0 n (fun j3 (c : Clusters K) =>
        let jj := target_cluster_potentials_begin + j1 * n * n + j2 * n + j3
        let target_x := rd clusters_.interp_x (target_cluster_interp_pts_begin + j1)
        let target_y := rd clusters_.interp_y (target_cluster_interp_pts_begin + j2)
        let target_z := rd clusters_.interp_z (target_cluster_interp_pts_begin + j3)
        let pot_comp := inner target_x target_y target_z
        { c with
          interp_potential := c.interp_potential.set jj (rd c.interp_potential jj + pot_comp.1)
          interp_potential_dx :=
            c.interp_potential_dx.set jj (rd c.interp_potential_dx jj + pot_comp.2.1)
          interp_potential_dy :=
            c.interp_potential_dy.set jj (rd c.interp_potential_dy jj + pot_comp.2.2.1)
          interp_potential_dz :=
            c.interp_potential_dz.set jj (rd c.interp_potential_dz jj + pot_comp.2.2.2) })
        c) c) clusters_

/-- The method `Treecode::cluster_particle_interact` (treecode.cpp:278-371); it writes
the cluster potentials and leaves `potential` alone. -/
def Treecode.cluster_particle_interact {K : Type} [Field K] (sqrt exp : K → K)
    (tc : Treecode K) (target_node_idx : Nat) (source_node_particle_idxs : Nat × Nat) :
    Clusters K :=
  cluster_target_loop tc.clusters_ target_node_idx
    (particle_sum sqrt exp tc.params_.phys_eps_ tc.params_.phys_kappa_ tc.particles_
      source_node_particle_idxs)

/-- The method `Treecode::cluster_cluster_interact` (treecode.cpp:374-465); it writes
the cluster potentials and leaves `potential` alone. -/
def Treecode.cluster_cluster_interact {K : Type} [Field K] (sqrt exp : K → K)
    (tc : Treecode K) (target_node_idx source_node_idx : Nat) : Clusters K :=
  cluster_target_loop tc.clusters_ target_node_idx
    (cluster_sum sqrt exp tc.params_.phys_eps_ tc.params_.phys_kappa_ tc.clusters_
      source_node_idx)

/-- The particle range of a tree node, `tree_.node_particle_idxs(idx)`. -/
def Tree.idxs (t : Tree) (idx : Nat) : Nat × Nat := t.node_particle_idxs.getD idx (0, 0)

/-- The interaction walk of one target node (treecode.cpp:49-62): its four lists are
run through in turn.  The state is the object (whose cluster potentials the last two
routines write) and `potential_new`. -/
def Treecode.interact_node {K : Type} [LinearOrderedField K] (sqrt exp : K → K)
    (potential_old : List K) (target_node_idx : Nat) (st : Treecode K × List K) :
    Treecode K × List K :=
  let st := (st.1.interaction_list_.particle_particle.getD target_node_idx []).foldl
    (fun (st : Treecode K × List K) source_node_idx =>
      (st.1, st.1.particle_particle_interact sqrt exp st.2 potential_old
        (st.1.tree_.idxs target_node_idx) (st.1.tree_.idxs source_node_idx))) st
  let st := (st.1.interaction_list_.particle_cluster.getD target_node_idx []).foldl
    (fun (st : Treecode K × List K) source_node_idx =>
      (st.1, st.1.particle_cluster_interact sqrt exp st.2
        (st.1.tree_.idxs target_node_idx) source_node_idx)) st
  let st := (st.1.interaction_list_.cluster_particle.getD target_node_idx []).foldl
    (fun (st : Treecode K × List K) source_node_idx =>
      let clusters := st.1.cluster_particle_interact sqrt exp target_node_idx
        (st.1.tree_.idxs source_node_idx)
      ({ st.1 with clusters_ := clusters }, st.2)) st
  (st.1.interaction_list_.cluster_cluster.getD target_node_idx []).foldl
    (fun (st : Treecode K × List K) source_node_idx =>
      let clusters := st.1.cluster_cluster_interact sqrt exp target_node_idx source_node_idx
      ({ st.1 with clusters_ := clusters }, st.2)) st

/-- The part of `matrix_vector` that accumulates into `potential_new`
(treecode.cpp:43-65): the charges are recomputed from `potential_old`, the cluster
charges and potentials are reset, every target node runs its interaction lists, and the
downward pass adds the cluster potentials. -/
def Treecode.accumulate {K : Type} [LinearOrderedField K] (sqrt exp : K → K)
    (m : ClusterMethods K) (tc : Treecode K) (potential_old potential_new : List K) :
    Treecode K × List K :=
  let tc := { tc with particles_ := tc.particles_.compute_charges potential_old }
  let tc := { tc with clusters_ := m.upward_pass tc.particles_ tc.clusters_ }
  let tc := { tc with clusters_ := m.clear_potentials tc.clusters_ }
  let st := forLoop 0 tc.tree_.num_nodes (Treecode.interact_node sqrt exp potential_old)
    (tc, potential_new)
  (st.1, m.downward_pass st.1.particles_ st.1.clusters_ st.2)

/-- The method `Treecode::matrix_vector` (treecode.cpp:33-76).  The result is the
object, the buffer `potential_old` and the buffer `potential_new` as the call leaves
them; the two buffers are distinct arrays, as in every call made by `gmres_`. -/
def Treecode.matrix_vector {K : Type} [LinearOrderedField K] (sqrt exp : K → K)
    (m : ClusterMethods K) (tc : Treecode K) (alpha : K) (potential_old : List K)
    (beta : K) (potential_new : List K) : Treecode K × List K × List K :=
  let potential_coeff_1 := 1 / 2 * (1 + tc.params_.phys_eps_)
  let potential_coeff_2 := 1 / 2 * (1 + 1 / tc.params_.phys_eps_)
  let size := tc.potential_.length
  let potential_temp := potential_new.take size
  let potential_new := List.replicate size (0 : K) ++ potential_new.drop size
  let st := tc.accumulate sqrt exp m potential_old potential_new
  let potential_new := st.2
  let potential_new := forLoop 0 (size / 2) (fun i potential_new =>
    potential_new.set i (beta * rd potential_temp i
      + alpha * (potential_coeff_1 * rd potential_old i - rd potential_new i))) potential_new
  let potential_new := forLoop (size / 2) size (fun i potential_new =>
    potential_new.set i (beta * rd potential_temp i
      + alpha * (potential_coeff_2 * rd potential_old i - rd potential_new i))) potential_new
  (st.1, potential_old, potential_new)

/-- Cluster methods for a tree without far-field interactions: nothing is projected and
the downward pass adds nothing. -/
def noClusterMethods (K : Type) : ClusterMethods K where
  upward_pass := fun _ c => c
  clear_potentials := fun c => c
  downward_pass := fun _ _ potential => potential

/-- A treecode over the four vertices of `tetraParticles`: one node that interacts with
itself directly. -/
def sampleTreecode : Treecode ℝ where
  particles_ := { tetraParticles with
    target_charge_ := [0, 0, 0, 0], target_charge_dx_ := [0, 0, 0, 0],
    target_charge_dy_ := [0, 0, 0, 0], target_charge_dz_ := [0, 0, 0, 0],
    source_charge_ := [0, 0, 0, 0], source_charge_dx_ := [0, 0, 0, 0],
    source_charge_dy_ := [0, 0, 0, 0], source_charge_dz_ := [0, 0, 0, 0] }
  clusters_ := {
    num_interp_pts_per_node := 2, num_charges_per_node := 8,
    interp_x := [0, 4], interp_y := [0, 4], interp_z := [0, 4],
    interp_charge := [0, 0, 0, 0, 0, 0, 0, 0], interp_charge_dx := [0, 0, 0, 0, 0, 0, 0, 0],
    interp_charge_dy := [0, 0, 0, 0, 0, 0, 0, 0], interp_charge_dz := [0, 0, 0, 0, 0, 0, 0, 0],
    interp_potential := [0, 0, 0, 0, 0, 0, 0, 0],
    interp_potential_dx := [0, 0, 0, 0, 0, 0, 0, 0],
    interp_potential_dy := [0, 0, 0, 0, 0, 0, 0, 0],
    interp_potential_dz := [0, 0, 0, 0, 0, 0, 0, 0] }
  tree_ := { num_nodes := 1, node_particle_idxs := [(0, 4)] }
  interaction_list_ := {
    particle_particle := [[0]], particle_cluster := [[]],
    cluster_particle := [[]], cluster_cluster := [[]] }
  params_ := { phys_eps_ := 40, phys_kappa_ := 1, phys_kappa2_ := 1 }
  potential_ := [0, 0, 0, 0, 0, 0, 0, 0]

/-! ## `treecode.c`: the matrix-vector product `matvec` -/

/-- The loop `for (j = lo; j < hi; j++)` over `int` values: the indices it visits. -/
def intRange (lo hi : Int) : List Int :=
  (List.range (hi - lo).toNat).map (fun k => lo + (k : Int))

/-- The loop `for (j = lo; j < hi; j++) body(j)` over `int` values. -/
def forLoopInt {σ : Type} (lo hi : Int) (body : Int → σ → σ) (s : σ) : σ :=
  (intRange lo hi).foldl (fun s j => body j s) s

/-- The constant `DBL_MIN` of `<float.h>`. -/
def DBL_MIN {K : Type} [Field K] : K := 22250738585072014 / 10 ^ 324

/-- The fields of a `struct TreeLinkedListNode` that treecode.c reads or writes, apart
from the children. -/
structure NodeData (K : Type) where
  numpar : Int
  ibeg : Int
  iend : Int
  x_min : K
  y_min : K
  z_min : K
  x_max : K
  y_max : K
  z_max : K
  x_mid : K
  y_mid : K
  z_mid : K
  radius : K
  exist_ms : Int
  ms : List (List K)
  tx : List K
  ty : List K
  tz : List K

/-- A node of the tree (`struct TreeLinkedListNode`).  The tree is built by
`TreeLinkedList_Construct`, whose body is not part of the sources, so the tree is an
input of the embedding; `p->num_children` is the length of `child`. -/
inductive TreeLinkedListNode (K : Type) where
  | mk (data : NodeData K) (child : List (TreeLinkedListNode K)) : TreeLinkedListNode K

/-- The file-scope variables of treecode.c read by `matvec` and the functions it calls,
and the Chebyshev points `tt`. -/
structure TreecodeGlobals (K : Type) where
  s_numpars : Nat
  s_order : Nat
  theta : K
  s_kappa : K
  s_kappa2 : K
  s_eps : K
  s_torder_lim : Nat
  s_torder3 : Nat
  tt : List K
  s_particle_position_x : List K
  s_particle_position_y : List K
  s_particle_position_z : List K
  s_particle_normal_x : List K
  s_particle_normal_y : List K
  s_particle_normal_z : List K
  s_particle_area : List K
  s_target_position : List K
  s_target_normal : List K
  s_target_charge : List (List K)
  s_source_charge : List (List K)
  s_tree_root : TreeLinkedListNode K

/-- The function `s_ComputePBKernel` (treecode.c:652-670): the rows of `s_target_charge`
and `s_source_charge` are recomputed from `phi`. -/
def s_ComputePBKernel {K : Type} [Field K] (g : TreecodeGlobals K) (phi : List K) :
    TreecodeGlobals K :=
  forLoop 0 g.s_numpars (fun i g =>
    { g with
      s_target_charge := g.s_target_charge.set i
        [ONE_OVER_4PI, ONE_OVER_4PI * rd g.s_particle_normal_x i,
         ONE_OVER_4PI * rd g.s_particle_normal_y i, ONE_OVER_4PI * rd g.s_particle_normal_z i]
      s_source_charge := g.s_source_charge.set i
        [rd g.s_particle_area i * rd phi (g.s_numpars + i),
         rd g.s_particle_normal_x i * rd g.s_particle_area i * rd phi i,
         rd g.s_particle_normal_y i * rd g.s_particle_area i * rd phi i,
         rd g.s_particle_normal_z i * rd g.s_particle_area i * rd phi i] }) g

/-- The barycentric weights of one particle coordinate `xx` against the interpolation
points `tx` of a node (treecode.c:773-794, for one of the three axes): the array
`a1i` and the sum `sumA1`, replaced by an indicator when `xx` is one of the points. -/
def s_ComputeMoments_weights {K : Type} [LinearOrderedField K] (s_torder_lim : Nat)
    (w1i tx : List K) (xx : K) : List K × K :=
  let st := forLoop 0 s_torder_lim (fun j (st : List K × K × Int) =>
    let a1i := st.1.set j (rd w1i j / (xx - rd tx j))
    let sumA1 := st.2.1 + rd a1i j
    let a1exactind := if abs (xx - rd tx j) < DBL_MIN then (j : Int) else st.2.2
    (a1i, sumA1, a1exactind)) (List.replicate s_torder_lim 0, 0, -1)
  if st.2.2 > -1 then
    (((forLoop 0 s_torder_lim (fun j a1i => a1i.set j 0) st.1).set st.2.2.toNat 1), 1)
  else (st.1, st.2.1)

/-- The function `s_ComputeMoments` (treecode.c:703-831): the interpolation points
`tx`, `ty`, `tz` of the node and its four arrays of modified charges `ms`. -/
def s_ComputeMoments {K : Type} [LinearOrderedField K] (g : TreecodeGlobals K)
    (p : NodeData K) : NodeData K :=
  let x0 := p.x_min
  let x1 := p.x_max
  let y0 := p.y_min
  let y1 := p.y_max
  let z0 := p.z_min
  let z1 := p.z_max
  let summ : List (List K) := List.replicate 4 (List.replicate g.s_torder3 0)
  let tx := forLoop 0 g.s_torder_lim (fun i tx =>
    tx.set i (x0 + (rd g.tt i + 1) / 2 * (x1 - x0))) (List.replicate g.s_torder_lim 0)
  let ty := forLoop 0 g.s_torder_lim (fun i ty =>
    ty.set i (y0 + (rd g.tt i + 1) / 2 * (y1 - y0))) (List.replicate g.s_torder_lim 0)
  let tz := forLoop 0 g.s_torder_lim (fun i tz =>
    tz.set i (z0 + (rd g.tt i + 1) / 2 * (z1 - z0))) (List.replicate g.s_torder_lim 0)
  let dj := ((List.replicate g.s_torder_lim (0 : K)).set 0 (1 / 2)).set g.s_order (1 / 2)
  let dj := forLoop 1 g.s_order (fun j dj => dj.set j 1) dj
  let w1i := forLoop 0 g.s_torder_lim (fun j w1i =>
    w1i.set j ((if j % 2 = 0 then 1 else -1) * rd dj j)) (List.replicate g.s_torder_lim 0)
  let summ := forLoopInt 0 p.numpar (fun i summ =>
    let xx := rd g.s_particle_position_x (p.ibeg + i).toNat
    let yy := rd g.s_particle_position_y (p.ibeg + i).toNat
    let zz := rd g.s_particle_position_z (p.ibeg + i).toNat
    let qq := g.s_source_charge.getD (p.ibeg + i).toNat []
    let A1 := s_ComputeMoments_weights g.s_torder_lim w1i tx xx
    let A2 := s_ComputeMoments_weights g.s_torder_lim w1i ty yy
    let A3 := s_ComputeMoments_weights g.s_torder_lim w1i tz zz
    let Dd := 1 / (A1.2 * A2.2 * A3.2)
    forLoop 0 g.s_torder_lim (fun k1 summ =>
      forLoop 0 g.s_torder_lim (fun k2 summ =>
        forLoop 0 g.s_torder_lim (fun k3 summ =>
          let kk := k1 * g.s_torder_lim * g.s_torder_lim + k2 * g.s_torder_lim + k3
          let mom1 := rd A1.1 k1 * rd A2.1 k2 * rd A3.1 k3 * Dd
          forLoop 0 4 (fun c summ =>
            summ.set c ((summ.getD c []).set kk (rd2 summ c kk + mom1 * rd qq c))) summ)
          summ) summ) summ) summ
  { p with ms := summ, tx := tx, ty := ty, tz := tz }

mutual
/-- The function `s_ComputeAllMoments` (treecode.c:674-698). -/
def s_ComputeAllMoments {K : Type} [LinearOrderedField K] (g : TreecodeGlobals K) :
    TreeLinkedListNode K → Int → TreeLinkedListNode K
  | .mk p child, ifirst =>
    .mk (if p.exist_ms = 0 ∧ ifirst = 0 then { s_ComputeMoments g p with exist_ms := 1 } else p)
      (s_ComputeAllMoments_children g child)
/-- The loop over the children in `s_ComputeAllMoments` (treecode.c:691-695). -/
def s_ComputeAllMoments_children {K : Type} [LinearOrderedField K] (g : TreecodeGlobals K) :
    List (TreeLinkedListNode K) → List (TreeLinkedListNode K)
  | [] => []
  | c :: cs => s_ComputeAllMoments g c 0 :: s_ComputeAllMoments_children g cs
end

mutual
/-- The function `s_RemoveMoments` (treecode.c:1038-1060); the freed arrays are empty. -/
def s_RemoveMoments {K : Type} : TreeLinkedListNode K → TreeLinkedListNode K
  | .mk p child =>
    .mk (if p.exist_ms = 1 then { p with ms := [], tx := [], ty := [], tz := [], exist_ms := 0 }
      else p) (s_RemoveMoments_children child)
/-- The loop over the children in `s_RemoveMoments` (treecode.c:1053-1056). -/
def s_RemoveMoments_children {K : Type} :
    List (TreeLinkedListNode K) → List (TreeLinkedListNode K)
  | [] => []
  | c :: cs => s_RemoveMoments c :: s_RemoveMoments_children cs
end

/-- The function `s_ComputeTreePB` (treecode.c:883-956): the cluster approximation of
the node `p` seen from `s_target_position`; the summand is `cluster_kernel`, the same
expression as in treecode.cpp. -/
def s_ComputeTreePB {K : Type} [Field K] (sqrt exp : K → K) (g : TreecodeGlobals K)
    (p : NodeData K) (tempq : List K) : K × K :=
  let target_x := rd g.s_target_position 0
  let target_y := rd g.s_target_position 1
  let target_z := rd g.s_target_position 2
  let n := g.s_torder_lim
  let pt_comp := forLoop 0 n (fun i acc =>
    forLoop 0 n (fun j acc =>
      forLoop 0 n (fun k acc =>
        let ii := i * n * n + j * n + k
        let dx := target_x - rd p.tx i
        let dy := target_y - rd p.ty j
        let dz := target_z - rd p.tz k
        add4 acc (cluster_kernel sqrt exp g.s_eps g.s_kappa dx dy dz
          (rd2 p.ms 0 ii) (rd2 p.ms 1 ii) (rd2 p.ms 2 ii) (rd2 p.ms 3 ii))) acc) acc)
    (0, 0, 0, 0)
  (rd tempq 0 * pt_comp.1,
   rd tempq 1 * pt_comp.2.1 + rd tempq 2 * pt_comp.2.2.1 + rd tempq 3 * pt_comp.2.2.2)

/-- The coefficients `L1`, `L2`, `L3`, `L4` as the loop body of `s_ComputeDirectPB`
computes them (treecode.c:981-1021) for the source particle `j`, seen from
`s_target_position` with `s_target_normal`. -/
def s_ComputeDirectPB_coefficients {K : Type} [Field K] (sqrt exp : K → K)
    (g : TreecodeGlobals K) (j : Int) : K × K × K × K :=
  let tp0 := rd g.s_target_position 0
  let tp1_ := rd g.s_target_position 1
  let tp2_ := rd g.s_target_position 2
  let tq0 := rd g.s_target_normal 0
  let tq1 := rd g.s_target_normal 1
  let tq2 := rd g.s_target_normal 2
  let sp0 := rd g.s_particle_position_x j.toNat
  let sp1 := rd g.s_particle_position_y j.toNat
  let sp2 := rd g.s_particle_position_z j.toNat
  let sq0 := rd g.s_particle_normal_x j.toNat
  let sq1 := rd g.s_particle_normal_y j.toNat
  let sq2 := rd g.s_particle_normal_z j.toNat
  let r_s0 := sp0 - tp0
  let r_s1 := sp1 - tp1_
  let r_s2 := sp2 - tp2_
  let sumrs := r_s0 * r_s0 + r_s1 * r_s1 + r_s2 * r_s2
  let rs := sqrt sumrs
  let irs := 1 / rs
  let G0 := ONE_OVER_4PI * irs
  let kappa_rs := g.s_kappa * rs
  let exp_kappa_rs := exp (-kappa_rs)
  let Gk := exp_kappa_rs * G0
  let cos_theta := (sq0 * r_s0 + sq1 * r_s1 + sq2 * r_s2) * irs
  let cos_theta0 := (tq0 * r_s0 + tq1 * r_s1 + tq2 * r_s2) * irs
  let tp1 := G0 * irs
  let tp2 := (1 + kappa_rs) * exp_kappa_rs
  let G10 := cos_theta0 * tp1
  let G20 := tp2 * G10
  let G1 := cos_theta * tp1
  let G2 := tp2 * G1
  let dot_tqsq := sq0 * tq0 + sq1 * tq1 + sq2 * tq2
  let G3 := (dot_tqsq - 3 * cos_theta0 * cos_theta) * irs * tp1
  let G4 := tp2 * G3 - g.s_kappa2 * cos_theta0 * cos_theta * Gk
  (G1 - g.s_eps * G2, G0 - Gk, G4 - G3, G10 - G20 / g.s_eps)

/-- The body of the loop of `s_ComputeDirectPB` (treecode.c:981-1029). -/
def s_ComputeDirectPB_body {K : Type} [Field K] (sqrt exp : K → K)
    (g : TreecodeGlobals K) (tpoten_old : List K) (j : Int) (peng : K × K) : K × K :=
  let L := s_ComputeDirectPB_coefficients sqrt exp g j
  let peng_old0 := rd tpoten_old j.toNat
  let peng_old1 := rd tpoten_old (j.toNat + g.s_numpars)
  let area := rd g.s_particle_area j.toNat
  (peng.1 + (L.1 * peng_old0 + L.2.1 * peng_old1) * area,
   peng.2 + (L.2.2.1 * peng_old0 + L.2.2.2 * peng_old1) * area)

/-- The function `s_ComputeDirectPB` (treecode.c:962-1033): the direct sum over the
particles `ibeg .. iend` (both included). -/
def s_ComputeDirectPB {K : Type} [Field K] (sqrt exp : K → K) (g : TreecodeGlobals K)
    (ibeg iend : Int) (tpoten_old : List K) : K × K :=
  forLoopInt ibeg (iend + 1) (s_ComputeDirectPB_body sqrt exp g tpoten_old) (0, 0)

mutual
/-- The function `s_RunTreecode` (treecode.c:836-878); the result is `peng`. -/
def s_RunTreecode {K : Type} [LinearOrderedField K] (sqrt exp : K → K)
    (g : TreecodeGlobals K) (tpoten_old tempq : List K) : TreeLinkedListNode K → K × K
  | .mk p child =>
    let tx := p.x_mid - rd g.s_target_position 0
    let ty := p.y_mid - rd g.s_target_position 1
    let tz := p.z_mid - rd g.s_target_position 2
    let dist := sqrt (tx * tx + ty * ty + tz * tz)
    if p.radius < dist * g.theta ∧ p.numpar > 40 then
      s_ComputeTreePB sqrt exp g p tempq
    else if child.length = 0 then
      s_ComputeDirectPB sqrt exp g p.ibeg p.iend tpoten_old
    else
      s_RunTreecode_children sqrt exp g tpoten_old tempq child (0, 0)
/-- The loop over the children in `s_RunTreecode` (treecode.c:867-873). -/
def s_RunTreecode_children {K : Type} [LinearOrderedField K] (sqrt exp : K → K)
    (g : TreecodeGlobals K) (tpoten_old tempq : List K) :
    List (TreeLinkedListNode K) → K × K → K × K
  | [], peng => peng
  | c :: cs, peng =>
    let pengchild := s_RunTreecode sqrt exp g tpoten_old tempq c
    s_RunTreecode_children sqrt exp g tpoten_old tempq cs
      (peng.1 + pengchild.1, peng.2 + pengchild.2)
end

/-- The body of the loop over the targets in `matvec` (treecode.c:343-376), in a build
without `MPI_ENABLED`, where `rank = 0` and `num_procs = 1`.  The state is the
file-scope variables and the buffer `tpoten`. -/
def matvec_body {K : Type} [LinearOrderedField K] (sqrt exp : K → K)
    (alpha : K) (tpoten_old : List K) (beta : K) (tpoten_temp : List K) (pre1 pre2 : K)
    (ii : Nat) (st : TreecodeGlobals K × List K) : TreecodeGlobals K × List K :=
  let rank := 0
  let num_procs := 1
  let g := st.1
  let tpoten := st.2
  let i := ii * num_procs + rank
  if i < g.s_numpars then
    let peng_old0 := rd tpoten_old i
    let peng_old1 := rd tpoten_old (i + g.s_numpars)
    let g := { g with
      s_target_position := [rd g.s_particle_position_x i, rd g.s_particle_position_y i,
        rd g.s_particle_position_z i]
      s_target_normal := [rd g.s_particle_normal_x i, rd g.s_particle_normal_y i,
        rd g.s_particle_normal_z i] }
    let temp_charge := (List.range 4).map (fun k => rd2 g.s_target_charge i k)
    let temp_x := rd g.s_particle_position_x i
    let temp_area := rd g.s_particle_area i
    let g := { g with
      s_particle_position_x :=
        g.s_particle_position_x.set i (rd g.s_particle_position_x i + 100123456789 / 1000000000)
      s_particle_area := g.s_particle_area.set i 0 }
    let peng := s_RunTreecode sqrt exp g tpoten_old temp_charge g.s_tree_root
    let tpoten := tpoten.set i (rd tpoten_temp i * beta + (pre1 * peng_old0 - peng.1) * alpha)
    let tpoten := tpoten.set (g.s_numpars + i)
      (rd tpoten_temp (g.s_numpars + i) * beta + (pre2 * peng_old1 - peng.2) * alpha)
    let g := { g with
      s_particle_position_x := g.s_particle_position_x.set i temp_x
      s_particle_area := g.s_particle_area.set i temp_area }
    (g, tpoten)
  else st

/-- The function `matvec` (treecode.c:305-387) in a build without `MPI_ENABLED`
(one process).  The result is the file-scope variables and the buffer `tpoten` as the
call leaves them; `tpoten_old` is only read. -/
def matvec {K : Type} [LinearOrderedField K] (sqrt exp : K → K) (g : TreecodeGlobals K)
    (alpha : K) (tpoten_old : List K) (beta : K) (tpoten : List K) :
    TreecodeGlobals K × List K :=
  let num_procs := 1
  let tpoten_temp := tpoten.take (2 * g.s_numpars)
  let tpoten := List.replicate (2 * g.s_numpars) (0 : K) ++ tpoten.drop (2 * g.s_numpars)
  let g := s_ComputePBKernel g tpoten_old
  let g := { g with s_tree_root := s_ComputeAllMoments g g.s_tree_root 1 }
  let pre1 := 1 / 2 * (1 + g.s_eps)
  let pre2 := 1 / 2 * (1 + 1 / g.s_eps)
  let particles_per_process := g.s_numpars / num_procs
  let st := forLoop 0 (particles_per_process + 1)
    (matvec_body sqrt exp alpha tpoten_old beta tpoten_temp pre1 pre2) (g, tpoten)
  ({ st.1 with s_tree_root := s_RemoveMoments st.1.s_tree_root }, st.2)

mutual
/-- The particle indices of the leaves below a node (a leaf is a node without
children), in the order in which `s_RunTreecode` visits them. -/
def leaf_indices {K : Type} : TreeLinkedListNode K → List Int
  | .mk p child =>
    if child.length = 0 then intRange p.ibeg (p.iend + 1) else leaf_indices_children child
/-- The particle indices of the leaves below the nodes of a list. -/
def leaf_indices_children {K : Type} : List (TreeLinkedListNode K) → List Int
  | [] => []
  | c :: cs => leaf_indices c ++ leaf_indices_children cs
end

mutual
/-- Every node of the tree has a non-negative radius. -/
def radii_nonneg {K : Type} [LinearOrderedField K] : TreeLinkedListNode K → Prop
  | .mk p child => 0 ≤ p.radius ∧ radii_nonneg_children child
/-- Every node below the nodes of a list has a non-negative radius. -/
def radii_nonneg_children {K : Type} [LinearOrderedField K] :
    List (TreeLinkedListNode K) → Prop
  | [] => True
  | c :: cs => radii_nonneg c ∧ radii_nonneg_children cs
end

/-- The kernel coefficients `(L₁, L₂, L₃, L₄)` as the specification defines them, for a
source point `s` with normal `n_s` and a target point `t` with normal `n_t`; `kappa2`
is the value of `κ²` and `1/(4π)` is the constant `ONE_OVER_4PI`. -/
def kernel_spec {K : Type} [Field K] (sqrt exp : K → K) (eps kappa kappa2 : K)
    (sx sy sz n_sx n_sy n_sz tx ty tz n_tx n_ty n_tz : K) : K × K × K × K :=
  let rx := sx - tx
  let ry := sy - ty
  let rz := sz - tz
  let d := sqrt (rx * rx + ry * ry + rz * rz)
  let dinv := 1 / d
  let G0 := ONE_OVER_4PI * dinv
  let Gk := exp (-(kappa * d)) * G0
  let cos_s := (n_sx * rx + n_sy * ry + n_sz * rz) * dinv
  let cos_t := (n_tx * rx + n_ty * ry + n_tz * rz) * dinv
  let tp1 := G0 * dinv
  let tp2 := (1 + kappa * d) * exp (-(kappa * d))
  let G1 := cos_s * tp1
  let G2 := tp2 * G1
  let G10 := cos_t * tp1
  let G20 := tp2 * G10
  let G3 := ((n_sx * n_tx + n_sy * n_ty + n_sz * n_tz) - 3 * cos_s * cos_t) * dinv * tp1
  let G4 := tp2 * G3 - kappa2 * cos_s * cos_t * Gk
  (G1 - eps * G2, G0 - Gk, G4 - G3, G10 - G20 / eps)

/-- The direct `O(N²)` operator as the specification states it: entries `i` and `N + i`
of `α·A·x + β·y_prev`, where the sums run over the sources `j ≠ i` and the coefficients
are those of `kernel_spec` for the source `j` and the target `i`. -/
def direct_operator_spec {K : Type} [Field K] (sqrt exp : K → K) (eps kappa kappa2 : K)
    (N : Nat) (px py pz nx ny nz a : Nat → K) (alpha beta : K) (x y_prev : Nat → K)
    (i : Nat) : K × K :=
  (beta * y_prev i + alpha * ((1 + eps) / 2 * x i
      - ∑ j in (Finset.range N).erase i,
          ((kernel_spec sqrt exp eps kappa kappa2 (px j) (py j) (pz j) (nx j) (ny j) (nz j)
              (px i) (py i) (pz i) (nx i) (ny i) (nz i)).1 * x j
            + (kernel_spec sqrt exp eps kappa kappa2 (px j) (py j) (pz j) (nx j) (ny j) (nz j)
              (px i) (py i) (pz i) (nx i) (ny i) (nz i)).2.1 * x (N + j)) * a j),
   beta * y_prev (N + i) + alpha * ((1 + 1 / eps) / 2 * x (N + i)
      - ∑ j in (Finset.range N).erase i,
          ((kernel_spec sqrt exp eps kappa kappa2 (px j) (py j) (pz j) (nx j) (ny j) (nz j)
              (px i) (py i) (pz i) (nx i) (ny i) (nz i)).2.2.1 * x j
            + (kernel_spec sqrt exp eps kappa kappa2 (px j) (py j) (pz j) (nx j) (ny j) (nz j)
              (px i) (py i) (pz i) (nx i) (ny i) (nz i)).2.2.2 * x (N + j)) * a j))

/-- The file-scope variables while `matvec` evaluates the target `i`
(treecode.c:350-365): the target position and normal are those of particle `i`, whose
own position is shifted and whose area is zero. -/
def matvec_target_globals {K : Type} [Field K] (g : TreecodeGlobals K) (i : Nat) :
    TreecodeGlobals K :=
  { g with
    s_target_position := [rd g.s_particle_position_x i, rd g.s_particle_position_y i,
      rd g.s_particle_position_z i]
    s_target_normal := [rd g.s_particle_normal_x i, rd g.s_particle_normal_y i,
      rd g.s_particle_normal_z i]
    s_particle_position_x :=
      g.s_particle_position_x.set i (rd g.s_particle_position_x i + 100123456789 / 1000000000)
    s_particle_area := g.s_particle_area.set i 0 }

/-- A node over the particles `ibeg .. iend` with the bounding box `[0, 4]³`, before its
moments are computed. -/
def sampleNodeData (numpar ibeg iend : Int) : NodeData ℝ where
  numpar := numpar
  ibeg := ibeg
  iend := iend
  x_min := 0
  y_min := 0
  z_min := 0
  x_max := 4
  y_max := 4
  z_max := 4
  x_mid := 2
  y_mid := 2
  z_mid := 2
  radius := 4
  exist_ms := 0
  ms := []
  tx := []
  ty := []
  tz := []

/-- The file-scope variables for the four vertices of a tetrahedron, with `theta = 0`
and a tree whose root has the two leaves `0 .. 1` and `2 .. 3`. -/
def sampleGlobals : TreecodeGlobals ℝ where
  s_numpars := 4
  s_order := 1
  theta := 0
  s_kappa := 1
  s_kappa2 := 1
  s_eps := 40
  s_torder_lim := 2
  s_torder3 := 8
  tt := [1, -1]
  s_particle_position_x := [0, 4, 0, 0]
  s_particle_position_y := [0, 0, 4, 0]
  s_particle_position_z := [0, 0, 0, 4]
  s_particle_normal_x := [0, 1, 0, 0]
  s_particle_normal_y := [0, 0, 1, 0]
  s_particle_normal_z := [0, 0, 0, 1]
  s_particle_area := [2, 2, 2, 2]
  s_target_position := [0, 0, 0]
  s_target_normal := [0, 0, 0]
  s_target_charge := [[0, 0, 0, 0], [0, 0, 0, 0], [0, 0, 0, 0], [0, 0, 0, 0]]
  s_source_charge := [[0, 0, 0, 0], [0, 0, 0, 0], [0, 0, 0, 0], [0, 0, 0, 0]]
  s_tree_root := .mk (sampleNodeData 4 0 3)
    [.mk (sampleNodeData 2 0 1) [], .mk (sampleNodeData 2 2 3) []]

/-! ## `elements.cpp`: how `compute_source_term` ends -/

/-- How a call ends: it returns a result, or it fails with the error `GeometryError` of
the specification. -/
inductive CallOutcome (α : Type) where
  | returns (result : α) : CallOutcome α
  | GeometryError : CallOutcome α

/-- The method `Elements::compute_source_term()` (elements.cpp:381-455) as a call that
may fail.  Its body contains no `throw`, no `assert` and no `exit`, calls nothing that
fails, and never tests `dist` against zero: every call returns. -/
def Elements.compute_source_term_call {K : Type} [Field K] (sqrt : K → K) (eps_solute : K)
    (molecule_ : Molecule K) (e : Elements K) : CallOutcome (Elements K) :=
  CallOutcome.returns (e.compute_source_term sqrt eps_solute molecule_)

/-- One unit charge at the first vertex of `sampleElements`. -/
def coincidentMolecule : Molecule ℝ where
  num := 1
  x := [0]
  y := [0]
  z := [0]
  charge := [1]

/-! ## `treecode.cpp`, `treecode.c`: the scalar preconditioner -/

/-- The method `Treecode::precondition(z, r)` (treecode.cpp:79-86).  The pointers `z`
and `r` are offsets into one memory `mem`, as in the calls made by `gmres_`, where both
point into `work`; the result is the memory after the call.  The arithmetic of `K` is a
parameter: a field for exact arithmetic, or `Double` for the special values. -/
def Treecode.precondition {K : Type} [Zero K] [One K] [OfNat K 2] [Add K] [Mul K] [Div K]
    (tc : Treecode K) (mem : List K) (z r : Nat) : List K :=
  let potential_coeff_1 := 1 / 2 * (1 + tc.params_.phys_eps_)
  let potential_coeff_2 := 1 / 2 * (1 + 1 / tc.params_.phys_eps_)
  let mem := forLoop 0 tc.particles_.num_ (fun i mem =>
    mem.set (z + i) (rd mem (r + i) / potential_coeff_1)) mem
  forLoop tc.particles_.num_ (2 * tc.particles_.num_) (fun i mem =>
    mem.set (z + i) (rd mem (r + i) / potential_coeff_2)) mem

/-- The function `psolve(z, r)` (treecode.c:392-407), with the pointers as offsets into
one memory. -/
def psolve {K : Type} [Field K] (g : TreecodeGlobals K) (mem : List K) (z r : Nat) :
    List K :=
  let scale1 := 1 / 2 * (1 + g.s_eps)
  let scale2 := 1 / 2 * (1 + 1 / g.s_eps)
  forLoop 0 g.s_numpars (fun i mem =>
    let mem := mem.set (z + i) (rd mem (r + i) / scale1)
    mem.set (z + i + g.s_numpars) (rd mem (r + i + g.s_numpars) / scale2)) mem

/-! ## `gmres.cpp`: the numerical kernels before the restart loop -/

/-- The arrays `gmres_` works on. -/
structure GmresMemory (K : Type) where
  b : List K
  x : List K
  work : List K
  h : List K

/-- The function `dnrm2_(n, x)` of gmres.cpp (gmres.cpp:374-381); the pointer `x` is an
offset into the array `a`. -/
def dnrm2_ {K : Type} [Zero K] [Add K] [Mul K] (sqrt : K → K) (n : Int) (a : List K)
    (x : Nat) : K :=
  sqrt (forLoop 0 n.toNat (fun idx norm => norm + rd a (x + idx) * rd a (x + idx)) 0)

/-- The copy `for (idx = 0; idx < n; ++idx) work[2 * ldw + idx] = b[idx]`
(gmres.cpp:159, 165, 281). -/
def gmres_copy_b {K : Type} [Zero K] (n ldw : Int) (mem : GmresMemory K) : GmresMemory K :=
  { mem with work := forLoop 0 n.toNat (fun idx work =>
      work.set ((2 * ldw).toNat + idx) (rd mem.b idx)) mem.work }

/-- The value `bnrm2` of `gmres_` (gmres.cpp:173-176): the norm of `b`, replaced by `1`
when it is `0`. -/
def gmres_bnrm2 {K : Type} [Zero K] [One K] [Add K] [Mul K] [DecidableEq K] (sqrt : K → K)
    (n : Int) (b : List K) : K :=
  if dnrm2_ sqrt n b 0 = 0 then 1 else dnrm2_ sqrt n b 0

/-- The numerical kernels of `gmres_` as a member of `Treecode`, on the memory
`GmresMemory`.  The statements outside the restart loop are embedded from gmres.cpp and
treecode.cpp; the steps of the restart loop, which call the BLAS routines `drot_`,
`drotg_`, `dtrsv_` and `dgemv_` (not part of the sources), are those of `rest`. -/
def treecodeKernels {K : Type} [LinearOrderedField K] (sqrt exp : K → K)
    (m : ClusterMethods K) (tc : Treecode K) (n ldw : Int)
    (rest : GmresKernels (GmresMemory K) K) : GmresKernels (GmresMemory K) K :=
  { rest with
    copy_b := gmres_copy_b n ldw
    x_is_nonzero := fun mem => decide (dnrm2_ sqrt n mem.x 0 ≠ 0)
    matrix_vector_residual := fun mem =>
      { mem with work := mem.work.take (2 * ldw).toNat
          ++ (tc.matrix_vector sqrt exp m (-1) mem.x 1 (mem.work.drop (2 * ldw).toNat)).2.2 }
    precondition_residual := fun mem =>
      { mem with work := tc.precondition mem.work 0 (2 * ldw).toNat }
    relative_residual := fun mem => dnrm2_ sqrt n mem.work 0 / gmres_bnrm2 sqrt n mem.b }

/-- Restart-loop steps that leave the memory alone. -/
def idleKernels (K : Type) [LinearOrderedField K] : GmresKernels (GmresMemory K) K where
  copy_b := fun s => s
  x_is_nonzero := fun _ => false
  matrix_vector_residual := fun s => s
  precondition_residual := fun s => s
  relative_residual := fun _ => 1
  first_column := fun s => s
  matrix_vector_basis := fun _ s => s
  precondition_basis := fun s => s
  orthogonalize := fun _ s => s
  rotated_residual := fun _ _ => 1
  update := fun _ s => s
  store_norm := fun s => s

/-- The memory at the call of `gmres_` made by `run_GMRES` for the treecode of
`sampleTreecode` when the source term is zero: `n = ldw = 8`, `restrt = 10`. -/
def zeroRhsMemory : GmresMemory ℝ where
  b := List.replicate 8 0
  x := List.replicate 8 0
  work := List.replicate (8 * 14) 1
  h := List.replicate (8 * 12) 1

/-- The state at the call of `gmres_` made by `run_GMRES` (treecode.cpp:17-19):
`iter = 100`; `resid` is the tolerance, `1e-4` there. -/
def runGmresStart (mem : GmresMemory ℝ) (resid : ℝ) : GmresState (GmresMemory ℝ) ℝ where
  mem := mem
  iter := 100
  resid := resid
  matvec_calls := 0
  precond_calls := 0

/-- The state of `gmres_` after the statements that precede the first residual test
(gmres.cpp:159-170): the residual `b - A*x` is formed in `work[2*ldw..]`, without a
call of `matrix_vector` when `x` is zero, and preconditioned into `work[0..]`. -/
def gmres_initial_residual {S R : Type} (k : GmresKernels S R) (st : GmresState S R) :
    GmresState S R :=
  let st := { st with mem := k.copy_b st.mem }
  let st := if k.x_is_nonzero st.mem then
      { st with mem := k.matrix_vector_residual (k.copy_b st.mem),
                matvec_calls := st.matvec_calls + 1 }
    else st
  { st with mem := k.precondition_residual st.mem, precond_calls := st.precond_calls + 1 }

/-! ## `treecode.cpp`: a cluster reduced to one particle -/

/-- A source cluster reduced to a single interpolation point: the point lies at the
position of particle `k` and carries the source charges of that particle. -/
def Treecode.single_point_cluster {K : Type} [Field K] (tc : Treecode K) (k : Nat) :
    Clusters K where
  num_interp_pts_per_node := 1
  num_charges_per_node := 1
  interp_x := [rd tc.particles_.x_ k]
  interp_y := [rd tc.particles_.y_ k]
  interp_z := [rd tc.particles_.z_ k]
  interp_charge := [rd tc.particles_.source_charge_ k]
  interp_charge_dx := [rd tc.particles_.source_charge_dx_ k]
  interp_charge_dy := [rd tc.particles_.source_charge_dy_ k]
  interp_charge_dz := [rd tc.particles_.source_charge_dz_ k]
  interp_potential := [0]
  interp_potential_dx := [0]
  interp_potential_dy := [0]
  interp_potential_dz := [0]

/-! ## `treecode.c`: the leaf matrices of `psolve_precond` -/

/-- The coefficients `L1`, `L2`, `L3`, `L4` as the two inner loops of `psolve_precond`
compute them (treecode.c:477-511 and 520-554, the same statements) for the target
particle `i` and the source particle `j`. -/
def psolve_precond_coefficients {K : Type} [Field K] (sqrt exp : K → K)
    (g : TreecodeGlobals K) (i j : Nat) : K × K × K × K :=
  let tp0 := rd g.s_particle_position_x i
  let tp1_ := rd g.s_particle_position_y i
  let tp2_ := rd g.s_particle_position_z i
  let tq0 := rd g.s_particle_normal_x i
  let tq1 := rd g.s_particle_normal_y i
  let tq2 := rd g.s_particle_normal_z i
  let sp0 := rd g.s_particle_position_x j
  let sp1 := rd g.s_particle_position_y j
  let sp2 := rd g.s_particle_position_z j
  let sq0 := rd g.s_particle_normal_x j
  let sq1 := rd g.s_particle_normal_y j
  let sq2 := rd g.s_particle_normal_z j
  let r_s0 := sp0 - tp0
  let r_s1 := sp1 - tp1_
  let r_s2 := sp2 - tp2_
  let sumrs := r_s0 * r_s0 + r_s1 * r_s1 + r_s2 * r_s2
  let rs := sqrt sumrs
  let irs := 1 / rs
  let G0 := ONE_OVER_4PI * irs
  let kappa_rs := g.s_kappa * rs
  let exp_kappa_rs := exp (-kappa_rs)
  let Gk := exp_kappa_rs * G0
  let cos_theta := (sq0 * r_s0 + sq1 * r_s1 + sq2 * r_s2) * irs
  let cos_theta0 := (tq0 * r_s0 + tq1 * r_s1 + tq2 * r_s2) * irs
  let tp1 := G0 * irs
  let tp2 := (1 + kappa_rs) * exp_kappa_rs
  let G10 := cos_theta0 * tp1
  let G20 := tp2 * G10
  let G1 := cos_theta * tp1
  let G2 := tp2 * G1
  let dot_tqsq := sq0 * tq0 + sq1 * tq1 + sq2 * tq2
  let G3 := (dot_tqsq - 3 * cos_theta0 * cos_theta) * irs * tp1
  let G4 := tp2 * G3 - g.s_kappa2 * cos_theta0 * cos_theta * Gk
  (G1 - g.s_eps * G2, G0 - Gk, G4 - G3, G10 - G20 / g.s_eps)

/-- The four stores of one pass of an inner loop of `psolve_precond`
(treecode.c:513-516, 556-559): the entries of `columnMajorA` for the target `i` and the
source `j` of the leaf that starts at `ibeg` and has `nrow` particles. -/
def psolve_precond_entries {K : Type} [Field K] (sqrt exp : K → K) (g : TreecodeGlobals K)
    (ibeg nrow i j : Nat) (columnMajorA : List K) : List K :=
  let nrow2 := nrow * 2
  let L := psolve_precond_coefficients sqrt exp g i j
  let area := rd g.s_particle_area j
  let columnMajorA := columnMajorA.set ((j - ibeg) * nrow2 + i - ibeg) (-L.1 * area)
  let columnMajorA := columnMajorA.set ((j + nrow - ibeg) * nrow2 + i - ibeg) (-L.2.1 * area)
  let columnMajorA :=
    columnMajorA.set ((j - ibeg) * nrow2 + i + nrow - ibeg) (-L.2.2.1 * area)
  columnMajorA.set ((j + nrow - ibeg) * nrow2 + i + nrow - ibeg) (-L.2.2.2 * area)

/-- The body of the loop over the targets `i` of a leaf in `psolve_precond`
(treecode.c:461-561): the sources before `i`, the two diagonal entries, the sources
after `i`. -/
def psolve_precond_target {K : Type} [Field K] (sqrt exp : K → K) (g : TreecodeGlobals K)
    (ibeg nrow : Nat) (i : Nat) (columnMajorA : List K) : List K :=
  let nrow2 := nrow * 2
  let pre1 := 1 / 2 * (1 + g.s_eps)
  let pre2 := 1 / 2 * (1 + 1 / g.s_eps)
  let columnMajorA := forLoop ibeg i
    (fun j columnMajorA => psolve_precond_entries sqrt exp g ibeg nrow i j columnMajorA)
    columnMajorA
  let columnMajorA := columnMajorA.set ((i - ibeg) * nrow2 + i - ibeg) pre1
  let columnMajorA := columnMajorA.set ((i + nrow - ibeg) * nrow2 + i + nrow - ibeg) pre2
  forLoop (i + 1) (ibeg + nrow)
    (fun j columnMajorA => psolve_precond_entries sqrt exp g ibeg nrow i j columnMajorA)
    columnMajorA

/-- The assembly of the matrix of one leaf in `psolve_precond` (treecode.c:450-562): the
leaf starts at `ibeg = idx` and has `nrow` particles, `iend = idx + nrow - 1`, so the
loops `i <= iend` and `j <= iend` run up to `ibeg + nrow`; the first `nrow2 * nrow2`
entries of `columnMajorA` are cleared and then filled column by column. -/
def psolve_precond_assemble {K : Type} [Field K] (sqrt exp : K → K) (g : TreecodeGlobals K)
    (ibeg nrow : Nat) (columnMajorA : List K) : List K :=
  let nrow2 := nrow * 2
  let columnMajorA :=
    List.replicate (nrow2 * nrow2) (0 : K) ++ columnMajorA.drop (nrow2 * nrow2)
  forLoop ibeg (ibeg + nrow) (psolve_precond_target sqrt exp g ibeg nrow) columnMajorA

/-- The product of a column-major `n x n` matrix with a vector: entry `row` of `B*x`. -/
def colmajor_mulVec {K : Type} [Field K] (columnMajorA : List K) (n : Nat) (x : List K)
    (row : Nat) : K :=
  ∑ col in Finset.range n, rd columnMajorA (col * n + row) * rd x col

/-- The index of a row or a column of a leaf matrix within the leaf: rows `i` and
`m + i` belong to the particle `i` of the leaf. -/
def leaf_local (m r : Nat) : Nat := if r < m then r else r - m

/-- The direct operator restricted to a leaf of `m` particles that starts at `ibeg`, as
the specification states it: the entry in row `row` and column `col` of the `2m x 2m`
matrix.  The diagonal is `c1 = (1+eps)/2` on the first `m` entries and
`c2 = (1+1/eps)/2` on the last `m`; the entries `(i, m+i)` and `(m+i, i)` are `0`; and
for `i ≠ j` the entries `(i,j)`, `(i,m+j)`, `(m+i,j)`, `(m+i,m+j)` are `-L1*a_j`,
`-L2*a_j`, `-L3*a_j`, `-L4*a_j`, with the coefficients of `kernel_spec` for the target
`i` and the source `j`. -/
def leaf_operator_spec {K : Type} [Field K] (sqrt exp : K → K) (g : TreecodeGlobals K)
    (ibeg m row col : Nat) : K :=
  let i := ibeg + leaf_local m row
  let j := ibeg + leaf_local m col
  if leaf_local m row = leaf_local m col then
    if row = col then
      if row < m then (1 + g.s_eps) / 2 else (1 + 1 / g.s_eps) / 2
    else 0
  else
    let L := kernel_spec sqrt exp g.s_eps g.s_kappa g.s_kappa2
      (rd g.s_particle_position_x j) (rd g.s_particle_position_y j)
      (rd g.s_particle_position_z j) (rd g.s_particle_normal_x j)
      (rd g.s_particle_normal_y j) (rd g.s_particle_normal_z j)
      (rd g.s_particle_position_x i) (rd g.s_particle_position_y i)
      (rd g.s_particle_position_z i) (rd g.s_particle_normal_x i)
      (rd g.s_particle_normal_y i) (rd g.s_particle_normal_z i)
    if row < m then
      if col < m then -L.1 * rd g.s_particle_area j else -L.2.1 * rd g.s_particle_area j
    else
      if col < m then -L.2.2.1 * rd g.s_particle_area j
      else -L.2.2.2 * rd g.s_particle_area j

/-- The file-scope variables of a treecode whose particles are the `m` particles of the
leaf that starts at `ibeg`, with a tree that consists of that single leaf and
`theta = 0`, so that `matvec` sums directly. -/
def leaf_globals {K : Type} [Field K] (g : TreecodeGlobals K) (ibeg m : Nat) :
    TreecodeGlobals K :=
  { g with
    s_numpars := m
    theta := 0
    s_particle_position_x := g.s_particle_position_x.drop ibeg
    s_particle_position_y := g.s_particle_position_y.drop ibeg
    s_particle_position_z := g.s_particle_position_z.drop ibeg
    s_particle_normal_x := g.s_particle_normal_x.drop ibeg
    s_particle_normal_y := g.s_particle_normal_y.drop ibeg
    s_particle_normal_z := g.s_particle_normal_z.drop ibeg
    s_particle_area := g.s_particle_area.drop ibeg
    s_tree_root := TreeLinkedListNode.mk
      { numpar := m, ibeg := 0, iend := (m : Int) - 1,
        x_min := 0, y_min := 0, z_min := 0, x_max := 0, y_max := 0, z_max := 0,
        x_mid := 0, y_mid := 0, z_mid := 0, radius := 0, exist_ms := 0,
        ms := [], tx := [], ty := [], tz := [] } [] }

/-! ## `treecode.c`: `lu_decomp` and `lu_solve` -/

/-- The write `A[r][c] = v` into a matrix held as an array of row pointers
(`double **A`). -/
def wr2 {K : Type} (A : List (List K)) (r c : Nat) (v : K) : List (List K) :=
  A.set r ((A.getD r []).set c v)

/-- The tolerance `Tol = 1.0e-14` of `lu_decomp` (treecode.c:1094). -/
def lu_Tol {K : Type} [Field K] : K := 1 / 10 ^ 14

/-- The pivot search of `lu_decomp` for column `i` (treecode.c:1100-1106): the pair
`(maxA, imax)` after the loop over `k = i, ..., N-1`. -/
def lu_pivot_search {K : Type} [LinearOrderedField K] (A : List (List K)) (N i : Nat) :
    K × Nat :=
  forLoop i N (fun k (st : K × Nat) =>
    if |rd2 A k i| > st.1 then (|rd2 A k i|, k) else st) (0, i)

/-- The exchange of `lu_decomp` (treecode.c:1110-1123): when `imax != i` the entries `i`
and `imax` of `ipiv` and the row pointers `A[i]` and `A[imax]` are swapped and the counter
`ipiv[N]` is incremented. -/
def lu_pivot_swap {K : Type} (st : List (List K) × List Nat) (N i imax : Nat) :
    List (List K) × List Nat :=
  if imax ≠ i then
    let j := rdIdx st.2 i
    let ipiv := st.2.set i (rdIdx st.2 imax)
    let ipiv := ipiv.set imax j
    let ptr := st.1.getD i []
    let A := st.1.set i (st.1.getD imax [])
    let A := A.set imax ptr
    (A, ipiv.set N (rdIdx ipiv N + 1))
  else st

/-- The update of row `j` in the elimination of column `i` (treecode.c:1126-1129):
`A[j][i] /= A[i][i]`, then `A[j][k] -= A[j][i] * A[i][k]` for `k = i+1, ..., N-1`. -/
def lu_eliminate_row {K : Type} [Field K] (N i j : Nat) (A : List (List K)) :
    List (List K) :=
  let A := wr2 A j i (rd2 A j i / rd2 A i i)
  forLoop (i + 1) N (fun k A => wr2 A j k (rd2 A j k - rd2 A j i * rd2 A i k)) A

/-- The elimination of column `i` (treecode.c:1125-1130): the loop over the rows
`j = i+1, ..., N-1`. -/
def lu_eliminate {K : Type} [Field K] (A : List (List K)) (N i : Nat) : List (List K) :=
  forLoop (i + 1) N (lu_eliminate_row N i) A

/-- One pass of the loop over `i` of `lu_decomp` (treecode.c:1099-1131) on the matrix and
the pivot vector: `none` when the pass executes `return 0`. -/
def lu_decomp_step {K : Type} [LinearOrderedField K] (Tol : K) (N i : Nat)
    (st : List (List K) × List Nat) : Option (List (List K) × List Nat) :=
  if (lu_pivot_search st.1 N i).1 < Tol then none
  else
    some (lu_eliminate (lu_pivot_swap st N i (lu_pivot_search st.1 N i).2).1 N i,
      (lu_pivot_swap st N i (lu_pivot_search st.1 N i).2).2)

/-- The loop over `i` of `lu_decomp` with its early `return 0`, and the final `return 1`:
the value returned and the matrix and pivot vector at that moment. -/
def lu_decomp_loop {K : Type} [LinearOrderedField K] (Tol : K) (N : Nat) :
    List Nat → List (List K) × List Nat → Int × (List (List K) × List Nat)
  | [], st => (1, st)
  | i :: is, st =>
    match lu_decomp_step Tol N i st with
    | none => (0, st)
    | some st1 => lu_decomp_loop Tol N is st1

/-- The function `lu_decomp(A, N, ipiv)` (treecode.c:1088-1134): the value returned, the
matrix (overwritten by the factors) and the pivot vector (`N + 1` entries). -/
def lu_decomp {K : Type} [LinearOrderedField K] (A : List (List K)) (N : Nat)
    (ipiv : List Nat) : Int × (List (List K) × List Nat) :=
  lu_decomp_loop lu_Tol N (List.range' 0 N)
    (A, forLoop 0 (N + 1) (fun i ipiv => ipiv.set i i) ipiv)

/-- The loop `for (i = n - 1; i >= 0; i--) body(i)`. -/
def forLoopDown {σ : Type} (n : Nat) (body : Nat → σ → σ) (s : σ) : σ :=
  (List.range n).reverse.foldl (fun s i => body i s) s

/-- The forward substitution of `lu_solve` (treecode.c:1148-1153). -/
def lu_solve_forward {K : Type} [Field K] (matrixA : List (List K)) (N : Nat)
    (ipiv : List Nat) (rhs xtemp : List K) : List K :=
  forLoop 0 N (fun i xtemp =>
    let xtemp := xtemp.set i (rd rhs (rdIdx ipiv i))
    forLoop 0 i (fun k xtemp => xtemp.set i (rd xtemp i - rd2 matrixA i k * rd xtemp k))
      xtemp) xtemp

/-- The backward substitution of `lu_solve` (treecode.c:1155-1160). -/
def lu_solve_backward {K : Type} [Field K] (matrixA : List (List K)) (N : Nat)
    (xtemp : List K) : List K :=
  forLoopDown N (fun i xtemp =>
    let xtemp := forLoop (i + 1) N
      (fun k xtemp => xtemp.set i (rd xtemp i - rd2 matrixA i k * rd xtemp k)) xtemp
    xtemp.set i (rd xtemp i / rd2 matrixA i i)) xtemp

/-- The function `lu_solve(matrixA, N, ipiv, rhs)` (treecode.c:1139-1166): the vector
`rhs` when it returns.  `xtemp` is the vector of `N` entries that `make_vector` hands out;
every entry is written before it is read. -/
def lu_solve {K : Type} [Field K] (matrixA : List (List K)) (N : Nat) (ipiv : List Nat)
    (rhs xtemp : List K) : List K :=
  let xtemp := lu_solve_forward matrixA N ipiv rhs xtemp
  let xtemp := lu_solve_backward matrixA N xtemp
  forLoop 0 N (fun i rhs => rhs.set i (rd xtemp i)) rhs

/-- An `N x N` matrix: `N` rows of `N` entries. -/
def lu_shape {K : Type} (N : Nat) (A : List (List K)) : Prop :=
  A.length = N ∧ ∀ r, r < N → (A.getD r []).length = N

/-- What `lu_decomp` has reached before the pass `i`: with `L` the multipliers stored
below the diagonal in the columns `k < i` (unit diagonal) and `U` the rows `k < i` on and
above the diagonal, row `ipiv[r]` of the matrix `A0` passed in is row `r` of `L*U` plus, for
the rows and columns not yet eliminated, the entries still held in `M`. -/
def lu_partial {K : Type} [Field K] (A0 M : List (List K)) (p : List Nat) (N i : Nat) :
    Prop :=
  ∀ r c, r < N → c < N →
    rd2 A0 (rdIdx p r) c
      = ∑ k in Finset.range (min r i), (if k ≤ c then rd2 M r k * rd2 M k c else 0)
        + (if min r i ≤ c then rd2 M r c else 0)

/-- A sample matrix that `lu_decomp` factors with one exchange of rows. -/
def sampleMatrix : List (List ℚ) := [[0, 2], [1, 1]]

/-- A sample matrix whose second column is twice the first. -/
def singularMatrix : List (List ℚ) := [[1, 2], [2, 4]]

/-- The state of `lu_decomp` before the pass `i`: the matrix is `N x N`, the first `N`
entries of `ipiv` are distinct indices below `N`, the factors found so far reproduce the
permuted rows of `A0`, every pivot found has magnitude at least `Tol`, and every stored
multiplier has magnitude at most `1`. -/
def lu_invariant {K : Type} [LinearOrderedField K] (Tol : K) (A0 : List (List K))
    (N len i : Nat) (st : List (List K) × List Nat) : Prop :=
  lu_shape N st.1 ∧ st.2.length = len ∧
  (∀ r, r < N → rdIdx st.2 r < N) ∧
  (∀ r s, r < N → s < N → rdIdx st.2 r = rdIdx st.2 s → r = s) ∧
  lu_partial A0 st.1 st.2 N i ∧
  (∀ k, k < i → Tol ≤ |rd2 st.1 k k|) ∧
  (∀ k r, k < i → k < r → r < N → |rd2 st.1 r k| ≤ 1)

/-! ## `treecode.c`: `lu_decomp` pass by pass, and in rounded arithmetic -/

/-- The matrix and the pivot vector of `lu_decomp` before the pass `i`, having started
from `st`: `none` when one of the passes `0, ..., i-1` has executed `return 0`. -/
def lu_decomp_passes {K : Type} [LinearOrderedField K] (Tol : K) (N : Nat) :
    Nat → List (List K) × List Nat → Option (List (List K) × List Nat)
  | 0, st => some st
  | i + 1, st =>
    match lu_decomp_passes Tol N i st with
    | none => none
    | some s => lu_decomp_step Tol N i s

/-- Rounding of a number to the nearest integer, ties to the even one. -/
def round_even (t : ℚ) : Int :=
  if t - ⌊t⌋ < 1 / 2 then ⌊t⌋
  else if 1 / 2 < t - ⌊t⌋ then ⌊t⌋ + 1
  else if ⌊t⌋ % 2 = 0 then ⌊t⌋ else ⌊t⌋ + 1

/-- Rounding of a number to the nearest `double` (IEEE 754 binary64: 53 significant
bits, round to nearest, ties to even), for numbers in the range of the normal doubles;
overflow and subnormal numbers are not modelled. -/
def round_double (q : ℚ) : ℚ :=
  if q = 0 then 0
  else round_even (q / 2 ^ (Int.log 2 |q| - 52)) * 2 ^ (Int.log 2 |q| - 52)

/-- The update of row `j` in the elimination of column `i` (treecode.c:1126-1129) when
the result of every arithmetic operation is rounded by `fl`, as in `double` arithmetic:
one rounding for the quotient, one for the product and one for the difference. -/
def lu_eliminate_row_fl {K : Type} [Field K] (fl : K → K) (N i j : Nat)
    (A : List (List K)) : List (List K) :=
  let A := wr2 A j i (fl (rd2 A j i / rd2 A i i))
  forLoop (i + 1) N (fun k A => wr2 A j k (fl (rd2 A j k - fl (rd2 A j i * rd2 A i k)))) A

/-- The elimination of column `i` (treecode.c:1125-1130) in rounded arithmetic. -/
def lu_eliminate_fl {K : Type} [Field K] (fl : K → K) (A : List (List K)) (N i : Nat) :
    List (List K) :=
  forLoop (i + 1) N (lu_eliminate_row_fl fl N i) A

/-- One pass of the loop over `i` of `lu_decomp` (treecode.c:1099-1131) in rounded
arithmetic; the pivot search compares and copies, which is exact. -/
def lu_decomp_step_fl {K : Type} [LinearOrderedField K] (fl : K → K) (Tol : K) (N i : Nat)
    (st : List (List K) × List Nat) : Option (List (List K) × List Nat) :=
  if (lu_pivot_search st.1 N i).1 < Tol then none
  else
    some (lu_eliminate_fl fl (lu_pivot_swap st N i (lu_pivot_search st.1 N i).2).1 N i,
      (lu_pivot_swap st N i (lu_pivot_search st.1 N i).2).2)

/-- The loop over `i` of `lu_decomp` in rounded arithmetic. -/
def lu_decomp_loop_fl {K : Type} [LinearOrderedField K] (fl : K → K) (Tol : K) (N : Nat) :
    List Nat → List (List K) × List Nat → Int × (List (List K) × List Nat)
  | [], st => (1, st)
  | i :: is, st =>
    match lu_decomp_step_fl fl Tol N i st with
    | none => (0, st)
    | some st1 => lu_decomp_loop_fl fl Tol N is st1

/-- The function `lu_decomp(A, N, ipiv)` (treecode.c:1088-1134) in rounded arithmetic:
`Tol` is the `double` nearest to `1.0e-14`. -/
def lu_decomp_fl {K : Type} [LinearOrderedField K] (fl : K → K) (A : List (List K))
    (N : Nat) (ipiv : List Nat) : Int × (List (List K) × List Nat) :=
  lu_decomp_loop_fl fl (fl lu_Tol) N (List.range' 0 N)
    (A, forLoop 0 (N + 1) (fun i ipiv => ipiv.set i i) ipiv)

/-- A singular matrix of doubles: the second column is `1000` times the first. -/
def roundingMatrix : List (List ℚ) := [[1, 1000], [49, 49000]]

/-! ## `params.cpp`: the constructor `Params::Params(char *infile)` -/

/-- The enumeration `Params::Mesh` (params.h:13). -/
inductive Params.Mesh where
  | SES
  | SKIN
  deriving DecidableEq

/-- The enumeration `Params::MeshFormat` (params.h:14). -/
inductive Params.MeshFormat where
  | MSMS
  | PLY
  deriving DecidableEq

/-- The data members of `struct Params` (params.h:22-66).  `pqr_file_` is the name of the
file that the stream has open, if any. -/
structure ParamsRecord (K : Type) where
  pqr_file_ : Option String
  mesh_ : Params.Mesh
  mesh_format_ : Params.MeshFormat
  mesh_density_ : K
  mesh_probe_radius_ : K
  phys_temp_ : K
  phys_eps_solute_ : K
  phys_eps_solvent_ : K
  phys_bulk_strength_ : K
  phys_eps_ : K
  phys_kappa_ : K
  phys_kappa2_ : K
  tree_degree_ : Int
  tree_max_per_leaf_ : Int
  tree_theta_ : K
  precondition_ : Bool
  gmres_restart_ : Int
  gmres_residual_ : K
  gmres_num_iter_ : Int
  nonpolar_ : Int
  output_vtk_ : Bool
  output_ply_ : Bool
  output_csv_ : Bool
  output_csv_headers_ : Bool
  output_timers_ : Bool
  output_prefix_ : String
  input_mesh_prefix_ : String

/-- How the constructor ends: it returns, it calls `std::exit(status)`, a conversion
(`std::stod`, `std::stoi`) throws an exception that nothing catches, or it reads
`tokenized_line[0]` or `tokenized_line[1]` outside the vector (undefined behaviour). -/
inductive ConstructorOutcome (α : Type) where
  | done (p : α) : ConstructorOutcome α
  | exit (status : Int) : ConstructorOutcome α
  | exception : ConstructorOutcome α
  | undefined : ConstructorOutcome α

/-- The call `std::transform(s.begin(), s.end(), s.begin(), tolower)` (params.cpp:45-49). -/
def lowercase (tolower : Char → Char) (s : String) : String := String.mk (s.data.map tolower)

/-- The table `mesh_table_` (params.h:16-17). -/
def Params.mesh_table_ (s : String) : Option Params.Mesh :=
  if s = "ses" then some Params.Mesh.SES
  else if s = "skin" then some Params.Mesh.SKIN
  else none

/-- The table `mesh_format_table_` (params.h:19-20). -/
def Params.mesh_format_table_ (s : String) : Option Params.MeshFormat :=
  if s = "msms" then some Params.MeshFormat.MSMS
  else if s = "ply" then some Params.MeshFormat.PLY
  else none

/-- The chain of comparisons in the body of the loop over the lines of the parameter file
(params.cpp:51-172), on the key and the value in lower case and the value as written
(`tokenized_line[1]`).  `stod` and `stoi` are the library conversions (`none`: the conversion
throws), and `pqr_good f name` is `pqr_file_.good()` after `pqr_file_.open(name)` on a
stream that has the file `f` open.  The values of type `double` are elements of `K`, of
which only the comparison is used: `K` can be an ordered field or the type `Double`, in
which `std::stod` can return NaN or an infinity. -/
def Params.Params_token {K : Type} [Zero K] [One K] [LT K]
    [DecidableRel (fun a b : K => a < b)]
    (stod : String → Option K) (stoi : String → Option Int)
    (pqr_good : Option String → String → Bool) (param_token param_value t1 : String)
    (p : ParamsRecord K) : ConstructorOutcome (ParamsRecord K) :=
  if param_token = "mol" ∨ param_token = "pqr" then
    if pqr_good p.pqr_file_ t1 then .done { p with pqr_file_ := some t1 } else .exit 1
  else if param_token = "pdie" then
    match stod param_value with
    | some v => .done { p with phys_eps_solute_ := v }
    | none => .exception
  else if param_token = "sdie" then
    match stod param_value with
    | some v => .done { p with phys_eps_solvent_ := v }
    | none => .exception
  else if param_token = "bulk" then
    match stod param_value with
    | some v => .done { p with phys_bulk_strength_ := v }
    | none => .exception
  else if param_token = "temp" then
    match stod param_value with
    | some v => .done { p with phys_temp_ := v }
    | none => .exception
  else if param_token = "tree_degree" then
    match stoi param_value with
    | some n => if n ≤ 0 then .exit 1 else .done { p with tree_degree_ := n }
    | none => .exception
  else if param_token = "tree_theta" then
    match stod param_value with
    | some v => if v < 0 ∨ v > 1 then .exit 1 else .done { p with tree_theta_ := v }
    | none => .exception
  else if param_token = "tree_max_per_leaf" then
    match stoi param_value with
    | some n => if n ≤ 0 then .exit 1 else .done { p with tree_max_per_leaf_ := n }
    | none => .exception
  else if param_token = "gmres_restart" then
    match stoi param_value with
    | some n => if n ≤ 0 then .exit 1 else .done { p with gmres_restart_ := n }
    | none => .exception
  else if param_token = "gmres_residual" then
    match stod param_value with
    | some v => if v < 0 ∨ v > 1 then .exit 1 else .done { p with gmres_residual_ := v }
    | none => .exception
  else if param_token = "gmres_num_iter" then
    match stoi param_value with
    | some n => if n ≤ 0 then .exit 1 else .done { p with gmres_num_iter_ := n }
    | none => .exception
  else if param_token = "mesh" then
    match Params.mesh_table_ param_value with
    | none => .exit 1
    | some m => .done { p with mesh_ := m }
  else if param_token = "mesh_format" then
    match Params.mesh_format_table_ param_value with
    | none => .exit 1
    | some m => .done { p with mesh_format_ := m }
  else if param_token = "sdens" then
    match stod param_value with
    | some v => if v < 0 then .exit 1 else .done { p with mesh_density_ := v }
    | none => .exception
  else if param_token = "srad" then
    match stod param_value with
    | some v => if v < 0 then .exit 1 else .done { p with mesh_probe_radius_ := v }
    | none => .exception
  else if param_token = "precondition" then
    .done (if param_value = "true" ∨ param_value = "on" then
      { p with precondition_ := true } else p)
  else if param_token = "nonpolar" then
    .done (if param_value = "true" then { p with nonpolar_ := 1 } else p)
  else if param_token = "outdata" then
    let p := if param_value = "vtk" then { p with output_vtk_ := true } else p
    let p := if param_value = "ply" then { p with output_ply_ := true } else p
    let p := if param_value = "csv" then { p with output_csv_ := true } else p
    let p := if param_value = "csv_headers" then
      { p with output_csv_headers_ := true } else p
    let p := if param_value = "timers" then { p with output_timers_ := true } else p
    .done p
  else if param_token = "output_prefix" then
    .done (if param_value ≠ "" then { p with output_prefix_ := param_value } else p)
  else if param_token = "input_mesh_prefix" then
    .done (if param_value ≠ "" then { p with input_mesh_prefix_ := param_value } else p)
  else .done p

/-- The body of the loop over the lines of the parameter file (params.cpp:37-172), on the
words of one line: `tokenized_line[0]` and `tokenized_line[1]` are read, turned to lower
case with `tolower`, and compared. -/
def Params.Params_body {K : Type} [Zero K] [One K] [LT K]
    [DecidableRel (fun a b : K => a < b)] (tolower : Char → Char)
    (stod : String → Option K) (stoi : String → Option Int)
    (pqr_good : Option String → String → Bool) (tokenized_line : List String)
    (p : ParamsRecord K) : ConstructorOutcome (ParamsRecord K) :=
  match tokenized_line with
  | t0 :: t1 :: _ =>
    Params.Params_token stod stoi pqr_good (lowercase tolower t0) (lowercase tolower t1) t1 p
  | _ => .undefined

/-- The loop `while (std::getline(paramfile, line))` (params.cpp:35-173) over the lines
of the file, each given by its words. -/
def Params.Params_loop {K : Type} [Zero K] [One K] [LT K]
    [DecidableRel (fun a b : K => a < b)] (tolower : Char → Char)
    (stod : String → Option K) (stoi : String → Option Int)
    (pqr_good : Option String → String → Bool) :
    List (List String) → ParamsRecord K → ConstructorOutcome (ParamsRecord K)
  | [], p => .done p
  | l :: ls, p =>
    match Params.Params_body tolower stod stoi pqr_good l p with
    | .done p1 => Params.Params_loop tolower stod stoi pqr_good ls p1
    | o => o

/-- The constructor `Params::Params(char *infile)` (params.cpp:14-179).  `paramfile_good`
is `paramfile.good()` after the file is opened, `lines` are the lines of the file,
`uninit` holds the values of the members that the constructor does not initialise, and
`BULK_COEFF` is the constant of constants.h. -/
def Params.Params_infile {K : Type} [Zero K] [One K] [OfNat K 10] [Pow K Nat] [Mul K] [Div K]
    [LT K] [DecidableRel (fun a b : K => a < b)] (sqrt : K → K) (BULK_COEFF : K)
    (tolower : Char → Char) (stod : String → Option K) (stoi : String → Option Int)
    (paramfile_good : Bool) (pqr_good : Option String → String → Bool)
    (lines : List (List String)) (uninit : ParamsRecord K) :
    ConstructorOutcome (ParamsRecord K) :=
  if ¬ paramfile_good then .exit 1
  else
    match Params.Params_loop tolower stod stoi pqr_good lines
        { uninit with
          pqr_file_ := none, gmres_restart_ := 10, gmres_residual_ := 1 / 10 ^ 4,
          gmres_num_iter_ := 1000, output_vtk_ := false, output_ply_ := false,
          output_csv_ := false, output_csv_headers_ := false, output_timers_ := false,
          precondition_ := false, output_prefix_ := "output", input_mesh_prefix_ := "",
          mesh_ := Params.Mesh.SES, mesh_format_ := Params.MeshFormat.MSMS } with
    | .done p =>
      .done { p with
        phys_eps_ := p.phys_eps_solvent_ / p.phys_eps_solute_,
        phys_kappa2_ := BULK_COEFF * p.phys_bulk_strength_ / p.phys_eps_solvent_
          / p.phys_temp_,
        phys_kappa_ := sqrt (BULK_COEFF * p.phys_bulk_strength_ / p.phys_eps_solvent_
          / p.phys_temp_) }
    | o => o

/-- The keys that `Params::Params` recognises. -/
def recognised_keys : List String :=
  ["mol", "pqr", "pdie", "sdie", "bulk", "temp", "tree_degree", "tree_theta",
   "tree_max_per_leaf", "gmres_restart", "gmres_residual", "gmres_num_iter", "mesh",
   "mesh_format", "sdens", "srad", "precondition", "nonpolar", "outdata", "output_prefix",
   "input_mesh_prefix"]

/-- The out-of-range values in the words of the specification, for a key and a value in
lower case: `tree_degree <= 0`, `tree_theta` outside `[0,1]`, `tree_max_per_leaf <= 0`,
`gmres_restart <= 0`, `gmres_residual` outside `[0,1]`, `gmres_num_iter <= 0`,
`sdens < 0`, `srad < 0`, `mesh` not in `{ses, skin}`, `mesh_format` not in
`{msms, ply}`. -/
def value_out_of_range {K : Type} [LinearOrderedField K] (stod : String → Option K)
    (stoi : String → Option Int) (key value : String) : Bool :=
  if key = "tree_degree" ∨ key = "tree_max_per_leaf" ∨ key = "gmres_restart"
      ∨ key = "gmres_num_iter" then
    match stoi value with
    | some n => decide (n ≤ 0)
    | none => false
  else if key = "tree_theta" ∨ key = "gmres_residual" then
    match stod value with
    | some v => decide (v < 0 ∨ 1 < v)
    | none => false
  else if key = "sdens" ∨ key = "srad" then
    match stod value with
    | some v => decide (v < 0)
    | none => false
  else if key = "mesh" then decide (value ≠ "ses" ∧ value ≠ "skin")
  else if key = "mesh_format" then decide (value ≠ "msms" ∧ value ≠ "ply")
  else false

/-- The parameter file holds a configuration error, in the words of the specification:
some line carries an out-of-range value, or names a pqr file that does not open.  `f` is
the pqr file that is open before the first line. -/
def config_error {K : Type} [LinearOrderedField K] (tolower : Char → Char)
    (stod : String → Option K) (stoi : String → Option Int)
    (pqr_good : Option String → String → Bool) :
    List (List String) → Option String → Bool
  | [], _ => false
  | l :: ls, f =>
    if lowercase tolower (l.getD 0 "") = "mol" ∨ lowercase tolower (l.getD 0 "") = "pqr" then
      !pqr_good f (l.getD 1 "") || config_error tolower stod stoi pqr_good ls (some (l.getD 1 ""))
    else
      value_out_of_range stod stoi (lowercase tolower (l.getD 0 ""))
          (lowercase tolower (l.getD 1 ""))
        || config_error tolower stod stoi pqr_good ls f

/-- A line that the constructor can read: it has a key and a value, and the value of a
numeric key converts. -/
def well_formed_line {K : Type} (tolower : Char → Char) (stod : String → Option K)
    (stoi : String → Option Int) (l : List String) : Prop :=
  2 ≤ l.length ∧
  (lowercase tolower (l.getD 0 "") ∈ ["pdie", "sdie", "bulk", "temp", "tree_theta",
      "gmres_residual", "sdens", "srad"] →
    (stod (lowercase tolower (l.getD 1 ""))).isSome = true) ∧
  (lowercase tolower (l.getD 0 "") ∈ ["tree_degree", "tree_max_per_leaf", "gmres_restart",
      "gmres_num_iter"] →
    (stoi (lowercase tolower (l.getD 1 ""))).isSome = true)

/-- A conversion for the sample files: it knows `0`, `1` and `5`. -/
def sample_stoi (s : String) : Option Int :=
  if s = "0" then some 0 else if s = "1" then some 1 else if s = "5" then some 5 else none

/-- A conversion for the sample files: it knows `0`, `1` and `5`. -/
def sample_stod (s : String) : Option ℚ :=
  if s = "0" then some 0 else if s = "1" then some 1 else if s = "5" then some 5 else none

/-- Members that have not been initialised, for the sample files. -/
def sampleParamsRecord : ParamsRecord ℚ where
  pqr_file_ := none
  mesh_ := Params.Mesh.SKIN
  mesh_format_ := Params.MeshFormat.PLY
  mesh_density_ := 7
  mesh_probe_radius_ := 7
  phys_temp_ := 7
  phys_eps_solute_ := 7
  phys_eps_solvent_ := 7
  phys_bulk_strength_ := 7
  phys_eps_ := 7
  phys_kappa_ := 7
  phys_kappa2_ := 7
  tree_degree_ := 7
  tree_max_per_leaf_ := 7
  tree_theta_ := 7
  precondition_ := true
  gmres_restart_ := 7
  gmres_residual_ := 7
  gmres_num_iter_ := 7
  nonpolar_ := 7
  output_vtk_ := true
  output_ply_ := true
  output_csv_ := true
  output_csv_headers_ := true
  output_timers_ := true
  output_prefix_ := "x"
  input_mesh_prefix_ := "x"

/-! ## `treecode.cpp` and `treecode.c`: the coefficients of a pair -/

/-- The file-scope variables of treecode.c hold, for the target `j` and the source `k`,
the data that the C++ treecode holds: the physical parameters, the number of particles,
the position and the normal of the target in `s_target_position` and `s_target_normal`,
and the position, the normal and the area of the source. -/
def same_pair_data {K : Type} [Zero K] (tc : Treecode K) (g : TreecodeGlobals K)
    (j k : Nat) : Prop :=
  g.s_eps = tc.params_.phys_eps_ ∧ g.s_kappa = tc.params_.phys_kappa_ ∧
  g.s_kappa2 = tc.params_.phys_kappa2_ ∧ g.s_numpars = tc.particles_.num_ ∧
  rd g.s_target_position 0 = rd tc.particles_.x_ j ∧
  rd g.s_target_position 1 = rd tc.particles_.y_ j ∧
  rd g.s_target_position 2 = rd tc.particles_.z_ j ∧
  rd g.s_target_normal 0 = rd tc.particles_.nx_ j ∧
  rd g.s_target_normal 1 = rd tc.particles_.ny_ j ∧
  rd g.s_target_normal 2 = rd tc.particles_.nz_ j ∧
  rd g.s_particle_position_x k = rd tc.particles_.x_ k ∧
  rd g.s_particle_position_y k = rd tc.particles_.y_ k ∧
  rd g.s_particle_position_z k = rd tc.particles_.z_ k ∧
  rd g.s_particle_normal_x k = rd tc.particles_.nx_ k ∧
  rd g.s_particle_normal_y k = rd tc.particles_.ny_ k ∧
  rd g.s_particle_normal_z k = rd tc.particles_.nz_ k ∧
  rd g.s_particle_area k = rd tc.particles_.area_ k

/-! ## `treecode.cpp`: what one source contributes to one target -/

mutual
/-- The evaluations that `s_RunTreecode` performs at and below a node
(treecode.c:836-878), in the order of the calls: the node with `true` where
`s_ComputeTreePB` is called on it, with `false` where `s_ComputeDirectPB` is called on its
particle range. -/
def s_RunTreecode_evaluations {K : Type} [LinearOrderedField K] (sqrt : K → K)
    (g : TreecodeGlobals K) : TreeLinkedListNode K → List (Bool × NodeData K)
  | .mk p child =>
    let tx := p.x_mid - rd g.s_target_position 0
    let ty := p.y_mid - rd g.s_target_position 1
    let tz := p.z_mid - rd g.s_target_position 2
    let dist := sqrt (tx * tx + ty * ty + tz * tz)
    if p.radius < dist * g.theta ∧ p.numpar > 40 then [(true, p)]
    else if child.length = 0 then [(false, p)]
    else s_RunTreecode_evaluations_children sqrt g child
/-- The evaluations of the loop over the children in `s_RunTreecode`. -/
def s_RunTreecode_evaluations_children {K : Type} [LinearOrderedField K] (sqrt : K → K)
    (g : TreecodeGlobals K) : List (TreeLinkedListNode K) → List (Bool × NodeData K)
  | [] => []
  | c :: cs =>
    s_RunTreecode_evaluations sqrt g c ++ s_RunTreecode_evaluations_children sqrt g cs
end

/-- The value `peng` of one evaluation: `s_ComputeTreePB` on the node, or
`s_ComputeDirectPB` on its particle range. -/
def evaluation_peng {K : Type} [Field K] (sqrt exp : K → K) (g : TreecodeGlobals K)
    (tpoten_old tempq : List K) (e : Bool × NodeData K) : K × K :=
  if e.1 then s_ComputeTreePB sqrt exp g e.2 tempq
  else s_ComputeDirectPB sqrt exp g e.2.ibeg e.2.iend tpoten_old

/-- The particle range `ibeg, ..., iend` of a node. -/
def node_range {K : Type} (p : NodeData K) : List Int := intRange p.ibeg (p.iend + 1)

/-- The fields of the node at the root of a tree. -/
def TreeLinkedListNode.data {K : Type} : TreeLinkedListNode K → NodeData K
  | .mk p _ => p

mutual
/-- In every node with children, the particle ranges of the children partition the
particle range of the node: together they hold every index of the range once. -/
def ranges_partition {K : Type} : TreeLinkedListNode K → Prop
  | .mk p child =>
    (child.length ≠ 0 →
      (child.flatMap (fun c => node_range c.data)).Perm (node_range p)) ∧
    ranges_partition_children child
/-- The property `ranges_partition` for the nodes of a list. -/
def ranges_partition_children {K : Type} : List (TreeLinkedListNode K) → Prop
  | [] => True
  | c :: cs => ranges_partition c ∧ ranges_partition_children cs
end

mutual
/-- Every node at or below a node has the property `P`. -/
def every_node {K : Type} (P : NodeData K → Prop) : TreeLinkedListNode K → Prop
  | .mk p child => P p ∧ every_node_children P child
/-- Every node at or below the nodes of a list has the property `P`. -/
def every_node_children {K : Type} (P : NodeData K → Prop) :
    List (TreeLinkedListNode K) → Prop
  | [] => True
  | c :: cs => every_node P c ∧ every_node_children P cs
end

/-! ## `particles.cpp`: the element accesses of `apply_order` -/

/-- The indices of the value array that `apply_order` reads (particles.cpp:565-566): the
constructor of `tmp` copies the range `[v_begin, v_end)` with
`v_end = v_begin + std::distance(order_begin, order_end) + 1`. -/
def apply_order_reads (order : List Nat) (v_begin : Nat) : List Nat :=
  List.range' v_begin (order.length + 1)

/-- The indices of the value array that `apply_order` writes (particles.cpp:568-569): one
element per entry of `order`, starting at `v_begin`. -/
def apply_order_writes (order : List Nat) (v_begin : Nat) : List Nat :=
  List.range' v_begin order.length

/-! ## `gmres.cpp`: the Gram-Schmidt step `basis_` -/

/-- The function `ddot_(n, x, y)` (gmres.cpp:377-384); the pointers `x` and `y` are
offsets into the arrays `a` and `b`. -/
def ddot_ {K : Type} [Field K] (n : Int) (a : List K) (x : Nat) (b : List K) (y : Nat) : K :=
  forLoop 0 n.toNat (fun idx ddot => ddot + rd a (x + idx) * rd b (y + idx)) 0

/-- The function `daxpy_(n, alpha, x, y)` (gmres.cpp:387-392): the array `b` that `y`
points into, after `y[idx] += alpha * x[idx]`; `x` points into another array `a`. -/
def daxpy_ {K : Type} [Field K] (n : Int) (alpha : K) (a : List K) (x : Nat) (b : List K)
    (y : Nat) : List K :=
  forLoop 0 n.toNat (fun idx b => b.set (y + idx) (rd b (y + idx) + alpha * rd a (x + idx))) b

/-- The function `dscal_(n, alpha, x)` (gmres.cpp:370-375). -/
def dscal_ {K : Type} [Field K] (n : Int) (alpha : K) (a : List K) (x : Nat) : List K :=
  forLoop 0 n.toNat (fun idx a => a.set (x + idx) (rd a (x + idx) * alpha)) a

/-- The function `basis_(i, n, h, v, ldv, w)` (gmres.cpp:335-357): the arrays `h`, `v`
and `w` when it returns.  The three pointers are taken to point into three arrays; in the
call made by `gmres_` they are a column of `h` and two parts of `work` that do not
overlap. -/
def basis_ {K : Type} [Field K] (sqrt : K → K) (i n : Nat) (h v : List K) (ldv : Nat)
    (w : List K) : List K × List K × List K :=
  let st := forLoop 0 i (fun k (st : List K × List K) =>
    let h := st.1.set k (ddot_ n st.2 0 v (k * ldv))
    (h, daxpy_ n (-(rd h k)) v (k * ldv) st.2 0)) (h, w)
  let h := st.1.set i (dnrm2_ sqrt n st.2 0)
  let v := forLoop 0 n (fun idx v => v.set (i * ldv + idx) (rd st.2 idx)) v
  let v := dscal_ n (1 / rd h i) v (i * ldv)
  (h, v, st.2)

/-! ## `treecode.c`: one particle in `s_ComputeMoments` -/

/-- The weights `w1i` of `s_ComputeMoments` (treecode.c:752-758). -/
def s_ComputeMoments_w1i {K : Type} [LinearOrderedField K] (g : TreecodeGlobals K) : List K :=
  let dj := ((List.replicate g.s_torder_lim (0 : K)).set 0 (1 / 2)).set g.s_order (1 / 2)
  let dj := forLoop 1 g.s_order (fun j dj => dj.set j 1) dj
  forLoop 0 g.s_torder_lim (fun j w1i =>
    w1i.set j ((if j % 2 = 0 then 1 else -1) * rd dj j)) (List.replicate g.s_torder_lim 0)

/-- One pass of the loop over the particles in `s_ComputeMoments` (treecode.c:760-824):
the array `summ` after the particle `i` of the node `p` is added, for the interpolation
points `tx`, `ty`, `tz`. -/
def s_ComputeMoments_particle {K : Type} [LinearOrderedField K] (g : TreecodeGlobals K)
    (p : NodeData K) (tx ty tz : List K) (i : Int) (summ : List (List K)) : List (List K) :=
  let xx := rd g.s_particle_position_x (p.ibeg + i).toNat
  let yy := rd g.s_particle_position_y (p.ibeg + i).toNat
  let zz := rd g.s_particle_position_z (p.ibeg + i).toNat
  let qq := g.s_source_charge.getD (p.ibeg + i).toNat []
  let A1 := s_ComputeMoments_weights g.s_torder_lim (s_ComputeMoments_w1i g) tx xx
  let A2 := s_ComputeMoments_weights g.s_torder_lim (s_ComputeMoments_w1i g) ty yy
  let A3 := s_ComputeMoments_weights g.s_torder_lim (s_ComputeMoments_w1i g) tz zz
  let Dd := 1 / (A1.2 * A2.2 * A3.2)
  forLoop 0 g.s_torder_lim (fun k1 summ =>
    forLoop 0 g.s_torder_lim (fun k2 summ =>
      forLoop 0 g.s_torder_lim (fun k3 summ =>
        let kk := k1 * g.s_torder_lim * g.s_torder_lim + k2 * g.s_torder_lim + k3
        let mom1 := rd A1.1 k1 * rd A2.1 k2 * rd A3.1 k3 * Dd
        forLoop 0 4 (fun c summ =>
          summ.set c ((summ.getD c []).set kk (rd2 summ c kk + mom1 * rd qq c))) summ)
        summ) summ) summ

/-- The test `fabs(xx - p->tx[j]) < DBL_MIN` of `s_ComputeMoments` (treecode.c:785-787):
the coordinate `xx` coincides with the interpolation point `j`. -/
def s_ComputeMoments_coincides {K : Type} [LinearOrderedField K] (tx : List K) (xx : K)
    (j : Nat) : Prop :=
  abs (xx - rd tx j) < DBL_MIN

/-- The index `j` is the last interpolation point of the axis that `xx` coincides with:
the value of `a1exactind` when the loop over the points ends. -/
def s_ComputeMoments_exactind {K : Type} [LinearOrderedField K] (s_torder_lim : Nat)
    (tx : List K) (xx : K) (j : Nat) : Prop :=
  j < s_torder_lim ∧ s_ComputeMoments_coincides tx xx j ∧
    ∀ m, j < m → m < s_torder_lim → ¬ s_ComputeMoments_coincides tx xx m

/-- The array `summ` of `s_ComputeMoments` has four rows of `s_torder3` entries. -/
def summ_shape {K : Type} (s_torder3 : Nat) (summ : List (List K)) : Prop :=
  summ.length = 4 ∧ ∀ c, c < 4 → (summ.getD c []).length = s_torder3

/-- A node whose bounding box is the single point `(0, 0, 0)`, holding the particle `0`,
before its moments are computed. -/
def pointNodeData : NodeData ℝ where
  numpar := 1
  ibeg := 0
  iend := 0
  x_min := 0
  y_min := 0
  z_min := 0
  x_max := 0
  y_max := 0
  z_max := 0
  x_mid := 0
  y_mid := 0
  z_mid := 0
  radius := 0
  exist_ms := 0
  ms := []
  tx := []
  ty := []
  tz := []

/-- The file-scope variables of `sampleGlobals` with the source charges `1, 2, 3, 4` on
the particle `0`. -/
def chargedGlobals : TreecodeGlobals ℝ :=
  { sampleGlobals with
    s_source_charge := [[1, 2, 3, 4], [0, 0, 0, 0], [0, 0, 0, 0], [0, 0, 0, 0]] }

/-- What one pass of the loop over the particles adds to `summ[c][x]`
(treecode.c:810-823): the sum of `mom1 * qq[c]` over the grid points `(k1, k2, k3)` whose
index `kk` is `x`, for the arrays and sums `A1 = (a1i, sumA1)`, `A2`, `A3`. -/
def moment_addend {K : Type} [Field K] (s_torder_lim : Nat) (A1 A2 A3 : List K × K)
    (qq : List K) (c x : Nat) : K :=
  ∑ k1 in Finset.range s_torder_lim, ∑ k2 in Finset.range s_torder_lim,
    ∑ k3 in Finset.range s_torder_lim,
      if x = k1 * s_torder_lim * s_torder_lim + k2 * s_torder_lim + k3 then
        rd A1.1 k1 * rd A2.1 k2 * rd A3.1 k3 * (1 / (A1.2 * A2.2 * A3.2)) * rd qq c
      else 0

/-- The array `a1i` and the sum `sumA1` of `s_ComputeMoments` for the particle `i` of the
node `p` (treecode.c:773-794). -/
def s_ComputeMoments_a1i {K : Type} [LinearOrderedField K] (g : TreecodeGlobals K)
    (p : NodeData K) (i : Int) : List K × K :=
  s_ComputeMoments_weights g.s_torder_lim (s_ComputeMoments_w1i g) (s_ComputeMoments g p).tx
    (rd g.s_particle_position_x (p.ibeg + i).toNat)

/-- The array `a2j` and the sum `sumA2` of `s_ComputeMoments` for the particle `i` of the
node `p` (treecode.c:773-800). -/
def s_ComputeMoments_a2j {K : Type} [LinearOrderedField K] (g : TreecodeGlobals K)
    (p : NodeData K) (i : Int) : List K × K :=
  s_ComputeMoments_weights g.s_torder_lim (s_ComputeMoments_w1i g) (s_ComputeMoments g p).ty
    (rd g.s_particle_position_y (p.ibeg + i).toNat)

/-- The array `a3k` and the sum `sumA3` of `s_ComputeMoments` for the particle `i` of the
node `p` (treecode.c:773-806). -/
def s_ComputeMoments_a3k {K : Type} [LinearOrderedField K] (g : TreecodeGlobals K)
    (p : NodeData K) (i : Int) : List K × K :=
  s_ComputeMoments_weights g.s_torder_lim (s_ComputeMoments_w1i g) (s_ComputeMoments g p).tz
    (rd g.s_particle_position_z (p.ibeg + i).toNat)

/-! ## The special values of `double` -/

/-- A value of type `double` with its special values (IEEE 754): a number, an infinity
or NaN.  Rounding, overflow and the sign of zero are not modelled: an operation on two
numbers gives the exact result, and a non-zero number divided by zero gives the infinity
with the sign of the numerator. -/
inductive Double where
  | finite (x : ℚ) : Double
  | infinity (negative : Bool) : Double
  | nan : Double
  deriving DecidableEq

/-- The sum of two doubles: `inf + (-inf)` and every sum with NaN is NaN. -/
def Double.add : Double → Double → Double
  | .finite x, .finite y => .finite (x + y)
  | .finite _, .infinity s => .infinity s
  | .infinity s, .finite _ => .infinity s
  | .infinity s, .infinity t => if s = t then .infinity s else .nan
  | _, _ => .nan

/-- The product of two doubles: `0 * inf` and every product with NaN is NaN. -/
def Double.mul : Double → Double → Double
  | .finite x, .finite y => .finite (x * y)
  | .finite x, .infinity s => if x = 0 then .nan else .infinity (xor s (decide (x < 0)))
  | .infinity s, .finite y => if y = 0 then .nan else .infinity (xor s (decide (y < 0)))
  | .infinity s, .infinity t => .infinity (xor s t)
  | _, _ => .nan

/-- The quotient of two doubles: `0 / 0`, `inf / inf` and every quotient with NaN is NaN,
a non-zero number divided by `0` is an infinity, a number divided by an infinity is `0`. -/
def Double.div : Double → Double → Double
  | .finite x, .finite y =>
    if y = 0 then (if x = 0 then .nan else .infinity (decide (x < 0))) else .finite (x / y)
  | .finite _, .infinity _ => .finite 0
  | .infinity s, .finite y => .infinity (xor s (decide (y < 0)))
  | _, _ => .nan

/-- The comparison `a < b` of two doubles: false when one of them is NaN. -/
def Double.lt : Double → Double → Bool
  | .finite x, .finite y => decide (x < y)
  | .finite _, .infinity s => !s
  | .infinity s, .finite _ => s
  | .infinity s, .infinity t => s && !t
  | _, _ => false

/-- The comparison `a <= b` of two doubles: false when one of them is NaN. -/
def Double.le : Double → Double → Bool
  | .finite x, .finite y => decide (x ≤ y)
  | .finite _, .infinity s => !s
  | .infinity s, .finite _ => s
  | .infinity s, .infinity t => s || !t
  | _, _ => false

/-- The function `sqrt` on doubles, from a square root `s` of the non-negative numbers:
NaN for a negative argument and for NaN. -/
def Double.sqrt (s : ℚ → ℚ) : Double → Double
  | .finite x => if x < 0 then .nan else .finite (s x)
  | .infinity negative => if negative then .nan else .infinity false
  | .nan => .nan

instance : Zero Double := ⟨.finite 0⟩

instance : One Double := ⟨.finite 1⟩

instance : NatCast Double := ⟨fun n => .finite n⟩

instance : Add Double := ⟨Double.add⟩

instance : Mul Double := ⟨Double.mul⟩

instance : Div Double := ⟨Double.div⟩

instance : LT Double := ⟨fun a b => Double.lt a b = true⟩

instance : LE Double := ⟨fun a b => Double.le a b = true⟩

instance : DecidableRel (fun a b : Double => a < b) :=
  fun a b => inferInstanceAs (Decidable (Double.lt a b = true))

instance : DecidableRel (fun a b : Double => a ≤ b) :=
  fun a b => inferInstanceAs (Decidable (Double.le a b = true))

/-- The power `x ^ n` of a double by repeated multiplication. -/
def Double.pow (x : Double) : Nat → Double
  | 0 => 1
  | n + 1 => Double.pow x n * x

instance : Pow Double Nat := ⟨Double.pow⟩

/-! ## `gmres.cpp`: the statements before the restart loop, in any arithmetic -/

/-- The numerical kernels of `gmres_` before the restart loop, embedded from gmres.cpp
and treecode.cpp as in `treecodeKernels`, for any arithmetic `K`; the call of
`matrix_vector` and the steps of the restart loop are those of `rest`. -/
def residualKernels {K : Type} [Zero K] [One K] [OfNat K 2] [Add K] [Mul K] [Div K]
    [DecidableEq K] (sqrt : K → K) (tc : Treecode K) (n ldw : Int)
    (rest : GmresKernels (GmresMemory K) K) : GmresKernels (GmresMemory K) K :=
  { rest with
    copy_b := gmres_copy_b n ldw
    x_is_nonzero := fun mem => decide (dnrm2_ sqrt n mem.x 0 ≠ 0)
    precondition_residual := fun mem =>
      { mem with work := tc.precondition mem.work 0 (2 * ldw).toNat }
    relative_residual := fun mem => dnrm2_ sqrt n mem.work 0 / gmres_bnrm2 sqrt n mem.b }

/-- A treecode over one particle with `phys_eps_ = -1` (`pdie` and `sdie` are not checked
by `Params::Params`), in `double` arithmetic. -/
def negativeEpsTreecode : Treecode Double where
  particles_ := {
    num_ := 1, x_ := [0], y_ := [0], z_ := [0], nx_ := [1], ny_ := [0], nz_ := [0],
    area_ := [1], source_term_ := [0, 0], order_ := [0], surface_area_ := 1 }
  clusters_ := {
    num_interp_pts_per_node := 0, num_charges_per_node := 0,
    interp_x := [], interp_y := [], interp_z := [],
    interp_charge := [], interp_charge_dx := [], interp_charge_dy := [],
    interp_charge_dz := [], interp_potential := [], interp_potential_dx := [],
    interp_potential_dy := [], interp_potential_dz := [] }
  tree_ := { num_nodes := 1, node_particle_idxs := [(0, 1)] }
  interaction_list_ := {
    particle_particle := [[0]], particle_cluster := [[]],
    cluster_particle := [[]], cluster_cluster := [[]] }
  params_ := { phys_eps_ := Double.finite (-1), phys_kappa_ := 1, phys_kappa2_ := 1 }
  potential_ := [0, 0]

/-- The memory at the call of `gmres_` made by `run_GMRES` for `negativeEpsTreecode` when
the source term is zero: `n = ldw = 2`, `restrt = 10`. -/
def zeroRhsDoubleMemory : GmresMemory Double where
  b := [0, 0]
  x := [0, 0]
  work := List.replicate (2 * 14) 1
  h := List.replicate (11 * 12) 1

/-- The state at the call of `gmres_` made by `run_GMRES` (treecode.cpp:17-19), in
`double` arithmetic: `iter = 100` and the tolerance `1e-4`. -/
def runGmresDoubleStart : GmresState (GmresMemory Double) Double where
  mem := zeroRhsDoubleMemory
  iter := 100
  resid := Double.finite (1 / 10 ^ 4)
  matvec_calls := 0
  precond_calls := 0

/-- Restart-loop steps that leave the memory alone and report the residual ratio `0`. -/
def idleDoubleKernels : GmresKernels (GmresMemory Double) Double where
  copy_b := fun s => s
  x_is_nonzero := fun _ => false
  matrix_vector_residual := fun s => s
  precondition_residual := fun s => s
  relative_residual := fun _ => 0
  first_column := fun s => s
  matrix_vector_basis := fun _ s => s
  precondition_basis := fun s => s
  orthogonalize := fun _ s => s
  rotated_residual := fun _ _ => 0
  update := fun _ s => s
  store_norm := fun s => s

/-- The treecode `negativeEpsTreecode` with `phys_eps_ = 40`. -/
def positiveEpsTreecode : Treecode Double :=
  { negativeEpsTreecode with
    params_ := { phys_eps_ := Double.finite 40, phys_kappa_ := 1, phys_kappa2_ := 1 } }

/-- A conversion for the sample files in `double` arithmetic: like `std::stod` it reads
`nan` as NaN and `inf` as the positive infinity; of the numbers it knows `0`, `1`
and `5`. -/
def sample_stod_double (s : String) : Option Double :=
  if s = "nan" then some Double.nan
  else if s = "inf" then some (Double.infinity false)
  else if s = "0" then some 0 else if s = "1" then some 1 else if s = "5" then some 5
  else none

/-- Members that have not been initialised, for the sample files in `double`
arithmetic. -/
def sampleDoubleParamsRecord : ParamsRecord Double where
  pqr_file_ := none
  mesh_ := Params.Mesh.SKIN
  mesh_format_ := Params.MeshFormat.PLY
  mesh_density_ := 7
  mesh_probe_radius_ := 7
  phys_temp_ := 7
  phys_eps_solute_ := 7
  phys_eps_solvent_ := 7
  phys_bulk_strength_ := 7
  phys_eps_ := 7
  phys_kappa_ := 7
  phys_kappa2_ := 7
  tree_degree_ := 7
  tree_max_per_leaf_ := 7
  tree_theta_ := 7
  precondition_ := true
  gmres_restart_ := 7
  gmres_residual_ := 7
  gmres_num_iter_ := 7
  nonpolar_ := 7
  output_vtk_ := true
  output_ply_ := true
  output_csv_ := true
  output_csv_headers_ := true
  output_timers_ := true
  output_prefix_ := "x"
  input_mesh_prefix_ := "x"

/-! # Theorems -/

/-! ## Arrays and loops -/

theorem writes_length {K : Type} (ws : List (Nat × K)) (a : List K) :
    (writes ws a).length = a.length := by
  induction ws generalizing a with
  | nil => rfl
  | cons w ws ih => simp [writes] at ih ⊢; rw [ih]; simp

theorem writes_getElem?_of_not_mem {K : Type} (ws : List (Nat × K)) (a : List K) (k : Nat)
    (hk : ∀ w ∈ ws, w.1 ≠ k) : (writes ws a)[k]? = a[k]? := by
  induction ws generalizing a with
  | nil => rfl
  | cons w ws ih =>
    have h1 : (writes ws (a.set w.1 w.2))[k]? = (a.set w.1 w.2)[k]? :=
      ih _ (fun w' hw' => hk w' (List.mem_cons_of_mem _ hw'))
    have h2 : w.1 ≠ k := hk w (List.mem_cons_self _ _)
    simp only [writes, List.foldl_cons] at h1 ⊢
    rw [h1, List.getElem?_set_ne h2]

theorem writes_getElem?_of_mem {K : Type} (ws : List (Nat × K)) (a : List K) (k : Nat) (v : K)
    (hnd : (ws.map Prod.fst).Nodup) (hmem : (k, v) ∈ ws) (hk : k < a.length) :
    (writes ws a)[k]? = some v := by
  induction ws generalizing a with
  | nil => simp at hmem
  | cons w ws ih =>
    simp only [List.map_cons, List.nodup_cons] at hnd
    rcases List.mem_cons.mp hmem with h | h
    · subst h
      have h1 : (writes ws (a.set k v))[k]? = (a.set k v)[k]? := by
        apply writes_getElem?_of_not_mem
        intro w' hw' heq
        exact hnd.1 (List.mem_map.mpr ⟨w', hw', heq⟩)
      simp only [writes, List.foldl_cons] at h1 ⊢
      rw [h1, List.getElem?_set_self hk]
    · have := ih (a.set w.1 w.2) hnd.2 h (by simpa using hk)
      simpa [writes] using this

theorem forLoop_eq_foldl_range {σ : Type} (n : Nat) (body : Nat → σ → σ) (s : σ) :
    forLoop 0 n body s = (List.range n).foldl (fun s i => body i s) s := by
  simp [forLoop, List.range_eq_range']

theorem foldl_proj {σ τ : Type} (proj : σ → τ) (body : Nat → σ → σ) (body' : Nat → τ → τ)
    (h : ∀ i s, proj (body i s) = body' i (proj s)) (l : List Nat) (s : σ) :
    proj (l.foldl (fun s i => body i s) s) = l.foldl (fun t i => body' i t) (proj s) := by
  induction l generalizing s with
  | nil => rfl
  | cons i l ih => simp only [List.foldl_cons]; rw [ih, h]

theorem foldl_set_eq_writes {K : Type} (g : Nat → Nat) (f : Nat → K) (l : List Nat)
    (a : List K) :
    l.foldl (fun a i => a.set (g i) (f i)) a = writes (l.map (fun i => (g i, f i))) a := by
  induction l generalizing a with
  | nil => rfl
  | cons i l ih => simp only [List.foldl_cons, List.map_cons, writes] at ih ⊢; rw [ih]

theorem foldl_set2_eq_writes {K : Type} (g g' : Nat → Nat) (f f' : Nat → K) (l : List Nat)
    (a : List K) :
    l.foldl (fun a i => (a.set (g i) (f i)).set (g' i) (f' i)) a
      = writes (l.flatMap (fun i => [(g i, f i), (g' i, f' i)])) a := by
  induction l generalizing a with
  | nil => rfl
  | cons i l ih =>
    simp only [List.foldl_cons, List.flatMap_cons, writes, List.cons_append, List.nil_append]
      at ih ⊢
    rw [ih]


/-! ## Permutations read through `rdIdx` -/

theorem rdIdx_eq_getElem (order : List Nat) (i : Nat) (h : i < order.length) :
    rdIdx order i = order[i] := by
  simp [rdIdx, List.getD_eq_getElem?_getD, List.getElem?_eq_getElem h]

theorem perm_range_length {order : List Nat} {n : Nat} (h : order.Perm (List.range n)) :
    order.length = n := by
  simpa using h.length_eq

theorem perm_range_lt {order : List Nat} {n : Nat} (h : order.Perm (List.range n))
    (i : Nat) (hi : i < n) : rdIdx order i < n := by
  have hl := perm_range_length h
  rw [rdIdx_eq_getElem order i (by omega)]
  have : order[i] ∈ List.range n := h.subset (List.getElem_mem _)
  simpa using this

theorem perm_range_inj {order : List Nat} {n : Nat} (h : order.Perm (List.range n))
    (i : Nat) (hi : i < n) (j : Nat) (hj : j < n) (hij : rdIdx order i = rdIdx order j) :
    i = j := by
  have hl := perm_range_length h
  have hnd : order.Nodup := h.nodup_iff.mpr (List.nodup_range n)
  rw [rdIdx_eq_getElem order i (by omega), rdIdx_eq_getElem order j (by omega)] at hij
  exact (List.Nodup.getElem_inj_iff hnd).mp hij

theorem perm_range_surj {order : List Nat} {n : Nat} (h : order.Perm (List.range n))
    (k : Nat) (hk : k < n) : ∃ i, i < n ∧ rdIdx order i = k := by
  have hl := perm_range_length h
  have : k ∈ order := h.symm.subset (by simpa using hk)
  obtain ⟨i, hi, hik⟩ := List.getElem_of_mem this
  exact ⟨i, by omega, by rw [rdIdx_eq_getElem order i hi]; exact hik⟩

/-! ## Loops that write one or two array entries per iteration -/

theorem scatter_length {K : Type} (g : Nat → Nat) (f : Nat → K) (l : List Nat) (a : List K) :
    (l.foldl (fun a i => a.set (g i) (f i)) a).length = a.length := by
  rw [foldl_set_eq_writes, writes_length]

theorem scatter_getElem? {K : Type} (n : Nat) (g : Nat → Nat) (f : Nat → K) (a : List K)
    (hinj : ∀ i, i < n → ∀ j, j < n → g i = g j → i = j) (i : Nat) (hi : i < n)
    (hg : g i < a.length) :
    ((List.range n).foldl (fun a i => a.set (g i) (f i)) a)[g i]? = some (f i) := by
  rw [foldl_set_eq_writes]
  apply writes_getElem?_of_mem _ _ _ _ _ _ hg
  · rw [List.map_map]
    refine (List.nodup_map_iff_inj_on (List.nodup_range n)).mpr ?_
    intro x hx y hy hxy
    exact hinj x (List.mem_range.mp hx) y (List.mem_range.mp hy) hxy
  · exact List.mem_map.mpr ⟨i, List.mem_range.mpr hi, rfl⟩

theorem scatter2_length {K : Type} (g g' : Nat → Nat) (f f' : Nat → K) (l : List Nat)
    (a : List K) :
    (l.foldl (fun a i => (a.set (g i) (f i)).set (g' i) (f' i)) a).length = a.length := by
  rw [foldl_set2_eq_writes, writes_length]

theorem scatter2_nodup (n : Nat) (g : Nat → Nat)
    (hinj : ∀ i, i < n → ∀ j, j < n → g i = g j → i = j) (hlt : ∀ i, i < n → g i < n) :
    ((List.range n).flatMap (fun i => [g i, g i + n])).Nodup := by
  rw [List.nodup_flatMap]
  constructor
  · intro i hi
    have := List.mem_range.mp hi
    simp
    omega
  · refine (List.nodup_range n).pairwise_of_forall_ne ?_
    intro i hi j hj hij
    have hi' := List.mem_range.mp hi
    have hj' := List.mem_range.mp hj
    have h1 : g i ≠ g j := fun h => hij (hinj i hi' j hj' h)
    have h2 := hlt i hi'
    have h3 := hlt j hj'
    intro x hx hx'
    simp only [List.mem_cons, List.mem_singleton, List.not_mem_nil, or_false] at hx hx'
    omega

theorem scatter2_getElem? {K : Type} (n : Nat) (g : Nat → Nat) (f f' : Nat → K) (a : List K)
    (hinj : ∀ i, i < n → ∀ j, j < n → g i = g j → i = j) (hlt : ∀ i, i < n → g i < n)
    (ha : a.length = 2 * n) (i : Nat) (hi : i < n) :
    ((List.range n).foldl (fun a i => (a.set (g i) (f i)).set (g i + n) (f' i)) a)[g i]?
        = some (f i) ∧
    ((List.range n).foldl (fun a i => (a.set (g i) (f i)).set (g i + n) (f' i)) a)[g i + n]?
        = some (f' i) := by
  rw [foldl_set2_eq_writes]
  have hnd : (((List.range n).flatMap
      (fun i => [(g i, f i), (g i + n, f' i)])).map Prod.fst).Nodup := by
    have := scatter2_nodup n g hinj hlt
    simpa [List.map_flatMap] using this
  have h2 := hlt i hi
  constructor
  · apply writes_getElem?_of_mem _ _ _ _ hnd _ (by omega)
    exact List.mem_flatMap.mpr ⟨i, List.mem_range.mpr hi, by simp⟩
  · apply writes_getElem?_of_mem _ _ _ _ hnd _ (by omega)
    exact List.mem_flatMap.mpr ⟨i, List.mem_range.mpr hi, by simp⟩

theorem rd_take {K : Type} [Zero K] (a : List K) (m i : Nat) (h : i < m) :
    rd (a.take m) i = rd a i := by
  simp [rd, List.getElem?_take, h]

theorem rd_of_getElem? {K : Type} [Zero K] (a : List K) (i : Nat) (v : K)
    (h : a[i]? = some v) : rd a i = v := by
  simp [rd, h]

theorem getElem?_eq_some_rd {K : Type} [Zero K] (a : List K) (i : Nat) (h : i < a.length) :
    a[i]? = some (rd a i) := by
  simp [rd, List.getElem?_eq_getElem h]

/-- Gathering an array through a permutation and scattering the result back through the
same permutation gives the array back. -/
theorem scatter_gather_id {K : Type} [Zero K] (n : Nat) (order : List Nat)
    (h : order.Perm (List.range n)) (a : List K) (ha : a.length = n) :
    (List.range n).foldl (fun b i => b.set (rdIdx order i)
        (rd (((List.range n).foldl
          (fun b i => b.set i (rd (a.take n) (rdIdx order i))) a).take n) i))
      ((List.range n).foldl (fun b i => b.set i (rd (a.take n) (rdIdx order i))) a) = a := by
  set a1 := (List.range n).foldl (fun b i => b.set i (rd (a.take n) (rdIdx order i))) a
    with ha1
  have hlen1 : a1.length = n := by rw [ha1, scatter_length, ha]
  have hg : ∀ i, i < n → rd a1 i = rd a (rdIdx order i) := by
    intro i hi
    have := scatter_getElem? n (fun i => i) (fun i => rd (a.take n) (rdIdx order i)) a
      (fun _ _ _ _ e => e) i hi (by show i < a.length; omega)
    beta_reduce at this
    rw [rd_of_getElem? _ _ _ this, rd_take _ _ _ (perm_range_lt h i hi)]
  apply List.ext_getElem?
  intro k
  by_cases hk : k < n
  · obtain ⟨i, hi, hik⟩ := perm_range_surj h k hk
    have := scatter_getElem? n (rdIdx order) (fun i => rd (a1.take n) i) a1
      (perm_range_inj h) i hi (by rw [hlen1]; exact perm_range_lt h i hi)
    beta_reduce at this
    rw [hik] at this
    rw [this, rd_take _ _ _ hi, hg i hi, hik, getElem?_eq_some_rd a k (by omega)]
  · rw [List.getElem?_eq_none (by rw [scatter_length, hlen1]; omega),
      List.getElem?_eq_none (by omega)]

/-- The two-halves variant of `scatter_gather_id`, for an array of `2 n` entries whose
halves are permuted alike. -/
theorem scatter2_gather2_id {K : Type} [Zero K] (n : Nat) (order : List Nat)
    (h : order.Perm (List.range n)) (a : List K) (ha : a.length = 2 * n) :
    (List.range n).foldl (fun b i => (b.set (rdIdx order i)
        (rd (((List.range n).foldl (fun b i => (b.set i (rd (a.take (2 * n)) (rdIdx order i))).set
          (i + n) (rd (a.take (2 * n)) (rdIdx order i + n))) a).take (2 * n)) i)).set
        (rdIdx order i + n)
        (rd (((List.range n).foldl (fun b i => (b.set i (rd (a.take (2 * n)) (rdIdx order i))).set
          (i + n) (rd (a.take (2 * n)) (rdIdx order i + n))) a).take (2 * n)) (i + n)))
      ((List.range n).foldl (fun b i => (b.set i (rd (a.take (2 * n)) (rdIdx order i))).set
          (i + n) (rd (a.take (2 * n)) (rdIdx order i + n))) a) = a := by
  set a1 := (List.range n).foldl (fun b i => (b.set i (rd (a.take (2 * n)) (rdIdx order i))).set
          (i + n) (rd (a.take (2 * n)) (rdIdx order i + n))) a with ha1
  have hlen1 : a1.length = 2 * n := by rw [ha1, scatter2_length, ha]
  have hg : ∀ i, i < n → rd a1 i = rd a (rdIdx order i) ∧
      rd a1 (i + n) = rd a (rdIdx order i + n) := by
    intro i hi
    have := scatter2_getElem? n (fun i => i) (fun i => rd (a.take (2 * n)) (rdIdx order i))
      (fun i => rd (a.take (2 * n)) (rdIdx order i + n)) a
      (fun _ _ _ _ e => e) (fun _ hi => hi) ha i hi
    beta_reduce at this
    have hlt := perm_range_lt h i hi
    rw [rd_of_getElem? _ _ _ this.1, rd_of_getElem? _ _ _ this.2,
      rd_take _ _ _ (by omega), rd_take _ _ _ (by omega)]
    exact ⟨rfl, rfl⟩
  apply List.ext_getElem?
  intro k
  have key := scatter2_getElem? n (rdIdx order) (fun i => rd (a1.take (2 * n)) i)
      (fun i => rd (a1.take (2 * n)) (i + n)) a1 (perm_range_inj h) (perm_range_lt h) hlen1
  beta_reduce at key
  by_cases hk : k < n
  · obtain ⟨i, hi, hik⟩ := perm_range_surj h k hk
    have := (key i hi).1
    rw [hik] at this
    rw [this, rd_take _ _ _ (by omega), (hg i hi).1, hik, getElem?_eq_some_rd a k (by omega)]
  · by_cases hk2 : k < 2 * n
    · obtain ⟨i, hi, hik⟩ := perm_range_surj h (k - n) (by omega)
      have := (key i hi).2
      have e : rdIdx order i + n = k := by omega
      rw [e] at this
      rw [this, rd_take _ _ _ (by omega), (hg i hi).2, e, getElem?_eq_some_rd a k (by omega)]
    · rw [List.getElem?_eq_none (by rw [scatter2_length, hlen1]; omega),
        List.getElem?_eq_none (by omega)]

/-! ## `treecode.c`: `TreecodeFinalization` undoes `TreecodeInitialization` -/

theorem foldl_const_id {τ : Type} (l : List Nat) (t : τ) :
    l.foldl (fun t _ => t) t = t := by
  induction l with
  | nil => rfl
  | cons i l ih => simp

theorem TreecodeInitialization_order {K : Type} [Zero K] (p : TreeParticles K) :
    (TreecodeInitialization p).order = p.order ∧ (TreecodeInitialization p).num = p.num := by
  unfold TreecodeInitialization
  simp only [forLoop_eq_foldl_range]
  constructor
  · exact (foldl_proj TreeParticles.order (TreecodeInitialization_body _ _ _ _ _ _ _)
      (fun _ o => o) (fun _ _ => rfl) _ _).trans (foldl_const_id _ _)
  · exact (foldl_proj TreeParticles.num (TreecodeInitialization_body _ _ _ _ _ _ _)
      (fun _ o => o) (fun _ _ => rfl) _ _).trans (foldl_const_id _ _)

theorem TreecodeInitialization_nx {K : Type} [Zero K] (p : TreeParticles K) :
    (TreecodeInitialization p).nx = (List.range p.num).foldl
      (fun b i => b.set i (rd (p.nx.take p.num) (rdIdx p.order i))) p.nx := by
  unfold TreecodeInitialization
  simp only [forLoop_eq_foldl_range]
  exact foldl_proj TreeParticles.nx _ _ (fun _ _ => rfl) _ _

theorem TreecodeInitialization_ny {K : Type} [Zero K] (p : TreeParticles K) :
    (TreecodeInitialization p).ny = (List.range p.num).foldl
      (fun b i => b.set i (rd (p.ny.take p.num) (rdIdx p.order i))) p.ny := by
  unfold TreecodeInitialization
  simp only [forLoop_eq_foldl_range]
  exact foldl_proj TreeParticles.ny _ _ (fun _ _ => rfl) _ _

theorem TreecodeInitialization_nz {K : Type} [Zero K] (p : TreeParticles K) :
    (TreecodeInitialization p).nz = (List.range p.num).foldl
      (fun b i => b.set i (rd (p.nz.take p.num) (rdIdx p.order i))) p.nz := by
  unfold TreecodeInitialization
  simp only [forLoop_eq_foldl_range]
  exact foldl_proj TreeParticles.nz _ _ (fun _ _ => rfl) _ _

theorem TreecodeInitialization_area {K : Type} [Zero K] (p : TreeParticles K) :
    (TreecodeInitialization p).area = (List.range p.num).foldl
      (fun b i => b.set i (rd (p.area.take p.num) (rdIdx p.order i))) p.area := by
  unfold TreecodeInitialization
  simp only [forLoop_eq_foldl_range]
  exact foldl_proj TreeParticles.area _ _ (fun _ _ => rfl) _ _

theorem TreecodeInitialization_source_term {K : Type} [Zero K] (p : TreeParticles K) :
    (TreecodeInitialization p).source_term = (List.range p.num).foldl
      (fun b i => (b.set i (rd (p.source_term.take (2 * p.num)) (rdIdx p.order i))).set
        (i + p.num) (rd (p.source_term.take (2 * p.num)) (rdIdx p.order i + p.num)))
      p.source_term := by
  unfold TreecodeInitialization
  simp only [forLoop_eq_foldl_range]
  exact foldl_proj TreeParticles.source_term _ _ (fun _ _ => rfl) _ _

theorem TreecodeFinalization_nx {K : Type} [Zero K] (p : TreeParticles K) :
    (TreecodeFinalization p).nx = (List.range p.num).foldl
      (fun b i => b.set (rdIdx p.order i) (rd (p.nx.take p.num) i)) p.nx := by
  unfold TreecodeFinalization
  simp only [forLoop_eq_foldl_range]
  exact foldl_proj TreeParticles.nx _ _ (fun _ _ => rfl) _ _

theorem TreecodeFinalization_ny {K : Type} [Zero K] (p : TreeParticles K) :
    (TreecodeFinalization p).ny = (List.range p.num).foldl
      (fun b i => b.set (rdIdx p.order i) (rd (p.ny.take p.num) i)) p.ny := by
  unfold TreecodeFinalization
  simp only [forLoop_eq_foldl_range]
  exact foldl_proj TreeParticles.ny _ _ (fun _ _ => rfl) _ _

theorem TreecodeFinalization_nz {K : Type} [Zero K] (p : TreeParticles K) :
    (TreecodeFinalization p).nz = (List.range p.num).foldl
      (fun b i => b.set (rdIdx p.order i) (rd (p.nz.take p.num) i)) p.nz := by
  unfold TreecodeFinalization
  simp only [forLoop_eq_foldl_range]
  exact foldl_proj TreeParticles.nz _ _ (fun _ _ => rfl) _ _

theorem TreecodeFinalization_area {K : Type} [Zero K] (p : TreeParticles K) :
    (TreecodeFinalization p).area = (List.range p.num).foldl
      (fun b i => b.set (rdIdx p.order i) (rd (p.area.take p.num) i)) p.area := by
  unfold TreecodeFinalization
  simp only [forLoop_eq_foldl_range]
  exact foldl_proj TreeParticles.area _ _ (fun _ _ => rfl) _ _

theorem TreecodeFinalization_source_term {K : Type} [Zero K] (p : TreeParticles K) :
    (TreecodeFinalization p).source_term = (List.range p.num).foldl
      (fun b i => (b.set (rdIdx p.order i) (rd (p.source_term.take (2 * p.num)) i)).set
        (rdIdx p.order i + p.num) (rd (p.source_term.take (2 * p.num)) (i + p.num)))
      p.source_term := by
  unfold TreecodeFinalization
  simp only [forLoop_eq_foldl_range]
  exact foldl_proj TreeParticles.source_term _ _ (fun _ _ => rfl) _ _

/-- C3: for every permutation `order` of `{0,...,N-1}` the scatter of
`TreecodeFinalization` (`a[order[i]] = tmp[i]`) inverts the gather of
`TreecodeInitialization` (`a[i] = tmp[order[i]]`): running the two reorderings one after
the other returns the normals, the areas and both halves of the source term to their
original contents. -/
theorem finalization_inverts_initialization {K : Type} [Zero K] (p : TreeParticles K)
    (horder : p.order.Perm (List.range p.num))
    (hnx : p.nx.length = p.num) (hny : p.ny.length = p.num) (hnz : p.nz.length = p.num)
    (harea : p.area.length = p.num) (hsrc : p.source_term.length = 2 * p.num) :
    (TreecodeFinalization (TreecodeInitialization p)).nx = p.nx ∧
    (TreecodeFinalization (TreecodeInitialization p)).ny = p.ny ∧
    (TreecodeFinalization (TreecodeInitialization p)).nz = p.nz ∧
    (TreecodeFinalization (TreecodeInitialization p)).area = p.area ∧
    (TreecodeFinalization (TreecodeInitialization p)).source_term = p.source_term := by
  obtain ⟨ho, hn⟩ := TreecodeInitialization_order p
  refine ⟨?_, ?_, ?_, ?_, ?_⟩
  · rw [TreecodeFinalization_nx, ho, hn, TreecodeInitialization_nx]
    exact scatter_gather_id p.num p.order horder p.nx hnx
  · rw [TreecodeFinalization_ny, ho, hn, TreecodeInitialization_ny]
    exact scatter_gather_id p.num p.order horder p.ny hny
  · rw [TreecodeFinalization_nz, ho, hn, TreecodeInitialization_nz]
    exact scatter_gather_id p.num p.order horder p.nz hnz
  · rw [TreecodeFinalization_area, ho, hn, TreecodeInitialization_area]
    exact scatter_gather_id p.num p.order horder p.area harea
  · rw [TreecodeFinalization_source_term, ho, hn, TreecodeInitialization_source_term]
    exact scatter2_gather2_id p.num p.order horder p.source_term hsrc

/-- C3 at a concrete input: three particles reordered by the cyclic shift `[1, 2, 0]`. -/
theorem finalization_inverts_initialization_witness :
    sampleTreeParticles.order.Perm (List.range sampleTreeParticles.num) ∧
    (TreecodeInitialization sampleTreeParticles).nx = [20, 30, 10] ∧
    (TreecodeFinalization (TreecodeInitialization sampleTreeParticles)).nx = [10, 20, 30] ∧
    (TreecodeFinalization (TreecodeInitialization sampleTreeParticles)).source_term
      = [4, 5, 6, 7, 8, 9] :=
  ⟨by decide, by rfl,
   (finalization_inverts_initialization sampleTreeParticles (by decide) rfl rfl rfl rfl rfl).1,
   (finalization_inverts_initialization sampleTreeParticles (by decide) rfl rfl rfl rfl
      rfl).2.2.2.2⟩

/-! ## `particles.cpp`: `reorder` followed by `unorder` -/

/-- C2 (the code departs from the claim): `Particles::unorder` applies the same gather
`apply_order` as `Particles::reorder`, so for the cyclic shift `order_ = [1, 2, 0]` the
normals `[10, 20, 30]` become `[20, 30, 10]` after `reorder` and `[30, 10, 20]` after
`unorder`; the areas and the source term are likewise not restored. -/
theorem reorder_unorder_not_restored :
    sampleParticles.order_.Perm (List.range sampleParticles.num_) ∧
    sampleParticles.reorder.nx_ = [20, 30, 10] ∧
    (sampleParticles.reorder.unorder [0, 0, 0, 0, 0, 0]).1.nx_ = [30, 10, 20] ∧
    (sampleParticles.reorder.unorder [0, 0, 0, 0, 0, 0]).1.nx_ ≠ sampleParticles.nx_ ∧
    (sampleParticles.reorder.unorder [0, 0, 0, 0, 0, 0]).1.area_ ≠ sampleParticles.area_ ∧
    (sampleParticles.reorder.unorder [0, 0, 0, 0, 0, 0]).1.source_term_
      ≠ sampleParticles.source_term_ := by
  refine ⟨by decide, by rfl, by rfl, by decide, by decide, by decide⟩

/-! ## `gmres.cpp`: the iteration limit -/

theorem gmres_inner_no_convergence {S R : Type} [LinearOrder R] (k : GmresKernels S R)
    (tol : R) (hrot : ∀ i s, tol < k.rotated_residual i s) (m : Nat) (i : Int)
    (st : GmresState S R) :
    (gmres_inner k tol m i st).2 = false ∧
    (gmres_inner k tol m i st).1.iter = st.iter + m := by
  induction m generalizing i st with
  | zero => simp [gmres_inner]
  | succ m ih =>
    simp only [gmres_inner, not_le.mpr (hrot _ _), if_false]
    refine ⟨(ih _ _).1, ?_⟩
    rw [(ih _ _).2]
    push_cast
    ring

/-- When no residual test of the restart loop ever succeeds and `maxit` is not a multiple
of `restrt`, the test `iter == maxit` is never true after a full cycle and the loop never
returns. -/
theorem gmres_restart_never_returns {S R : Type} [LinearOrder R] (k : GmresKernels S R)
    (restrt maxit : Int) (tol : R) (hrestrt : 0 < restrt) (hmaxit : ¬ restrt ∣ maxit)
    (hrot : ∀ i s, tol < k.rotated_residual i s) (hrel : ∀ s, tol < k.relative_residual s)
    (fuel : Nat) (st : GmresState S R) (hst : restrt ∣ st.iter) :
    gmres_restart k restrt maxit tol fuel st = none := by
  induction fuel generalizing st with
  | zero => rfl
  | succ fuel ih =>
    obtain ⟨h1, h2⟩ := gmres_inner_no_convergence k tol hrot restrt.toNat 0
      { st with mem := k.first_column st.mem }
    unfold gmres_restart
    simp only
    generalize gmres_inner k tol restrt.toNat 0 { st with mem := k.first_column st.mem } = r
      at h1 h2
    obtain ⟨st1, flag⟩ := r
    simp only at h1 h2
    subst h1
    have hiter : st1.iter = st.iter + restrt := by
      rw [h2, Int.toNat_of_nonneg hrestrt.le]
    have hdvd : restrt ∣ st1.iter := by
      rw [hiter]; exact dvd_add hst (dvd_refl _)
    have hne : st1.iter ≠ maxit := fun h => hmaxit (h ▸ hdvd)
    simp only [not_le.mpr (hrel _), if_false, hne]
    exact ih _ hdvd

/-- C1 (the code departs from the claim): the only test of the limit is `iter == maxit`
after a full cycle of `restrt` inner iterations.  For `restrt = 10`, `maxit = 5` and
tolerance `1e-18`, a run whose residual ratio stays at `1` never returns (for every bound
on the number of restart cycles the loop is still running), and a run that converges in
its 7th inner iteration returns `0` with `iter = 7 > maxit`. -/
theorem gmres_overruns_iteration_limit :
    (∀ fuel, gmres_ stagnatingKernels 2 10 2 11 fuel (gmresStart Unit ()) = none) ∧
    (gmres_ (countingKernels 7) 2 10 2 11 1 (gmresStart Nat 0)).map
        (fun r => (r.1, r.2.iter, r.2.matvec_calls)) = some (0, 7, 7) := by
  constructor
  · intro fuel
    have h := gmres_restart_never_returns stagnatingKernels 10 5 (1 / 10 ^ 18) (by norm_num)
      (by norm_num) (fun _ _ => by norm_num [stagnatingKernels])
      (fun _ => by norm_num [stagnatingKernels]) fuel
      { mem := (), iter := 0, resid := 1 / 10 ^ 18, matvec_calls := 0, precond_calls := 1 }
      (by norm_num)
    simp only [gmres_, gmresStart, stagnatingKernels] at h ⊢
    norm_num
    exact h
  · simp only [gmres_, gmresStart, countingKernels]
    norm_num [gmres_restart, gmres_inner]

/-! ## `particles.cpp`: the child ranges of `partition_8` -/

theorem rdIdx_set (pb : List Nat) (j v m : Nat) (hj : j < pb.length) :
    rdIdx (pb.set j v) m = if m = j then v else rdIdx pb m := by
  unfold rdIdx
  simp only [List.getD_eq_getElem?_getD, List.getElem?_set]
  by_cases h : m = j
  · subst h; simp [hj]
  · have h' : ¬ j = m := fun e => h e.symm
    simp [h, h']

theorem split_child_length {K : Type} (call : Particles K → Nat → Nat → Particles K × Nat)
    (nc i : Nat) (st : Particles K × List Nat) :
    (split_child call nc i st).2.length = st.2.length := by
  simp [split_child]

theorem split_child_rdIdx {K : Type} (call : Particles K → Nat → Nat → Particles K × Nat)
    (nc i : Nat) (st : Particles K × List Nat) (hlen : 2 * (nc + i) + 1 < st.2.length)
    (m : Nat) :
    rdIdx (split_child call nc i st).2 m =
      if m = 2 * i + 1 then (call st.1 (rdIdx st.2 (2 * i)) (rdIdx st.2 (2 * i + 1))).2
      else if m = 2 * (nc + i) + 1 then rdIdx st.2 (2 * i + 1)
      else if m = 2 * (nc + i) then (call st.1 (rdIdx st.2 (2 * i)) (rdIdx st.2 (2 * i + 1))).2
      else rdIdx st.2 m := by
  simp only [split_child, Nat.add_zero]
  rw [rdIdx_set _ _ _ _ (by simp; omega), rdIdx_set _ _ _ _ (by simp; omega),
    rdIdx_set _ _ _ _ (by omega), rdIdx_set _ _ _ _ (by omega)]
  have h1 : ¬ (2 * i + 1 = 2 * (nc + i)) := by omega
  simp only [h1, if_false]

/-- The effect of the loop `for (i = 0; i < num_children; ++i)` after `k` iterations:
the children below `k` are split at a pivot inside their old range, the others are as
they were. -/
theorem split_loop_spec {K : Type} (call : Particles K → Nat → Nat → Particles K × Nat)
    (hcall : ∀ p b e, b ≤ e → b ≤ (call p b e).2 ∧ (call p b e).2 ≤ e)
    (nc : Nat) (p : Particles K) (pb : List Nat) (hlen : 4 * nc ≤ pb.length)
    (hval : ∀ i, i < nc → rdIdx pb (2 * i) ≤ rdIdx pb (2 * i + 1)) (k : Nat) (hk : k ≤ nc) :
    ((List.range k).foldl (fun s i => split_child call nc i s) (p, pb)).2.length = pb.length ∧
    (∀ i, i < k →
      rdIdx ((List.range k).foldl (fun s i => split_child call nc i s) (p, pb)).2 (2 * i)
        = rdIdx pb (2 * i) ∧
      rdIdx pb (2 * i)
        ≤ rdIdx ((List.range k).foldl (fun s i => split_child call nc i s) (p, pb)).2 (2 * i + 1) ∧
      rdIdx ((List.range k).foldl (fun s i => split_child call nc i s) (p, pb)).2 (2 * i + 1)
        ≤ rdIdx pb (2 * i + 1) ∧
      rdIdx ((List.range k).foldl (fun s i => split_child call nc i s) (p, pb)).2 (2 * (nc + i))
        = rdIdx ((List.range k).foldl (fun s i => split_child call nc i s) (p, pb)).2 (2 * i + 1) ∧
      rdIdx ((List.range k).foldl (fun s i => split_child call nc i s) (p, pb)).2
        (2 * (nc + i) + 1) = rdIdx pb (2 * i + 1)) ∧
    (∀ i, k ≤ i → i < nc →
      rdIdx ((List.range k).foldl (fun s i => split_child call nc i s) (p, pb)).2 (2 * i)
        = rdIdx pb (2 * i) ∧
      rdIdx ((List.range k).foldl (fun s i => split_child call nc i s) (p, pb)).2 (2 * i + 1)
        = rdIdx pb (2 * i + 1)) := by
  induction k with
  | zero => simp
  | succ k ih =>
    obtain ⟨hl, hdone, htodo⟩ := ih (by omega)
    rw [List.range_succ, List.foldl_append]
    simp only [List.foldl_cons, List.foldl_nil]
    generalize (List.range k).foldl (fun s i => split_child call nc i s) (p, pb) = st
      at hl hdone htodo
    have hlen' : 2 * (nc + k) + 1 < st.2.length := by omega
    have hk0 := htodo k (le_refl _) (by omega)
    have hpiv := hcall st.1 (rdIdx st.2 (2 * k)) (rdIdx st.2 (2 * k + 1))
      (by rw [hk0.1, hk0.2]; exact hval k (by omega))
    rw [hk0.1, hk0.2] at hpiv
    refine ⟨by rw [split_child_length, hl], ?_, ?_⟩
    · intro i hi
      simp only [split_child_rdIdx call nc k st hlen']
      by_cases hik : i = k
      · subst hik
        have e1 : ¬ (2 * i = 2 * i + 1) := by omega
        have e2 : ¬ (2 * i = 2 * (nc + i) + 1) := by omega
        have e3 : ¬ (2 * i = 2 * (nc + i)) := by omega
        have e4 : ¬ (2 * (nc + i) = 2 * i + 1) := by omega
        have e5 : ¬ (2 * (nc + i) = 2 * (nc + i) + 1) := by omega
        have e6 : ¬ (2 * (nc + i) + 1 = 2 * i + 1) := by omega
        simp only [e1, e2, e3, e4, e5, e6, if_true, if_false]
        rw [hk0.1, hk0.2]
        exact ⟨rfl, hpiv.1, hpiv.2, trivial, rfl⟩
      · have hi' : i < k := by omega
        obtain ⟨d1, d2, d3, d4, d5⟩ := hdone i hi'
        have e1 : ¬ (2 * i = 2 * k + 1) := by omega
        have e2 : ¬ (2 * i = 2 * (nc + k) + 1) := by omega
        have e3 : ¬ (2 * i = 2 * (nc + k)) := by omega
        have e4 : ¬ (2 * i + 1 = 2 * k + 1) := by omega
        have e5 : ¬ (2 * i + 1 = 2 * (nc + k) + 1) := by omega
        have e6 : ¬ (2 * i + 1 = 2 * (nc + k)) := by omega
        have e7 : ¬ (2 * (nc + i) = 2 * k + 1) := by omega
        have e8 : ¬ (2 * (nc + i) = 2 * (nc + k) + 1) := by omega
        have e9 : ¬ (2 * (nc + i) = 2 * (nc + k)) := by omega
        have e10 : ¬ (2 * (nc + i) + 1 = 2 * k + 1) := by omega
        have e11 : ¬ (2 * (nc + i) + 1 = 2 * (nc + k) + 1) := by omega
        have e12 : ¬ (2 * (nc + i) + 1 = 2 * (nc + k)) := by omega
        simp only [e1, e2, e3, e4, e5, e6, e7, e8, e9, e10, e11, e12, if_false]
        exact ⟨d1, d2, d3, d4, d5⟩
    · intro i hki hi
      simp only [split_child_rdIdx call nc k st hlen']
      obtain ⟨t1, t2⟩ := htodo i (by omega) hi
      have e1 : ¬ (2 * i = 2 * k + 1) := by omega
      have e2 : ¬ (2 * i = 2 * (nc + k) + 1) := by omega
      have e3 : ¬ (2 * i = 2 * (nc + k)) := by omega
      have e4 : ¬ (2 * i + 1 = 2 * k + 1) := by omega
      have e5 : ¬ (2 * i + 1 = 2 * (nc + k) + 1) := by omega
      have e6 : ¬ (2 * i + 1 = 2 * (nc + k)) := by omega
      simp only [e1, e2, e3, e4, e5, e6, if_false]
      exact ⟨t1, t2⟩

theorem consecutive_split (pb pb1 : List Nat) (nc : Nat) (ord : List Nat) (b e : Nat)
    (hord : ∀ i, i ∈ ord → i < nc)
    (hsplit : ∀ i, i < nc →
      rdIdx pb1 (2 * i) = rdIdx pb (2 * i) ∧
      rdIdx pb (2 * i) ≤ rdIdx pb1 (2 * i + 1) ∧
      rdIdx pb1 (2 * i + 1) ≤ rdIdx pb (2 * i + 1) ∧
      rdIdx pb1 (2 * (nc + i)) = rdIdx pb1 (2 * i + 1) ∧
      rdIdx pb1 (2 * (nc + i) + 1) = rdIdx pb (2 * i + 1))
    (h : Consecutive pb ord b e) :
    Consecutive pb1 (ord.flatMap (fun i => [i, nc + i])) b e := by
  induction ord generalizing b with
  | nil => simpa [Consecutive] using h
  | cons i ord ih =>
    obtain ⟨h1, h2, h3⟩ := h
    obtain ⟨s1, s2, s3, s4, s5⟩ := hsplit i (hord i (List.mem_cons_self _ _))
    have ih' := ih (rdIdx pb (2 * i + 1)) (fun j hj => hord j (List.mem_cons_of_mem _ hj)) h3
    simp only [List.flatMap_cons, List.cons_append, List.nil_append, Consecutive]
    refine ⟨by omega, by omega, s4, by omega, ?_⟩
    rw [s5]
    exact ih'

theorem consecutive_bounds (pb : List Nat) (ord : List Nat) (b e : Nat)
    (h : Consecutive pb ord b e) :
    b ≤ e ∧ ∀ i, i ∈ ord → b ≤ rdIdx pb (2 * i) ∧ rdIdx pb (2 * i) ≤ rdIdx pb (2 * i + 1) ∧
      rdIdx pb (2 * i + 1) ≤ e := by
  induction ord generalizing b with
  | nil => simp only [Consecutive] at h; subst h; simp
  | cons i ord ih =>
    obtain ⟨h1, h2, h3⟩ := h
    obtain ⟨g1, g2⟩ := ih _ h3
    refine ⟨by omega, ?_⟩
    intro j hj
    rcases List.mem_cons.mp hj with hj | hj
    · subst hj; omega
    · have := g2 j hj
      omega

theorem consecutive_cover (pb : List Nat) (ord : List Nat) (b e : Nat)
    (h : Consecutive pb ord b e) (m : Nat) (hb : b ≤ m) (he : m < e) :
    ∃ i, i ∈ ord ∧ rdIdx pb (2 * i) ≤ m ∧ m < rdIdx pb (2 * i + 1) := by
  induction ord generalizing b with
  | nil => simp only [Consecutive] at h; omega
  | cons i ord ih =>
    obtain ⟨h1, h2, h3⟩ := h
    by_cases hm : m < rdIdx pb (2 * i + 1)
    · exact ⟨i, List.mem_cons_self _ _, by omega, hm⟩
    · obtain ⟨j, hj, hj2⟩ := ih _ h3 (by omega)
      exact ⟨j, List.mem_cons_of_mem _ hj, hj2⟩

theorem consecutive_disjoint (pb : List Nat) (ord : List Nat) (b e : Nat)
    (h : Consecutive pb ord b e) (i j : Nat) (hi : i ∈ ord) (hj : j ∈ ord) (m : Nat)
    (hmi : rdIdx pb (2 * i) ≤ m ∧ m < rdIdx pb (2 * i + 1))
    (hmj : rdIdx pb (2 * j) ≤ m ∧ m < rdIdx pb (2 * j + 1)) : i = j := by
  induction ord generalizing b with
  | nil => simp at hi
  | cons k ord ih =>
    obtain ⟨h1, h2, h3⟩ := h
    have hb := (consecutive_bounds pb ord _ e h3).2
    rcases List.mem_cons.mp hi with hi1 | hi1
    · rcases List.mem_cons.mp hj with hj1 | hj1
      · rw [hi1, hj1]
      · subst hi1
        have := hb j hj1
        omega
    · rcases List.mem_cons.mp hj with hj1 | hj1
      · subst hj1
        have := hb i hi1
        omega
      · exact ih _ h3 hi1 hj1

/-- One splitting loop of `partition_8` turns consecutive child ranges into consecutive
child ranges, each child being followed by its new sibling. -/
theorem split_stage_spec {K : Type} (call : Particles K → Nat → Nat → Particles K × Nat)
    (hcall : ∀ p b e, b ≤ e → b ≤ (call p b e).2 ∧ (call p b e).2 ≤ e)
    (nc : Nat) (p : Particles K) (pb : List Nat) (hlen : 4 * nc ≤ pb.length)
    (ord : List Nat) (hord : ∀ i, i ∈ ord ↔ i < nc) (b e : Nat)
    (h : Consecutive pb ord b e) :
    Consecutive (forLoop 0 nc (split_child call nc) (p, pb)).2
      (ord.flatMap (fun i => [i, nc + i])) b e ∧
    (forLoop 0 nc (split_child call nc) (p, pb)).2.length = pb.length := by
  rw [forLoop_eq_foldl_range]
  have hval : ∀ i, i < nc → rdIdx pb (2 * i) ≤ rdIdx pb (2 * i + 1) := fun i hi =>
    ((consecutive_bounds pb ord b e h).2 i ((hord i).mpr hi)).2.1
  obtain ⟨hl, hdone, _⟩ := split_loop_spec call hcall nc p pb hlen hval nc (le_refl _)
  exact ⟨consecutive_split pb _ nc ord b e (fun i hi => (hord i).mp hi) hdone h, hl⟩

theorem partition_x_pivot {K : Type} (partition : PartitionFn K) (hp : PivotInRange partition)
    (mid : K) (p : Particles K) (b e : Nat) (hbe : b ≤ e) :
    b ≤ (p.partition_x partition mid b e).2 ∧ (p.partition_x partition mid b e).2 ≤ e :=
  hp _ _ _ _ _ _ _ hbe

theorem partition_y_pivot {K : Type} (partition : PartitionFn K) (hp : PivotInRange partition)
    (mid : K) (p : Particles K) (b e : Nat) (hbe : b ≤ e) :
    b ≤ (p.partition_y partition mid b e).2 ∧ (p.partition_y partition mid b e).2 ≤ e :=
  hp _ _ _ _ _ _ _ hbe

theorem partition_z_pivot {K : Type} (partition : PartitionFn K) (hp : PivotInRange partition)
    (mid : K) (p : Particles K) (b e : Nat) (hbe : b ≤ e) :
    b ≤ (p.partition_z partition mid b e).2 ∧ (p.partition_z partition mid b e).2 ≤ e :=
  hp _ _ _ _ _ _ _ hbe

/-- The block `if (divide_x)` of `partition_8` is the splitting loop for one child. -/
theorem divide_x_eq_split {K : Type} (partition : PartitionFn K) (x_mid : K)
    (p : Particles K) (pb : List Nat) :
    ((p.partition_x partition x_mid (rdIdx pb 0) (rdIdx pb 1)).1,
      ((pb.set 2 (p.partition_x partition x_mid (rdIdx pb 0) (rdIdx pb 1)).2).set 3
        (rdIdx (pb.set 2 (p.partition_x partition x_mid (rdIdx pb 0) (rdIdx pb 1)).2) 1)).set 1
        (p.partition_x partition x_mid (rdIdx pb 0) (rdIdx pb 1)).2)
      = forLoop 0 1 (split_child (Particles.partition_x partition x_mid) 1) (p, pb) := by
  simp [forLoop, split_child]

theorem partition_8_divide_eq {K : Type} (partition : PartitionFn K)
    (dx dy dz : Bool) (x_mid y_mid z_mid : K) (p : Particles K) (pb : List Nat) :
    p.partition_8_divide partition dx dy dz x_mid y_mid z_mid pb =
      (fun s2 : Nat × Particles K × List Nat =>
        if dz then
          (s2.1 * 2, forLoop 0 s2.1 (split_child (Particles.partition_z partition z_mid) s2.1)
            s2.2)
        else s2)
      ((fun s1 : Nat × Particles K × List Nat =>
        if dy then
          (s1.1 * 2, forLoop 0 s1.1 (split_child (Particles.partition_y partition y_mid) s1.1)
            s1.2)
        else s1)
      (if dx then
          (1 * 2, forLoop 0 1 (split_child (Particles.partition_x partition x_mid) 1) (p, pb))
        else (1, p, pb))) := by
  cases dx <;> rfl

theorem childOrder_mem (nc : Nat) (hnc : nc = 1 ∨ nc = 2 ∨ nc = 4 ∨ nc = 8) (i : Nat) :
    i ∈ childOrder nc ↔ i < nc := by
  rcases hnc with h | h | h | h <;> subst h <;> simp [childOrder] <;> omega

/-- One block `if (divide)` of `partition_8` keeps the child ranges consecutive, in the
order `childOrder` of the new number of children. -/
theorem split_stage_inv {K : Type} (call : Particles K → Nat → Nat → Particles K × Nat)
    (hcall : ∀ p b e, b ≤ e → b ≤ (call p b e).2 ∧ (call p b e).2 ≤ e)
    (flag : Bool) (s : Nat × Particles K × List Nat) (hnc : s.1 = 1 ∨ s.1 = 2 ∨ s.1 = 4)
    (hlen : s.2.2.length = 16) (b e : Nat) (h : Consecutive s.2.2 (childOrder s.1) b e) :
    (if flag then (s.1 * 2, forLoop 0 s.1 (split_child call s.1) s.2) else s).1
      = s.1 * (if flag then 2 else 1) ∧
    Consecutive (if flag then (s.1 * 2, forLoop 0 s.1 (split_child call s.1) s.2) else s).2.2
      (childOrder (if flag then (s.1 * 2, forLoop 0 s.1 (split_child call s.1) s.2) else s).1)
      b e ∧
    (if flag then (s.1 * 2, forLoop 0 s.1 (split_child call s.1) s.2) else s).2.2.length
      = 16 := by
  obtain ⟨nc, p, pb⟩ := s
  simp only at hnc hlen h
  cases flag
  · simp only [Bool.false_eq_true, if_false, mul_one]
    exact ⟨trivial, h, hlen⟩
  · simp only [if_true]
    have hmem : ∀ i, i ∈ childOrder nc ↔ i < nc := fun i =>
      childOrder_mem nc (by omega) i
    obtain ⟨g1, g2⟩ := split_stage_spec call hcall nc p pb (by omega) (childOrder nc) hmem b e h
    refine ⟨trivial, ?_, by rw [g2, hlen]⟩
    have hord : (childOrder nc).flatMap (fun i => [i, nc + i]) = childOrder (nc * 2) := by
      rcases hnc with h | h | h <;> subst h <;> rfl
    rw [← hord]
    exact g1

/-- The child ranges that the three blocks of `partition_8` leave in `partitioned_bounds`
are consecutive from `b` to `e` when enumerated in the order `childOrder num_children`,
and `num_children` is the product of a factor two for each axis that is divided. -/
theorem partition_8_divide_spec {K : Type} (partition : PartitionFn K)
    (hp : PivotInRange partition) (dx dy dz : Bool) (x_mid y_mid z_mid : K)
    (p : Particles K) (pb : List Nat) (hlen : pb.length = 16) (b e : Nat)
    (h : Consecutive pb [0] b e) :
    (p.partition_8_divide partition dx dy dz x_mid y_mid z_mid pb).1
      = (if dx then 2 else 1) * (if dy then 2 else 1) * (if dz then 2 else 1) ∧
    Consecutive (p.partition_8_divide partition dx dy dz x_mid y_mid z_mid pb).2.2
      (childOrder (p.partition_8_divide partition dx dy dz x_mid y_mid z_mid pb).1) b e ∧
    (p.partition_8_divide partition dx dy dz x_mid y_mid z_mid pb).2.2.length = 16 := by
  rw [partition_8_divide_eq]
  have hx := split_stage_inv (Particles.partition_x partition x_mid)
    (fun p b e hbe => partition_x_pivot partition hp x_mid p b e hbe) dx (1, p, pb)
    (Or.inl rfl) hlen b e h
  simp only at hx
  generalize (if dx then
      (1 * 2, forLoop 0 1 (split_child (Particles.partition_x partition x_mid) 1) (p, pb))
    else (1, p, pb)) = s1 at hx ⊢
  obtain ⟨hx1, hx2, hx3⟩ := hx
  have hnc1 : s1.1 = 1 ∨ s1.1 = 2 ∨ s1.1 = 4 := by
    cases dx <;> simp at hx1 <;> omega
  have hy := split_stage_inv (Particles.partition_y partition y_mid)
    (fun p b e hbe => partition_y_pivot partition hp y_mid p b e hbe) dy s1 hnc1 hx3 b e hx2
  simp only
  generalize (if dy then
      (s1.1 * 2, forLoop 0 s1.1 (split_child (Particles.partition_y partition y_mid) s1.1)
        s1.2)
    else s1) = s2 at hy ⊢
  obtain ⟨hy1, hy2, hy3⟩ := hy
  have hnc2 : s2.1 = 1 ∨ s2.1 = 2 ∨ s2.1 = 4 := by
    cases dx <;> cases dy <;> simp at hx1 hy1 <;> omega
  have hz := split_stage_inv (Particles.partition_z partition z_mid)
    (fun p b e hbe => partition_z_pivot partition hp z_mid p b e hbe) dz s2 hnc2 hy3 b e hy2
  obtain ⟨hz1, hz2, hz3⟩ := hz
  refine ⟨?_, hz2, hz3⟩
  rw [hz1, hy1, hx1]
  ring

/-! ## `particles.cpp`: `bounds` -/

theorem foldl_min_le {K : Type} [LinearOrder K] (l : List K) (a : K) :
    l.foldl min a ≤ a ∧ ∀ x, x ∈ l → l.foldl min a ≤ x := by
  induction l generalizing a with
  | nil => simp
  | cons y l ih =>
    simp only [List.foldl_cons]
    obtain ⟨h1, h2⟩ := ih (min a y)
    refine ⟨le_trans h1 (min_le_left _ _), ?_⟩
    intro x hx
    rcases List.mem_cons.mp hx with hx | hx
    · subst hx; exact le_trans h1 (min_le_right _ _)
    · exact h2 x hx

theorem le_foldl_max {K : Type} [LinearOrder K] (l : List K) (a : K) :
    a ≤ l.foldl max a ∧ ∀ x, x ∈ l → x ≤ l.foldl max a := by
  induction l generalizing a with
  | nil => simp
  | cons y l ih =>
    simp only [List.foldl_cons]
    obtain ⟨h1, h2⟩ := ih (max a y)
    refine ⟨le_trans (le_max_left _ _) h1, ?_⟩
    intro x hx
    rcases List.mem_cons.mp hx with hx | hx
    · subst hx; exact le_trans (le_max_right _ _) h1
    · exact h2 x hx

theorem minElement_spec {K : Type} [LinearOrder K] (l : List K) (hl : l ≠ []) :
    ∃ m, minElement l = some m ∧ ∀ x, x ∈ l → m ≤ x := by
  cases l with
  | nil => exact absurd rfl hl
  | cons a l =>
    refine ⟨l.foldl min a, rfl, ?_⟩
    intro x hx
    rcases List.mem_cons.mp hx with hx | hx
    · subst hx; exact (foldl_min_le l x).1
    · exact (foldl_min_le l a).2 x hx

theorem maxElement_spec {K : Type} [LinearOrder K] (l : List K) (hl : l ≠ []) :
    ∃ m, maxElement l = some m ∧ ∀ x, x ∈ l → x ≤ m := by
  cases l with
  | nil => exact absurd rfl hl
  | cons a l =>
    refine ⟨l.foldl max a, rfl, ?_⟩
    intro x hx
    rcases List.mem_cons.mp hx with hx | hx
    · subst hx; exact (le_foldl_max l x).1
    · exact (le_foldl_max l a).2 x hx

theorem rd_mem_slice {K : Type} [Zero K] (a : List K) (begin_ end_ i : Nat)
    (hb : begin_ ≤ i) (he : i < end_) (hlen : end_ ≤ a.length) :
    rd a i ∈ slice a begin_ end_ := by
  unfold slice
  rw [List.mem_iff_getElem]
  refine ⟨i - begin_, by simp; omega, ?_⟩
  simp only [List.getElem_take, List.getElem_drop, rd, List.getD_eq_getElem?_getD]
  have e : begin_ + (i - begin_) = i := by omega
  simp only [e]
  rw [List.getElem?_eq_getElem (by omega)]
  rfl

theorem slice_ne_nil {K : Type} (a : List K) (begin_ end_ : Nat)
    (hbe : begin_ < end_) (hlen : end_ ≤ a.length) : slice a begin_ end_ ≠ [] := by
  intro h
  have : (slice a begin_ end_).length = 0 := by rw [h]; rfl
  simp [slice] at this
  omega

/-- On a non-empty range inside the arrays `bounds` is defined and encloses every particle
of the range. -/
theorem bounds_spec {K : Type} [LinearOrderedField K] (p : Particles K) (begin_ end_ : Nat)
    (hbe : begin_ < end_) (hx : end_ ≤ p.x_.length) (hy : end_ ≤ p.y_.length)
    (hz : end_ ≤ p.z_.length) :
    ∃ x_min x_max y_min y_max z_min z_max,
      p.bounds begin_ end_ = some [x_min, x_max, y_min, y_max, z_min, z_max] ∧
      ∀ i, begin_ ≤ i → i < end_ →
        x_min ≤ rd p.x_ i ∧ rd p.x_ i ≤ x_max ∧ y_min ≤ rd p.y_ i ∧ rd p.y_ i ≤ y_max ∧
        z_min ≤ rd p.z_ i ∧ rd p.z_ i ≤ z_max := by
  obtain ⟨x_min, e1, h1⟩ := minElement_spec _ (slice_ne_nil p.x_ begin_ end_ hbe hx)
  obtain ⟨x_max, e2, h2⟩ := maxElement_spec _ (slice_ne_nil p.x_ begin_ end_ hbe hx)
  obtain ⟨y_min, e3, h3⟩ := minElement_spec _ (slice_ne_nil p.y_ begin_ end_ hbe hy)
  obtain ⟨y_max, e4, h4⟩ := maxElement_spec _ (slice_ne_nil p.y_ begin_ end_ hbe hy)
  obtain ⟨z_min, e5, h5⟩ := minElement_spec _ (slice_ne_nil p.z_ begin_ end_ hbe hz)
  obtain ⟨z_max, e6, h6⟩ := maxElement_spec _ (slice_ne_nil p.z_ begin_ end_ hbe hz)
  refine ⟨x_min, x_max, y_min, y_max, z_min, z_max, ?_, ?_⟩
  · simp only [Particles.bounds, e1, e2, e3, e4, e5, e6]
  · intro i hi1 hi2
    exact ⟨h1 _ (rd_mem_slice _ _ _ _ hi1 hi2 hx), h2 _ (rd_mem_slice _ _ _ _ hi1 hi2 hx),
      h3 _ (rd_mem_slice _ _ _ _ hi1 hi2 hy), h4 _ (rd_mem_slice _ _ _ _ hi1 hi2 hy),
      h5 _ (rd_mem_slice _ _ _ _ hi1 hi2 hz), h6 _ (rd_mem_slice _ _ _ _ hi1 hi2 hz)⟩

theorem stablePartition_pivotInRange {K : Type} [LinearOrderedField K] :
    PivotInRange (stablePartition : PartitionFn K) := by
  intro key a b order node_begin node_end mid hbe
  simp only [stablePartition]
  constructor
  · omega
  · have := List.length_filter_le (fun i => decide (rd key i < mid))
      (List.range' node_begin (node_end - node_begin))
    simp only [List.length_range'] at this
    omega

/-- What `partition_8` returns on a non-empty range inside the arrays: the number of
children is the product of a factor two for each axis whose extent exceeds
`max_len / sqrt(2)`, and the child ranges are consecutive from `begin` to `end` in the
order `childOrder num_children`. -/
theorem partition_8_spec {K : Type} [LinearOrderedField K] (sqrt : K → K)
    (partition : PartitionFn K) (hp : PivotInRange partition) (p : Particles K)
    (begin_ end_ : Nat) (pb : List Nat) (hpb : pb.length = 16) (hbe : begin_ < end_)
    (hx : end_ ≤ p.x_.length) (hy : end_ ≤ p.y_.length) (hz : end_ ≤ p.z_.length) :
    ∃ x_min x_max y_min y_max z_min z_max nc pb1 p1,
      (∀ i, begin_ ≤ i → i < end_ →
        x_min ≤ rd p.x_ i ∧ rd p.x_ i ≤ x_max ∧ y_min ≤ rd p.y_ i ∧ rd p.y_ i ≤ y_max ∧
        z_min ≤ rd p.z_ i ∧ rd p.z_ i ≤ z_max) ∧
      p.partition_8 sqrt partition begin_ end_ pb = some (nc, pb1, p1) ∧
      nc = (if x_max - x_min >
              (if (if x_max - x_min < y_max - y_min then y_max - y_min else x_max - x_min)
                  < z_max - z_min then z_max - z_min
                else (if x_max - x_min < y_max - y_min then y_max - y_min
                  else x_max - x_min)) / sqrt 2 then 2 else 1) *
           (if y_max - y_min >
              (if (if x_max - x_min < y_max - y_min then y_max - y_min else x_max - x_min)
                  < z_max - z_min then z_max - z_min
                else (if x_max - x_min < y_max - y_min then y_max - y_min
                  else x_max - x_min)) / sqrt 2 then 2 else 1) *
           (if z_max - z_min >
              (if (if x_max - x_min < y_max - y_min then y_max - y_min else x_max - x_min)
                  < z_max - z_min then z_max - z_min
                else (if x_max - x_min < y_max - y_min then y_max - y_min
                  else x_max - x_min)) / sqrt 2 then 2 else 1) ∧
      Consecutive pb1 (childOrder nc) begin_ end_ ∧ pb1.length = 16 := by
  obtain ⟨x_min, x_max, y_min, y_max, z_min, z_max, hb, hin⟩ :=
    bounds_spec p begin_ end_ hbe hx hy hz
  have h0 : Consecutive ((pb.set 0 begin_).set 1 end_) [0] begin_ end_ := by
    have e1 : ∀ m, rdIdx ((pb.set 0 begin_).set 1 end_) m
        = if m = 1 then end_ else if m = 0 then begin_ else rdIdx pb m := by
      intro m
      rw [rdIdx_set _ _ _ _ (by rw [List.length_set, hpb]; omega),
        rdIdx_set _ _ _ _ (by rw [hpb]; omega)]
    simp only [Consecutive, e1]
    simp
    omega
  have hrd : rd [x_min, x_max, y_min, y_max, z_min, z_max] 0 = x_min ∧
      rd [x_min, x_max, y_min, y_max, z_min, z_max] 1 = x_max ∧
      rd [x_min, x_max, y_min, y_max, z_min, z_max] 2 = y_min ∧
      rd [x_min, x_max, y_min, y_max, z_min, z_max] 3 = y_max ∧
      rd [x_min, x_max, y_min, y_max, z_min, z_max] 4 = z_min ∧
      rd [x_min, x_max, y_min, y_max, z_min, z_max] 5 = z_max := by
    simp [rd]
  obtain ⟨r0, r1, r2, r3, r4, r5⟩ := hrd
  refine ⟨x_min, x_max, y_min, y_max, z_min, z_max, ?_⟩
  simp only [Particles.partition_8, hb, r0, r1, r2, r3, r4, r5]
  obtain ⟨g1, g2, g3⟩ := partition_8_divide_spec partition hp
    (decide (x_max - x_min >
              (if (if x_max - x_min < y_max - y_min then y_max - y_min else x_max - x_min)
                  < z_max - z_min then z_max - z_min
                else (if x_max - x_min < y_max - y_min then y_max - y_min
                  else x_max - x_min)) / sqrt 2))
    (decide (y_max - y_min >
              (if (if x_max - x_min < y_max - y_min then y_max - y_min else x_max - x_min)
                  < z_max - z_min then z_max - z_min
                else (if x_max - x_min < y_max - y_min then y_max - y_min
                  else x_max - x_min)) / sqrt 2))
    (decide (z_max - z_min >
              (if (if x_max - x_min < y_max - y_min then y_max - y_min else x_max - x_min)
                  < z_max - z_min then z_max - z_min
                else (if x_max - x_min < y_max - y_min then y_max - y_min
                  else x_max - x_min)) / sqrt 2))
    ((x_max + x_min) / 2) ((y_max + y_min) / 2) ((z_max + z_min) / 2) p
    ((pb.set 0 begin_).set 1 end_) (by simp [hpb]) begin_ end_ h0
  refine ⟨_, _, _, hin, rfl, ?_, g2, g3⟩
  rw [g1]
  simp only [decide_eq_true_eq]

theorem sqrt_two_gt_one : (1 : ℝ) < Real.sqrt 2 := by
  rw [show (1 : ℝ) = Real.sqrt 1 by simp]
  exact Real.sqrt_lt_sqrt (by norm_num) (by norm_num)

/-- The reduction of `partition_8` to its three blocks once the bounding box and the
three comparisons with `critical_len` are known. -/
theorem partition_8_of_bounds {K : Type} [LinearOrderedField K] (sqrt : K → K)
    (partition : PartitionFn K) (p : Particles K) (begin_ end_ : Nat) (pb : List Nat)
    (x_min x_max y_min y_max z_min z_max max_len : K)
    (hb : p.bounds begin_ end_ = some [x_min, x_max, y_min, y_max, z_min, z_max])
    (hmax : (if (if x_max - x_min < y_max - y_min then y_max - y_min else x_max - x_min)
                  < z_max - z_min then z_max - z_min
                else (if x_max - x_min < y_max - y_min then y_max - y_min
                  else x_max - x_min)) = max_len)
    (dx dy dz : Bool) (hdx : dx = true ↔ x_max - x_min > max_len / sqrt 2)
    (hdy : dy = true ↔ y_max - y_min > max_len / sqrt 2)
    (hdz : dz = true ↔ z_max - z_min > max_len / sqrt 2) :
    p.partition_8 sqrt partition begin_ end_ pb =
      some ((p.partition_8_divide partition dx dy dz ((x_max + x_min) / 2)
              ((y_max + y_min) / 2) ((z_max + z_min) / 2) ((pb.set 0 begin_).set 1 end_)).1,
            (p.partition_8_divide partition dx dy dz ((x_max + x_min) / 2)
              ((y_max + y_min) / 2) ((z_max + z_min) / 2) ((pb.set 0 begin_).set 1 end_)).2.2,
            (p.partition_8_divide partition dx dy dz ((x_max + x_min) / 2)
              ((y_max + y_min) / 2) ((z_max + z_min) / 2)
              ((pb.set 0 begin_).set 1 end_)).2.1) := by
  have hrd : rd [x_min, x_max, y_min, y_max, z_min, z_max] 0 = x_min ∧
      rd [x_min, x_max, y_min, y_max, z_min, z_max] 1 = x_max ∧
      rd [x_min, x_max, y_min, y_max, z_min, z_max] 2 = y_min ∧
      rd [x_min, x_max, y_min, y_max, z_min, z_max] 3 = y_max ∧
      rd [x_min, x_max, y_min, y_max, z_min, z_max] 4 = z_min ∧
      rd [x_min, x_max, y_min, y_max, z_min, z_max] 5 = z_max := by
    simp [rd]
  obtain ⟨r0, r1, r2, r3, r4, r5⟩ := hrd
  have ex : decide (x_max - x_min > max_len / sqrt 2) = dx := by
    cases dx
    · exact decide_eq_false (fun h => Bool.false_ne_true (hdx.mpr h))
    · exact decide_eq_true (hdx.mp rfl)
  have ey : decide (y_max - y_min > max_len / sqrt 2) = dy := by
    cases dy
    · exact decide_eq_false (fun h => Bool.false_ne_true (hdy.mpr h))
    · exact decide_eq_true (hdy.mp rfl)
  have ez : decide (z_max - z_min > max_len / sqrt 2) = dz := by
    cases dz
    · exact decide_eq_false (fun h => Bool.false_ne_true (hdz.mpr h))
    · exact decide_eq_true (hdz.mp rfl)
  simp only [Particles.partition_8, hb, r0, r1, r2, r3, r4, r5, hmax, ex, ey, ez]

theorem partition_8_divide_fst {K : Type} (partition : PartitionFn K)
    (dx dy dz : Bool) (x_mid y_mid z_mid : K) (p : Particles K) (pb : List Nat) :
    (p.partition_8_divide partition dx dy dz x_mid y_mid z_mid pb).1
      = (if dx then 2 else 1) * (if dy then 2 else 1) * (if dz then 2 else 1) := by
  cases dx <;> cases dy <;> cases dz <;> rfl

/-- The square of four particles is divided along `x` and `y`: `partition_8` returns 4
and leaves the child ranges `[0,1)`, `[2,3)`, `[1,2)`, `[3,4)`. -/
theorem partition_8_square :
    (squareParticles.partition_8 Real.sqrt stablePartition 0 4 (List.replicate 16 0)).map
      (fun r => (r.1, r.2.1)) = some (4, [0, 1, 2, 3, 1, 2, 3, 4, 0, 0, 0, 0, 0, 0, 0, 0]) := by
  have h2 := sqrt_two_gt_one
  have hpos : (0 : ℝ) < Real.sqrt 2 := by linarith
  have h1 : (1 : ℝ) / Real.sqrt 2 < 1 := by rw [div_lt_one hpos]; exact h2
  have hb : squareParticles.bounds 0 4 = some [0, 1, 0, 1, 0, 0] := by
    simp [Particles.bounds, squareParticles, slice, minElement, maxElement]
  rw [partition_8_of_bounds Real.sqrt stablePartition squareParticles 0 4 _ 0 1 0 1 0 0 1 hb
    (by norm_num) true true false (by simpa using h1) (by simpa using h1)
    (by simp)]
  simp only [Option.map_some', Option.some.injEq, Prod.mk.injEq]
  norm_num [Particles.partition_8_divide, forLoop, split_child, Particles.partition_x,
    Particles.partition_y, stablePartition, rd, rdIdx, squareParticles, List.range',
    List.filter]
  rfl

/-- Two coincident particles: no axis is divided and `partition_8` returns 1. -/
theorem partition_8_coincident :
    (coincidentParticles.partition_8 Real.sqrt stablePartition 0 2 (List.replicate 16 0)).map
      (fun r => (r.1, r.2.1)) = some (1, [0, 2, 0, 0, 0, 0, 0, 0, 0, 0, 0, 0, 0, 0, 0, 0]) := by
  have hb : coincidentParticles.bounds 0 2 = some [1, 1, 2, 2, 3, 3] := by
    simp [Particles.bounds, coincidentParticles, slice, minElement, maxElement]
  rw [partition_8_of_bounds Real.sqrt stablePartition coincidentParticles 0 2 _ 1 1 2 2 3 3 0
    hb (by norm_num) false false false (by simp) (by simp) (by simp)]
  simp only [Option.map_some', Option.some.injEq, Prod.mk.injEq]
  norm_num [Particles.partition_8_divide]
  rfl

theorem flags_product_cases (a b c : Prop) [Decidable a] [Decidable b] [Decidable c] :
    ((if a then 2 else 1) * (if b then 2 else 1) * (if c then 2 else 1) : Nat) = 1 ∨
    ((if a then 2 else 1) * (if b then 2 else 1) * (if c then 2 else 1) : Nat) = 2 ∨
    ((if a then 2 else 1) * (if b then 2 else 1) * (if c then 2 else 1) : Nat) = 4 ∨
    ((if a then 2 else 1) * (if b then 2 else 1) * (if c then 2 else 1) : Nat) = 8 := by
  by_cases ha : a <;> by_cases hb : b <;> by_cases hc : c <;> simp [ha, hb, hc]

theorem flags_product_ne_one (a b c : Prop) [Decidable a] [Decidable b] [Decidable c]
    (h : a ∨ b ∨ c) :
    ((if a then 2 else 1) * (if b then 2 else 1) * (if c then 2 else 1) : Nat) = 2 ∨
    ((if a then 2 else 1) * (if b then 2 else 1) * (if c then 2 else 1) : Nat) = 4 ∨
    ((if a then 2 else 1) * (if b then 2 else 1) * (if c then 2 else 1) : Nat) = 8 := by
  by_cases ha : a <;> by_cases hb : b <;> by_cases hc : c <;> simp [ha, hb, hc] at h ⊢

/-- C6 (as stated, refuted): a range of two particles at the same position has a bounding
box of extent zero, no axis is divided, and `partition_8` returns 1. -/
theorem partition_8_returns_one :
    2 ≤ 2 - 0 ∧
    (coincidentParticles.partition_8 Real.sqrt stablePartition 0 2 (List.replicate 16 0)).map
      (fun r => r.1) = some 1 := by
  refine ⟨by decide, ?_⟩
  have h := partition_8_coincident
  cases hr : coincidentParticles.partition_8 Real.sqrt stablePartition 0 2 (List.replicate 16 0)
    with
  | none => rw [hr] at h; simp at h
  | some r =>
    rw [hr] at h
    simp only [Option.map_some', Option.some.injEq, Prod.mk.injEq] at h ⊢
    exact h.1

/-- C6 (amended): on a non-empty particle range `[begin, end)`, with `max_len` the longest
extent of the bounding box as `partition_8` computes it, `partition_8` returns 2, 4 or 8
when the computed `critical_len = max_len / sqrt(2)` is below `max_len`, and 1 when it is
not.  When `sqrt(2) > 1` (exact arithmetic) the condition holds as soon as two particles
of the range differ in a coordinate.  Only comparisons of the computed values are used. -/
theorem partition_8_num_children {K : Type} [LinearOrderedField K] (sqrt : K → K)
    (partition : PartitionFn K) (p : Particles K) (begin_ end_ : Nat) (pb : List Nat)
    (hbe : begin_ < end_)
    (hx : end_ ≤ p.x_.length) (hy : end_ ≤ p.y_.length) (hz : end_ ≤ p.z_.length) :
    ∃ x_min x_max y_min y_max z_min z_max max_len nc pb1 p1,
      p.bounds begin_ end_ = some [x_min, x_max, y_min, y_max, z_min, z_max] ∧
      max_len = (if (if x_max - x_min < y_max - y_min then y_max - y_min else x_max - x_min)
                  < z_max - z_min then z_max - z_min
                else (if x_max - x_min < y_max - y_min then y_max - y_min
                  else x_max - x_min)) ∧
      p.partition_8 sqrt partition begin_ end_ pb = some (nc, pb1, p1) ∧
      (max_len / sqrt 2 < max_len → nc = 2 ∨ nc = 4 ∨ nc = 8) ∧
      (¬ max_len / sqrt 2 < max_len → nc = 1) ∧
      (1 < sqrt 2 →
        (∃ i j, (begin_ ≤ i ∧ i < end_) ∧ (begin_ ≤ j ∧ j < end_) ∧
          (rd p.x_ i ≠ rd p.x_ j ∨ rd p.y_ i ≠ rd p.y_ j ∨ rd p.z_ i ≠ rd p.z_ j)) →
        max_len / sqrt 2 < max_len) := by
  obtain ⟨x_min, x_max, y_min, y_max, z_min, z_max, hb, hin⟩ :=
    bounds_spec p begin_ end_ hbe hx hy hz
  refine ⟨x_min, x_max, y_min, y_max, z_min, z_max, _, _, _, _, hb, rfl,
    partition_8_of_bounds sqrt partition p begin_ end_ pb
      x_min x_max y_min y_max z_min z_max _ hb rfl _ _ _
      (decide_eq_true_iff (p := _)) (decide_eq_true_iff (p := _))
      (decide_eq_true_iff (p := _)), ?_, ?_, ?_⟩
  · intro hcrit
    rw [partition_8_divide_fst]
    simp only [decide_eq_true_eq]
    apply flags_product_ne_one
    by_cases c1 : x_max - x_min < y_max - y_min
    · by_cases c2 : y_max - y_min < z_max - z_min
      · simp only [c1, c2, if_true] at hcrit ⊢
        exact Or.inr (Or.inr hcrit)
      · simp only [c1, c2, if_true, if_false] at hcrit ⊢
        exact Or.inr (Or.inl hcrit)
    · by_cases c2 : x_max - x_min < z_max - z_min
      · simp only [c1, c2, if_true, if_false] at hcrit ⊢
        exact Or.inr (Or.inr hcrit)
      · simp only [c1, c2, if_false] at hcrit ⊢
        exact Or.inl hcrit
  · intro hcrit
    rw [partition_8_divide_fst]
    simp only [decide_eq_true_eq]
    have hle : x_max - x_min ≤ (if (if x_max - x_min < y_max - y_min then y_max - y_min
          else x_max - x_min) < z_max - z_min then z_max - z_min
        else (if x_max - x_min < y_max - y_min then y_max - y_min else x_max - x_min)) ∧
      y_max - y_min ≤ (if (if x_max - x_min < y_max - y_min then y_max - y_min
          else x_max - x_min) < z_max - z_min then z_max - z_min
        else (if x_max - x_min < y_max - y_min then y_max - y_min else x_max - x_min)) ∧
      z_max - z_min ≤ (if (if x_max - x_min < y_max - y_min then y_max - y_min
          else x_max - x_min) < z_max - z_min then z_max - z_min
        else (if x_max - x_min < y_max - y_min then y_max - y_min else x_max - x_min)) := by
      by_cases c1 : x_max - x_min < y_max - y_min
      · by_cases c2 : y_max - y_min < z_max - z_min
        · simp only [c1, c2, if_true]
          exact ⟨le_of_lt (lt_trans c1 c2), le_of_lt c2, le_refl _⟩
        · simp only [c1, c2, if_true, if_false]
          exact ⟨le_of_lt c1, le_refl _, not_lt.mp c2⟩
      · by_cases c2 : x_max - x_min < z_max - z_min
        · simp only [c1, c2, if_true, if_false]
          exact ⟨le_of_lt c2, le_trans (not_lt.mp c1) (le_of_lt c2), le_refl _⟩
        · simp only [c1, c2, if_false]
          exact ⟨le_refl _, not_lt.mp c1, not_lt.mp c2⟩
    obtain ⟨l1, l2, l3⟩ := hle
    have hc := not_lt.mp hcrit
    have n1 := not_lt.mpr (le_trans l1 hc)
    have n2 := not_lt.mpr (le_trans l2 hc)
    have n3 := not_lt.mpr (le_trans l3 hc)
    simp only [gt_iff_lt, n1, n2, n3, if_false]
  · intro h2 ⟨i, j, hi, hj, hne⟩
    have hI := hin i hi.1 hi.2
    have hJ := hin j hj.1 hj.2
    have hxl : 0 ≤ x_max - x_min := by linarith
    have hyl : 0 ≤ y_max - y_min := by linarith
    have hzl : 0 ≤ z_max - z_min := by linarith
    have hposlen : 0 < x_max - x_min ∨ 0 < y_max - y_min ∨ 0 < z_max - z_min := by
      rcases hne with h | h | h
      · left
        rcases lt_or_gt_of_ne h with h' | h' <;> linarith
      · right; left
        rcases lt_or_gt_of_ne h with h' | h' <;> linarith
      · right; right
        rcases lt_or_gt_of_ne h with h' | h' <;> linarith
    have hdiv : ∀ L : K, 0 < L → L / sqrt 2 < L := fun L hL => div_lt_self hL h2
    by_cases c1 : x_max - x_min < y_max - y_min
    · by_cases c2 : y_max - y_min < z_max - z_min
      · simp only [c1, c2, if_true]
        exact hdiv _ (by linarith)
      · simp only [c1, c2, if_true, if_false]
        exact hdiv _ (by rcases hposlen with h | h | h <;> linarith)
    · by_cases c2 : x_max - x_min < z_max - z_min
      · simp only [c1, c2, if_true, if_false]
        exact hdiv _ (by linarith)
      · simp only [c1, c2, if_false]
        exact hdiv _ (by rcases hposlen with h | h | h <;> linarith)

/-- C6 (amended) at a concrete input: the four corners of the unit square, over the reals
with the real square root. -/
theorem partition_8_num_children_witness :
    0 < 4 ∧
    ∃ nc pb1 p1, squareParticles.partition_8 Real.sqrt stablePartition 0 4
        (List.replicate 16 0) = some (nc, pb1, p1) ∧ (nc = 2 ∨ nc = 4 ∨ nc = 8) := by
  obtain ⟨_, _, _, _, _, _, _, nc, pb1, p1, _, _, hp, h1, _, h3⟩ :=
    partition_8_num_children Real.sqrt stablePartition squareParticles 0 4
      (List.replicate 16 0) (by decide) (by simp [squareParticles])
      (by simp [squareParticles]) (by simp [squareParticles])
  exact ⟨by decide, nc, pb1, p1, hp, h1 (h3 sqrt_two_gt_one
    ⟨0, 2, ⟨by omega, by omega⟩, ⟨by omega, by omega⟩,
      Or.inl (by simp [rd, squareParticles])⟩)⟩

/-- C7: given that the partition helper returns a pivot inside the range it is asked to
partition, the `num_children` ranges `[partitioned_bounds[2i], partitioned_bounds[2i+1])`
written by `partition_8` partition the parent range: each lies inside `[begin, end)`,
no index lies in two of them, and every index of `[begin, end)` lies in one. -/
theorem partition_8_children_partition {K : Type} [LinearOrderedField K] (sqrt : K → K)
    (partition : PartitionFn K) (hp : PivotInRange partition) (p : Particles K)
    (begin_ end_ : Nat) (pb : List Nat) (hpb : pb.length = 16) (hbe : begin_ < end_)
    (hx : end_ ≤ p.x_.length) (hy : end_ ≤ p.y_.length) (hz : end_ ≤ p.z_.length) :
    ∃ nc pb1 p1, p.partition_8 sqrt partition begin_ end_ pb = some (nc, pb1, p1) ∧
      (∀ i, i < nc → begin_ ≤ rdIdx pb1 (2 * i) ∧ rdIdx pb1 (2 * i) ≤ rdIdx pb1 (2 * i + 1) ∧
        rdIdx pb1 (2 * i + 1) ≤ end_) ∧
      (∀ i j m, i < nc → j < nc →
        rdIdx pb1 (2 * i) ≤ m → m < rdIdx pb1 (2 * i + 1) →
        rdIdx pb1 (2 * j) ≤ m → m < rdIdx pb1 (2 * j + 1) → i = j) ∧
      (∀ m, begin_ ≤ m → m < end_ →
        ∃ i, i < nc ∧ rdIdx pb1 (2 * i) ≤ m ∧ m < rdIdx pb1 (2 * i + 1)) := by
  obtain ⟨x_min, x_max, y_min, y_max, z_min, z_max, nc, pb1, p1, _, heq, hnc, hcons, _⟩ :=
    partition_8_spec sqrt partition hp p begin_ end_ pb hpb hbe hx hy hz
  have hcases : nc = 1 ∨ nc = 2 ∨ nc = 4 ∨ nc = 8 := by
    rw [hnc]; exact flags_product_cases _ _ _
  have hmem := childOrder_mem nc hcases
  refine ⟨nc, pb1, p1, heq, ?_, ?_, ?_⟩
  · intro i hi
    exact (consecutive_bounds pb1 _ begin_ end_ hcons).2 i ((hmem i).mpr hi)
  · intro i j m hi hj a1 a2 b1 b2
    exact consecutive_disjoint pb1 _ begin_ end_ hcons i j ((hmem i).mpr hi) ((hmem j).mpr hj) m
      ⟨a1, a2⟩ ⟨b1, b2⟩
  · intro m hm1 hm2
    obtain ⟨i, hi, h⟩ := consecutive_cover pb1 _ begin_ end_ hcons m hm1 hm2
    exact ⟨i, (hmem i).mp hi, h⟩

/-- C7 at a concrete input: the four corners of the unit square, partitioned by the
stable partition helper. -/
theorem partition_8_children_partition_witness :
    PivotInRange (stablePartition : PartitionFn ℝ) ∧
    ∃ nc pb1 p1, squareParticles.partition_8 Real.sqrt stablePartition 0 4
        (List.replicate 16 0) = some (nc, pb1, p1) ∧
      (∀ i, i < nc → 0 ≤ rdIdx pb1 (2 * i) ∧ rdIdx pb1 (2 * i) ≤ rdIdx pb1 (2 * i + 1) ∧
        rdIdx pb1 (2 * i + 1) ≤ 4) ∧
      (∀ i j m, i < nc → j < nc →
        rdIdx pb1 (2 * i) ≤ m → m < rdIdx pb1 (2 * i + 1) →
        rdIdx pb1 (2 * j) ≤ m → m < rdIdx pb1 (2 * j + 1) → i = j) ∧
      (∀ m, 0 ≤ m → m < 4 →
        ∃ i, i < nc ∧ rdIdx pb1 (2 * i) ≤ m ∧ m < rdIdx pb1 (2 * i + 1)) :=
  ⟨stablePartition_pivotInRange,
   partition_8_children_partition Real.sqrt stablePartition stablePartition_pivotInRange
    squareParticles 0 4 (List.replicate 16 0) (by simp) (by omega)
    (by simp [squareParticles]) (by simp [squareParticles]) (by simp [squareParticles])⟩

/-- C8 (as stated, refuted): for the four corners of the unit square both `x` and `y` are
divided; `partition_8` returns 4 and child 0 is `[0,1)` while child 1 is `[2,3)`, so
`partitioned_bounds[1] = 1` differs from `partitioned_bounds[2] = 2`: the ranges are not
consecutive in child-index order. -/
theorem partition_8_children_not_consecutive :
    ∃ nc pb1 p1, squareParticles.partition_8 Real.sqrt stablePartition 0 4
        (List.replicate 16 0) = some (nc, pb1, p1) ∧
      ¬ (∀ i, i + 1 < nc → rdIdx pb1 (2 * i + 1) = rdIdx pb1 (2 * (i + 1))) := by
  have h := partition_8_square
  cases hr : squareParticles.partition_8 Real.sqrt stablePartition 0 4 (List.replicate 16 0)
    with
  | none => rw [hr] at h; simp at h
  | some r =>
    rw [hr] at h
    simp only [Option.map_some', Option.some.injEq, Prod.mk.injEq] at h
    obtain ⟨nc, pb1, p1⟩ := r
    simp only at h
    refine ⟨nc, pb1, p1, rfl, ?_⟩
    intro hall
    have := hall 0 (by omega)
    rw [h.2] at this
    simp [rdIdx] at this

theorem childOrder_facts (nc : Nat) (hnc : nc = 1 ∨ nc = 2 ∨ nc = 4 ∨ nc = 8) :
    (childOrder nc).Perm (List.range nc) ∧ rdIdx (childOrder nc) 0 = 0 ∧
    rdIdx (childOrder nc) (nc - 1) = nc - 1 := by
  rcases hnc with h | h | h | h <;> subst h <;> exact ⟨by decide, by rfl, by rfl⟩

theorem consecutive_chain (pb : List Nat) (ord : List Nat) (b e : Nat)
    (h : Consecutive pb ord b e) (hne : ord ≠ []) :
    rdIdx pb (2 * rdIdx ord 0) = b ∧
    rdIdx pb (2 * rdIdx ord (ord.length - 1) + 1) = e ∧
    ∀ k, k + 1 < ord.length →
      rdIdx pb (2 * rdIdx ord k + 1) = rdIdx pb (2 * rdIdx ord (k + 1)) := by
  induction ord generalizing b with
  | nil => exact absurd rfl hne
  | cons i ord ih =>
    obtain ⟨h1, h2, h3⟩ := h
    cases ord with
    | nil =>
      simp only [Consecutive] at h3
      refine ⟨by simpa [rdIdx] using h1, by simpa [rdIdx] using h3, ?_⟩
      intro k hk
      simp at hk
    | cons j ord =>
      obtain ⟨g1, g2, g3⟩ := ih _ h3 (by simp)
      refine ⟨by simpa [rdIdx] using h1, ?_, ?_⟩
      · simpa [rdIdx] using g2
      · intro k hk
        cases k with
        | zero =>
          have e1 : rdIdx (i :: j :: ord) 0 = i := rfl
          have e2 : rdIdx (i :: j :: ord) (0 + 1) = rdIdx (j :: ord) 0 := rfl
          rw [e1, e2, g1]
        | succ k =>
          have e1 : rdIdx (i :: j :: ord) (k + 1) = rdIdx (j :: ord) k := rfl
          have e2 : rdIdx (i :: j :: ord) (k + 1 + 1) = rdIdx (j :: ord) (k + 1) := rfl
          rw [e1, e2]
          exact g3 k (by simpa using hk)

/-- C8 (amended): the child ranges written by `partition_8` are consecutive when taken in
the order `childOrder num_children`, that is `0,1` for one divided axis, `0,2,1,3` for
two and `0,4,2,6,1,5,3,7` for three: the first range of that order (child 0) starts at
`begin`, each range ends where the next one of that order starts, and the last (child
`num_children - 1`) ends at `end`; so concatenating the children's ranges in that order
yields `[begin, end)` for every combination of divided axes.  In child-index order they
are consecutive when at most one axis is divided. -/
theorem partition_8_children_consecutive {K : Type} [LinearOrderedField K] (sqrt : K → K)
    (partition : PartitionFn K) (hp : PivotInRange partition) (p : Particles K)
    (begin_ end_ : Nat) (pb : List Nat) (hpb : pb.length = 16) (hbe : begin_ < end_)
    (hx : end_ ≤ p.x_.length) (hy : end_ ≤ p.y_.length) (hz : end_ ≤ p.z_.length) :
    ∃ nc pb1 p1, p.partition_8 sqrt partition begin_ end_ pb = some (nc, pb1, p1) ∧
      (childOrder nc).Perm (List.range nc) ∧
      rdIdx (childOrder nc) 0 = 0 ∧ rdIdx (childOrder nc) (nc - 1) = nc - 1 ∧
      rdIdx pb1 0 = begin_ ∧ rdIdx pb1 (2 * (nc - 1) + 1) = end_ ∧
      (∀ k, k + 1 < nc → rdIdx pb1 (2 * rdIdx (childOrder nc) k + 1)
        = rdIdx pb1 (2 * rdIdx (childOrder nc) (k + 1))) ∧
      (nc ≤ 2 → ∀ i, i + 1 < nc → rdIdx pb1 (2 * i + 1) = rdIdx pb1 (2 * (i + 1))) := by
  obtain ⟨x_min, x_max, y_min, y_max, z_min, z_max, nc, pb1, p1, _, heq, hnc, hcons, _⟩ :=
    partition_8_spec sqrt partition hp p begin_ end_ pb hpb hbe hx hy hz
  have hcases : nc = 1 ∨ nc = 2 ∨ nc = 4 ∨ nc = 8 := by
    rw [hnc]; exact flags_product_cases _ _ _
  obtain ⟨f1, f2, f3⟩ := childOrder_facts nc hcases
  have hlen : (childOrder nc).length = nc := by simpa using f1.length_eq
  have hne : childOrder nc ≠ [] := by
    intro h; rw [h] at hlen; simp at hlen; omega
  obtain ⟨c1, c2, c3⟩ := consecutive_chain pb1 _ begin_ end_ hcons hne
  rw [hlen] at c2 c3
  rw [f2] at c1
  rw [f3] at c2
  refine ⟨nc, pb1, p1, heq, f1, f2, f3, by simpa using c1, c2, c3, ?_⟩
  intro hle i hi
  have hnc2 : nc = 2 := by omega
  have hi0 : i = 0 := by omega
  subst hnc2; subst hi0
  have := c3 0 (by omega)
  simpa [childOrder, rdIdx] using this

/-- C8 (amended) at a concrete input: the four corners of the unit square. -/
theorem partition_8_children_consecutive_witness :
    PivotInRange (stablePartition : PartitionFn ℝ) ∧
    ∃ nc pb1 p1, squareParticles.partition_8 Real.sqrt stablePartition 0 4
        (List.replicate 16 0) = some (nc, pb1, p1) ∧
      (childOrder nc).Perm (List.range nc) ∧
      rdIdx (childOrder nc) 0 = 0 ∧ rdIdx (childOrder nc) (nc - 1) = nc - 1 ∧
      rdIdx pb1 0 = 0 ∧ rdIdx pb1 (2 * (nc - 1) + 1) = 4 ∧
      (∀ k, k + 1 < nc → rdIdx pb1 (2 * rdIdx (childOrder nc) k + 1)
        = rdIdx pb1 (2 * rdIdx (childOrder nc) (k + 1))) ∧
      (nc ≤ 2 → ∀ i, i + 1 < nc → rdIdx pb1 (2 * i + 1) = rdIdx pb1 (2 * (i + 1))) :=
  ⟨stablePartition_pivotInRange,
   partition_8_children_consecutive Real.sqrt stablePartition stablePartition_pivotInRange
    squareParticles 0 4 (List.replicate 16 0) (by simp) (by omega)
    (by simp [squareParticles]) (by simp [squareParticles]) (by simp [squareParticles])⟩

/-! ## `elements.cpp`, `particles.cpp`: vertex areas -/

theorem rd_set {K : Type} [Zero K] (a : List K) (j : Nat) (t : K) (v : Nat)
    (hj : j < a.length) : rd (a.set j t) v = if j = v then t else rd a v := by
  unfold rd
  simp only [List.getD_eq_getElem?_getD, List.getElem?_set]
  by_cases h : j = v
  · subst h; simp [hj]
  · simp [h]

theorem rd_of_length_le {K : Type} [Zero K] (a : List K) (v : Nat) (h : a.length ≤ v) :
    rd a v = 0 := by
  simp [rd, List.getElem?_eq_none h]

theorem rd_replicate_zero {K : Type} [Zero K] (n v : Nat) :
    rd (List.replicate n (0 : K)) v = 0 := by
  unfold rd
  simp only [List.getD_eq_getElem?_getD, List.getElem?_replicate]
  split <;> rfl

theorem rd_map {K : Type} [Zero K] (g : K → K) (hg : g 0 = 0) (a : List K) (v : Nat) :
    rd (a.map g) v = g (rd a v) := by
  unfold rd
  simp only [List.getD_eq_getElem?_getD, List.getElem?_map]
  cases a[v]? with
  | none => simp [hg]
  | some x => simp

theorem foldl_add_eq_sum_range {K : Type} [AddCommMonoid K] (a : List K) (s : K) :
    a.foldl (fun s x => s + x) s = s + ∑ v in Finset.range a.length, a.getD v 0 := by
  induction a generalizing s with
  | nil => simp
  | cons x a ih =>
    simp only [List.foldl_cons, List.length_cons]
    rw [ih, Finset.sum_range_succ']
    simp only [List.getD_cons_succ, List.getD_cons_zero]
    rw [add_assoc, add_comm x]

theorem rd_set_add {K : Type} [AddMonoid K] (a : List K) (j : Nat) (t : K) (v : Nat)
    (hj : j < a.length) :
    rd (a.set j (rd a j + t)) v = rd a v + if j = v then t else 0 := by
  rw [rd_set _ _ _ _ hj]
  by_cases h : j = v
  · subst h; simp
  · simp [h]

/-- The effect of the three corner updates of one face on the vertex areas. -/
theorem corner_loop_spec {K : Type} [Field K] (idx : Nat → Nat) (t : K) (cs : List Nat)
    (a : List K) (hidx : ∀ c, c ∈ cs → idx c < a.length) :
    (cs.foldl (fun a j => a.set (idx j) (rd a (idx j) + t)) a).length = a.length ∧
    ∀ v, rd (cs.foldl (fun a j => a.set (idx j) (rd a (idx j) + t)) a) v
      = rd a v + (cs.map (fun c => if idx c = v then t else 0)).sum := by
  induction cs generalizing a with
  | nil => simp
  | cons c cs ih =>
    have hc := hidx c (List.mem_cons_self _ _)
    obtain ⟨h1, h2⟩ := ih (a.set (idx c) (rd a (idx c) + t))
      (fun c' hc' => by simpa using hidx c' (List.mem_cons_of_mem _ hc'))
    simp only [List.foldl_cons, List.map_cons, List.sum_cons]
    refine ⟨by simpa using h1, ?_⟩
    intro v
    rw [h2 v, rd_set_add _ _ _ _ hc, add_assoc]

/-- The effect of the loop over the faces on the vertex areas: every vertex gains the
area of a face once for each corner of the face that it is. -/
theorem accumulate_face_areas_spec {K : Type} [Field K] (sqrt : K → K) (x_ y_ z_ : List K)
    (face_x face_y face_z : List Nat) (shift num_faces : Nat) (area_ : List K)
    (hface : ∀ f, f < num_faces → ∀ c, c < 3 →
      iface face_x face_y face_z f c - shift < area_.length) :
    (accumulate_face_areas sqrt x_ y_ z_ face_x face_y face_z shift num_faces area_).length
      = area_.length ∧
    ∀ v, rd (accumulate_face_areas sqrt x_ y_ z_ face_x face_y face_z shift num_faces area_) v
      = rd area_ v + ∑ f in Finset.range num_faces, ∑ c in Finset.range 3,
          if iface face_x face_y face_z f c - shift = v
          then triangle_area sqrt (face_corners x_ y_ z_ face_x face_y face_z shift f) else 0 := by
  unfold accumulate_face_areas
  rw [forLoop_eq_foldl_range]
  induction num_faces with
  | zero => simp
  | succ k ih =>
    obtain ⟨h1, h2⟩ := ih (fun f hf c hc => hface f (by omega) c hc)
    rw [List.range_succ, List.foldl_append]
    simp only [List.foldl_cons, List.foldl_nil]
    rw [forLoop_eq_foldl_range]
    obtain ⟨g1, g2⟩ := corner_loop_spec
      (fun c => iface face_x face_y face_z k c - shift)
      (triangle_area sqrt (face_corners x_ y_ z_ face_x face_y face_z shift k))
      (List.range 3) _
      (fun c hc => by rw [h1]; exact hface k (by omega) c (List.mem_range.mp hc))
    refine ⟨by rw [g1, h1], ?_⟩
    intro v
    rw [g2 v, h2 v, Finset.sum_range_succ, add_assoc]
    congr 2

/-- The vertex areas and the surface area computed from a mesh whose face indices are in
range: a third of the incident face areas, and the sum of all face areas. -/
theorem areas_closed_form {K : Type} [LinearOrderedField K] (sqrt : K → K) (x_ y_ z_ : List K)
    (face_x face_y face_z : List Nat) (shift num_faces num : Nat)
    (hface : ∀ f, f < num_faces → ∀ c, c < 3 →
      iface face_x face_y face_z f c - shift < num) :
    (∀ v, rd ((accumulate_face_areas sqrt x_ y_ z_ face_x face_y face_z shift num_faces
          (List.replicate num 0)).map (fun x => x / 3)) v
        = (∑ f in Finset.range num_faces, ∑ c in Finset.range 3,
            if iface face_x face_y face_z f c - shift = v
            then triangle_area sqrt (face_corners x_ y_ z_ face_x face_y face_z shift f)
            else 0) / 3) ∧
    ((accumulate_face_areas sqrt x_ y_ z_ face_x face_y face_z shift num_faces
          (List.replicate num 0)).map (fun x => x / 3)).foldl (fun s a => s + a) 0
      = ∑ f in Finset.range num_faces,
          triangle_area sqrt (face_corners x_ y_ z_ face_x face_y face_z shift f) := by
  obtain ⟨h1, h2⟩ := accumulate_face_areas_spec sqrt x_ y_ z_ face_x face_y face_z shift
    num_faces (List.replicate num 0) (by simpa using hface)
  have hrd : ∀ v, rd ((accumulate_face_areas sqrt x_ y_ z_ face_x face_y face_z shift num_faces
          (List.replicate num 0)).map (fun x => x / 3)) v
        = (∑ f in Finset.range num_faces, ∑ c in Finset.range 3,
            if iface face_x face_y face_z f c - shift = v
            then triangle_area sqrt (face_corners x_ y_ z_ face_x face_y face_z shift f)
            else 0) / 3 := by
    intro v
    rw [rd_map _ (by simp), h2 v, rd_replicate_zero, zero_add]
  refine ⟨hrd, ?_⟩
  rw [foldl_add_eq_sum_range, zero_add]
  have hlen : ((accumulate_face_areas sqrt x_ y_ z_ face_x face_y face_z shift num_faces
          (List.replicate num 0)).map (fun x => x / 3)).length = num := by
    rw [List.length_map, h1, List.length_replicate]
  rw [hlen]
  have hrd2 : ∀ v, ((accumulate_face_areas sqrt x_ y_ z_ face_x face_y face_z shift num_faces
          (List.replicate num 0)).map (fun x => x / 3)).getD v 0
        = (∑ f in Finset.range num_faces, ∑ c in Finset.range 3,
            if iface face_x face_y face_z f c - shift = v
            then triangle_area sqrt (face_corners x_ y_ z_ face_x face_y face_z shift f)
            else 0) / 3 := hrd
  simp only [hrd2]
  rw [← Finset.sum_div, Finset.sum_comm]
  have hinner : ∀ f, f ∈ Finset.range num_faces →
      (∑ v in Finset.range num, ∑ c in Finset.range 3,
        if iface face_x face_y face_z f c - shift = v
        then triangle_area sqrt (face_corners x_ y_ z_ face_x face_y face_z shift f) else 0)
      = 3 * triangle_area sqrt (face_corners x_ y_ z_ face_x face_y face_z shift f) := by
    intro f hf
    rw [Finset.sum_comm]
    have : ∀ c, c ∈ Finset.range 3 →
        (∑ v in Finset.range num, if iface face_x face_y face_z f c - shift = v
          then triangle_area sqrt (face_corners x_ y_ z_ face_x face_y face_z shift f) else 0)
        = triangle_area sqrt (face_corners x_ y_ z_ face_x face_y face_z shift f) := by
      intro c hc
      rw [Finset.sum_ite_eq, if_pos]
      exact Finset.mem_range.mpr (hface f (Finset.mem_range.mp hf) c (Finset.mem_range.mp hc))
    rw [Finset.sum_congr rfl this]
    simp
  rw [Finset.sum_congr rfl hinner, ← Finset.mul_sum]
  field_simp

/-- C9: for every mesh whose face vertex indices are in range (`1..N` for MSMS, `0..N-1`
for PLY), after `generate_elements` (and after `generate_particles`, which reads MSMS
meshes) each `area_[v]` is one third of the sum of `triangle_area` over the face corners
incident to vertex `v`, and `surface_area_`, the sum of all `area_[v]`, is the sum of the
areas of all faces (exact arithmetic in an ordered field). -/
theorem vertex_areas {K : Type} [LinearOrderedField K] (sqrt : K → K)
    (mesh_format : MeshFormat) (e : Elements K)
    (he : ∀ f, f < e.num_faces_ → ∀ c, c < 3 →
      (if mesh_format = MeshFormat.PLY then 0 else 1) ≤ iface e.face_x_ e.face_y_ e.face_z_ f c ∧
      iface e.face_x_ e.face_y_ e.face_z_ f c
        < e.num_ + (if mesh_format = MeshFormat.PLY then 0 else 1))
    (num_faces : Nat) (face_x face_y face_z : List Nat) (p : Particles K)
    (hp : ∀ f, f < num_faces → ∀ c, c < 3 →
      1 ≤ iface face_x face_y face_z f c ∧ iface face_x face_y face_z f c < p.num_ + 1) :
    ((∀ v, v < e.num_ → rd (e.generate_elements sqrt mesh_format).area_ v
        = (∑ f in Finset.range e.num_faces_, ∑ c in Finset.range 3,
            if iface e.face_x_ e.face_y_ e.face_z_ f c
                - (if mesh_format = MeshFormat.PLY then 0 else 1) = v
            then triangle_area sqrt (face_corners e.x_ e.y_ e.z_ e.face_x_ e.face_y_ e.face_z_
              (if mesh_format = MeshFormat.PLY then 0 else 1) f)
            else 0) / 3) ∧
      (e.generate_elements sqrt mesh_format).surface_area_
        = ∑ f in Finset.range e.num_faces_,
            triangle_area sqrt (face_corners e.x_ e.y_ e.z_ e.face_x_ e.face_y_ e.face_z_
              (if mesh_format = MeshFormat.PLY then 0 else 1) f)) ∧
    ((∀ v, v < p.num_ → rd (p.generate_particles sqrt num_faces face_x face_y face_z).area_ v
        = (∑ f in Finset.range num_faces, ∑ c in Finset.range 3,
            if iface face_x face_y face_z f c - 1 = v
            then triangle_area sqrt (face_corners p.x_ p.y_ p.z_ face_x face_y face_z 1 f)
            else 0) / 3) ∧
      (p.generate_particles sqrt num_faces face_x face_y face_z).surface_area_
        = ∑ f in Finset.range num_faces,
            triangle_area sqrt (face_corners p.x_ p.y_ p.z_ face_x face_y face_z 1 f)) := by
  obtain ⟨a1, a2⟩ := areas_closed_form sqrt e.x_ e.y_ e.z_ e.face_x_ e.face_y_ e.face_z_
    (if mesh_format = MeshFormat.PLY then 0 else 1) e.num_faces_ e.num_
    (fun f hf c hc => by have := he f hf c hc; omega)
  obtain ⟨b1, b2⟩ := areas_closed_form sqrt p.x_ p.y_ p.z_ face_x face_y face_z 1 num_faces
    p.num_ (fun f hf c hc => by have := hp f hf c hc; omega)
  exact ⟨⟨fun v _ => a1 v, a2⟩, ⟨fun v _ => b1 v, b2⟩⟩

/-- C9 at a concrete input: a tetrahedron given as an MSMS mesh, and the unit square cut
into two triangles. -/
theorem vertex_areas_witness :
    (∀ f, f < sampleElements.num_faces_ → ∀ c, c < 3 →
      1 ≤ iface sampleElements.face_x_ sampleElements.face_y_ sampleElements.face_z_ f c ∧
      iface sampleElements.face_x_ sampleElements.face_y_ sampleElements.face_z_ f c
        < sampleElements.num_ + 1) ∧
    (sampleElements.generate_elements Real.sqrt MeshFormat.MSMS).surface_area_
      = ∑ f in Finset.range 4,
          triangle_area Real.sqrt (face_corners sampleElements.x_ sampleElements.y_
            sampleElements.z_ sampleElements.face_x_ sampleElements.face_y_
            sampleElements.face_z_ 1 f) ∧
    (squareParticles.generate_particles Real.sqrt 2 [1, 2] [2, 3] [3, 4]).surface_area_
      = ∑ f in Finset.range 2,
          triangle_area Real.sqrt (face_corners squareParticles.x_ squareParticles.y_
            squareParticles.z_ [1, 2] [2, 3] [3, 4] 1 f) :=
  ⟨by decide,
   (vertex_areas Real.sqrt MeshFormat.MSMS sampleElements (by decide) 2 [1, 2] [2, 3] [3, 4]
      squareParticles (by decide)).1.2,
   (vertex_areas Real.sqrt MeshFormat.MSMS sampleElements (by decide) 2 [1, 2] [2, 3] [3, 4]
      squareParticles (by decide)).2.2⟩

/-! ## The source term -/

/-- A loop that adds `f j` to slot `i` and `g j` to slot `n + i` of an array of `2 n`
entries, for `j = 0 .. m-1`. -/
theorem two_slot_accumulate {K : Type} [Field K] (n i : Nat) (f g : Nat → K) (m : Nat)
    (st : List K) (hi : i < n) (hlen : st.length = 2 * n) :
    ((List.range m).foldl (fun st j => (st.set i (rd st i + f j)).set (n + i)
        (rd (st.set i (rd st i + f j)) (n + i) + g j)) st).length = 2 * n ∧
    rd ((List.range m).foldl (fun st j => (st.set i (rd st i + f j)).set (n + i)
        (rd (st.set i (rd st i + f j)) (n + i) + g j)) st) i
      = rd st i + ∑ j in Finset.range m, f j ∧
    rd ((List.range m).foldl (fun st j => (st.set i (rd st i + f j)).set (n + i)
        (rd (st.set i (rd st i + f j)) (n + i) + g j)) st) (n + i)
      = rd st (n + i) + ∑ j in Finset.range m, g j ∧
    ∀ v, v ≠ i → v ≠ n + i →
      rd ((List.range m).foldl (fun st j => (st.set i (rd st i + f j)).set (n + i)
        (rd (st.set i (rd st i + f j)) (n + i) + g j)) st) v = rd st v := by
  induction m with
  | zero => simp [hlen]
  | succ m ih =>
    obtain ⟨h1, h2, h3, h4⟩ := ih
    rw [List.range_succ, List.foldl_append]
    simp only [List.foldl_cons, List.foldl_nil]
    generalize (List.range m).foldl (fun st j => (st.set i (rd st i + f j)).set (n + i)
        (rd (st.set i (rd st i + f j)) (n + i) + g j)) st = s at h1 h2 h3 h4
    have hne : ¬ (n + i = i) := by omega
    have hne2 : ¬ (i = n + i) := by omega
    refine ⟨by simp [h1], ?_, ?_, ?_⟩
    · rw [rd_set _ _ _ _ (by simp; omega), if_neg hne, rd_set _ _ _ _ (by omega), if_pos rfl,
        h2, Finset.sum_range_succ, add_assoc]
    · rw [rd_set _ _ _ _ (by simp; omega), if_pos rfl, rd_set _ _ _ _ (by omega), if_neg hne2,
        h3, Finset.sum_range_succ, add_assoc]
    · intro v hv1 hv2
      rw [rd_set _ _ _ _ (by simp; omega), if_neg (fun e => hv2 e.symm),
        rd_set _ _ _ _ (by omega), if_neg (fun e => hv1 e.symm), h4 v hv1 hv2]

/-- A loop over the elements `i < n` whose body only changes the slots `i` and `n + i` of
an array of `2 n` entries leaves in those slots what the body puts there. -/
theorem two_slot_loop {K : Type} [Field K] (n : Nat) (body : Nat → List K → List K)
    (A B : Nat → K → K)
    (hbody : ∀ i st, i < n → st.length = 2 * n →
      (body i st).length = 2 * n ∧ rd (body i st) i = A i (rd st i) ∧
      rd (body i st) (n + i) = B i (rd st (n + i)) ∧
      ∀ v, v ≠ i → v ≠ n + i → rd (body i st) v = rd st v)
    (st : List K) (hlen : st.length = 2 * n) (k : Nat) (hk : k ≤ n) :
    ((List.range k).foldl (fun st i => body i st) st).length = 2 * n ∧
    (∀ i, i < k → rd ((List.range k).foldl (fun st i => body i st) st) i = A i (rd st i) ∧
      rd ((List.range k).foldl (fun st i => body i st) st) (n + i) = B i (rd st (n + i))) ∧
    (∀ i, k ≤ i → i < n → rd ((List.range k).foldl (fun st i => body i st) st) i = rd st i ∧
      rd ((List.range k).foldl (fun st i => body i st) st) (n + i) = rd st (n + i)) := by
  induction k with
  | zero => simp [hlen]
  | succ k ih =>
    obtain ⟨h1, h2, h3⟩ := ih (by omega)
    rw [List.range_succ, List.foldl_append]
    simp only [List.foldl_cons, List.foldl_nil]
    generalize (List.range k).foldl (fun st i => body i st) st = s at h1 h2 h3
    obtain ⟨b1, b2, b3, b4⟩ := hbody k s (by omega) h1
    refine ⟨b1, ?_, ?_⟩
    · intro i hi
      by_cases hik : i = k
      · subst hik
        rw [b2, b3, (h3 i (le_refl _) (by omega)).1, (h3 i (le_refl _) (by omega)).2]
        exact ⟨rfl, rfl⟩
      · rw [b4 i hik (by omega), b4 (n + i) (by omega) (by omega)]
        exact h2 i (by omega)
    · intro i hki hi
      rw [b4 i (by omega) (by omega), b4 (n + i) (by omega) (by omega)]
      exact h3 i (by omega) hi

theorem pair_accumulate {K : Type} [Field K] (f g : Nat → K) (m : Nat) (acc : K × K) :
    (List.range m).foldl (fun (acc : K × K) j => (acc.1 + f j, acc.2 + g j)) acc
      = (acc.1 + ∑ j in Finset.range m, f j, acc.2 + ∑ j in Finset.range m, g j) := by
  induction m with
  | zero => simp
  | succ m ih =>
    rw [List.range_succ, List.foldl_append, ih]
    simp only [List.foldl_cons, List.foldl_nil, Finset.sum_range_succ, add_assoc]

theorem list_ext_rd {K : Type} [Zero K] (a b : List K) (hlen : a.length = b.length)
    (h : ∀ v, v < a.length → rd a v = rd b v) : a = b := by
  apply List.ext_getElem?
  intro v
  by_cases hv : v < a.length
  · rw [getElem?_eq_some_rd a v hv, getElem?_eq_some_rd b v (by omega), h v hv]
  · rw [List.getElem?_eq_none (by omega), List.getElem?_eq_none (by omega)]

theorem Particles_compute_source_term_body_spec {K : Type} [Field K] (sqrt : K → K)
    (eps_solute : K) (molecule_ : MoleculeCoords K) (p : Particles K) (i : Nat)
    (st : List K) (hi : i < p.num_) (hlen : st.length = 2 * p.num_) :
    (p.compute_source_term_body sqrt eps_solute molecule_ i st).length = 2 * p.num_ ∧
    rd (p.compute_source_term_body sqrt eps_solute molecule_ i st) i
      = rd st i + (source_term_spec sqrt eps_solute molecule_.num_atoms
          (fun j => rd molecule_.charge j) (fun j => rd molecule_.coords (3 * j))
          (fun j => rd molecule_.coords (3 * j + 1)) (fun j => rd molecule_.coords (3 * j + 2))
          (rd p.x_ i) (rd p.y_ i) (rd p.z_ i) (rd p.nx_ i) (rd p.ny_ i) (rd p.nz_ i)).1 ∧
    rd (p.compute_source_term_body sqrt eps_solute molecule_ i st) (p.num_ + i)
      = rd st (p.num_ + i) + (source_term_spec sqrt eps_solute molecule_.num_atoms
          (fun j => rd molecule_.charge j) (fun j => rd molecule_.coords (3 * j))
          (fun j => rd molecule_.coords (3 * j + 1)) (fun j => rd molecule_.coords (3 * j + 2))
          (rd p.x_ i) (rd p.y_ i) (rd p.z_ i) (rd p.nx_ i) (rd p.ny_ i) (rd p.nz_ i)).2 ∧
    ∀ v, v ≠ i → v ≠ p.num_ + i →
      rd (p.compute_source_term_body sqrt eps_solute molecule_ i st) v = rd st v := by
  unfold Particles.compute_source_term_body source_term_spec
  simp only [forLoop_eq_foldl_range, Nat.add_zero]
  refine ⟨(two_slot_accumulate p.num_ i _ _ _ st hi hlen).1, ?_, ?_,
    (two_slot_accumulate p.num_ i _ _ _ st hi hlen).2.2.2⟩
  · rw [(two_slot_accumulate p.num_ i _ _ _ st hi hlen).2.1]
    congr 1
    apply Finset.sum_congr rfl
    intro j _
    ring
  · rw [(two_slot_accumulate p.num_ i _ _ _ st hi hlen).2.2.1]
    congr 1
    apply Finset.sum_congr rfl
    intro j _
    ring

theorem s_ComputeSourceTerm_body_spec {K : Type} [Field K] (sqrt : K → K)
    (epsp : K) (vars : TABIPBvars K) (particles : TabipbParticles K) (i : Nat)
    (st : List K) (hi : i < vars.nface) (hlen : st.length = 2 * vars.nface) :
    (s_ComputeSourceTerm_body sqrt epsp vars particles i st).length = 2 * vars.nface ∧
    rd (s_ComputeSourceTerm_body sqrt epsp vars particles i st) i
      = (source_term_spec sqrt epsp vars.natm
          (fun j => rd vars.atmchr j) (fun j => rd vars.chrpos (3 * j))
          (fun j => rd vars.chrpos (3 * j + 1)) (fun j => rd vars.chrpos (3 * j + 2))
          (rd2 particles.position 0 i) (rd2 particles.position 1 i)
          (rd2 particles.position 2 i) (rd2 particles.normal 0 i)
          (rd2 particles.normal 1 i) (rd2 particles.normal 2 i)).1 ∧
    rd (s_ComputeSourceTerm_body sqrt epsp vars particles i st) (vars.nface + i)
      = (source_term_spec sqrt epsp vars.natm
          (fun j => rd vars.atmchr j) (fun j => rd vars.chrpos (3 * j))
          (fun j => rd vars.chrpos (3 * j + 1)) (fun j => rd vars.chrpos (3 * j + 2))
          (rd2 particles.position 0 i) (rd2 particles.position 1 i)
          (rd2 particles.position 2 i) (rd2 particles.normal 0 i)
          (rd2 particles.normal 1 i) (rd2 particles.normal 2 i)).2 ∧
    ∀ v, v ≠ i → v ≠ vars.nface + i →
      rd (s_ComputeSourceTerm_body sqrt epsp vars particles i st) v = rd st v := by
  unfold s_ComputeSourceTerm_body source_term_spec
  simp only [forLoop_eq_foldl_range]
  have hl2 : ((st.set i 0).set (i + vars.nface) 0).length = 2 * vars.nface := by simp [hlen]
  have hne : ¬ (i + vars.nface = i) := by omega
  have z1 : rd ((st.set i 0).set (i + vars.nface) 0) i = 0 := by
    rw [rd_set _ _ _ _ (by simp; omega), if_neg hne, rd_set _ _ _ _ (by omega), if_pos rfl]
  have z2 : rd ((st.set i 0).set (i + vars.nface) 0) (vars.nface + i) = 0 := by
    rw [rd_set _ _ _ _ (by simp; omega), if_pos (by omega)]
  have z3 : ∀ v, v ≠ i → v ≠ vars.nface + i →
      rd ((st.set i 0).set (i + vars.nface) 0) v = rd st v := by
    intro v hv1 hv2
    rw [rd_set _ _ _ _ (by simp; omega), if_neg (by omega), rd_set _ _ _ _ (by omega),
      if_neg (fun e => hv1 e.symm)]
  refine ⟨(two_slot_accumulate vars.nface i _ _ _ _ hi hl2).1, ?_, ?_, ?_⟩
  · rw [(two_slot_accumulate vars.nface i _ _ _ _ hi hl2).2.1, z1, zero_add]
    apply Finset.sum_congr rfl
    intro j _
    ring
  · rw [(two_slot_accumulate vars.nface i _ _ _ _ hi hl2).2.2.1, z2, zero_add]
    apply Finset.sum_congr rfl
    intro j _
    ring
  · intro v hv1 hv2
    rw [(two_slot_accumulate vars.nface i _ _ _ _ hi hl2).2.2.2 v hv1 hv2, z3 v hv1 hv2]

theorem Elements_compute_source_term_body_spec {K : Type} [Field K] (sqrt : K → K)
    (eps_solute : K) (molecule_ : Molecule K) (e : Elements K) (i : Nat)
    (st : List K) (hi : i < e.num_) (hlen : st.length = 2 * e.num_) :
    (e.compute_source_term_body sqrt eps_solute molecule_ i st).length = 2 * e.num_ ∧
    rd (e.compute_source_term_body sqrt eps_solute molecule_ i st) i
      = rd st i + (source_term_spec sqrt eps_solute molecule_.num
          (fun j => rd molecule_.charge j) (fun j => rd molecule_.x j)
          (fun j => rd molecule_.y j) (fun j => rd molecule_.z j)
          (rd e.x_ i) (rd e.y_ i) (rd e.z_ i) (rd e.nx_ i) (rd e.ny_ i) (rd e.nz_ i)).1 ∧
    rd (e.compute_source_term_body sqrt eps_solute molecule_ i st) (e.num_ + i)
      = rd st (e.num_ + i) + (source_term_spec sqrt eps_solute molecule_.num
          (fun j => rd molecule_.charge j) (fun j => rd molecule_.x j)
          (fun j => rd molecule_.y j) (fun j => rd molecule_.z j)
          (rd e.x_ i) (rd e.y_ i) (rd e.z_ i) (rd e.nx_ i) (rd e.ny_ i) (rd e.nz_ i)).2 ∧
    ∀ v, v ≠ i → v ≠ e.num_ + i →
      rd (e.compute_source_term_body sqrt eps_solute molecule_ i st) v = rd st v := by
  unfold Elements.compute_source_term_body source_term_spec
  simp only [forLoop_eq_foldl_range]
  rw [pair_accumulate]
  simp only [zero_add]
  have hne : ¬ (e.num_ + i = i) := by omega
  have hne2 : ¬ (i = e.num_ + i) := by omega
  refine ⟨by simp [hlen], ?_, ?_, ?_⟩
  · rw [rd_set _ _ _ _ (by simp; omega), if_neg hne, rd_set _ _ _ _ (by omega), if_pos rfl]
    congr 1
    apply Finset.sum_congr rfl
    intro j _
    ring
  · rw [rd_set _ _ _ _ (by simp; omega), if_pos rfl, rd_set _ _ _ _ (by omega), if_neg hne2]
    congr 1
    apply Finset.sum_congr rfl
    intro j _
    ring
  · intro v hv1 hv2
    rw [rd_set _ _ _ _ (by simp; omega), if_neg (fun h => hv2 h.symm),
      rd_set _ _ _ _ (by omega), if_neg (fun h => hv1 h.symm)]

theorem source_term_spec_congr {K : Type} [Field K] (sqrt : K → K) (eps_p : K) (m : Nat)
    (q px py pz q1 px1 py1 pz1 : Nat → K) (x y z nx ny nz : K)
    (h : ∀ j, j < m → q j = q1 j ∧ px j = px1 j ∧ py j = py1 j ∧ pz j = pz1 j) :
    source_term_spec sqrt eps_p m q px py pz x y z nx ny nz
      = source_term_spec sqrt eps_p m q1 px1 py1 pz1 x y z nx ny nz := by
  unfold source_term_spec
  congr 1
  · apply Finset.sum_congr rfl
    intro j hj
    obtain ⟨h1, h2, h3, h4⟩ := h j (Finset.mem_range.mp hj)
    rw [h1, h2, h3, h4]
  · apply Finset.sum_congr rfl
    intro j hj
    obtain ⟨h1, h2, h3, h4⟩ := h j (Finset.mem_range.mp hj)
    rw [h1, h2, h3, h4]

/-- The source term left by `Elements::compute_source_term()` when it starts from zero. -/
theorem Elements_compute_source_term_spec {K : Type} [Field K] (sqrt : K → K)
    (eps_solute : K) (molecule_ : Molecule K) (e : Elements K)
    (hzero : e.source_term_ = List.replicate (2 * e.num_) 0) :
    (e.compute_source_term sqrt eps_solute molecule_).source_term_.length = 2 * e.num_ ∧
    ∀ i, i < e.num_ →
      rd (e.compute_source_term sqrt eps_solute molecule_).source_term_ i
        = (source_term_spec sqrt eps_solute molecule_.num
            (fun j => rd molecule_.charge j) (fun j => rd molecule_.x j)
            (fun j => rd molecule_.y j) (fun j => rd molecule_.z j)
            (rd e.x_ i) (rd e.y_ i) (rd e.z_ i) (rd e.nx_ i) (rd e.ny_ i) (rd e.nz_ i)).1 ∧
      rd (e.compute_source_term sqrt eps_solute molecule_).source_term_ (e.num_ + i)
        = (source_term_spec sqrt eps_solute molecule_.num
            (fun j => rd molecule_.charge j) (fun j => rd molecule_.x j)
            (fun j => rd molecule_.y j) (fun j => rd molecule_.z j)
            (rd e.x_ i) (rd e.y_ i) (rd e.z_ i) (rd e.nx_ i) (rd e.ny_ i) (rd e.nz_ i)).2 := by
  unfold Elements.compute_source_term
  simp only [forLoop_eq_foldl_range]
  obtain ⟨h1, h2, _⟩ := two_slot_loop e.num_
    (e.compute_source_term_body sqrt eps_solute molecule_)
    (fun i s => s + (source_term_spec sqrt eps_solute molecule_.num
            (fun j => rd molecule_.charge j) (fun j => rd molecule_.x j)
            (fun j => rd molecule_.y j) (fun j => rd molecule_.z j)
            (rd e.x_ i) (rd e.y_ i) (rd e.z_ i) (rd e.nx_ i) (rd e.ny_ i) (rd e.nz_ i)).1)
    (fun i s => s + (source_term_spec sqrt eps_solute molecule_.num
            (fun j => rd molecule_.charge j) (fun j => rd molecule_.x j)
            (fun j => rd molecule_.y j) (fun j => rd molecule_.z j)
            (rd e.x_ i) (rd e.y_ i) (rd e.z_ i) (rd e.nx_ i) (rd e.ny_ i) (rd e.nz_ i)).2)
    (fun i st hi hlen =>
      Elements_compute_source_term_body_spec sqrt eps_solute molecule_ e i st hi hlen)
    e.source_term_ (by rw [hzero]; simp) e.num_ (le_refl _)
  refine ⟨h1, ?_⟩
  intro i hi
  obtain ⟨g1, g2⟩ := h2 i hi
  rw [g1, g2, hzero, rd_replicate_zero, rd_replicate_zero, zero_add, zero_add]
  exact ⟨rfl, rfl⟩

/-- The source term left by `Particles::compute_source_term`. -/
theorem Particles_compute_source_term_spec {K : Type} [Field K] (sqrt : K → K)
    (eps_solute : K) (molecule_ : MoleculeCoords K) (p : Particles K) :
    (p.compute_source_term sqrt eps_solute molecule_).source_term_.length = 2 * p.num_ ∧
    ∀ i, i < p.num_ →
      rd (p.compute_source_term sqrt eps_solute molecule_).source_term_ i
        = (source_term_spec sqrt eps_solute molecule_.num_atoms
            (fun j => rd molecule_.charge j) (fun j => rd molecule_.coords (3 * j))
            (fun j => rd molecule_.coords (3 * j + 1)) (fun j => rd molecule_.coords (3 * j + 2))
            (rd p.x_ i) (rd p.y_ i) (rd p.z_ i) (rd p.nx_ i) (rd p.ny_ i) (rd p.nz_ i)).1 ∧
      rd (p.compute_source_term sqrt eps_solute molecule_).source_term_ (p.num_ + i)
        = (source_term_spec sqrt eps_solute molecule_.num_atoms
            (fun j => rd molecule_.charge j) (fun j => rd molecule_.coords (3 * j))
            (fun j => rd molecule_.coords (3 * j + 1)) (fun j => rd molecule_.coords (3 * j + 2))
            (rd p.x_ i) (rd p.y_ i) (rd p.z_ i) (rd p.nx_ i) (rd p.ny_ i) (rd p.nz_ i)).2 := by
  unfold Particles.compute_source_term
  simp only [forLoop_eq_foldl_range]
  obtain ⟨h1, h2, _⟩ := two_slot_loop p.num_
    (p.compute_source_term_body sqrt eps_solute molecule_)
    (fun i s => s + (source_term_spec sqrt eps_solute molecule_.num_atoms
            (fun j => rd molecule_.charge j) (fun j => rd molecule_.coords (3 * j))
            (fun j => rd molecule_.coords (3 * j + 1)) (fun j => rd molecule_.coords (3 * j + 2))
            (rd p.x_ i) (rd p.y_ i) (rd p.z_ i) (rd p.nx_ i) (rd p.ny_ i) (rd p.nz_ i)).1)
    (fun i s => s + (source_term_spec sqrt eps_solute molecule_.num_atoms
            (fun j => rd molecule_.charge j) (fun j => rd molecule_.coords (3 * j))
            (fun j => rd molecule_.coords (3 * j + 1)) (fun j => rd molecule_.coords (3 * j + 2))
            (rd p.x_ i) (rd p.y_ i) (rd p.z_ i) (rd p.nx_ i) (rd p.ny_ i) (rd p.nz_ i)).2)
    (fun i st hi hlen =>
      Particles_compute_source_term_body_spec sqrt eps_solute molecule_ p i st hi hlen)
    (List.replicate (2 * p.num_) 0) (by simp) p.num_ (le_refl _)
  refine ⟨h1, ?_⟩
  intro i hi
  obtain ⟨g1, g2⟩ := h2 i hi
  rw [g1, g2, rd_replicate_zero, rd_replicate_zero, zero_add, zero_add]
  exact ⟨rfl, rfl⟩

/-- The source term left by `s_ComputeSourceTerm`. -/
theorem s_ComputeSourceTerm_spec {K : Type} [Field K] (sqrt : K → K)
    (epsp : K) (vars : TABIPBvars K) (particles : TabipbParticles K)
    (hlen : particles.source_term.length = 2 * vars.nface) :
    (s_ComputeSourceTerm sqrt epsp vars particles).source_term.length = 2 * vars.nface ∧
    ∀ i, i < vars.nface →
      rd (s_ComputeSourceTerm sqrt epsp vars particles).source_term i
        = (source_term_spec sqrt epsp vars.natm
          (fun j => rd vars.atmchr j) (fun j => rd vars.chrpos (3 * j))
          (fun j => rd vars.chrpos (3 * j + 1)) (fun j => rd vars.chrpos (3 * j + 2))
          (rd2 particles.position 0 i) (rd2 particles.position 1 i)
          (rd2 particles.position 2 i) (rd2 particles.normal 0 i)
          (rd2 particles.normal 1 i) (rd2 particles.normal 2 i)).1 ∧
      rd (s_ComputeSourceTerm sqrt epsp vars particles).source_term (vars.nface + i)
        = (source_term_spec sqrt epsp vars.natm
          (fun j => rd vars.atmchr j) (fun j => rd vars.chrpos (3 * j))
          (fun j => rd vars.chrpos (3 * j + 1)) (fun j => rd vars.chrpos (3 * j + 2))
          (rd2 particles.position 0 i) (rd2 particles.position 1 i)
          (rd2 particles.position 2 i) (rd2 particles.normal 0 i)
          (rd2 particles.normal 1 i) (rd2 particles.normal 2 i)).2 := by
  unfold s_ComputeSourceTerm
  simp only [forLoop_eq_foldl_range]
  obtain ⟨h1, h2, _⟩ := two_slot_loop vars.nface
    (s_ComputeSourceTerm_body sqrt epsp vars particles)
    (fun i _ => (source_term_spec sqrt epsp vars.natm
          (fun j => rd vars.atmchr j) (fun j => rd vars.chrpos (3 * j))
          (fun j => rd vars.chrpos (3 * j + 1)) (fun j => rd vars.chrpos (3 * j + 2))
          (rd2 particles.position 0 i) (rd2 particles.position 1 i)
          (rd2 particles.position 2 i) (rd2 particles.normal 0 i)
          (rd2 particles.normal 1 i) (rd2 particles.normal 2 i)).1)
    (fun i _ => (source_term_spec sqrt epsp vars.natm
          (fun j => rd vars.atmchr j) (fun j => rd vars.chrpos (3 * j))
          (fun j => rd vars.chrpos (3 * j + 1)) (fun j => rd vars.chrpos (3 * j + 2))
          (rd2 particles.position 0 i) (rd2 particles.position 1 i)
          (rd2 particles.position 2 i) (rd2 particles.normal 0 i)
          (rd2 particles.normal 1 i) (rd2 particles.normal 2 i)).2)
    (fun i st hi hlen =>
      s_ComputeSourceTerm_body_spec sqrt epsp vars particles i st hi hlen)
    particles.source_term hlen vars.nface (le_refl _)
  exact ⟨h1, h2⟩

/-- C10: starting from a zero source term, for every element `i` the source-term
computation yields `s1_i = Σ_j q_j / (4π d_ij ε_p)` and
`s2_i = Σ_j q_j (n_i · (p_j - x_i)) / (4π d_ij³ ε_p)` with `d_ij = |p_j - x_i| > 0`
and `1/(4π)` the constant `ONE_OVER_4PI`; `Elements::compute_source_term`,
`Particles::compute_source_term` and the C routine `s_ComputeSourceTerm` all produce this
same vector when they are given the same elements and atoms (exact arithmetic in an
ordered field). -/
theorem source_term_agrees {K : Type} [LinearOrderedField K] (sqrt : K → K) (eps_p : K)
    (e : Elements K) (mol : Molecule K) (p : Particles K) (molc : MoleculeCoords K)
    (vars : TABIPBvars K) (cp : TabipbParticles K)
    (hzero : e.source_term_ = List.replicate (2 * e.num_) 0)
    (hp : p.num_ = e.num_ ∧ p.x_ = e.x_ ∧ p.y_ = e.y_ ∧ p.z_ = e.z_ ∧
      p.nx_ = e.nx_ ∧ p.ny_ = e.ny_ ∧ p.nz_ = e.nz_)
    (hcp : vars.nface = e.num_ ∧ cp.position = [e.x_, e.y_, e.z_] ∧
      cp.normal = [e.nx_, e.ny_, e.nz_] ∧ cp.source_term.length = 2 * e.num_)
    (hmolc : molc.num_atoms = mol.num ∧ molc.charge = mol.charge ∧
      ∀ j, j < mol.num → rd molc.coords (3 * j) = rd mol.x j ∧
        rd molc.coords (3 * j + 1) = rd mol.y j ∧ rd molc.coords (3 * j + 2) = rd mol.z j)
    (hvars : vars.natm = mol.num ∧ vars.atmchr = mol.charge ∧ vars.chrpos = molc.coords)
    (_hd : ∀ i j, i < e.num_ → j < mol.num →
      0 < sqrt ((rd mol.x j - rd e.x_ i) * (rd mol.x j - rd e.x_ i)
        + (rd mol.y j - rd e.y_ i) * (rd mol.y j - rd e.y_ i)
        + (rd mol.z j - rd e.z_ i) * (rd mol.z j - rd e.z_ i))) :
    (∀ i, i < e.num_ →
      rd (e.compute_source_term sqrt eps_p mol).source_term_ i
        = (source_term_spec sqrt eps_p mol.num
            (fun j => rd mol.charge j) (fun j => rd mol.x j)
            (fun j => rd mol.y j) (fun j => rd mol.z j)
            (rd e.x_ i) (rd e.y_ i) (rd e.z_ i) (rd e.nx_ i) (rd e.ny_ i) (rd e.nz_ i)).1 ∧
      rd (e.compute_source_term sqrt eps_p mol).source_term_ (e.num_ + i)
        = (source_term_spec sqrt eps_p mol.num
            (fun j => rd mol.charge j) (fun j => rd mol.x j)
            (fun j => rd mol.y j) (fun j => rd mol.z j)
            (rd e.x_ i) (rd e.y_ i) (rd e.z_ i) (rd e.nx_ i) (rd e.ny_ i) (rd e.nz_ i)).2) ∧
    (p.compute_source_term sqrt eps_p molc).source_term_
      = (e.compute_source_term sqrt eps_p mol).source_term_ ∧
    (s_ComputeSourceTerm sqrt eps_p vars cp).source_term
      = (e.compute_source_term sqrt eps_p mol).source_term_ := by
  obtain ⟨hp0, hp1, hp2, hp3, hp4, hp5, hp6⟩ := hp
  obtain ⟨hc0, hc1, hc2, hc3⟩ := hcp
  obtain ⟨hm0, hm1, hm2⟩ := hmolc
  obtain ⟨hv0, hv1, hv2⟩ := hvars
  obtain ⟨el, ev⟩ := Elements_compute_source_term_spec sqrt eps_p mol e hzero
  obtain ⟨pl, pv⟩ := Particles_compute_source_term_spec sqrt eps_p molc p
  obtain ⟨cl, cv⟩ := s_ComputeSourceTerm_spec sqrt eps_p vars cp (by rw [hc3, hc0])
  have hcongr : ∀ x y z nx ny nz : K,
      source_term_spec sqrt eps_p mol.num
        (fun j => rd mol.charge j) (fun j => rd molc.coords (3 * j))
        (fun j => rd molc.coords (3 * j + 1)) (fun j => rd molc.coords (3 * j + 2))
        x y z nx ny nz
      = source_term_spec sqrt eps_p mol.num
        (fun j => rd mol.charge j) (fun j => rd mol.x j)
        (fun j => rd mol.y j) (fun j => rd mol.z j) x y z nx ny nz := by
    intro x y z nx ny nz
    apply source_term_spec_congr
    intro j hj
    obtain ⟨a1, a2, a3⟩ := hm2 j hj
    exact ⟨rfl, a1, a2, a3⟩
  rw [hp0, hm0, hm1, hp1, hp2, hp3, hp4, hp5, hp6] at pv
  rw [hp0] at pl
  rw [hc0, hv0, hv1, hv2, hc1, hc2] at cv
  rw [hc0] at cl
  have hrd2 : ∀ (a b c : List K) (i : Nat), rd2 [a, b, c] 0 i = rd a i ∧
      rd2 [a, b, c] 1 i = rd b i ∧ rd2 [a, b, c] 2 i = rd c i := by
    intro a b c i
    simp [rd2]
  refine ⟨ev, ?_, ?_⟩
  · apply list_ext_rd _ _ (by rw [pl, el])
    intro v hv
    rw [pl] at hv
    by_cases hvn : v < e.num_
    · rw [(pv v hvn).1, (ev v hvn).1, hcongr]
    · have e1 : v = e.num_ + (v - e.num_) := by omega
      rw [e1, (pv (v - e.num_) (by omega)).2, (ev (v - e.num_) (by omega)).2, hcongr]
  · apply list_ext_rd _ _ (by rw [cl, el])
    intro v hv
    rw [cl] at hv
    by_cases hvn : v < e.num_
    · rw [(cv v hvn).1, (ev v hvn).1]
      simp only [(hrd2 _ _ _ _).1, (hrd2 _ _ _ _).2.1, (hrd2 _ _ _ _).2.2, hcongr]
    · have e1 : v = e.num_ + (v - e.num_) := by omega
      rw [e1, (cv (v - e.num_) (by omega)).2, (ev (v - e.num_) (by omega)).2]
      simp only [(hrd2 _ _ _ _).1, (hrd2 _ _ _ _).2.1, (hrd2 _ _ _ _).2.2, hcongr]

/-- C10 at a concrete input: the four vertices of a tetrahedron and one unit charge
inside it. -/
theorem source_term_agrees_witness :
    (∀ i j, i < sampleElements.num_ → j < sampleMolecule.num →
      0 < Real.sqrt ((rd sampleMolecule.x j - rd sampleElements.x_ i)
            * (rd sampleMolecule.x j - rd sampleElements.x_ i)
        + (rd sampleMolecule.y j - rd sampleElements.y_ i)
            * (rd sampleMolecule.y j - rd sampleElements.y_ i)
        + (rd sampleMolecule.z j - rd sampleElements.z_ i)
            * (rd sampleMolecule.z j - rd sampleElements.z_ i))) ∧
    (tetraParticles.compute_source_term Real.sqrt 2 sampleMoleculeCoords).source_term_
      = (sampleElements.compute_source_term Real.sqrt 2 sampleMolecule).source_term_ ∧
    (s_ComputeSourceTerm Real.sqrt 2 sampleVars sampleTabipbParticles).source_term
      = (sampleElements.compute_source_term Real.sqrt 2 sampleMolecule).source_term_ := by
  have hd : ∀ i j, i < sampleElements.num_ → j < sampleMolecule.num →
      0 < Real.sqrt ((rd sampleMolecule.x j - rd sampleElements.x_ i)
            * (rd sampleMolecule.x j - rd sampleElements.x_ i)
        + (rd sampleMolecule.y j - rd sampleElements.y_ i)
            * (rd sampleMolecule.y j - rd sampleElements.y_ i)
        + (rd sampleMolecule.z j - rd sampleElements.z_ i)
            * (rd sampleMolecule.z j - rd sampleElements.z_ i)) := by
    intro i j hi hj
    have hj0 : j = 0 := by simp [sampleMolecule] at hj; omega
    have hi4 : i < 4 := hi
    subst hj0
    apply Real.sqrt_pos.mpr
    interval_cases i <;> norm_num [rd, sampleMolecule, sampleElements]
  exact ⟨hd,
    (source_term_agrees Real.sqrt 2 sampleElements sampleMolecule tetraParticles
      sampleMoleculeCoords sampleVars sampleTabipbParticles rfl
      ⟨rfl, rfl, rfl, rfl, rfl, rfl, rfl⟩ ⟨rfl, rfl, rfl, rfl⟩
      ⟨rfl, rfl, fun j hj => by
        have hj0 : j = 0 := by simp [sampleMolecule] at hj; omega
        subst hj0
        exact ⟨rfl, rfl, rfl⟩⟩
      ⟨rfl, rfl, rfl⟩ hd).2⟩

/-! ## `treecode.cpp`: `matrix_vector` -/

theorem foldl_invariant {σ ι : Type} (P : σ → Prop) (f : σ → ι → σ)
    (h : ∀ s i, P s → P (f s i)) (l : List ι) (s : σ) (hs : P s) : P (l.foldl f s) := by
  induction l generalizing s with
  | nil => exact hs
  | cons i l ih => exact ih _ (h s i hs)

theorem forLoop_invariant {σ : Type} (P : σ → Prop) (body : Nat → σ → σ)
    (h : ∀ i s, P s → P (body i s)) (lo hi : Nat) (s : σ) (hs : P s) :
    P (forLoop lo hi body s) :=
  foldl_invariant P (fun s i => body i s) (fun s i => h i s) _ s hs

/-- A loop that overwrites entry `i` of an array with a function of its old value, for
`i = lo .. lo + n - 1`. -/
theorem update_loop_spec {K : Type} [Zero K] (g : Nat → K → K) (n lo : Nat) (a : List K) :
    ((List.range' lo n).foldl (fun a i => a.set i (g i (rd a i))) a).length = a.length ∧
    ∀ v, rd ((List.range' lo n).foldl (fun a i => a.set i (g i (rd a i))) a) v
      = if lo ≤ v ∧ v < lo + n ∧ v < a.length then g v (rd a v) else rd a v := by
  induction n generalizing lo a with
  | zero =>
    refine ⟨rfl, ?_⟩
    intro v
    rw [if_neg (by omega)]
    rfl
  | succ n ih =>
    obtain ⟨h1, h2⟩ := ih (lo + 1) (a.set lo (g lo (rd a lo)))
    simp only [List.range', List.foldl_cons]
    refine ⟨by simpa using h1, ?_⟩
    intro v
    rw [h2 v]
    simp only [List.length_set]
    by_cases hlo : lo < a.length
    · rw [rd_set _ _ _ _ hlo]
      by_cases c1 : lo + 1 ≤ v ∧ v < lo + 1 + n ∧ v < a.length
      · have c2 : lo ≤ v ∧ v < lo + (n + 1) ∧ v < a.length := by omega
        have c3 : ¬ lo = v := by omega
        rw [if_pos c1, if_pos c2, if_neg c3]
      · rw [if_neg c1]
        by_cases c3 : lo = v
        · subst c3
          have c2 : lo ≤ lo ∧ lo < lo + (n + 1) ∧ lo < a.length := by omega
          rw [if_pos rfl, if_pos c2]
        · have c2 : ¬ (lo ≤ v ∧ v < lo + (n + 1) ∧ v < a.length) := by omega
          rw [if_neg c3, if_neg c2]
    · have e : a.set lo (g lo (rd a lo)) = a := List.set_eq_of_length_le (by omega)
      rw [e]
      by_cases c1 : lo + 1 ≤ v ∧ v < lo + 1 + n ∧ v < a.length
      · have c2 : lo ≤ v ∧ v < lo + (n + 1) ∧ v < a.length := by omega
        rw [if_pos c1, if_pos c2]
      · have c2 : ¬ (lo ≤ v ∧ v < lo + (n + 1) ∧ v < a.length) := by omega
        rw [if_neg c1, if_neg c2]

theorem forLoop_update_spec {K : Type} [Zero K] (g : Nat → K → K) (lo hi : Nat) (a : List K) :
    (forLoop lo hi (fun i a => a.set i (g i (rd a i))) a).length = a.length ∧
    ∀ v, rd (forLoop lo hi (fun i a => a.set i (g i (rd a i))) a) v
      = if lo ≤ v ∧ v < hi ∧ v < a.length then g v (rd a v) else rd a v := by
  obtain ⟨h1, h2⟩ := update_loop_spec g (hi - lo) lo a
  refine ⟨h1, ?_⟩
  intro v
  unfold forLoop
  rw [h2 v]
  by_cases c : lo ≤ v ∧ v < hi ∧ v < a.length
  · rw [if_pos c, if_pos (by omega)]
  · rw [if_neg c, if_neg (by omega)]

theorem particle_particle_interact_length {K : Type} [LinearOrderedField K]
    (sqrt exp : K → K) (tc : Treecode K) (potential potential_old : List K)
    (t s : Nat × Nat) :
    (tc.particle_particle_interact sqrt exp potential potential_old t s).length
      = potential.length := by
  unfold Treecode.particle_particle_interact
  apply forLoop_invariant (fun l : List K => l.length = potential.length) _ _ _ _ _ rfl
  intro j l hl
  apply forLoop_invariant (fun l : List K => l.length = potential.length) _ _ _ _ _ hl
  intro k l hl
  simp only
  split
  · simpa using hl
  · exact hl

theorem particle_cluster_interact_length {K : Type} [Field K]
    (sqrt exp : K → K) (tc : Treecode K) (potential : List K) (t : Nat × Nat) (s : Nat) :
    (tc.particle_cluster_interact sqrt exp potential t s).length = potential.length := by
  unfold Treecode.particle_cluster_interact
  apply forLoop_invariant (fun l : List K => l.length = potential.length) _ _ _ _ _ rfl
  intro j l hl
  simpa using hl

theorem interact_node_length {K : Type} [LinearOrderedField K] (sqrt exp : K → K)
    (potential_old : List K) (target_node_idx : Nat) (st : Treecode K × List K) :
    (Treecode.interact_node sqrt exp potential_old target_node_idx st).2.length
      = st.2.length := by
  unfold Treecode.interact_node
  simp only
  apply foldl_invariant (fun s : Treecode K × List K => s.2.length = st.2.length)
  · intro s i hs; exact hs
  apply foldl_invariant (fun s : Treecode K × List K => s.2.length = st.2.length)
  · intro s i hs; exact hs
  apply foldl_invariant (fun s : Treecode K × List K => s.2.length = st.2.length)
  · intro s i hs
    simp only [particle_cluster_interact_length]
    exact hs
  apply foldl_invariant (fun s : Treecode K × List K => s.2.length = st.2.length)
  · intro s i hs
    simp only [particle_particle_interact_length]
    exact hs
  rfl

theorem accumulate_length {K : Type} [LinearOrderedField K] (sqrt exp : K → K)
    (m : ClusterMethods K) (hdown : ∀ p c l, (m.downward_pass p c l).length = l.length)
    (tc : Treecode K) (potential_old potential_new : List K) :
    (tc.accumulate sqrt exp m potential_old potential_new).2.length
      = potential_new.length := by
  unfold Treecode.accumulate
  simp only [hdown]
  apply forLoop_invariant (fun s : Treecode K × List K => s.2.length = potential_new.length)
  · intro i s hs
    rw [interact_node_length]
    exact hs
  · rfl

/-- C5: `Treecode::matrix_vector(alpha, x, beta, y)` computes `y := alpha*A*x + beta*y_prev`.
Writing `S` for the vector accumulated from zero by the interaction walk and the
downward pass on `x`, the result is `y_i = beta*y_prev_i + alpha*(c1*x_i - S_i)` for
`i < N` and `y_i = beta*y_prev_i + alpha*(c2*x_i - S_i)` for `N ≤ i < 2N`, with
`c1 = (1+eps)/2` and `c2 = (1+1/eps)/2`, for every `alpha`, `beta`, `x` and `y_prev`;
`x` is not modified. -/
theorem matrix_vector_spec {K : Type} [LinearOrderedField K] (sqrt exp : K → K)
    (m : ClusterMethods K) (hdown : ∀ p c l, (m.downward_pass p c l).length = l.length)
    (tc : Treecode K) (N : Nat) (hsize : tc.potential_.length = 2 * N)
    (alpha beta : K) (x y_prev : List K) (hy : y_prev.length = 2 * N) :
    (tc.matrix_vector sqrt exp m alpha x beta y_prev).2.1 = x ∧
    (∀ i, i < N → rd (tc.matrix_vector sqrt exp m alpha x beta y_prev).2.2 i
      = beta * rd y_prev i + alpha * ((1 + tc.params_.phys_eps_) / 2 * rd x i
          - rd (tc.accumulate sqrt exp m x (List.replicate (2 * N) 0)).2 i)) ∧
    (∀ i, N ≤ i → i < 2 * N → rd (tc.matrix_vector sqrt exp m alpha x beta y_prev).2.2 i
      = beta * rd y_prev i + alpha * ((1 + 1 / tc.params_.phys_eps_) / 2 * rd x i
          - rd (tc.accumulate sqrt exp m x (List.replicate (2 * N) 0)).2 i)) := by
  have hdrop : y_prev.drop (2 * N) = [] := List.drop_eq_nil_of_le (by omega)
  have hzero : List.replicate (2 * N) (0 : K) ++ y_prev.drop (2 * N)
      = List.replicate (2 * N) 0 := by rw [hdrop, List.append_nil]
  have hlenS : (tc.accumulate sqrt exp m x (List.replicate (2 * N) 0)).2.length = 2 * N := by
    rw [accumulate_length sqrt exp m hdown]; simp
  have hdiv : 2 * N / 2 = N := by omega
  unfold Treecode.matrix_vector
  simp only [hsize, hzero, hdiv]
  have s1 := forLoop_update_spec
    (fun i s => beta * rd (y_prev.take (2 * N)) i
      + alpha * (1 / 2 * (1 + tc.params_.phys_eps_) * rd x i - s)) 0 N
    (tc.accumulate sqrt exp m x (List.replicate (2 * N) 0)).2
  have s2 := forLoop_update_spec
    (fun i s => beta * rd (y_prev.take (2 * N)) i
      + alpha * (1 / 2 * (1 + 1 / tc.params_.phys_eps_) * rd x i - s)) N (2 * N)
    (forLoop 0 N (fun i potential_new => potential_new.set i
      (beta * rd (y_prev.take (2 * N)) i
        + alpha * (1 / 2 * (1 + tc.params_.phys_eps_) * rd x i - rd potential_new i)))
      (tc.accumulate sqrt exp m x (List.replicate (2 * N) 0)).2)
  refine ⟨trivial, ?_, ?_⟩
  · intro i hi
    rw [s2.2 i, if_neg (by omega), s1.2 i, if_pos (by rw [hlenS]; omega),
      rd_take _ _ _ (by omega)]
    ring
  · intro i hi1 hi2
    rw [s2.2 i, if_pos (by rw [s1.1, hlenS]; omega), s1.2 i, if_neg (by omega),
      rd_take _ _ _ (by omega)]
    ring

/-- C5 at a concrete input: the treecode over the four vertices of a tetrahedron. -/
theorem matrix_vector_spec_witness :
    sampleTreecode.potential_.length = 2 * 4 ∧
    (sampleTreecode.matrix_vector Real.sqrt Real.exp (noClusterMethods ℝ) 1
      [1, 2, 3, 4, 5, 6, 7, 8] 1 [8, 7, 6, 5, 4, 3, 2, 1]).2.1 = [1, 2, 3, 4, 5, 6, 7, 8] ∧
    (∀ i, i < 4 → rd (sampleTreecode.matrix_vector Real.sqrt Real.exp (noClusterMethods ℝ) 1
        [1, 2, 3, 4, 5, 6, 7, 8] 1 [8, 7, 6, 5, 4, 3, 2, 1]).2.2 i
      = 1 * rd [8, 7, 6, 5, 4, 3, 2, 1] i
        + 1 * ((1 + sampleTreecode.params_.phys_eps_) / 2 * rd [1, 2, 3, 4, 5, 6, 7, 8] i
          - rd (sampleTreecode.accumulate Real.sqrt Real.exp (noClusterMethods ℝ)
              [1, 2, 3, 4, 5, 6, 7, 8] (List.replicate (2 * 4) 0)).2 i)) :=
  ⟨rfl,
   (matrix_vector_spec Real.sqrt Real.exp (noClusterMethods ℝ) (fun _ _ _ => rfl)
      sampleTreecode 4 rfl 1 1 [1, 2, 3, 4, 5, 6, 7, 8] [8, 7, 6, 5, 4, 3, 2, 1] rfl).1,
   (matrix_vector_spec Real.sqrt Real.exp (noClusterMethods ℝ) (fun _ _ _ => rfl)
      sampleTreecode 4 rfl 1 1 [1, 2, 3, 4, 5, 6, 7, 8] [8, 7, 6, 5, 4, 3, 2, 1] rfl).2.1⟩

/-! ## `treecode.c`: `matvec` with `theta = 0` -/

theorem set_restore {K : Type} [Zero K] (l : List K) (i : Nat) (v : K) :
    (l.set i v).set i (rd l i) = l := by
  by_cases h : i < l.length
  · apply list_ext_rd
    · simp
    · intro w hw
      rw [rd_set _ _ _ _ (by simpa using h)]
      by_cases c : i = w
      · rw [if_pos c, c]
      · rw [if_neg c, rd_set _ _ _ _ h, if_neg c]
  · rw [List.set_eq_of_length_le (by simp; omega), List.set_eq_of_length_le (by omega)]

theorem rd_set_ne {K : Type} [Zero K] (l : List K) (i : Nat) (v : K) (w : Nat) (h : i ≠ w) :
    rd (l.set i v) w = rd l w := by
  by_cases c : i < l.length
  · rw [rd_set _ _ _ _ c, if_neg h]
  · rw [List.set_eq_of_length_le (by omega)]

theorem rd_set_zero_self {K : Type} [Zero K] (l : List K) (i : Nat) :
    rd (l.set i 0) i = 0 := by
  by_cases c : i < l.length
  · rw [rd_set _ _ _ _ c, if_pos rfl]
  · rw [List.set_eq_of_length_le (by omega), rd_of_length_le _ _ (by omega)]

/-- A loop that adds a pair of terms to a pair of accumulators computes the two sums. -/
theorem pair_foldl_sum {K ι : Type} [Field K] (f : ι → K × K → K × K)
    (hf : ∀ j p, f j p = (p.1 + (f j (0, 0)).1, p.2 + (f j (0, 0)).2))
    (l : List ι) (p : K × K) :
    l.foldl (fun p j => f j p) p
      = (p.1 + (l.map (fun j => (f j (0, 0)).1)).sum,
         p.2 + (l.map (fun j => (f j (0, 0)).2)).sum) := by
  induction l generalizing p with
  | nil => simp
  | cons j l ih =>
    simp only [List.foldl_cons, List.map_cons, List.sum_cons]
    rw [ih, hf j p]
    simp only [add_assoc]

theorem s_ComputeDirectPB_body_add {K : Type} [Field K] (sqrt exp : K → K)
    (g : TreecodeGlobals K) (tpoten_old : List K) (j : Int) (p : K × K) :
    s_ComputeDirectPB_body sqrt exp g tpoten_old j p
      = (p.1 + (s_ComputeDirectPB_body sqrt exp g tpoten_old j (0, 0)).1,
         p.2 + (s_ComputeDirectPB_body sqrt exp g tpoten_old j (0, 0)).2) := by
  simp [s_ComputeDirectPB_body]

/-- The direct sum over a range is the sum of the terms of its particles. -/
theorem s_ComputeDirectPB_eq_sum {K : Type} [Field K] (sqrt exp : K → K)
    (g : TreecodeGlobals K) (ibeg iend : Int) (tpoten_old : List K) :
    s_ComputeDirectPB sqrt exp g ibeg iend tpoten_old
      = (((intRange ibeg (iend + 1)).map
            (fun j => (s_ComputeDirectPB_body sqrt exp g tpoten_old j (0, 0)).1)).sum,
         ((intRange ibeg (iend + 1)).map
            (fun j => (s_ComputeDirectPB_body sqrt exp g tpoten_old j (0, 0)).2)).sum) := by
  unfold s_ComputeDirectPB forLoopInt
  rw [pair_foldl_sum (s_ComputeDirectPB_body sqrt exp g tpoten_old)
    (s_ComputeDirectPB_body_add sqrt exp g tpoten_old)]
  simp

/-- With `theta = 0` and non-negative radii the tree walk is the direct sum over the
particles of the leaves: the cluster approximation is never taken. -/
theorem s_RunTreecode_direct {K : Type} [LinearOrderedField K] (sqrt exp : K → K)
    (g : TreecodeGlobals K) (htheta : g.theta = 0) (tpoten_old tempq : List K)
    (t : TreeLinkedListNode K) :
    radii_nonneg t →
    s_RunTreecode sqrt exp g tpoten_old tempq t
      = (((leaf_indices t).map
            (fun j => (s_ComputeDirectPB_body sqrt exp g tpoten_old j (0, 0)).1)).sum,
         ((leaf_indices t).map
            (fun j => (s_ComputeDirectPB_body sqrt exp g tpoten_old j (0, 0)).2)).sum) := by
  refine @TreeLinkedListNode.rec K
    (fun t => radii_nonneg t →
      s_RunTreecode sqrt exp g tpoten_old tempq t
        = (((leaf_indices t).map
              (fun j => (s_ComputeDirectPB_body sqrt exp g tpoten_old j (0, 0)).1)).sum,
           ((leaf_indices t).map
              (fun j => (s_ComputeDirectPB_body sqrt exp g tpoten_old j (0, 0)).2)).sum))
    (fun cs => radii_nonneg_children cs → ∀ peng : K × K,
      s_RunTreecode_children sqrt exp g tpoten_old tempq cs peng
        = (peng.1 + ((leaf_indices_children cs).map
              (fun j => (s_ComputeDirectPB_body sqrt exp g tpoten_old j (0, 0)).1)).sum,
           peng.2 + ((leaf_indices_children cs).map
              (fun j => (s_ComputeDirectPB_body sqrt exp g tpoten_old j (0, 0)).2)).sum))
    ?_ ?_ ?_ t
  · intro p child ih hr
    rw [radii_nonneg] at hr
    rw [s_RunTreecode, leaf_indices]
    simp only [htheta, mul_zero]
    rw [if_neg (fun h => absurd h.1 (not_lt.mpr hr.1))]
    by_cases hc : child.length = 0
    · rw [if_pos hc, if_pos hc, s_ComputeDirectPB_eq_sum]
    · rw [if_neg hc, if_neg hc, ih hr.2]
      simp
  · intro _ peng
    rw [s_RunTreecode_children, leaf_indices_children]
    simp
  · intro c cs ihc ihcs hr peng
    rw [radii_nonneg_children] at hr
    rw [s_RunTreecode_children, leaf_indices_children]
    rw [ihcs hr.2, ihc hr.1]
    simp only [List.map_append, List.sum_append, add_assoc]

theorem s_ComputeAllMoments_shape {K : Type} [LinearOrderedField K] (g : TreecodeGlobals K)
    (t : TreeLinkedListNode K) :
    ∀ ifirst : Int, leaf_indices (s_ComputeAllMoments g t ifirst) = leaf_indices t ∧
      (radii_nonneg t → radii_nonneg (s_ComputeAllMoments g t ifirst)) := by
  refine @TreeLinkedListNode.rec K
    (fun t => ∀ ifirst : Int, leaf_indices (s_ComputeAllMoments g t ifirst) = leaf_indices t ∧
      (radii_nonneg t → radii_nonneg (s_ComputeAllMoments g t ifirst)))
    (fun cs => (s_ComputeAllMoments_children g cs).length = cs.length ∧
      leaf_indices_children (s_ComputeAllMoments_children g cs) = leaf_indices_children cs ∧
      (radii_nonneg_children cs → radii_nonneg_children (s_ComputeAllMoments_children g cs)))
    ?_ ?_ ?_ t
  · intro p child ih ifirst
    obtain ⟨h1, h2, h3⟩ := ih
    rw [s_ComputeAllMoments, leaf_indices, leaf_indices, radii_nonneg, radii_nonneg, h1, h2]
    by_cases c : p.exist_ms = 0 ∧ ifirst = 0
    · rw [if_pos c]
      exact ⟨rfl, fun hr => ⟨hr.1, h3 hr.2⟩⟩
    · rw [if_neg c]
      exact ⟨rfl, fun hr => ⟨hr.1, h3 hr.2⟩⟩
  · exact ⟨rfl, rfl, fun h => h⟩
  · intro c cs ihc ihcs
    obtain ⟨h1, h2, h3⟩ := ihcs
    have e : s_ComputeAllMoments_children g (c :: cs)
        = s_ComputeAllMoments g c 0 :: s_ComputeAllMoments_children g cs := rfl
    rw [e, leaf_indices_children, leaf_indices_children,
      radii_nonneg_children, radii_nonneg_children, (ihc 0).1, h2]
    exact ⟨by simp [h1], rfl, fun hr => ⟨(ihc 0).2 hr.1, h3 hr.2⟩⟩

theorem s_ComputePBKernel_frame {K : Type} [Field K] (g : TreecodeGlobals K) (phi : List K) :
    ∃ tc sc, s_ComputePBKernel g phi
      = { g with s_target_charge := tc, s_source_charge := sc } := by
  unfold s_ComputePBKernel
  apply forLoop_invariant (fun g1 : TreecodeGlobals K => ∃ tc sc,
    g1 = { g with s_target_charge := tc, s_source_charge := sc })
  · intro i s hs
    obtain ⟨tc, sc, rfl⟩ := hs
    exact ⟨_, _, rfl⟩
  · exact ⟨_, _, rfl⟩

theorem list_map_range_sum {K : Type} [AddCommMonoid K] (h : Nat → K) (N : Nat) :
    ((List.range N).map h).sum = ∑ j in Finset.range N, h j := by
  induction N with
  | zero => simp
  | succ N ih => simp [List.range_succ, Finset.sum_range_succ, ih]

/-- A sum over the particles of the leaves of a tree whose leaf ranges partition
`[0, N)` is the sum over the particles `j < N`. -/
theorem leaf_sum_eq {K : Type} [AddCommMonoid K] (l : List Int) (N : Nat)
    (hl : l.Perm ((List.range N).map Int.ofNat)) (f : Int → K) :
    (l.map f).sum = ∑ j in Finset.range N, f (j : Int) := by
  rw [(hl.map f).sum_eq, List.map_map, list_map_range_sum]
  rfl

/-- The term that the source `j ≠ i` adds to the direct sum of the target `i`, in the
coefficients of the specification. -/
theorem direct_term_eq {K : Type} [Field K] (sqrt exp : K → K) (g : TreecodeGlobals K)
    (tpoten_old : List K) (i j : Nat) (hij : j ≠ i) :
    s_ComputeDirectPB_body sqrt exp (matvec_target_globals g i) tpoten_old (j : Int) (0, 0)
      = (((kernel_spec sqrt exp g.s_eps g.s_kappa g.s_kappa2
            (rd g.s_particle_position_x j) (rd g.s_particle_position_y j)
            (rd g.s_particle_position_z j) (rd g.s_particle_normal_x j)
            (rd g.s_particle_normal_y j) (rd g.s_particle_normal_z j)
            (rd g.s_particle_position_x i) (rd g.s_particle_position_y i)
            (rd g.s_particle_position_z i) (rd g.s_particle_normal_x i)
            (rd g.s_particle_normal_y i) (rd g.s_particle_normal_z i)).1 * rd tpoten_old j
          + (kernel_spec sqrt exp g.s_eps g.s_kappa g.s_kappa2
            (rd g.s_particle_position_x j) (rd g.s_particle_position_y j)
            (rd g.s_particle_position_z j) (rd g.s_particle_normal_x j)
            (rd g.s_particle_normal_y j) (rd g.s_particle_normal_z j)
            (rd g.s_particle_position_x i) (rd g.s_particle_position_y i)
            (rd g.s_particle_position_z i) (rd g.s_particle_normal_x i)
            (rd g.s_particle_normal_y i) (rd g.s_particle_normal_z i)).2.1
              * rd tpoten_old (g.s_numpars + j)) * rd g.s_particle_area j,
         ((kernel_spec sqrt exp g.s_eps g.s_kappa g.s_kappa2
            (rd g.s_particle_position_x j) (rd g.s_particle_position_y j)
            (rd g.s_particle_position_z j) (rd g.s_particle_normal_x j)
            (rd g.s_particle_normal_y j) (rd g.s_particle_normal_z j)
            (rd g.s_particle_position_x i) (rd g.s_particle_position_y i)
            (rd g.s_particle_position_z i) (rd g.s_particle_normal_x i)
            (rd g.s_particle_normal_y i) (rd g.s_particle_normal_z i)).2.2.1 * rd tpoten_old j
          + (kernel_spec sqrt exp g.s_eps g.s_kappa g.s_kappa2
            (rd g.s_particle_position_x j) (rd g.s_particle_position_y j)
            (rd g.s_particle_position_z j) (rd g.s_particle_normal_x j)
            (rd g.s_particle_normal_y j) (rd g.s_particle_normal_z j)
            (rd g.s_particle_position_x i) (rd g.s_particle_position_y i)
            (rd g.s_particle_position_z i) (rd g.s_particle_normal_x i)
            (rd g.s_particle_normal_y i) (rd g.s_particle_normal_z i)).2.2.2
              * rd tpoten_old (g.s_numpars + j)) * rd g.s_particle_area j) := by
  have hx : rd ((g.s_particle_position_x.set i
      (rd g.s_particle_position_x i + 100123456789 / 1000000000))) j
      = rd g.s_particle_position_x j := rd_set_ne _ _ _ _ (fun h => hij h.symm)
  have ha : rd (g.s_particle_area.set i 0) j = rd g.s_particle_area j :=
    rd_set_ne _ _ _ _ (fun h => hij h.symm)
  have r0 : ∀ a b c : K, rd [a, b, c] 0 = a := fun _ _ _ => rfl
  have r1 : ∀ a b c : K, rd [a, b, c] 1 = b := fun _ _ _ => rfl
  have r2 : ∀ a b c : K, rd [a, b, c] 2 = c := fun _ _ _ => rfl
  simp only [s_ComputeDirectPB_body, s_ComputeDirectPB_coefficients, kernel_spec,
    matvec_target_globals, Int.toNat_ofNat, hx, ha, r0, r1, r2, zero_add,
    Nat.add_comm j g.s_numpars]
  refine Prod.ext ?_ ?_ <;> ring

/-- The source `i` adds nothing to the direct sum of the target `i`: its area is zero
while the target is evaluated. -/
theorem direct_term_self {K : Type} [Field K] (sqrt exp : K → K) (g : TreecodeGlobals K)
    (tpoten_old : List K) (i : Nat) :
    s_ComputeDirectPB_body sqrt exp (matvec_target_globals g i) tpoten_old (i : Int) (0, 0)
      = (0, 0) := by
  simp only [s_ComputeDirectPB_body, matvec_target_globals, Int.toNat_ofNat,
    rd_set_zero_self, mul_zero, add_zero]

/-- A loop over the targets `ii < N` whose body keeps an invariant of the file-scope
variables and writes the two entries `ii` and `N + ii` of the buffer leaves in those
entries what the body writes there. -/
theorem target_loop_spec {σ K : Type} [Zero K] (N : Nat) (Q : σ → Prop) (val : Nat → K × K)
    (body : Nat → σ × List K → σ × List K)
    (hbody : ∀ ii s tpoten, ii < N → Q s → Q (body ii (s, tpoten)).1 ∧
      (body ii (s, tpoten)).2 = (tpoten.set ii (val ii).1).set (N + ii) (val ii).2)
    (s0 : σ) (hs0 : Q s0) (tpoten0 : List K) (hlen : tpoten0.length = 2 * N)
    (k : Nat) (hk : k ≤ N) :
    Q (forLoop 0 k body (s0, tpoten0)).1 ∧
    (forLoop 0 k body (s0, tpoten0)).2.length = 2 * N ∧
    ∀ i, i < k → rd (forLoop 0 k body (s0, tpoten0)).2 i = (val i).1 ∧
      rd (forLoop 0 k body (s0, tpoten0)).2 (N + i) = (val i).2 := by
  induction k with
  | zero =>
    refine ⟨hs0, hlen, ?_⟩
    intro i hi
    omega
  | succ k ih =>
    obtain ⟨h1, h2, h3⟩ := ih (by omega)
    rw [forLoop_eq_foldl_range, List.range_succ, List.foldl_append, ← forLoop_eq_foldl_range]
    simp only [List.foldl_cons, List.foldl_nil]
    generalize forLoop 0 k body (s0, tpoten0) = st at h1 h2 h3
    obtain ⟨s, tpoten⟩ := st
    obtain ⟨b1, b2⟩ := hbody k s tpoten (by omega) h1
    simp only at h2 h3
    refine ⟨b1, by rw [b2]; simpa using h2, ?_⟩
    intro i hi
    rw [b2]
    by_cases hik : i = k
    · subst hik
      constructor
      · rw [rd_set_ne _ _ _ _ (by omega), rd_set _ _ _ _ (by omega), if_pos rfl]
      · rw [rd_set _ _ _ _ (by simp; omega), if_pos rfl]
    · rw [rd_set_ne _ _ _ _ (by omega), rd_set_ne _ _ _ _ (fun e => hik e.symm),
        rd_set_ne _ _ _ _ (by omega), rd_set_ne _ _ _ _ (by omega)]
      exact h3 i (by omega)

/-- One iteration of the loop of `matvec`: the target `ii` is evaluated against the
shifted arrays, the two entries of `tpoten` are written, and the arrays are restored. -/
theorem matvec_body_spec {K : Type} [LinearOrderedField K] (sqrt exp : K → K)
    (g1 : TreecodeGlobals K) (alpha : K) (x : List K) (beta : K) (temp : List K)
    (pre1 pre2 : K) (ii : Nat) (hii : ii < g1.s_numpars) (tp tq tpoten : List K) :
    (∃ tp1 tq1, (matvec_body sqrt exp alpha x beta temp pre1 pre2 ii
        ({ g1 with s_target_position := tp, s_target_normal := tq }, tpoten)).1
      = { g1 with s_target_position := tp1, s_target_normal := tq1 }) ∧
    (matvec_body sqrt exp alpha x beta temp pre1 pre2 ii
        ({ g1 with s_target_position := tp, s_target_normal := tq }, tpoten)).2
      = (tpoten.set ii (rd temp ii * beta + (pre1 * rd x ii
            - (s_RunTreecode sqrt exp (matvec_target_globals g1 ii) x
                ((List.range 4).map (fun k => rd2 g1.s_target_charge ii k))
                g1.s_tree_root).1) * alpha)).set (g1.s_numpars + ii)
          (rd temp (g1.s_numpars + ii) * beta + (pre2 * rd x (ii + g1.s_numpars)
            - (s_RunTreecode sqrt exp (matvec_target_globals g1 ii) x
                ((List.range 4).map (fun k => rd2 g1.s_target_charge ii k))
                g1.s_tree_root).2) * alpha) := by
  unfold matvec_body
  simp only [Nat.mul_one, Nat.add_zero, if_pos hii, set_restore]
  exact ⟨⟨_, _, rfl⟩, rfl⟩

theorem matvec_body_skip {K : Type} [LinearOrderedField K] (sqrt exp : K → K)
    (alpha : K) (x : List K) (beta : K) (temp : List K) (pre1 pre2 : K) (ii : Nat)
    (st : TreecodeGlobals K × List K) (h : ¬ ii < st.1.s_numpars) :
    matvec_body sqrt exp alpha x beta temp pre1 pre2 ii st = st := by
  unfold matvec_body
  simp only [Nat.mul_one, Nat.add_zero, if_neg h]

/-- The direct sum of the target `i` over a tree whose leaves partition `[0, N)`: the
sum over the sources `j ≠ i`. -/
theorem target_sum_eq {K : Type} [LinearOrderedField K] (sqrt exp : K → K)
    (g : TreecodeGlobals K) (htheta : g.theta = 0) (t : TreeLinkedListNode K)
    (hradii : radii_nonneg t)
    (hleaves : (leaf_indices t).Perm ((List.range g.s_numpars).map Int.ofNat))
    (x tempq : List K) (i : Nat) :
    s_RunTreecode sqrt exp (matvec_target_globals g i) x tempq t
      = (∑ j in (Finset.range g.s_numpars).erase i,
          (s_ComputeDirectPB_body sqrt exp (matvec_target_globals g i) x (j : Int) (0, 0)).1,
         ∑ j in (Finset.range g.s_numpars).erase i,
          (s_ComputeDirectPB_body sqrt exp (matvec_target_globals g i) x (j : Int) (0, 0)).2) := by
  rw [s_RunTreecode_direct sqrt exp (matvec_target_globals g i) htheta x tempq t hradii,
    leaf_sum_eq _ _ hleaves, leaf_sum_eq _ _ hleaves,
    Finset.sum_erase _ (by rw [direct_term_self]), Finset.sum_erase _ (by rw [direct_term_self])]

/-- The loop over the targets of `matvec`, run on a tree `t1` whose leaves partition
`[0, N)`, with `theta = 0`: the entries `i` and `N + i` of `tpoten` for `i < N`. -/
theorem matvec_loop_spec {K : Type} [LinearOrderedField K] (sqrt exp : K → K)
    (g0 : TreecodeGlobals K) (t1 : TreeLinkedListNode K) (htheta : g0.theta = 0)
    (hradii : radii_nonneg t1)
    (hleaves : (leaf_indices t1).Perm ((List.range g0.s_numpars).map Int.ofNat))
    (alpha : K) (x : List K) (beta : K) (temp : List K) (pre1 pre2 : K)
    (tpoten0 : List K) (hlen : tpoten0.length = 2 * g0.s_numpars)
    (i : Nat) (hi : i < g0.s_numpars) :
    rd (forLoop 0 (g0.s_numpars + 1) (matvec_body sqrt exp alpha x beta temp pre1 pre2)
        ({ g0 with s_tree_root := t1 }, tpoten0)).2 i
      = rd temp i * beta + (pre1 * rd x i
          - ∑ j in (Finset.range g0.s_numpars).erase i,
              (s_ComputeDirectPB_body sqrt exp (matvec_target_globals g0 i) x
                (j : Int) (0, 0)).1) * alpha ∧
    rd (forLoop 0 (g0.s_numpars + 1) (matvec_body sqrt exp alpha x beta temp pre1 pre2)
        ({ g0 with s_tree_root := t1 }, tpoten0)).2 (g0.s_numpars + i)
      = rd temp (g0.s_numpars + i) * beta + (pre2 * rd x (i + g0.s_numpars)
          - ∑ j in (Finset.range g0.s_numpars).erase i,
              (s_ComputeDirectPB_body sqrt exp (matvec_target_globals g0 i) x
                (j : Int) (0, 0)).2) * alpha := by
  have hloop := target_loop_spec g0.s_numpars
    (fun s : TreecodeGlobals K => ∃ tp tq, s = { g0 with
      s_tree_root := t1, s_target_position := tp, s_target_normal := tq })
    (fun ii => (rd temp ii * beta + (pre1 * rd x ii
          - ∑ j in (Finset.range g0.s_numpars).erase ii,
              (s_ComputeDirectPB_body sqrt exp (matvec_target_globals g0 ii) x
                (j : Int) (0, 0)).1) * alpha,
      rd temp (g0.s_numpars + ii) * beta + (pre2 * rd x (ii + g0.s_numpars)
          - ∑ j in (Finset.range g0.s_numpars).erase ii,
              (s_ComputeDirectPB_body sqrt exp (matvec_target_globals g0 ii) x
                (j : Int) (0, 0)).2) * alpha))
    (matvec_body sqrt exp alpha x beta temp pre1 pre2)
    (by
      intro ii s tpoten hii hs
      obtain ⟨tp, tq, rfl⟩ := hs
      obtain ⟨b1, b2⟩ := matvec_body_spec sqrt exp { g0 with s_tree_root := t1 }
        alpha x beta temp pre1 pre2 ii hii tp tq tpoten
      refine ⟨b1, ?_⟩
      rw [b2, target_sum_eq sqrt exp { g0 with s_tree_root := t1 } htheta t1 hradii hleaves]
      rfl)
    { g0 with s_tree_root := t1 } ⟨_, _, rfl⟩ tpoten0 hlen g0.s_numpars (le_refl _)
  obtain ⟨⟨tp, tq, h1⟩, _, h3⟩ := hloop
  have hlast : forLoop 0 (g0.s_numpars + 1) (matvec_body sqrt exp alpha x beta temp pre1 pre2)
        ({ g0 with s_tree_root := t1 }, tpoten0)
      = forLoop 0 g0.s_numpars (matvec_body sqrt exp alpha x beta temp pre1 pre2)
        ({ g0 with s_tree_root := t1 }, tpoten0) := by
    rw [forLoop_eq_foldl_range, List.range_succ, List.foldl_append, ← forLoop_eq_foldl_range]
    simp only [List.foldl_cons, List.foldl_nil]
    rw [matvec_body_skip]
    rw [h1]
    exact Nat.lt_irrefl _
  rw [hlast]
  exact h3 i hi

/-- C4: with `theta = 0`, in a build for one process, on a tree whose leaf ranges
partition `[0, N)` and whose node radii are non-negative, the C `matvec` equals the
direct `O(N²)` operator of the specification: for every `alpha`, `beta`, `x`, `y_prev`
and every `i < N`, `y_i = beta*y_prev_i + alpha*(c1*x_i - Σ_{j≠i} (L1*x_j + L2*x_{N+j})*a_j)`
and `y_{N+i} = beta*y_prev_{N+i} + alpha*(c2*x_{N+i} - Σ_{j≠i} (L3*x_j + L4*x_{N+j})*a_j)`,
with `c1 = (1+eps)/2` and `c2 = (1+1/eps)/2`.  The right-hand side involves neither the
interpolation points nor the moments of any node: no cluster approximation is used. -/
theorem matvec_theta_zero_direct {K : Type} [LinearOrderedField K] (sqrt exp : K → K)
    (g : TreecodeGlobals K) (htheta : g.theta = 0) (hradii : radii_nonneg g.s_tree_root)
    (hleaves : (leaf_indices g.s_tree_root).Perm ((List.range g.s_numpars).map Int.ofNat))
    (_hdistinct : ∀ i j, i < g.s_numpars → j < g.s_numpars → i ≠ j →
      ¬ (rd g.s_particle_position_x i = rd g.s_particle_position_x j ∧
         rd g.s_particle_position_y i = rd g.s_particle_position_y j ∧
         rd g.s_particle_position_z i = rd g.s_particle_position_z j))
    (alpha beta : K) (x y_prev : List K) (hy : y_prev.length = 2 * g.s_numpars)
    (i : Nat) (hi : i < g.s_numpars) :
    (rd (matvec sqrt exp g alpha x beta y_prev).2 i,
     rd (matvec sqrt exp g alpha x beta y_prev).2 (g.s_numpars + i))
      = direct_operator_spec sqrt exp g.s_eps g.s_kappa g.s_kappa2 g.s_numpars
          (rd g.s_particle_position_x) (rd g.s_particle_position_y)
          (rd g.s_particle_position_z) (rd g.s_particle_normal_x)
          (rd g.s_particle_normal_y) (rd g.s_particle_normal_z) (rd g.s_particle_area)
          alpha beta (rd x) (rd y_prev) i := by
  obtain ⟨tc, sc, hk⟩ := s_ComputePBKernel_frame g x
  have hshape := s_ComputeAllMoments_shape
    { g with s_target_charge := tc, s_source_charge := sc } g.s_tree_root 1
  have hdrop : y_prev.drop (2 * g.s_numpars) = [] := List.drop_eq_nil_of_le (by omega)
  have hloop := matvec_loop_spec sqrt exp
    { g with s_target_charge := tc, s_source_charge := sc }
    (s_ComputeAllMoments { g with s_target_charge := tc, s_source_charge := sc }
      g.s_tree_root 1)
    htheta (hshape.2 hradii) (by rw [hshape.1]; exact hleaves) alpha x beta
    (y_prev.take (2 * g.s_numpars)) (1 / 2 * (1 + g.s_eps)) (1 / 2 * (1 + 1 / g.s_eps))
    (List.replicate (2 * g.s_numpars) (0 : K) ++ y_prev.drop (2 * g.s_numpars))
    (by rw [hdrop]; simp) i hi
  have h1 : rd (matvec sqrt exp g alpha x beta y_prev).2 i
      = rd (y_prev.take (2 * g.s_numpars)) i * beta + (1 / 2 * (1 + g.s_eps) * rd x i
          - ∑ j in (Finset.range g.s_numpars).erase i,
              (s_ComputeDirectPB_body sqrt exp (matvec_target_globals g i) x
                (j : Int) (0, 0)).1) * alpha := by
    unfold matvec
    simp only [hk, Nat.div_one]
    exact hloop.1
  have h2 : rd (matvec sqrt exp g alpha x beta y_prev).2 (g.s_numpars + i)
      = rd (y_prev.take (2 * g.s_numpars)) (g.s_numpars + i) * beta
        + (1 / 2 * (1 + 1 / g.s_eps) * rd x (i + g.s_numpars)
          - ∑ j in (Finset.range g.s_numpars).erase i,
              (s_ComputeDirectPB_body sqrt exp (matvec_target_globals g i) x
                (j : Int) (0, 0)).2) * alpha := by
    unfold matvec
    simp only [hk, Nat.div_one]
    exact hloop.2
  rw [h1, h2]
  unfold direct_operator_spec
  rw [rd_take _ _ _ (by omega), rd_take _ _ _ (by omega)]
  refine Prod.ext ?_ ?_
  · simp only
    rw [Finset.sum_congr rfl (fun j hj => congrArg Prod.fst
      (direct_term_eq sqrt exp g x i j (Finset.ne_of_mem_erase hj)))]
    ring
  · simp only
    rw [Finset.sum_congr rfl (fun j hj => congrArg Prod.snd
      (direct_term_eq sqrt exp g x i j (Finset.ne_of_mem_erase hj)))]
    rw [Nat.add_comm i g.s_numpars]
    ring

/-- C4 at a concrete input: four particles, a root with two leaves, target `i = 2`. -/
theorem matvec_theta_zero_direct_witness :
    sampleGlobals.theta = 0 ∧ radii_nonneg sampleGlobals.s_tree_root ∧
    (leaf_indices sampleGlobals.s_tree_root).Perm
      ((List.range sampleGlobals.s_numpars).map Int.ofNat) ∧
    (∀ i j, i < sampleGlobals.s_numpars → j < sampleGlobals.s_numpars → i ≠ j →
      ¬ (rd sampleGlobals.s_particle_position_x i = rd sampleGlobals.s_particle_position_x j ∧
         rd sampleGlobals.s_particle_position_y i = rd sampleGlobals.s_particle_position_y j ∧
         rd sampleGlobals.s_particle_position_z i
           = rd sampleGlobals.s_particle_position_z j)) ∧
    (rd (matvec Real.sqrt Real.exp sampleGlobals 1 [1, 2, 3, 4, 5, 6, 7, 8] 1
        [8, 7, 6, 5, 4, 3, 2, 1]).2 2,
     rd (matvec Real.sqrt Real.exp sampleGlobals 1 [1, 2, 3, 4, 5, 6, 7, 8] 1
        [8, 7, 6, 5, 4, 3, 2, 1]).2 (sampleGlobals.s_numpars + 2))
      = direct_operator_spec Real.sqrt Real.exp sampleGlobals.s_eps sampleGlobals.s_kappa
          sampleGlobals.s_kappa2 sampleGlobals.s_numpars
          (rd sampleGlobals.s_particle_position_x) (rd sampleGlobals.s_particle_position_y)
          (rd sampleGlobals.s_particle_position_z) (rd sampleGlobals.s_particle_normal_x)
          (rd sampleGlobals.s_particle_normal_y) (rd sampleGlobals.s_particle_normal_z)
          (rd sampleGlobals.s_particle_area) 1 1 (rd [1, 2, 3, 4, 5, 6, 7, 8])
          (rd [8, 7, 6, 5, 4, 3, 2, 1]) 2 := by
  have hradii : radii_nonneg sampleGlobals.s_tree_root := by
    simp [radii_nonneg, radii_nonneg_children, sampleGlobals, sampleNodeData]
  have hleaves : (leaf_indices sampleGlobals.s_tree_root).Perm
      ((List.range sampleGlobals.s_numpars).map Int.ofNat) := by
    have e : leaf_indices sampleGlobals.s_tree_root
        = (List.range sampleGlobals.s_numpars).map Int.ofNat := by decide
    rw [e]
  have hdistinct : ∀ i j, i < sampleGlobals.s_numpars → j < sampleGlobals.s_numpars → i ≠ j →
      ¬ (rd sampleGlobals.s_particle_position_x i = rd sampleGlobals.s_particle_position_x j ∧
         rd sampleGlobals.s_particle_position_y i = rd sampleGlobals.s_particle_position_y j ∧
         rd sampleGlobals.s_particle_position_z i
           = rd sampleGlobals.s_particle_position_z j) := by
    intro i j hi hj hij
    have hi4 : i < 4 := hi
    have hj4 : j < 4 := hj
    interval_cases i <;> interval_cases j <;>
      first
        | exact absurd rfl hij
        | norm_num [rd, sampleGlobals]
  exact ⟨rfl, hradii, hleaves, hdistinct,
    matvec_theta_zero_direct Real.sqrt Real.exp sampleGlobals rfl hradii hleaves hdistinct
      1 1 [1, 2, 3, 4, 5, 6, 7, 8] [8, 7, 6, 5, 4, 3, 2, 1] rfl 2 (by decide)⟩

/-! ## `elements.cpp`: `compute_source_term` has no error path -/

/-- C11 (counterexample): an atom of `coincidentMolecule` lies on the first element of
`sampleElements` (distance `0`), and `Elements::compute_source_term` returns instead of
failing with `GeometryError`. -/
theorem compute_source_term_coincident_returns :
    (∃ i j, i < sampleElements.num_ ∧ j < coincidentMolecule.num ∧
      Real.sqrt ((rd coincidentMolecule.x j - rd sampleElements.x_ i)
            * (rd coincidentMolecule.x j - rd sampleElements.x_ i)
        + (rd coincidentMolecule.y j - rd sampleElements.y_ i)
            * (rd coincidentMolecule.y j - rd sampleElements.y_ i)
        + (rd coincidentMolecule.z j - rd sampleElements.z_ i)
            * (rd coincidentMolecule.z j - rd sampleElements.z_ i)) = 0) ∧
    sampleElements.compute_source_term_call Real.sqrt 2 coincidentMolecule
      ≠ CallOutcome.GeometryError := by
  refine ⟨⟨0, 0, by decide, by decide, ?_⟩, ?_⟩
  · norm_num [rd, coincidentMolecule, sampleElements]
  · intro h
    cases h

/-- C11 (amended): `Elements::compute_source_term` has no error path.  On every input it
returns, also when an atom coincides with an element; and when `source_term_` starts at
zero and every atom-element distance is positive, what it returns is the source term of
the specification. -/
theorem compute_source_term_always_returns {K : Type} [LinearOrderedField K] (sqrt : K → K)
    (eps_solute : K) (molecule_ : Molecule K) (e : Elements K) :
    ∃ e1, e.compute_source_term_call sqrt eps_solute molecule_ = CallOutcome.returns e1 ∧
      (e.source_term_ = List.replicate (2 * e.num_) 0 →
        (∀ i j, i < e.num_ → j < molecule_.num →
          0 < sqrt ((rd molecule_.x j - rd e.x_ i) * (rd molecule_.x j - rd e.x_ i)
            + (rd molecule_.y j - rd e.y_ i) * (rd molecule_.y j - rd e.y_ i)
            + (rd molecule_.z j - rd e.z_ i) * (rd molecule_.z j - rd e.z_ i))) →
        ∀ i, i < e.num_ →
          rd e1.source_term_ i
            = (source_term_spec sqrt eps_solute molecule_.num
                (fun j => rd molecule_.charge j) (fun j => rd molecule_.x j)
                (fun j => rd molecule_.y j) (fun j => rd molecule_.z j)
                (rd e.x_ i) (rd e.y_ i) (rd e.z_ i) (rd e.nx_ i) (rd e.ny_ i) (rd e.nz_ i)).1 ∧
          rd e1.source_term_ (e.num_ + i)
            = (source_term_spec sqrt eps_solute molecule_.num
                (fun j => rd molecule_.charge j) (fun j => rd molecule_.x j)
                (fun j => rd molecule_.y j) (fun j => rd molecule_.z j)
                (rd e.x_ i) (rd e.y_ i) (rd e.z_ i) (rd e.nx_ i) (rd e.ny_ i)
                (rd e.nz_ i)).2) := by
  refine ⟨e.compute_source_term sqrt eps_solute molecule_, rfl, ?_⟩
  intro hzero _ i hi
  exact (Elements_compute_source_term_spec sqrt eps_solute molecule_ e hzero).2 i hi

/-- C11 (amended) at a concrete input: the tetrahedron of `sampleElements` and the atom of
`sampleMolecule`, which lies inside it. -/
theorem compute_source_term_always_returns_witness :
    ∃ e1, sampleElements.compute_source_term_call Real.sqrt 2 sampleMolecule
        = CallOutcome.returns e1 ∧
      ∀ i, i < sampleElements.num_ →
        rd e1.source_term_ i
          = (source_term_spec Real.sqrt 2 sampleMolecule.num
              (fun j => rd sampleMolecule.charge j) (fun j => rd sampleMolecule.x j)
              (fun j => rd sampleMolecule.y j) (fun j => rd sampleMolecule.z j)
              (rd sampleElements.x_ i) (rd sampleElements.y_ i) (rd sampleElements.z_ i)
              (rd sampleElements.nx_ i) (rd sampleElements.ny_ i)
              (rd sampleElements.nz_ i)).1 ∧
        rd e1.source_term_ (sampleElements.num_ + i)
          = (source_term_spec Real.sqrt 2 sampleMolecule.num
              (fun j => rd sampleMolecule.charge j) (fun j => rd sampleMolecule.x j)
              (fun j => rd sampleMolecule.y j) (fun j => rd sampleMolecule.z j)
              (rd sampleElements.x_ i) (rd sampleElements.y_ i) (rd sampleElements.z_ i)
              (rd sampleElements.nx_ i) (rd sampleElements.ny_ i)
              (rd sampleElements.nz_ i)).2 := by
  obtain ⟨e1, h1, h2⟩ :=
    compute_source_term_always_returns Real.sqrt 2 sampleMolecule sampleElements
  refine ⟨e1, h1, h2 rfl ?_⟩
  intro i j hi hj
  have hj0 : j = 0 := by simp [sampleMolecule] at hj; omega
  have hi4 : i < 4 := hi
  subst hj0
  apply Real.sqrt_pos.mpr
  interval_cases i <;> norm_num [rd, sampleMolecule, sampleElements]

/-! ## The scalar preconditioner: `Treecode::precondition` and `psolve` -/

/-- A loop `for i in [lo, lo+n)` of writes `mem[z+i] = f(mem[r+i])` in which no read sees
an earlier write. -/
theorem shift_loop_spec {K : Type} [Zero K] (f : K → K) (z r n lo : Nat) (mem : List K)
    (hlen : z + lo + n ≤ mem.length)
    (hrw : ∀ i j, lo ≤ j → j < i → i < lo + n → r + i ≠ z + j) :
    ((List.range' lo n).foldl (fun mem i => mem.set (z + i) (f (rd mem (r + i)))) mem).length
      = mem.length ∧
    ∀ v, rd ((List.range' lo n).foldl
        (fun mem i => mem.set (z + i) (f (rd mem (r + i)))) mem) v
      = if z + lo ≤ v ∧ v < z + lo + n then f (rd mem (r + (v - z))) else rd mem v := by
  induction n generalizing lo mem with
  | zero =>
    refine ⟨rfl, ?_⟩
    intro v
    rw [if_neg (by omega)]
    rfl
  | succ n ih =>
    obtain ⟨h1, h2⟩ := ih (lo + 1) (mem.set (z + lo) (f (rd mem (r + lo))))
      (by simp; omega) (fun i j hj hji hi => hrw i j (by omega) hji (by omega))
    simp only [List.range', List.foldl_cons]
    refine ⟨by simpa using h1, ?_⟩
    intro v
    rw [h2 v]
    by_cases c1 : z + (lo + 1) ≤ v ∧ v < z + (lo + 1) + n
    · rw [if_pos c1, if_pos (by omega),
        rd_set_ne _ _ _ _ (fun e => hrw (v - z) lo (le_refl _) (by omega) (by omega)
          (by omega))]
    · rw [if_neg c1]
      by_cases c2 : z + lo = v
      · subst c2
        rw [rd_set _ _ _ _ (by omega), if_pos rfl, if_pos (by omega)]
        have e : r + (z + lo - z) = r + lo := by omega
        rw [e]
      · rw [rd_set_ne _ _ _ _ c2, if_neg (by omega)]

/-- The loop of `psolve`: two writes per iteration, into the two halves of `z`. -/
theorem psolve_loop_spec {K : Type} [Zero K] (f1 f2 : K → K) (z r N n lo : Nat)
    (mem : List K) (hlen : z + 2 * N ≤ mem.length) (hn : lo + n ≤ N)
    (hzr : z = r ∨ z + 2 * N ≤ r ∨ r + 2 * N ≤ z) :
    ((List.range' lo n).foldl (fun mem i =>
        (mem.set (z + i) (f1 (rd mem (r + i)))).set (z + i + N)
          (f2 (rd (mem.set (z + i) (f1 (rd mem (r + i)))) (r + i + N)))) mem).length
      = mem.length ∧
    ∀ v, rd ((List.range' lo n).foldl (fun mem i =>
        (mem.set (z + i) (f1 (rd mem (r + i)))).set (z + i + N)
          (f2 (rd (mem.set (z + i) (f1 (rd mem (r + i)))) (r + i + N)))) mem) v
      = if z + lo ≤ v ∧ v < z + lo + n then f1 (rd mem (r + (v - z)))
        else if z + N + lo ≤ v ∧ v < z + N + lo + n then f2 (rd mem (r + (v - z)))
        else rd mem v := by
  induction n generalizing lo mem with
  | zero =>
    refine ⟨rfl, ?_⟩
    intro v
    rw [if_neg (by omega), if_neg (by omega)]
    rfl
  | succ n ih =>
    obtain ⟨h1, h2⟩ := ih (lo + 1)
      ((mem.set (z + lo) (f1 (rd mem (r + lo)))).set (z + lo + N)
        (f2 (rd (mem.set (z + lo) (f1 (rd mem (r + lo)))) (r + lo + N))))
      (by rw [List.length_set, List.length_set]; omega) (by omega)
    simp only [List.range', List.foldl_cons]
    refine ⟨by simpa using h1, ?_⟩
    intro v
    rw [h2 v]
    have e0 : rd (mem.set (z + lo) (f1 (rd mem (r + lo)))) (r + lo + N) = rd mem (r + lo + N) :=
      rd_set_ne _ _ _ _ (by omega)
    rw [e0]
    by_cases c1 : z + (lo + 1) ≤ v ∧ v < z + (lo + 1) + n
    · rw [if_pos c1, if_pos (by omega), rd_set_ne _ _ _ _ (by omega),
        rd_set_ne _ _ _ _ (by omega)]
    · rw [if_neg c1]
      by_cases c2 : z + N + (lo + 1) ≤ v ∧ v < z + N + (lo + 1) + n
      · rw [if_pos c2, if_neg (by omega), if_pos (by omega), rd_set_ne _ _ _ _ (by omega),
          rd_set_ne _ _ _ _ (by omega)]
      · rw [if_neg c2]
        by_cases c3 : z + lo + N = v
        · subst c3
          rw [rd_set _ _ _ _ (by simp; omega), if_pos rfl, if_neg (by omega),
            if_pos (by omega)]
          have e : r + (z + lo + N - z) = r + lo + N := by omega
          rw [e]
        · rw [rd_set_ne _ _ _ _ c3]
          by_cases c4 : z + lo = v
          · subst c4
            rw [rd_set _ _ _ _ (by omega), if_pos rfl, if_pos (by omega)]
            have e : r + (z + lo - z) = r + lo := by omega
            rw [e]
          · rw [rd_set_ne _ _ _ _ c4, if_neg (by omega), if_neg (by omega)]

theorem precondition_spec {K : Type} [Zero K] [One K] [OfNat K 2] [Add K] [Mul K] [Div K]
    (tc : Treecode K) (mem : List K) (z r : Nat)
    (hlen : z + 2 * tc.particles_.num_ ≤ mem.length)
    (hzr : z = r ∨ z + 2 * tc.particles_.num_ ≤ r ∨ r + 2 * tc.particles_.num_ ≤ z) :
    (tc.precondition mem z r).length = mem.length ∧
    ∀ v, rd (tc.precondition mem z r) v
      = if z ≤ v ∧ v < z + tc.particles_.num_
        then rd mem (r + (v - z)) / (1 / 2 * (1 + tc.params_.phys_eps_))
        else if z + tc.particles_.num_ ≤ v ∧ v < z + 2 * tc.particles_.num_
        then rd mem (r + (v - z)) / (1 / 2 * (1 + 1 / tc.params_.phys_eps_))
        else rd mem v := by
  obtain ⟨a1, a2⟩ := shift_loop_spec (fun t => t / (1 / 2 * (1 + tc.params_.phys_eps_)))
    z r tc.particles_.num_ 0 mem (by omega) (fun i j _ hji hi => by omega)
  obtain ⟨b1, b2⟩ := shift_loop_spec (fun t => t / (1 / 2 * (1 + 1 / tc.params_.phys_eps_)))
    z r tc.particles_.num_ tc.particles_.num_
    ((List.range' 0 tc.particles_.num_).foldl (fun mem i =>
      mem.set (z + i) ((fun t => t / (1 / 2 * (1 + tc.params_.phys_eps_))) (rd mem (r + i))))
      mem)
    (by rw [a1]; omega) (fun i j _ hji hi => by omega)
  have hsub : 2 * tc.particles_.num_ - tc.particles_.num_ = tc.particles_.num_ := by omega
  unfold Treecode.precondition forLoop
  simp only [hsub, Nat.sub_zero]
  refine ⟨by rw [b1, a1], ?_⟩
  intro v
  rw [b2 v]
  by_cases c1 : z ≤ v ∧ v < z + tc.particles_.num_
  · rw [if_neg (by omega), a2 v, if_pos (by omega), if_pos c1]
  · rw [if_neg c1]
    by_cases c2 : z + tc.particles_.num_ ≤ v ∧ v < z + 2 * tc.particles_.num_
    · rw [if_pos (by omega), if_pos c2, a2 (r + (v - z)), if_neg (by omega)]
    · rw [if_neg (by omega), if_neg c2, a2 v, if_neg (by omega)]

theorem psolve_spec {K : Type} [Field K] (g : TreecodeGlobals K) (mem : List K) (z r : Nat)
    (hlen : z + 2 * g.s_numpars ≤ mem.length)
    (hzr : z = r ∨ z + 2 * g.s_numpars ≤ r ∨ r + 2 * g.s_numpars ≤ z) :
    (psolve g mem z r).length = mem.length ∧
    ∀ v, rd (psolve g mem z r) v
      = if z ≤ v ∧ v < z + g.s_numpars
        then rd mem (r + (v - z)) / (1 / 2 * (1 + g.s_eps))
        else if z + g.s_numpars ≤ v ∧ v < z + 2 * g.s_numpars
        then rd mem (r + (v - z)) / (1 / 2 * (1 + 1 / g.s_eps))
        else rd mem v := by
  obtain ⟨a1, a2⟩ := psolve_loop_spec (fun t => t / (1 / 2 * (1 + g.s_eps)))
    (fun t => t / (1 / 2 * (1 + 1 / g.s_eps))) z r g.s_numpars g.s_numpars 0 mem hlen
    (by omega) hzr
  unfold psolve forLoop
  simp only [Nat.sub_zero]
  refine ⟨a1, ?_⟩
  intro v
  rw [a2 v]
  by_cases c1 : z ≤ v ∧ v < z + g.s_numpars
  · rw [if_pos (by omega), if_pos c1]
  · rw [if_neg (by omega), if_neg c1]
    by_cases c2 : z + g.s_numpars ≤ v ∧ v < z + 2 * g.s_numpars
    · rw [if_pos (by omega), if_pos c2]
    · rw [if_neg (by omega), if_neg c2]

/-- C12: for `eps` not in `{0, -1}` and every residual `r` of length `2N` (the buffers
`z` and `r` lying in one memory, identical or disjoint), `Treecode::precondition` (C++)
and `psolve` (C) both leave `z_i = r_i/c1` for `i < N` and `z_i = r_i/c2` for
`N ≤ i < 2N`, where `c1 = (1+eps)/2` and `c2 = (1+1/eps)/2`, and nothing else changes:
the two implementations leave the same memory on every input. -/
theorem precondition_psolve_agree {K : Type} [Field K] (tc : Treecode K)
    (g : TreecodeGlobals K) (eps : K) (N : Nat) (_heps0 : eps ≠ 0) (_heps1 : eps ≠ -1)
    (htc : tc.params_.phys_eps_ = eps ∧ tc.particles_.num_ = N)
    (hg : g.s_eps = eps ∧ g.s_numpars = N) (mem : List K) (z r : Nat)
    (hz : z + 2 * N ≤ mem.length) (hr : r + 2 * N ≤ mem.length)
    (hzr : z = r ∨ z + 2 * N ≤ r ∨ r + 2 * N ≤ z) :
    (∀ i, i < N → rd (tc.precondition mem z r) (z + i) = rd mem (r + i) / ((1 + eps) / 2)) ∧
    (∀ i, N ≤ i → i < 2 * N →
      rd (tc.precondition mem z r) (z + i) = rd mem (r + i) / ((1 + 1 / eps) / 2)) ∧
    (∀ v, ¬ (z ≤ v ∧ v < z + 2 * N) → rd (tc.precondition mem z r) v = rd mem v) ∧
    psolve g mem z r = tc.precondition mem z r := by
  obtain ⟨h1, h2⟩ := htc
  obtain ⟨h3, h4⟩ := hg
  subst h2
  obtain ⟨a1, a2⟩ := precondition_spec tc mem z r hz hzr
  obtain ⟨b1, b2⟩ := psolve_spec g mem z r (by rw [h4]; exact hz) (by rw [h4]; exact hzr)
  have e1 : (1 : K) / 2 * (1 + eps) = (1 + eps) / 2 := by ring
  have e2 : (1 : K) / 2 * (1 + 1 / eps) = (1 + 1 / eps) / 2 := by ring
  rw [h1, e1, e2] at a2
  rw [h3, h4, e1, e2] at b2
  refine ⟨?_, ?_, ?_, ?_⟩
  · intro i hi
    rw [a2, if_pos (by omega)]
    have e : r + (z + i - z) = r + i := by omega
    rw [e]
  · intro i hi1 hi2
    rw [a2, if_neg (by omega), if_pos (by omega)]
    have e : r + (z + i - z) = r + i := by omega
    rw [e]
  · intro v hv
    rw [a2, if_neg (by omega), if_neg (by omega)]
  · apply list_ext_rd
    · rw [b1, a1]
    · intro v _
      rw [a2 v, b2 v]

/-- C12 at a concrete input: `eps = 40`, `N = 4`, `z` at offset `0` and `r` at offset `8`
of a memory of sixteen entries. -/
theorem precondition_psolve_agree_witness :
    (40 : ℝ) ≠ 0 ∧ (40 : ℝ) ≠ -1 ∧
    (∀ i, i < 4 → rd (sampleTreecode.precondition
        [0, 0, 0, 0, 0, 0, 0, 0, 1, 2, 3, 4, 5, 6, 7, 8] 0 8) (0 + i)
      = rd [0, 0, 0, 0, 0, 0, 0, 0, 1, 2, 3, 4, 5, 6, 7, 8] (8 + i) / ((1 + 40) / 2)) ∧
    psolve sampleGlobals [0, 0, 0, 0, 0, 0, 0, 0, 1, 2, 3, 4, 5, 6, 7, 8] 0 8
      = sampleTreecode.precondition [0, 0, 0, 0, 0, 0, 0, 0, 1, 2, 3, 4, 5, 6, 7, 8] 0 8 :=
  ⟨by norm_num, by norm_num,
   (precondition_psolve_agree sampleTreecode sampleGlobals 40 4 (by norm_num) (by norm_num)
      ⟨rfl, rfl⟩ ⟨rfl, rfl⟩ [0, 0, 0, 0, 0, 0, 0, 0, 1, 2, 3, 4, 5, 6, 7, 8] 0 8
      (by simp) (by simp) (by simp)).1,
   (precondition_psolve_agree sampleTreecode sampleGlobals 40 4 (by norm_num) (by norm_num)
      ⟨rfl, rfl⟩ ⟨rfl, rfl⟩ [0, 0, 0, 0, 0, 0, 0, 0, 1, 2, 3, 4, 5, 6, 7, 8] 0 8
      (by simp) (by simp) (by simp)).2.2.2⟩

/-! ## `gmres.cpp`: the return codes -/

/-- The restart loop returns `0` or `1`. -/
theorem gmres_restart_code {S R : Type} [LinearOrder R] (k : GmresKernels S R)
    (restrt maxit : Int) (tol : R) (fuel : Nat) (st : GmresState S R)
    (r : Int × GmresState S R) (h : gmres_restart k restrt maxit tol fuel st = some r) :
    r.1 = 0 ∨ r.1 = 1 := by
  induction fuel generalizing st with
  | zero => simp [gmres_restart] at h
  | succ fuel ih =>
    unfold gmres_restart at h
    simp only at h
    generalize gmres_inner k tol restrt.toNat 0 { st with mem := k.first_column st.mem } = q
      at h
    obtain ⟨st1, flag⟩ := q
    cases flag
    · simp only at h
      split at h
      · injection h with h
        subst h
        exact Or.inl rfl
      · split at h
        · injection h with h
          subst h
          exact Or.inr rfl
        · exact ih _ h
    · simp only at h
      injection h with h
      subst h
      exact Or.inl rfl

/-- With valid arguments `gmres_` forms the preconditioned initial residual, returns `0`
when it meets the tolerance and enters the restart loop with `iter = 0` otherwise. -/
theorem gmres_valid_eq {S R : Type} [LT R] [LE R] [DecidableRel (fun a b : R => a < b)]
    [DecidableRel (fun a b : R => a ≤ b)] (k : GmresKernels S R)
    (n restrt ldw ldh : Int) (fuel : Nat) (st : GmresState S R)
    (h1 : 0 ≤ n) (h2 : max 1 n ≤ ldw) (h3 : 0 < st.iter) (h4 : restrt + 1 ≤ ldh) :
    gmres_ k n restrt ldw ldh fuel st
      = if k.relative_residual (gmres_initial_residual k st).mem < st.resid
        then some (0, gmres_initial_residual k st)
        else gmres_restart k restrt st.iter st.resid fuel
          { gmres_initial_residual k st with iter := 0 } := by
  unfold gmres_ gmres_initial_residual
  rw [if_neg (not_lt.mpr h1), if_neg (not_lt.mpr h2), if_neg (not_le.mpr h3),
    if_neg (not_lt.mpr h4)]

/-- C14: `gmres_` returns a negative code exactly when an argument is invalid, checked in
this order: `-1` if `n < 0`; otherwise `-2` if `ldw < max(1,n)`; otherwise `-3` if
`iter <= 0`; otherwise `-4` if `ldh < restrt + 1`; with valid arguments every return
code is `0` or `1`.  On a negative return the state is the one at the call: `x`, `iter`
and `resid` are unchanged and neither `matrix_vector` nor `precondition` was called. -/
theorem gmres_invalid_arguments {S R : Type} [LinearOrder R] (k : GmresKernels S R)
    (n restrt ldw ldh : Int) (fuel : Nat) (st : GmresState S R) :
    (n < 0 → gmres_ k n restrt ldw ldh fuel st = some (-1, st)) ∧
    (0 ≤ n → ldw < max 1 n → gmres_ k n restrt ldw ldh fuel st = some (-2, st)) ∧
    (0 ≤ n → max 1 n ≤ ldw → st.iter ≤ 0 →
      gmres_ k n restrt ldw ldh fuel st = some (-3, st)) ∧
    (0 ≤ n → max 1 n ≤ ldw → 0 < st.iter → ldh < restrt + 1 →
      gmres_ k n restrt ldw ldh fuel st = some (-4, st)) ∧
    (0 ≤ n → max 1 n ≤ ldw → 0 < st.iter → restrt + 1 ≤ ldh →
      ∀ r, gmres_ k n restrt ldw ldh fuel st = some r → r.1 = 0 ∨ r.1 = 1) := by
  refine ⟨?_, ?_, ?_, ?_, ?_⟩
  · intro h1
    unfold gmres_
    rw [if_pos h1]
  · intro h1 h2
    unfold gmres_
    rw [if_neg (not_lt.mpr h1), if_pos h2]
  · intro h1 h2 h3
    unfold gmres_
    rw [if_neg (not_lt.mpr h1), if_neg (not_lt.mpr h2), if_pos h3]
  · intro h1 h2 h3 h4
    unfold gmres_
    rw [if_neg (not_lt.mpr h1), if_neg (not_lt.mpr h2), if_neg (not_le.mpr h3), if_pos h4]
  · intro h1 h2 h3 h4 r hr
    rw [gmres_valid_eq k n restrt ldw ldh fuel st h1 h2 h3 h4] at hr
    split at hr
    · injection hr with hr
      subst hr
      exact Or.inl rfl
    · exact gmres_restart_code k restrt _ _ fuel _ r hr

/-- C14 at concrete inputs: the four invalid calls and a valid one. -/
theorem gmres_invalid_arguments_witness :
    gmres_ stagnatingKernels (-1) 10 2 11 1 (gmresStart Unit ())
      = some (-1, gmresStart Unit ()) ∧
    gmres_ stagnatingKernels 2 10 1 11 1 (gmresStart Unit ())
      = some (-2, gmresStart Unit ()) ∧
    gmres_ stagnatingKernels 2 10 2 11 1 { gmresStart Unit () with iter := 0 }
      = some (-3, { gmresStart Unit () with iter := 0 }) ∧
    gmres_ stagnatingKernels 2 10 2 10 1 (gmresStart Unit ())
      = some (-4, gmresStart Unit ()) ∧
    (∀ r, gmres_ (countingKernels 7) 2 10 2 11 1 (gmresStart Nat 0) = some r →
      r.1 = 0 ∨ r.1 = 1) :=
  ⟨(gmres_invalid_arguments stagnatingKernels (-1) 10 2 11 1 (gmresStart Unit ())).1
      (by decide),
   (gmres_invalid_arguments stagnatingKernels 2 10 1 11 1 (gmresStart Unit ())).2.1
      (by decide) (by decide),
   (gmres_invalid_arguments stagnatingKernels 2 10 2 11 1
      { gmresStart Unit () with iter := 0 }).2.2.1 (by decide) (by decide) (le_refl _),
   (gmres_invalid_arguments stagnatingKernels 2 10 2 10 1 (gmresStart Unit ())).2.2.2.1
      (by decide) (by decide) (by decide) (by decide),
   (gmres_invalid_arguments (countingKernels 7) 2 10 2 11 1 (gmresStart Nat 0)).2.2.2.2
      (by decide) (by decide) (by decide) (by decide)⟩

/-! ## `gmres.cpp`: a zero right-hand side -/

theorem foldl_invariant_mem {σ ι : Type} (P : σ → Prop) (f : σ → ι → σ) (l : List ι)
    (h : ∀ s i, i ∈ l → P s → P (f s i)) (s : σ) (hs : P s) : P (l.foldl f s) := by
  induction l generalizing s with
  | nil => exact hs
  | cons i l ih =>
    exact ih (fun s j hj => h s j (List.mem_cons_of_mem _ hj)) _
      (h s i (List.mem_cons_self _ _) hs)

/-- An invariant of a counted loop whose body keeps it for the indices of the loop. -/
theorem forLoop_invariant_range {σ : Type} (P : σ → Prop) (body : Nat → σ → σ)
    (lo hi : Nat) (h : ∀ i s, lo ≤ i → i < hi → P s → P (body i s)) (s : σ) (hs : P s) :
    P (forLoop lo hi body s) := by
  unfold forLoop
  apply foldl_invariant_mem P _ _ _ s hs
  intro s i hi
  rw [List.mem_range'_1] at hi
  exact h i s hi.1 (by omega)

/-- A loop `for i in [lo, lo+n)` of writes `a[off+i] = g(i)`. -/
theorem fill_loop_spec {K : Type} [Zero K] (g : Nat → K) (off n lo : Nat) (a : List K)
    (hlen : off + lo + n ≤ a.length) :
    ((List.range' lo n).foldl (fun a i => a.set (off + i) (g i)) a).length = a.length ∧
    ∀ v, rd ((List.range' lo n).foldl (fun a i => a.set (off + i) (g i)) a) v
      = if off + lo ≤ v ∧ v < off + lo + n then g (v - off) else rd a v := by
  induction n generalizing lo a with
  | zero =>
    refine ⟨rfl, ?_⟩
    intro v
    rw [if_neg (by omega)]
    rfl
  | succ n ih =>
    obtain ⟨h1, h2⟩ := ih (lo + 1) (a.set (off + lo) (g lo)) (by simp; omega)
    simp only [List.range', List.foldl_cons]
    refine ⟨by simpa using h1, ?_⟩
    intro v
    rw [h2 v]
    by_cases c1 : off + (lo + 1) ≤ v ∧ v < off + (lo + 1) + n
    · rw [if_pos c1, if_pos (by omega)]
    · rw [if_neg c1]
      by_cases c2 : off + lo = v
      · subst c2
        rw [rd_set _ _ _ _ (by omega), if_pos rfl, if_pos (by omega)]
        have e : off + lo - off = lo := by omega
        rw [e]
      · rw [rd_set_ne _ _ _ _ c2, if_neg (by omega)]

/-- The norm of a vector of zeros is `sqrt 0`. -/
theorem dnrm2_zero {K : Type} [Field K] (sqrt : K → K) (n : Int) (a : List K) (x : Nat)
    (h : ∀ idx, idx < n.toNat → rd a (x + idx) = 0) :
    dnrm2_ sqrt n a x = sqrt 0 := by
  unfold dnrm2_
  congr 1
  apply forLoop_invariant_range (fun norm : K => norm = 0) _ 0 n.toNat _ 0 rfl
  intro i s _ hi hs
  rw [hs, h i hi]
  simp

theorem gmres_copy_b_spec {K : Type} [Zero K] (n ldw : Int) (mem : GmresMemory K)
    (hwork : (2 * ldw).toNat + n.toNat ≤ mem.work.length) :
    (gmres_copy_b n ldw mem).b = mem.b ∧ (gmres_copy_b n ldw mem).x = mem.x ∧
    (gmres_copy_b n ldw mem).work.length = mem.work.length ∧
    ∀ idx, idx < n.toNat → rd (gmres_copy_b n ldw mem).work ((2 * ldw).toNat + idx)
      = rd mem.b idx := by
  obtain ⟨h1, h2⟩ := fill_loop_spec (fun idx => rd mem.b idx) (2 * ldw).toNat n.toNat 0
    mem.work (by omega)
  unfold gmres_copy_b forLoop
  simp only [Nat.sub_zero]
  refine ⟨trivial, trivial, h1, ?_⟩
  intro idx hidx
  rw [h2, if_pos (by omega)]
  have e : (2 * ldw).toNat + idx - (2 * ldw).toNat = idx := by omega
  rw [e]

/-- The statements of `gmres_` before the restart loop, for a zero right-hand side and a
zero initial guess: the norm of `b` is taken to be `1`, `matrix_vector` is not called,
`x` is not touched, and the relative preconditioned residual is `0`. -/
theorem gmres_zero_rhs_residual {K : Type} [LinearOrderedField K] (sqrt exp : K → K)
    (hsqrt : sqrt 0 = 0) (m : ClusterMethods K) (tc : Treecode K)
    (rest : GmresKernels (GmresMemory K) K) (n ldw : Int)
    (st : GmresState (GmresMemory K) K) (hn : n = 2 * (tc.particles_.num_ : Int))
    (hldw : max 1 n ≤ ldw)
    (hb : ∀ idx, idx < n.toNat → rd st.mem.b idx = 0)
    (hx : ∀ idx, idx < n.toNat → rd st.mem.x idx = 0)
    (hwork : (2 * ldw).toNat + n.toNat ≤ st.mem.work.length) :
    gmres_bnrm2 sqrt n st.mem.b = 1 ∧
    (treecodeKernels sqrt exp m tc n ldw rest).relative_residual
      (gmres_initial_residual (treecodeKernels sqrt exp m tc n ldw rest) st).mem = 0 ∧
    (gmres_initial_residual (treecodeKernels sqrt exp m tc n ldw rest) st).mem.x = st.mem.x ∧
    (gmres_initial_residual (treecodeKernels sqrt exp m tc n ldw rest) st).matvec_calls
      = st.matvec_calls ∧
    (gmres_initial_residual (treecodeKernels sqrt exp m tc n ldw rest) st).iter = st.iter := by
  have hn0 : 0 ≤ n := by omega
  have hnN : n.toNat = 2 * tc.particles_.num_ := by omega
  have hbn : dnrm2_ sqrt n st.mem.b 0 = 0 := by
    rw [dnrm2_zero sqrt n st.mem.b 0 (fun idx h => by rw [Nat.zero_add]; exact hb idx h), hsqrt]
  have hxn : dnrm2_ sqrt n st.mem.x 0 = 0 := by
    rw [dnrm2_zero sqrt n st.mem.x 0 (fun idx h => by rw [Nat.zero_add]; exact hx idx h), hsqrt]
  have hbnrm : gmres_bnrm2 sqrt n st.mem.b = 1 := by
    unfold gmres_bnrm2
    rw [if_pos hbn]
  obtain ⟨c1, c2, c3, c4⟩ := gmres_copy_b_spec n ldw st.mem hwork
  obtain ⟨p1, p2⟩ := precondition_spec tc (gmres_copy_b n ldw st.mem).work 0 (2 * ldw).toNat
    (by rw [c3]; omega) (Or.inr (Or.inl (by omega)))
  have hwn : dnrm2_ sqrt n (tc.precondition (gmres_copy_b n ldw st.mem).work 0
      (2 * ldw).toNat) 0 = 0 := by
    rw [dnrm2_zero sqrt n _ 0 _, hsqrt]
    intro idx hidx
    rw [Nat.zero_add, p2 idx]
    by_cases h1 : idx < tc.particles_.num_
    · rw [if_pos (by omega), Nat.sub_zero, c4 idx hidx, hb idx hidx, zero_div]
    · rw [if_neg (by omega), if_pos (by omega), Nat.sub_zero, c4 idx hidx, hb idx hidx,
        zero_div]
  have hinit : gmres_initial_residual (treecodeKernels sqrt exp m tc n ldw rest) st
      = { st with
          mem := { gmres_copy_b n ldw st.mem with
            work := tc.precondition (gmres_copy_b n ldw st.mem).work 0 (2 * ldw).toNat },
          precond_calls := st.precond_calls + 1 } := by
    unfold gmres_initial_residual treecodeKernels
    simp only [c2, hxn, ne_eq, not_true_eq_false, decide_False, Bool.false_eq_true, if_false]
  have hrel : (treecodeKernels sqrt exp m tc n ldw rest).relative_residual
      (gmres_initial_residual (treecodeKernels sqrt exp m tc n ldw rest) st).mem = 0 := by
    rw [hinit]
    show dnrm2_ sqrt n (tc.precondition (gmres_copy_b n ldw st.mem).work 0 (2 * ldw).toNat) 0
      / gmres_bnrm2 sqrt n (gmres_copy_b n ldw st.mem).b = 0
    rw [hwn, zero_div]
  refine ⟨hbnrm, hrel, ?_, ?_, ?_⟩
  · rw [hinit]
    exact c2
  · rw [hinit]
  · rw [hinit]

/-! ## `gmres.cpp`: a zero right-hand side in `double` arithmetic -/

/-- The kernels `treecodeKernels` are the kernels `residualKernels` over the same steps of
the restart loop and the same call of `matrix_vector`. -/
theorem treecodeKernels_eq_residualKernels {K : Type} [LinearOrderedField K]
    (sqrt exp : K → K) (m : ClusterMethods K) (tc : Treecode K) (n ldw : Int)
    (rest : GmresKernels (GmresMemory K) K) :
    treecodeKernels sqrt exp m tc n ldw rest
      = residualKernels sqrt tc n ldw (treecodeKernels sqrt exp m tc n ldw rest) := rfl

/-! ## `double` arithmetic at the special values -/

/-- The arithmetic and the comparisons of `double` on numbers. -/
theorem Double.arith (x y : ℚ) :
    (0 : Double) = Double.finite 0 ∧ (1 : Double) = Double.finite 1 ∧
    (2 : Double) = Double.finite 2 ∧
    Double.finite x + Double.finite y = Double.finite (x + y) ∧
    Double.finite x * Double.finite y = Double.finite (x * y) ∧
    Double.finite x / Double.finite y
      = (if y = 0 then (if x = 0 then Double.nan else Double.infinity (decide (x < 0)))
          else Double.finite (x / y)) ∧
    ((Double.finite x < Double.finite y) ↔ x < y) ∧
    ((Double.finite x ≤ Double.finite y) ↔ x ≤ y) := by
  refine ⟨rfl, rfl, ?_, rfl, rfl, rfl, ?_, ?_⟩
  · show Double.finite ((2 : Nat) : ℚ) = Double.finite 2
    norm_num
  · show (Double.lt (Double.finite x) (Double.finite y) = true) ↔ x < y
    simp [Double.lt]
  · show (Double.le (Double.finite x) (Double.finite y) = true) ↔ x ≤ y
    simp [Double.le]

/-- NaN propagates through the arithmetic, and every comparison with NaN is false. -/
theorem Double.nan_spec (a : Double) :
    Double.nan + a = Double.nan ∧ a + Double.nan = Double.nan ∧
    Double.nan * a = Double.nan ∧ a * Double.nan = Double.nan ∧
    Double.nan / a = Double.nan ∧ a / Double.nan = Double.nan ∧
    ¬ Double.nan < a ∧ ¬ a < Double.nan ∧ ¬ Double.nan ≤ a ∧ ¬ a ≤ Double.nan := by
  cases a <;>
    exact ⟨rfl, rfl, rfl, rfl, rfl, rfl, Bool.false_ne_true, Bool.false_ne_true,
      Bool.false_ne_true, Bool.false_ne_true⟩

/-- The norm of a vector of zeros is `sqrt 0`, in any arithmetic in which adding the
square of zero to zero gives zero. -/
theorem dnrm2_zero_of {K : Type} [Zero K] [Add K] [Mul K] (sqrt : K → K)
    (h00 : (0 : K) + 0 * 0 = 0) (n : Int) (a : List K) (x : Nat)
    (h : ∀ idx, idx < n.toNat → rd a (x + idx) = 0) :
    dnrm2_ sqrt n a x = sqrt 0 := by
  unfold dnrm2_
  congr 1
  apply forLoop_invariant_range (fun norm : K => norm = 0) _ 0 n.toNat _ 0 rfl
  intro i s _ hi hs
  rw [hs, h i hi]
  exact h00

/-- The statements of `gmres_` before the restart loop for a zero right-hand side and a
zero initial guess, in any arithmetic in which zero divided by each of the two divisors
of `Treecode::precondition`, and by one, is zero: the norm of `b` is taken to be `1`,
`matrix_vector` is not called, the relative preconditioned residual is `0`, and `gmres_`
returns `0` at the first test with `x` untouched. -/
theorem gmres_zero_rhs_of {K : Type} [Zero K] [One K] [OfNat K 2] [Add K] [Mul K] [Div K]
    [DecidableEq K] [LT K] [LE K] [DecidableRel (fun a b : K => a < b)]
    [DecidableRel (fun a b : K => a ≤ b)] (sqrt : K → K) (hsqrt : sqrt 0 = 0)
    (h00 : (0 : K) + 0 * 0 = 0) (h01 : (0 : K) / 1 = 0) (tc : Treecode K)
    (hd1 : (0 : K) / (1 / 2 * (1 + tc.params_.phys_eps_)) = 0)
    (hd2 : (0 : K) / (1 / 2 * (1 + 1 / tc.params_.phys_eps_)) = 0)
    (rest : GmresKernels (GmresMemory K) K) (n restrt ldw ldh : Int) (fuel : Nat)
    (st : GmresState (GmresMemory K) K) (hn : n = 2 * (tc.particles_.num_ : Int))
    (hldw : max 1 n ≤ ldw) (hiter : 0 < st.iter) (hldh : restrt + 1 ≤ ldh)
    (htol : 0 < st.resid)
    (hb : ∀ idx, idx < n.toNat → rd st.mem.b idx = 0)
    (hx : ∀ idx, idx < n.toNat → rd st.mem.x idx = 0)
    (hwork : (2 * ldw).toNat + n.toNat ≤ st.mem.work.length) :
    gmres_bnrm2 sqrt n st.mem.b = 1 ∧
    ∃ st1, gmres_ (residualKernels sqrt tc n ldw rest) n restrt ldw ldh fuel st
        = some (0, st1) ∧
      (residualKernels sqrt tc n ldw rest).relative_residual st1.mem = 0 ∧
      st1.mem.x = st.mem.x ∧ (∀ idx, idx < n.toNat → rd st1.mem.x idx = 0) ∧
      st1.matvec_calls = st.matvec_calls := by
  have hn0 : 0 ≤ n := by omega
  have hnN : n.toNat = 2 * tc.particles_.num_ := by omega
  have hbn : dnrm2_ sqrt n st.mem.b 0 = 0 := by
    rw [dnrm2_zero_of sqrt h00 n st.mem.b 0
      (fun idx h => by rw [Nat.zero_add]; exact hb idx h), hsqrt]
  have hxn : dnrm2_ sqrt n st.mem.x 0 = 0 := by
    rw [dnrm2_zero_of sqrt h00 n st.mem.x 0
      (fun idx h => by rw [Nat.zero_add]; exact hx idx h), hsqrt]
  have hbnrm : gmres_bnrm2 sqrt n st.mem.b = 1 := by
    unfold gmres_bnrm2
    rw [if_pos hbn]
  obtain ⟨c1, c2, c3, c4⟩ := gmres_copy_b_spec n ldw st.mem hwork
  obtain ⟨p1, p2⟩ := precondition_spec tc (gmres_copy_b n ldw st.mem).work 0 (2 * ldw).toNat
    (by rw [c3]; omega) (Or.inr (Or.inl (by omega)))
  have hwn : dnrm2_ sqrt n (tc.precondition (gmres_copy_b n ldw st.mem).work 0
      (2 * ldw).toNat) 0 = 0 := by
    rw [dnrm2_zero_of sqrt h00 n _ 0 _, hsqrt]
    intro idx hidx
    rw [Nat.zero_add, p2 idx]
    by_cases h1 : idx < tc.particles_.num_
    · rw [if_pos (by omega), Nat.sub_zero, c4 idx hidx, hb idx hidx, hd1]
    · rw [if_neg (by omega), if_pos (by omega), Nat.sub_zero, c4 idx hidx, hb idx hidx, hd2]
  have hinit : gmres_initial_residual (residualKernels sqrt tc n ldw rest) st
      = { st with
          mem := { gmres_copy_b n ldw st.mem with
            work := tc.precondition (gmres_copy_b n ldw st.mem).work 0 (2 * ldw).toNat },
          precond_calls := st.precond_calls + 1 } := by
    unfold gmres_initial_residual residualKernels
    simp only [c2, hxn, ne_eq, not_true_eq_false, decide_False, Bool.false_eq_true, if_false]
  have hrel : (residualKernels sqrt tc n ldw rest).relative_residual
      (gmres_initial_residual (residualKernels sqrt tc n ldw rest) st).mem = 0 := by
    rw [hinit]
    show dnrm2_ sqrt n (tc.precondition (gmres_copy_b n ldw st.mem).work 0 (2 * ldw).toNat) 0
      / gmres_bnrm2 sqrt n (gmres_copy_b n ldw st.mem).b = 0
    rw [hwn, c1, hbnrm, h01]
  refine ⟨hbnrm, gmres_initial_residual (residualKernels sqrt tc n ldw rest) st,
    ?_, hrel, ?_, ?_, ?_⟩
  · rw [gmres_valid_eq _ n restrt ldw ldh fuel st hn0 hldw hiter hldh, hrel, if_pos htol]
  · rw [hinit]
    exact c2
  · intro idx hidx
    rw [hinit]
    show rd (gmres_copy_b n ldw st.mem).x idx = 0
    rw [c2]
    exact hx idx hidx
  · rw [hinit]

/-- Zero divided by a double that is neither zero nor NaN is zero. -/
theorem Double.zero_div (c : Double) (h0 : c ≠ 0) (hn : c ≠ Double.nan) :
    (0 : Double) / c = 0 := by
  cases c with
  | finite y =>
    have hy : y ≠ 0 := fun e => h0 (by rw [e]; rfl)
    show Double.finite 0 / Double.finite y = Double.finite 0
    rw [(Double.arith 0 y).2.2.2.2.2.1, if_neg hy]
    norm_num
  | infinity s => rfl
  | nan => exact absurd rfl hn

/-- The two divisors of `Treecode::precondition` for a finite `phys_eps_` other than `-1`
are neither zero nor NaN (for `phys_eps_ = 0` the second one is an infinity). -/
theorem precondition_divisors (e : ℚ) (he : e ≠ -1) :
    ((1 : Double) / 2 * (1 + Double.finite e) ≠ 0 ∧
      (1 : Double) / 2 * (1 + Double.finite e) ≠ Double.nan) ∧
    ((1 : Double) / 2 * (1 + 1 / Double.finite e) ≠ 0 ∧
      (1 : Double) / 2 * (1 + 1 / Double.finite e) ≠ Double.nan) := by
  have h2 : (2 : Double) = Double.finite 2 := (Double.arith 0 0).2.2.1
  have half : (1 : Double) / 2 = Double.finite (1 / 2) := by
    rw [h2]
    show Double.finite 1 / Double.finite 2 = _
    rw [(Double.arith 1 2).2.2.2.2.2.1, if_neg (by norm_num)]
  have he1 : 1 + e ≠ 0 := fun h => he (by linarith)
  have e1 : (1 : Double) / 2 * (1 + Double.finite e) = Double.finite (1 / 2 * (1 + e)) := by
    rw [half]
    rfl
  constructor
  · rw [e1]
    constructor
    · intro h
      have h3 : (1 : ℚ) / 2 * (1 + e) = 0 := Double.finite.inj h
      have h4 : (1 : ℚ) / 2 ≠ 0 := by norm_num
      exact he1 ((mul_eq_zero.mp h3).resolve_left h4)
    · intro h
      exact Double.noConfusion h
  · by_cases c : e = 0
    · have e2 : (1 : Double) / 2 * (1 + 1 / Double.finite e) = Double.infinity false := by
        rw [half, c]
        show Double.finite (1 / 2) * (1 + Double.finite 1 / Double.finite 0) = _
        rw [(Double.arith 1 0).2.2.2.2.2.1, if_pos rfl, if_neg (by norm_num)]
        have d : decide ((1 : ℚ) < 0) = false := by norm_num
        rw [d]
        show (if (1 : ℚ) / 2 = 0 then Double.nan
          else Double.infinity (xor false (decide ((1 : ℚ) / 2 < 0)))) = _
        rw [if_neg (by norm_num)]
        have d2 : decide ((1 : ℚ) / 2 < 0) = false := by norm_num
        rw [d2]
        rfl
      rw [e2]
      exact ⟨fun h => Double.noConfusion h, fun h => Double.noConfusion h⟩
    · have e2 : (1 : Double) / 2 * (1 + 1 / Double.finite e)
          = Double.finite (1 / 2 * (1 + 1 / e)) := by
        rw [half]
        show Double.finite (1 / 2) * (1 + Double.finite 1 / Double.finite e) = _
        rw [(Double.arith 1 e).2.2.2.2.2.1, if_neg c]
        rfl
      rw [e2]
      constructor
      · intro h
        have h3 : (1 : ℚ) / 2 * (1 + 1 / e) = 0 := Double.finite.inj h
        have h4 : (1 : ℚ) / 2 ≠ 0 := by norm_num
        have h5 := (mul_eq_zero.mp h3).resolve_left h4
        have h6 : e + 1 = 0 := by
          field_simp at h5
          linarith
        exact he (by linarith)
      · intro h
        exact Double.noConfusion h

/-- C16 (amended): in `double` arithmetic, for a zero right-hand side `b`, a zero
initial guess `x`, a positive tolerance, valid arguments (`n = 2 * num` as in
`run_GMRES`) and a `phys_eps_` for which the two divisors of `Treecode::precondition`,
`(1 + eps) / 2` and `(1 + 1/eps) / 2`, are neither zero nor NaN, `gmres_` takes the norm of
`b` to be `1`, finds the relative preconditioned residual `0`, below the tolerance, and
returns `0` before the restart loop: `x` is unchanged (still zero) and `matrix_vector`
has not been called.  Every finite `phys_eps_` other than `-1` qualifies.  (`s 0 = 0` is
the only property of the square root used.) -/
theorem gmres_zero_rhs (s : ℚ → ℚ) (hs : s 0 = 0) (tc : Treecode Double)
    (rest : GmresKernels (GmresMemory Double) Double) (n restrt ldw ldh : Int) (fuel : Nat)
    (st : GmresState (GmresMemory Double) Double)
    (hn : n = 2 * (tc.particles_.num_ : Int))
    (hldw : max 1 n ≤ ldw) (hiter : 0 < st.iter) (hldh : restrt + 1 ≤ ldh)
    (htol : 0 < st.resid)
    (hb : ∀ idx, idx < n.toNat → rd st.mem.b idx = 0)
    (hx : ∀ idx, idx < n.toNat → rd st.mem.x idx = 0)
    (hwork : (2 * ldw).toNat + n.toNat ≤ st.mem.work.length)
    (hc1 : (1 : Double) / 2 * (1 + tc.params_.phys_eps_) ≠ 0 ∧
      (1 : Double) / 2 * (1 + tc.params_.phys_eps_) ≠ Double.nan)
    (hc2 : (1 : Double) / 2 * (1 + 1 / tc.params_.phys_eps_) ≠ 0 ∧
      (1 : Double) / 2 * (1 + 1 / tc.params_.phys_eps_) ≠ Double.nan) :
    (gmres_bnrm2 (Double.sqrt s) n st.mem.b = 1 ∧
      ∃ st1, gmres_ (residualKernels (Double.sqrt s) tc n ldw rest) n restrt ldw ldh fuel st
          = some (0, st1) ∧
        (residualKernels (Double.sqrt s) tc n ldw rest).relative_residual st1.mem = 0 ∧
        st1.mem.x = st.mem.x ∧ (∀ idx, idx < n.toNat → rd st1.mem.x idx = 0) ∧
        st1.matvec_calls = st.matvec_calls) ∧
    ∀ e : ℚ, e ≠ -1 →
      ((1 : Double) / 2 * (1 + Double.finite e) ≠ 0 ∧
        (1 : Double) / 2 * (1 + Double.finite e) ≠ Double.nan) ∧
      ((1 : Double) / 2 * (1 + 1 / Double.finite e) ≠ 0 ∧
        (1 : Double) / 2 * (1 + 1 / Double.finite e) ≠ Double.nan) := by
  have hsq : Double.sqrt s 0 = 0 := by
    show (if (0 : ℚ) < 0 then Double.nan else Double.finite (s 0)) = _
    rw [if_neg (lt_irrefl _), hs]
    rfl
  have h00 : (0 : Double) + 0 * 0 = 0 := by
    show Double.finite (0 + 0 * 0) = Double.finite 0
    norm_num
  have h01 : (0 : Double) / 1 = 0 :=
    Double.zero_div 1 (fun h => by
      have h3 : (1 : ℚ) = 0 := Double.finite.inj h
      exact one_ne_zero h3) (fun h => Double.noConfusion h)
  exact ⟨gmres_zero_rhs_of (Double.sqrt s) hsq h00 h01 tc
    (Double.zero_div _ hc1.1 hc1.2) (Double.zero_div _ hc2.1 hc2.2) rest n restrt ldw ldh
    fuel st hn hldw hiter hldh htol hb hx hwork, precondition_divisors⟩

/-- C16 at a concrete input: the call made by `run_GMRES` for a treecode over one particle
with `phys_eps_ = 40` and a zero source term (`n = ldw = 2`, `restrt = 10`, `iter = 100`,
tolerance `1e-4`), in `double` arithmetic. -/
theorem gmres_zero_rhs_witness :
    ((1 : Double) / 2 * (1 + positiveEpsTreecode.params_.phys_eps_) ≠ 0 ∧
      (1 : Double) / 2 * (1 + positiveEpsTreecode.params_.phys_eps_) ≠ Double.nan) ∧
    ∃ st1, gmres_ (residualKernels (Double.sqrt Rat.sqrt) positiveEpsTreecode 2 2
          idleDoubleKernels) 2 10 2 11 1 runGmresDoubleStart = some (0, st1) ∧
      (residualKernels (Double.sqrt Rat.sqrt) positiveEpsTreecode 2 2
          idleDoubleKernels).relative_residual st1.mem = 0 ∧
      st1.mem.x = runGmresDoubleStart.mem.x ∧
      (∀ idx, idx < (2 : Int).toNat → rd st1.mem.x idx = 0) ∧
      st1.matvec_calls = runGmresDoubleStart.matvec_calls :=
  ⟨(precondition_divisors 40 (by norm_num)).1,
    (gmres_zero_rhs Rat.sqrt (by simp) positiveEpsTreecode idleDoubleKernels 2 10 2 11 1
      runGmresDoubleStart (by decide) (by decide) (by decide) (by decide)
      ((Double.arith _ _).2.2.2.2.2.2.1.mpr (by norm_num))
      (fun idx h => by
        have h2 : idx < 2 := h
        interval_cases idx <;> rfl)
      (fun idx h => by
        have h2 : idx < 2 := h
        interval_cases idx <;> rfl)
      (by decide)
      (precondition_divisors 40 (by norm_num)).1
      (precondition_divisors 40 (by norm_num)).2).1.2⟩

/-! ## `gmres.cpp`: once the restart loop is entered, `matrix_vector` is called -/

theorem gmres_inner_matvec_calls {S R : Type} [LE R] [DecidableRel (fun a b : R => a ≤ b)]
    (k : GmresKernels S R) (tol : R) (m : Nat) :
    ∀ (i : Int) (st : GmresState S R),
      st.matvec_calls ≤ (gmres_inner k tol m i st).1.matvec_calls ∧
      (0 < m → st.matvec_calls + 1 ≤ (gmres_inner k tol m i st).1.matvec_calls) := by
  induction m with
  | zero =>
    intro i st
    rw [gmres_inner]
    exact ⟨le_refl _, fun h => absurd h (lt_irrefl _)⟩
  | succ m ih =>
    intro i st
    rw [gmres_inner]
    simp only []
    split
    · exact ⟨Nat.le_succ _, fun _ => le_refl _⟩
    · have h := (ih (i + 1)
        ⟨k.orthogonalize i (k.precondition_basis (k.matrix_vector_basis i st.mem)),
          st.iter + 1,
          k.rotated_residual i
            (k.orthogonalize i (k.precondition_basis (k.matrix_vector_basis i st.mem))),
          st.matvec_calls + 1, st.precond_calls + 1⟩).1
      exact ⟨le_trans (Nat.le_succ _) h, fun _ => h⟩

/-- Every return of the restart loop of `gmres_` comes after a call of `matrix_vector`,
when `restrt` is at least `1`. -/
theorem gmres_restart_matvec_calls {S R : Type} [LE R] [DecidableRel (fun a b : R => a ≤ b)]
    (k : GmresKernels S R) (restrt maxit : Int) (tol : R) (hr : 0 < restrt.toNat)
    (fuel : Nat) :
    ∀ (st : GmresState S R) (r : Int × GmresState S R),
      gmres_restart k restrt maxit tol fuel st = some r →
      st.matvec_calls + 1 ≤ r.2.matvec_calls := by
  induction fuel with
  | zero =>
    intro st r h
    rw [gmres_restart] at h
    exact absurd h (by simp)
  | succ fuel ih =>
    intro st r h
    rw [gmres_restart] at h
    simp only [] at h
    have hin := (gmres_inner_matvec_calls k tol restrt.toNat 0
      { st with mem := k.first_column st.mem }).2 hr
    split at h
    · rename_i s heq
      rw [← Option.some.inj h]
      rw [heq] at hin
      exact hin
    · rename_i s heq
      rw [heq] at hin
      simp only [] at hin
      split at h
      · rw [← Option.some.inj h]
        exact le_trans hin (Nat.le_succ _)
      · split at h
        · rw [← Option.some.inj h]
          exact le_trans hin (Nat.le_succ _)
        · exact le_trans (le_trans hin (Nat.le_succ _)) (le_trans (Nat.le_succ _) (ih _ _ h))

/-- A restart cycle whose first inner iteration meets the tolerance returns `0` after one
call of `matrix_vector`. -/
theorem gmres_restart_first_step {S R : Type} [LE R] [DecidableRel (fun a b : R => a ≤ b)]
    (k : GmresKernels S R) (restrt maxit : Int) (tol : R) (m fuel : Nat)
    (hm : restrt.toNat = m + 1) (st : GmresState S R)
    (h : k.rotated_residual 0 (k.orthogonalize 0 (k.precondition_basis
      (k.matrix_vector_basis 0 (k.first_column st.mem)))) ≤ tol) :
    gmres_restart k restrt maxit tol (fuel + 1) st
      = some (0, ⟨k.update (0 + 1) (k.orthogonalize 0 (k.precondition_basis
            (k.matrix_vector_basis 0 (k.first_column st.mem)))),
          st.iter + 1,
          k.rotated_residual 0 (k.orthogonalize 0 (k.precondition_basis
            (k.matrix_vector_basis 0 (k.first_column st.mem)))),
          st.matvec_calls + 1, st.precond_calls + 1⟩) := by
  rw [gmres_restart, hm]
  simp only []
  rw [gmres_inner]
  simp only []
  rw [if_pos h]

/-- The two divisors of `Treecode::precondition` are `0` when `phys_eps_ = -1`, and the
quotient `0 / 0` is NaN. -/
theorem negativeEps_coefficients :
    (1 : Double) / 2 * (1 + negativeEpsTreecode.params_.phys_eps_) = 0 ∧
    (1 : Double) / 2 * (1 + 1 / negativeEpsTreecode.params_.phys_eps_) = 0 ∧
    (0 : Double) / 0 = Double.nan := by
  have h2 : (2 : Double) = Double.finite 2 := (Double.arith 0 0).2.2.1
  have half : (1 : Double) / 2 = Double.finite (1 / 2) := by
    rw [h2]
    show Double.finite 1 / Double.finite 2 = _
    rw [(Double.arith 1 2).2.2.2.2.2.1, if_neg (by norm_num)]
  have inv : (1 : Double) / Double.finite (-1) = Double.finite (-1) := by
    show Double.finite 1 / Double.finite (-1) = _
    rw [(Double.arith 1 (-1)).2.2.2.2.2.1, if_neg (by norm_num)]
    norm_num
  refine ⟨?_, ?_, ?_⟩
  · rw [half]
    show Double.finite (1 / 2 * (1 + -1)) = Double.finite 0
    norm_num
  · rw [half]
    show Double.finite (1 / 2) * (1 + (1 : Double) / Double.finite (-1)) = _
    rw [inv]
    show Double.finite (1 / 2 * (1 + -1)) = Double.finite 0
    norm_num
  · show Double.finite 0 / Double.finite 0 = _
    rw [(Double.arith 0 0).2.2.2.2.2.1, if_pos rfl, if_pos rfl]

/-- The statements of `gmres_` before the restart loop on `negativeEpsTreecode`, for a zero
right-hand side and a zero initial guess: `matrix_vector` is not called, the
preconditioned residual is NaN, and so is its norm relative to `bnrm2 = 1`. -/
theorem negativeEps_residual (rest : GmresKernels (GmresMemory Double) Double) :
    (gmres_initial_residual
      (residualKernels (Double.sqrt Rat.sqrt) negativeEpsTreecode 2 2 rest)
      runGmresDoubleStart).matvec_calls = 0 ∧
    rd (gmres_initial_residual
      (residualKernels (Double.sqrt Rat.sqrt) negativeEpsTreecode 2 2 rest)
      runGmresDoubleStart).mem.work 0 = Double.nan ∧
    rd (gmres_initial_residual
      (residualKernels (Double.sqrt Rat.sqrt) negativeEpsTreecode 2 2 rest)
      runGmresDoubleStart).mem.work 1 = Double.nan ∧
    gmres_bnrm2 (Double.sqrt Rat.sqrt) 2 runGmresDoubleStart.mem.b = 1 ∧
    (residualKernels (Double.sqrt Rat.sqrt) negativeEpsTreecode 2 2 rest).relative_residual
      (gmres_initial_residual
        (residualKernels (Double.sqrt Rat.sqrt) negativeEpsTreecode 2 2 rest)
        runGmresDoubleStart).mem = Double.nan := by
  obtain ⟨c1, c2, c3⟩ := negativeEps_coefficients
  have hs0 : Rat.sqrt 0 = 0 := by simp
  have hnorm0 : dnrm2_ (Double.sqrt Rat.sqrt) 2 [0, 0] 0 = 0 := by
    show Double.sqrt Rat.sqrt (Double.finite (0 + 0 * 0 + 0 * 0)) = _
    have e : (0 : ℚ) + 0 * 0 + 0 * 0 = 0 := by norm_num
    rw [e]
    show (if (0 : ℚ) < 0 then Double.nan else Double.finite (Rat.sqrt 0)) = _
    rw [if_neg (lt_irrefl _), hs0]
    rfl
  have hx : (residualKernels (Double.sqrt Rat.sqrt) negativeEpsTreecode 2 2 rest).x_is_nonzero
      (gmres_copy_b 2 2 runGmresDoubleStart.mem) = false := by
    show decide (dnrm2_ (Double.sqrt Rat.sqrt) 2 [0, 0] 0 ≠ 0) = false
    rw [hnorm0]
    simp
  have hinit : gmres_initial_residual
      (residualKernels (Double.sqrt Rat.sqrt) negativeEpsTreecode 2 2 rest)
      runGmresDoubleStart
      = { runGmresDoubleStart with
          mem := { gmres_copy_b 2 2 runGmresDoubleStart.mem with
            work := negativeEpsTreecode.precondition
              (gmres_copy_b 2 2 runGmresDoubleStart.mem).work 0 4 },
          precond_calls := 1 } := by
    unfold gmres_initial_residual
    simp only []
    have hx2 : (residualKernels (Double.sqrt Rat.sqrt) negativeEpsTreecode 2 2 rest).x_is_nonzero
        ((residualKernels (Double.sqrt Rat.sqrt) negativeEpsTreecode 2 2 rest).copy_b
          runGmresDoubleStart.mem) = false := hx
    rw [hx2]
    rfl
  have hw : negativeEpsTreecode.precondition
      (gmres_copy_b 2 2 runGmresDoubleStart.mem).work 0 4
      = Double.nan :: Double.nan :: List.replicate 2 1 ++ [0, 0] ++ List.replicate 22 1 := by
    show ((([1, 1, 1, 1, 0, 0] ++ List.replicate 22 (1 : Double)).set 0
        ((0 : Double) / ((1 : Double) / 2 * (1 + negativeEpsTreecode.params_.phys_eps_)))).set 1
        ((0 : Double) / ((1 : Double) / 2 * (1 + 1 / negativeEpsTreecode.params_.phys_eps_))))
      = _
    rw [c1, c2, c3]
    rfl
  have hb : gmres_bnrm2 (Double.sqrt Rat.sqrt) 2 runGmresDoubleStart.mem.b = 1 := by
    show (if dnrm2_ (Double.sqrt Rat.sqrt) 2 [0, 0] 0 = 0 then (1 : Double)
      else dnrm2_ (Double.sqrt Rat.sqrt) 2 [0, 0] 0) = 1
    rw [if_pos hnorm0]
  have hnan : dnrm2_ (Double.sqrt Rat.sqrt) 2
      (Double.nan :: Double.nan :: List.replicate 2 1 ++ [0, 0] ++ List.replicate 22 1) 0
      = Double.nan := rfl
  refine ⟨by rw [hinit]; rfl, by rw [hinit, hw]; rfl, by rw [hinit, hw]; rfl, hb, ?_⟩
  rw [hinit]
  show dnrm2_ (Double.sqrt Rat.sqrt) 2 (negativeEpsTreecode.precondition
      (gmres_copy_b 2 2 runGmresDoubleStart.mem).work 0 4) 0
    / gmres_bnrm2 (Double.sqrt Rat.sqrt) 2 runGmresDoubleStart.mem.b = Double.nan
  rw [hw, hnan, hb]
  rfl

/-- Counterexample to C16 as stated, in `double` arithmetic: with `phys_eps_ = -1` both
divisors of `Treecode::precondition` are `0`, the preconditioned residual of the zero
right-hand side is `0 / 0`, NaN, and the test `dnrm2_(n, work) / bnrm2 < tol` is false.
For a zero right-hand side, a zero initial guess, a positive tolerance and valid
arguments, `gmres_` then enters the restart loop: whatever the other kernels do, it does
not return before `matrix_vector` is called, and with kernels that report convergence at
once it returns `0` after one call of `matrix_vector`. -/
theorem gmres_zero_rhs_nan :
    (∀ idx, idx < 2 →
      rd runGmresDoubleStart.mem.b idx = 0 ∧ rd runGmresDoubleStart.mem.x idx = 0) ∧
    (0 : Double) < runGmresDoubleStart.resid ∧
    (∀ rest : GmresKernels (GmresMemory Double) Double,
      (residualKernels (Double.sqrt Rat.sqrt) negativeEpsTreecode 2 2 rest).relative_residual
        (gmres_initial_residual
          (residualKernels (Double.sqrt Rat.sqrt) negativeEpsTreecode 2 2 rest)
          runGmresDoubleStart).mem = Double.nan) ∧
    (∀ (rest : GmresKernels (GmresMemory Double) Double) (fuel : Nat)
        (r : Int × GmresState (GmresMemory Double) Double),
      gmres_ (residualKernels (Double.sqrt Rat.sqrt) negativeEpsTreecode 2 2 rest)
        2 10 2 11 fuel runGmresDoubleStart = some r → 1 ≤ r.2.matvec_calls) ∧
    ∃ st1, gmres_ (residualKernels (Double.sqrt Rat.sqrt) negativeEpsTreecode 2 2
        idleDoubleKernels) 2 10 2 11 1 runGmresDoubleStart = some (0, st1) ∧
      st1.matvec_calls = 1 := by
  have htol : (0 : Double) < runGmresDoubleStart.resid := by
    show Double.finite 0 < Double.finite (1 / 10 ^ 4)
    exact (Double.arith _ _).2.2.2.2.2.2.1.mpr (by norm_num)
  have hle : (0 : Double) ≤ runGmresDoubleStart.resid := by
    show Double.finite 0 ≤ Double.finite (1 / 10 ^ 4)
    exact (Double.arith _ _).2.2.2.2.2.2.2.mpr (by norm_num)
  have henter : ∀ (rest : GmresKernels (GmresMemory Double) Double) (fuel : Nat),
      gmres_ (residualKernels (Double.sqrt Rat.sqrt) negativeEpsTreecode 2 2 rest)
        2 10 2 11 fuel runGmresDoubleStart
      = gmres_restart (residualKernels (Double.sqrt Rat.sqrt) negativeEpsTreecode 2 2 rest)
          10 runGmresDoubleStart.iter runGmresDoubleStart.resid fuel
          { gmres_initial_residual
              (residualKernels (Double.sqrt Rat.sqrt) negativeEpsTreecode 2 2 rest)
              runGmresDoubleStart with iter := 0 } := by
    intro rest fuel
    rw [gmres_valid_eq _ 2 10 2 11 fuel runGmresDoubleStart (by decide) (by decide)
      (by decide) (by decide), (negativeEps_residual rest).2.2.2.2,
      if_neg (Double.nan_spec _).2.2.2.2.2.2.1]
  refine ⟨fun idx hidx => ?_, htol, fun rest => (negativeEps_residual rest).2.2.2.2,
    fun rest fuel r h => ?_, ?_⟩
  · interval_cases idx <;> exact ⟨rfl, rfl⟩
  · rw [henter rest fuel] at h
    have h2 := gmres_restart_matvec_calls _ 10 _ _ (by decide) fuel _ r h
    have h3 := (negativeEps_residual rest).1
    simp only [] at h2
    omega
  · rw [henter idleDoubleKernels 1]
    refine ⟨_, gmres_restart_first_step _ 10 _ _ 9 0 rfl _ hle, ?_⟩
    simp only []
    rw [(negativeEps_residual idleDoubleKernels).1]

/-! ## `gmres.cpp`: the value of `iter` on exit -/

/-- C17 (the code departs from the claim): when the preconditioned initial residual
already meets the tolerance, `gmres_` returns `0` through the test that precedes
`iter = 0` (gmres.cpp:179-183).  The state returned is the one before the restart loop:
no iteration has been performed, yet `iter` still holds the limit given on entry, which
is positive, instead of `0`. -/
theorem gmres_early_return_iter {S R : Type} [LinearOrder R] (k : GmresKernels S R)
    (n restrt ldw ldh : Int) (fuel : Nat) (st : GmresState S R)
    (h1 : 0 ≤ n) (h2 : max 1 n ≤ ldw) (h3 : 0 < st.iter) (h4 : restrt + 1 ≤ ldh)
    (hres : k.relative_residual (gmres_initial_residual k st).mem < st.resid) :
    ∃ st1, gmres_ k n restrt ldw ldh fuel st = some (0, st1) ∧
      st1 = gmres_initial_residual k st ∧ st1.iter = st.iter ∧ st1.iter ≠ 0 := by
  refine ⟨gmres_initial_residual k st, ?_, rfl, ?_, ?_⟩
  · rw [gmres_valid_eq k n restrt ldw ldh fuel st h1 h2 h3 h4, if_pos hres]
  · unfold gmres_initial_residual
    simp only
    split <;> rfl
  · have e : (gmres_initial_residual k st).iter = st.iter := by
      unfold gmres_initial_residual
      simp only
      split <;> rfl
    rw [e]
    omega

/-- C17 at the call made by `run_GMRES` for a zero source term: `gmres_` returns `0` with
`iter = 100` although `matrix_vector` was never called. -/
theorem gmres_early_return_iter_witness :
    ∃ st1, gmres_ (treecodeKernels Real.sqrt Real.exp (noClusterMethods ℝ) sampleTreecode 8 8
          (idleKernels ℝ)) 8 10 8 11 1 (runGmresStart zeroRhsMemory (1 / 10 ^ 4))
        = some (0, st1) ∧ st1.iter = 100 ∧ st1.matvec_calls = 0 := by
  obtain ⟨_, hrel, _, hm, _⟩ := gmres_zero_rhs_residual Real.sqrt Real.exp Real.sqrt_zero
    (noClusterMethods ℝ) sampleTreecode (idleKernels ℝ) 8 8
    (runGmresStart zeroRhsMemory (1 / 10 ^ 4)) (by decide) (by decide)
    (fun idx _ => rd_replicate_zero 8 idx) (fun idx _ => rd_replicate_zero 8 idx)
    (by simp [runGmresStart, zeroRhsMemory])
  obtain ⟨st1, e1, e2, e3, _⟩ := gmres_early_return_iter
    (treecodeKernels Real.sqrt Real.exp (noClusterMethods ℝ) sampleTreecode 8 8 (idleKernels ℝ))
    8 10 8 11 1 (runGmresStart zeroRhsMemory (1 / 10 ^ 4)) (by decide) (by decide)
    (by decide) (by decide) (by rw [hrel]; norm_num [runGmresStart])
  refine ⟨st1, e1, e3, ?_⟩
  rw [e2, hm]
  rfl

/-! ## `treecode.cpp`: the cluster kernel against the direct kernel -/

/-- The cluster kernel at a single point that carries the source charges of a particle,
weighted by the target charges, is the direct contribution of that particle. -/
theorem cluster_kernel_eq_pair {K : Type} [Field K] (sqrt exp : K → K) (eps kappa : K)
    (sx sy sz tx ty tz snx sny snz tnx tny tnz a phi0 phi1 r : K)
    (hr : sqrt ((sx - tx) * (sx - tx) + (sy - ty) * (sy - ty) + (sz - tz) * (sz - tz)) = r)
    (hrr : (sx - tx) * (sx - tx) + (sy - ty) * (sy - ty) + (sz - tz) * (sz - tz) = r * r)
    (hr0 : r ≠ 0) :
    ONE_OVER_4PI * (cluster_kernel sqrt exp eps kappa (tx - sx) (ty - sy) (tz - sz)
        (a * phi1) (snx * a * phi0) (sny * a * phi0) (snz * a * phi0)).1
      = ((pair_coefficients exp eps kappa (kappa * kappa) r (sx - tx) (sy - ty) (sz - tz)
            snx sny snz tnx tny tnz).1 * phi0
          + (pair_coefficients exp eps kappa (kappa * kappa) r (sx - tx) (sy - ty) (sz - tz)
            snx sny snz tnx tny tnz).2.1 * phi1) * a ∧
    ONE_OVER_4PI * tnx * (cluster_kernel sqrt exp eps kappa (tx - sx) (ty - sy) (tz - sz)
        (a * phi1) (snx * a * phi0) (sny * a * phi0) (snz * a * phi0)).2.1
      + ONE_OVER_4PI * tny * (cluster_kernel sqrt exp eps kappa (tx - sx) (ty - sy) (tz - sz)
        (a * phi1) (snx * a * phi0) (sny * a * phi0) (snz * a * phi0)).2.2.1
      + ONE_OVER_4PI * tnz * (cluster_kernel sqrt exp eps kappa (tx - sx) (ty - sy) (tz - sz)
        (a * phi1) (snx * a * phi0) (sny * a * phi0) (snz * a * phi0)).2.2.2
      = ((pair_coefficients exp eps kappa (kappa * kappa) r (sx - tx) (sy - ty) (sz - tz)
            snx sny snz tnx tny tnz).2.2.1 * phi0
          + (pair_coefficients exp eps kappa (kappa * kappa) r (sx - tx) (sy - ty) (sz - tz)
            snx sny snz tnx tny tnz).2.2.2 * phi1) * a := by
  have hsym : (tx - sx) * (tx - sx) + (ty - sy) * (ty - sy) + (tz - sz) * (tz - sz)
      = (sx - tx) * (sx - tx) + (sy - ty) * (sy - ty) + (sz - tz) * (sz - tz) := by ring
  have hneg : -kappa * r = -(kappa * r) := by ring
  simp only [cluster_kernel, pair_coefficients, hsym, hr, hneg]
  rw [hrr]
  generalize exp (-(kappa * r)) = E
  generalize (ONE_OVER_4PI : K) = c
  have hir : r * r⁻¹ = 1 := mul_inv_cancel₀ hr0
  simp only [one_div, div_eq_mul_inv]
  constructor
  · ring
  · linear_combination
      (-(c * a * phi0 * E * kappa * kappa
          * (tnx * (tx - sx) + tny * (ty - sy) + tnz * (tz - sz))
          * (snx * (tx - sx) + sny * (ty - sy) + snz * (tz - sz))
          * r⁻¹ ^ 3 * (r * r⁻¹ + 1))) * hir

theorem forLoop_single {σ : Type} (lo : Nat) (body : Nat → σ → σ) (s : σ) :
    forLoop lo (lo + 1) body s = body lo s := by
  simp [forLoop]

theorem fill_from_zero_spec {K : Type} [Zero K] (g : Nat → K) (n : Nat) (a : List K)
    (hlen : n ≤ a.length) (v : Nat) (hv : v < n) :
    rd ((List.range n).foldl (fun a i => a.set i (g i)) a) v = g v := by
  have h := (fill_loop_spec g 0 n 0 a (by omega)).2 v
  simp only [Nat.zero_add] at h
  rw [List.range_eq_range', h, if_pos (by omega)]
  rfl

/-- The loop of `compute_charges` writes each of the eight charge arrays on its own. -/
theorem compute_charges_foldl {K : Type} [Field K] (p : Particles K) (potential : List K)
    (l : List Nat) (q : Particles K)
    (hq : q.num_ = p.num_ ∧ q.nx_ = p.nx_ ∧ q.ny_ = p.ny_ ∧ q.nz_ = p.nz_ ∧ q.area_ = p.area_) :
    l.foldl (fun (q : Particles K) i =>
      { q with
        target_charge_ := q.target_charge_.set i ONE_OVER_4PI
        target_charge_dx_ := q.target_charge_dx_.set i (ONE_OVER_4PI * rd q.nx_ i)
        target_charge_dy_ := q.target_charge_dy_.set i (ONE_OVER_4PI * rd q.ny_ i)
        target_charge_dz_ := q.target_charge_dz_.set i (ONE_OVER_4PI * rd q.nz_ i)
        source_charge_ := q.source_charge_.set i (rd q.area_ i * rd potential (q.num_ + i))
        source_charge_dx_ :=
          q.source_charge_dx_.set i (rd q.nx_ i * rd q.area_ i * rd potential i)
        source_charge_dy_ :=
          q.source_charge_dy_.set i (rd q.ny_ i * rd q.area_ i * rd potential i)
        source_charge_dz_ := q.source_charge_dz_.set i
          (rd q.nz_ i * rd q.area_ i * rd potential i) }) q
      = { q with
        target_charge_ := l.foldl (fun a i => a.set i ONE_OVER_4PI) q.target_charge_
        target_charge_dx_ :=
          l.foldl (fun a i => a.set i (ONE_OVER_4PI * rd p.nx_ i)) q.target_charge_dx_
        target_charge_dy_ :=
          l.foldl (fun a i => a.set i (ONE_OVER_4PI * rd p.ny_ i)) q.target_charge_dy_
        target_charge_dz_ :=
          l.foldl (fun a i => a.set i (ONE_OVER_4PI * rd p.nz_ i)) q.target_charge_dz_
        source_charge_ :=
          l.foldl (fun a i => a.set i (rd p.area_ i * rd potential (p.num_ + i)))
            q.source_charge_
        source_charge_dx_ :=
          l.foldl (fun a i => a.set i (rd p.nx_ i * rd p.area_ i * rd potential i))
            q.source_charge_dx_
        source_charge_dy_ :=
          l.foldl (fun a i => a.set i (rd p.ny_ i * rd p.area_ i * rd potential i))
            q.source_charge_dy_
        source_charge_dz_ :=
          l.foldl (fun a i => a.set i (rd p.nz_ i * rd p.area_ i * rd potential i))
            q.source_charge_dz_ } := by
  induction l generalizing q with
  | nil => rfl
  | cons i l ih =>
    obtain ⟨h1, h2, h3, h4, h5⟩ := hq
    simp only [List.foldl_cons]
    rw [ih]
    · simp only [h1, h2, h3, h4, h5]
    · exact ⟨h1, h2, h3, h4, h5⟩

/-- What `compute_charges` leaves in the charge arrays of a particle `i`, and that it
leaves the positions, normals and areas alone. -/
theorem compute_charges_spec {K : Type} [Field K] (p : Particles K) (potential : List K)
    (hlen : p.num_ ≤ p.target_charge_.length ∧ p.num_ ≤ p.target_charge_dx_.length ∧
      p.num_ ≤ p.target_charge_dy_.length ∧ p.num_ ≤ p.target_charge_dz_.length ∧
      p.num_ ≤ p.source_charge_.length ∧ p.num_ ≤ p.source_charge_dx_.length ∧
      p.num_ ≤ p.source_charge_dy_.length ∧ p.num_ ≤ p.source_charge_dz_.length) :
    ((p.compute_charges potential).num_ = p.num_ ∧ (p.compute_charges potential).x_ = p.x_ ∧
      (p.compute_charges potential).y_ = p.y_ ∧ (p.compute_charges potential).z_ = p.z_ ∧
      (p.compute_charges potential).nx_ = p.nx_ ∧ (p.compute_charges potential).ny_ = p.ny_ ∧
      (p.compute_charges potential).nz_ = p.nz_ ∧
      (p.compute_charges potential).area_ = p.area_) ∧
    ∀ i, i < p.num_ →
      rd (p.compute_charges potential).target_charge_ i = ONE_OVER_4PI ∧
      rd (p.compute_charges potential).target_charge_dx_ i = ONE_OVER_4PI * rd p.nx_ i ∧
      rd (p.compute_charges potential).target_charge_dy_ i = ONE_OVER_4PI * rd p.ny_ i ∧
      rd (p.compute_charges potential).target_charge_dz_ i = ONE_OVER_4PI * rd p.nz_ i ∧
      rd (p.compute_charges potential).source_charge_ i
        = rd p.area_ i * rd potential (p.num_ + i) ∧
      rd (p.compute_charges potential).source_charge_dx_ i
        = rd p.nx_ i * rd p.area_ i * rd potential i ∧
      rd (p.compute_charges potential).source_charge_dy_ i
        = rd p.ny_ i * rd p.area_ i * rd potential i ∧
      rd (p.compute_charges potential).source_charge_dz_ i
        = rd p.nz_ i * rd p.area_ i * rd potential i := by
  obtain ⟨l1, l2, l3, l4, l5, l6, l7, l8⟩ := hlen
  have e := compute_charges_foldl p potential (List.range p.num_) p ⟨rfl, rfl, rfl, rfl, rfl⟩
  unfold Particles.compute_charges
  rw [forLoop_eq_foldl_range, e]
  refine ⟨⟨rfl, rfl, rfl, rfl, rfl, rfl, rfl, rfl⟩, ?_⟩
  intro i hi
  exact ⟨fill_from_zero_spec _ _ _ l1 i hi, fill_from_zero_spec _ _ _ l2 i hi,
    fill_from_zero_spec _ _ _ l3 i hi, fill_from_zero_spec _ _ _ l4 i hi,
    fill_from_zero_spec _ _ _ l5 i hi, fill_from_zero_spec _ _ _ l6 i hi,
    fill_from_zero_spec _ _ _ l7 i hi, fill_from_zero_spec _ _ _ l8 i hi⟩

theorem forLoop_zero_one {σ : Type} (body : Nat → σ → σ) (s : σ) :
    forLoop 0 1 body s = body 0 s := by
  simp [forLoop]

theorem sum_sq_pos {K : Type} [LinearOrderedField K] (a b c : K)
    (h : ¬ (a = 0 ∧ b = 0 ∧ c = 0)) : 0 < a * a + b * b + c * c := by
  by_cases ha : a = 0
  · by_cases hb : b = 0
    · have hc : c ≠ 0 := fun hc => h ⟨ha, hb, hc⟩
      have := mul_self_pos.mpr hc
      have := mul_self_nonneg a
      have := mul_self_nonneg b
      linarith
    · have := mul_self_pos.mpr hb
      have := mul_self_nonneg a
      have := mul_self_nonneg c
      linarith
  · have := mul_self_pos.mpr ha
    have := mul_self_nonneg b
    have := mul_self_nonneg c
    linarith

/-- C18: for every target `j` and source `k` at distinct positions, the kernel of
`particle_cluster_interact` evaluated on a source cluster reduced to one interpolation
point at the position of `k`, carrying the source charges
`(a_k*phi_{N+k}, n_k*a_k*phi_k)` that `compute_charges` gives `k`, and weighted by the
target charges `(1/(4*pi), n_j/(4*pi))` of `j`, adds to `potential[j]` and
`potential[N+j]` exactly what `particle_particle_interact` adds for the pair:
`(L1*phi_k + L2*phi_{N+k})*a_k` and `(L3*phi_k + L4*phi_{N+k})*a_k`.  The identity holds
for every `kappa` (with `kappa2 = kappa^2`) and every `eps ≠ 0`, for a square root with
`sqrt s ≥ 0` and `sqrt s * sqrt s = s` on `s ≥ 0`. -/
theorem particle_cluster_single_point_eq_direct {K : Type} [LinearOrderedField K]
    (sqrt exp : K → K) (hsqrt : ∀ s, 0 ≤ s → 0 ≤ sqrt s ∧ sqrt s * sqrt s = s)
    (tc : Treecode K) (phi potential : List K) (j k : Nat)
    (hj : j < tc.particles_.num_) (hk : k < tc.particles_.num_)
    (hlen : tc.particles_.num_ ≤ tc.particles_.target_charge_.length ∧
      tc.particles_.num_ ≤ tc.particles_.target_charge_dx_.length ∧
      tc.particles_.num_ ≤ tc.particles_.target_charge_dy_.length ∧
      tc.particles_.num_ ≤ tc.particles_.target_charge_dz_.length ∧
      tc.particles_.num_ ≤ tc.particles_.source_charge_.length ∧
      tc.particles_.num_ ≤ tc.particles_.source_charge_dx_.length ∧
      tc.particles_.num_ ≤ tc.particles_.source_charge_dy_.length ∧
      tc.particles_.num_ ≤ tc.particles_.source_charge_dz_.length)
    (hkappa : tc.params_.phys_kappa2_ = tc.params_.phys_kappa_ * tc.params_.phys_kappa_)
    (_heps : tc.params_.phys_eps_ ≠ 0)
    (hdist : ¬ (rd tc.particles_.x_ k = rd tc.particles_.x_ j ∧
      rd tc.particles_.y_ k = rd tc.particles_.y_ j ∧
      rd tc.particles_.z_ k = rd tc.particles_.z_ j)) :
    Treecode.particle_cluster_interact sqrt exp
        { tc with
          particles_ := tc.particles_.compute_charges phi
          clusters_ := Treecode.single_point_cluster
            { tc with particles_ := tc.particles_.compute_charges phi } k }
        potential (j, j + 1) 0
      = Treecode.particle_particle_interact sqrt exp
        { tc with particles_ := tc.particles_.compute_charges phi }
        potential phi (j, j + 1) (k, k + 1) := by
  obtain ⟨⟨q0, q1, q2, q3, q4, q5, q6, q7⟩, hq⟩ := compute_charges_spec tc.particles_ phi hlen
  obtain ⟨t0, t1, t2, t3, _, _, _, _⟩ := hq j hj
  obtain ⟨_, _, _, _, s0, s1, s2, s3⟩ := hq k hk
  have hpos : 0 < (rd tc.particles_.x_ k - rd tc.particles_.x_ j)
        * (rd tc.particles_.x_ k - rd tc.particles_.x_ j)
      + (rd tc.particles_.y_ k - rd tc.particles_.y_ j)
        * (rd tc.particles_.y_ k - rd tc.particles_.y_ j)
      + (rd tc.particles_.z_ k - rd tc.particles_.z_ j)
        * (rd tc.particles_.z_ k - rd tc.particles_.z_ j) :=
    sum_sq_pos _ _ _ (fun h => hdist ⟨sub_eq_zero.mp h.1, sub_eq_zero.mp h.2.1,
      sub_eq_zero.mp h.2.2⟩)
  obtain ⟨hr1, hr2⟩ := hsqrt _ hpos.le
  have hr0 : sqrt ((rd tc.particles_.x_ k - rd tc.particles_.x_ j)
        * (rd tc.particles_.x_ k - rd tc.particles_.x_ j)
      + (rd tc.particles_.y_ k - rd tc.particles_.y_ j)
        * (rd tc.particles_.y_ k - rd tc.particles_.y_ j)
      + (rd tc.particles_.z_ k - rd tc.particles_.z_ j)
        * (rd tc.particles_.z_ k - rd tc.particles_.z_ j)) ≠ 0 := by
    intro h0
    rw [h0, mul_zero] at hr2
    exact absurd hr2.symm (ne_of_gt hpos)
  have hrpos := lt_of_le_of_ne hr1 (Ne.symm hr0)
  obtain ⟨e1, e2⟩ := cluster_kernel_eq_pair sqrt exp tc.params_.phys_eps_
    tc.params_.phys_kappa_ (rd tc.particles_.x_ k) (rd tc.particles_.y_ k)
    (rd tc.particles_.z_ k) (rd tc.particles_.x_ j) (rd tc.particles_.y_ j)
    (rd tc.particles_.z_ j) (rd tc.particles_.nx_ k) (rd tc.particles_.ny_ k)
    (rd tc.particles_.nz_ k) (rd tc.particles_.nx_ j) (rd tc.particles_.ny_ j)
    (rd tc.particles_.nz_ j) (rd tc.particles_.area_ k) (rd phi k)
    (rd phi (tc.particles_.num_ + k)) _ rfl hr2.symm hr0
  have rd1 : ∀ a : K, rd [a] 0 = a := fun _ => rfl
  unfold Treecode.particle_cluster_interact Treecode.particle_particle_interact cluster_sum
    Treecode.single_point_cluster
  simp only [forLoop_single, forLoop_zero_one, add4, zero_add, Nat.zero_mul, Nat.mul_one,
    Nat.add_zero, rd1, q0, q1, q2, q3, q4, q5, q6, q7, t0, t1, t2, t3, s0, s1, s2, s3,
    if_pos hrpos, hkappa, Nat.add_comm k tc.particles_.num_, e1, e2]

/-- C18 at a concrete input: target `0` and source `1` of the tetrahedron of
`sampleTreecode`, over the reals. -/
theorem particle_cluster_single_point_eq_direct_witness :
    ¬ (rd sampleTreecode.particles_.x_ 1 = rd sampleTreecode.particles_.x_ 0 ∧
      rd sampleTreecode.particles_.y_ 1 = rd sampleTreecode.particles_.y_ 0 ∧
      rd sampleTreecode.particles_.z_ 1 = rd sampleTreecode.particles_.z_ 0) ∧
    Treecode.particle_cluster_interact Real.sqrt Real.exp
        { sampleTreecode with
          particles_ := sampleTreecode.particles_.compute_charges [1, 2, 3, 4, 5, 6, 7, 8]
          clusters_ := Treecode.single_point_cluster
            { sampleTreecode with
              particles_ :=
                sampleTreecode.particles_.compute_charges [1, 2, 3, 4, 5, 6, 7, 8] } 1 }
        [0, 0, 0, 0, 0, 0, 0, 0] (0, 0 + 1) 0
      = Treecode.particle_particle_interact Real.sqrt Real.exp
        { sampleTreecode with
          particles_ := sampleTreecode.particles_.compute_charges [1, 2, 3, 4, 5, 6, 7, 8] }
        [0, 0, 0, 0, 0, 0, 0, 0] [1, 2, 3, 4, 5, 6, 7, 8] (0, 0 + 1) (1, 1 + 1) := by
  have hd : ¬ (rd sampleTreecode.particles_.x_ 1 = rd sampleTreecode.particles_.x_ 0 ∧
      rd sampleTreecode.particles_.y_ 1 = rd sampleTreecode.particles_.y_ 0 ∧
      rd sampleTreecode.particles_.z_ 1 = rd sampleTreecode.particles_.z_ 0) := by
    norm_num [rd, sampleTreecode, tetraParticles]
  exact ⟨hd, particle_cluster_single_point_eq_direct Real.sqrt Real.exp
    (fun s hs => ⟨Real.sqrt_nonneg s, Real.mul_self_sqrt hs⟩) sampleTreecode
    [1, 2, 3, 4, 5, 6, 7, 8] [0, 0, 0, 0, 0, 0, 0, 0] 0 1 (by decide) (by decide)
    (by simp [sampleTreecode, tetraParticles])
    (by norm_num [sampleTreecode]) (by norm_num [sampleTreecode]) hd⟩

/-! ## `treecode.c`: the leaf matrix of `psolve_precond` -/

theorem colmajor_index_inj (n row col row1 col1 : Nat) (h : row < n) (h1 : row1 < n)
    (e : col * n + row = col1 * n + row1) : row = row1 ∧ col = col1 := by
  have hn : 0 < n := by omega
  have e1 : (col * n + row) % n = (col1 * n + row1) % n := by rw [e]
  rw [Nat.mul_add_mod_of_lt h, Nat.mul_add_mod_of_lt h1] at e1
  subst e1
  refine ⟨rfl, ?_⟩
  have e2 : col * n = col1 * n := by omega
  exact Nat.eq_of_mul_eq_mul_right hn e2

/-- A store into a column-major matrix changes one entry. -/
theorem rd_set_colmajor {K : Type} [Zero K] (A : List K) (n row col row1 col1 : Nat) (v : K)
    (hrow : row < n) (hrow1 : row1 < n) (hlen : col1 * n + row1 < A.length) :
    rd (A.set (col1 * n + row1) v) (col * n + row)
      = if row = row1 ∧ col = col1 then v else rd A (col * n + row) := by
  rw [rd_set _ _ _ _ hlen]
  by_cases c : col1 * n + row1 = col * n + row
  · obtain ⟨c1, c2⟩ := colmajor_index_inj n row1 col1 row col hrow1 hrow c
    rw [if_pos c, if_pos ⟨c1.symm, c2.symm⟩]
  · rw [if_neg c, if_neg]
    rintro ⟨c1, c2⟩
    exact c (by rw [c1, c2])

/-- An index inside a column-major `n x n` matrix. -/
theorem colmajor_index_lt (n row col : Nat) (hrow : row < n) (hcol : col < n) :
    col * n + row < n * n := by
  have h1 : (col + 1) * n ≤ n * n := Nat.mul_le_mul_right n (by omega)
  have h2 : (col + 1) * n = col * n + n := by ring
  omega

/-- The coefficients computed by `psolve_precond` are those of the specification. -/
theorem psolve_precond_coefficients_eq {K : Type} [Field K] (sqrt exp : K → K)
    (g : TreecodeGlobals K) (i j : Nat) :
    psolve_precond_coefficients sqrt exp g i j
      = kernel_spec sqrt exp g.s_eps g.s_kappa g.s_kappa2
          (rd g.s_particle_position_x j) (rd g.s_particle_position_y j)
          (rd g.s_particle_position_z j) (rd g.s_particle_normal_x j)
          (rd g.s_particle_normal_y j) (rd g.s_particle_normal_z j)
          (rd g.s_particle_position_x i) (rd g.s_particle_position_y i)
          (rd g.s_particle_position_z i) (rd g.s_particle_normal_x i)
          (rd g.s_particle_normal_y i) (rd g.s_particle_normal_z i) := by
  simp only [psolve_precond_coefficients, kernel_spec]
  refine Prod.ext ?_ (Prod.ext ?_ (Prod.ext ?_ ?_)) <;> ring

theorem leaf_local_lt (m r : Nat) (h : r < m) : leaf_local m r = r := by
  unfold leaf_local
  rw [if_pos h]

theorem leaf_local_ge (m r : Nat) (h : m ≤ r) : leaf_local m r = r - m := by
  unfold leaf_local
  rw [if_neg (by omega)]

/-- The value of `leaf_operator_spec` off the diagonal blocks, in the coefficients
computed by `psolve_precond`. -/
theorem leaf_operator_spec_off {K : Type} [Field K] (sqrt exp : K → K)
    (g : TreecodeGlobals K) (ibeg m row col : Nat)
    (h : leaf_local m row ≠ leaf_local m col) :
    leaf_operator_spec sqrt exp g ibeg m row col
      = if row < m then
          if col < m then
            -(psolve_precond_coefficients sqrt exp g (ibeg + leaf_local m row)
                (ibeg + leaf_local m col)).1 * rd g.s_particle_area (ibeg + leaf_local m col)
          else
            -(psolve_precond_coefficients sqrt exp g (ibeg + leaf_local m row)
                (ibeg + leaf_local m col)).2.1
              * rd g.s_particle_area (ibeg + leaf_local m col)
        else
          if col < m then
            -(psolve_precond_coefficients sqrt exp g (ibeg + leaf_local m row)
                (ibeg + leaf_local m col)).2.2.1
              * rd g.s_particle_area (ibeg + leaf_local m col)
          else
            -(psolve_precond_coefficients sqrt exp g (ibeg + leaf_local m row)
                (ibeg + leaf_local m col)).2.2.2
              * rd g.s_particle_area (ibeg + leaf_local m col) := by
  unfold leaf_operator_spec
  simp only [if_neg h, psolve_precond_coefficients_eq]

/-- One pass of an inner loop of `psolve_precond` stores the four entries of the pair
`(i, j)` and nothing else. -/
theorem psolve_precond_entries_spec {K : Type} [Field K] (sqrt exp : K → K)
    (g : TreecodeGlobals K) (ibeg m i1 j1 : Nat) (hi : i1 < m) (hj : j1 < m) (hij : i1 ≠ j1)
    (A : List K) (hlen : m * 2 * (m * 2) ≤ A.length) :
    (psolve_precond_entries sqrt exp g ibeg m (ibeg + i1) (ibeg + j1) A).length = A.length ∧
    ∀ row col, row < m * 2 → col < m * 2 →
      rd (psolve_precond_entries sqrt exp g ibeg m (ibeg + i1) (ibeg + j1) A)
          (col * (m * 2) + row)
        = if leaf_local m row = i1 ∧ leaf_local m col = j1
          then leaf_operator_spec sqrt exp g ibeg m row col
          else rd A (col * (m * 2) + row) := by
  have c1 : ibeg + j1 - ibeg = j1 := by omega
  have c2 : ibeg + j1 + m - ibeg = j1 + m := by omega
  have e1 : j1 * (m * 2) + (ibeg + i1) - ibeg = j1 * (m * 2) + i1 := by omega
  have e2 : (j1 + m) * (m * 2) + (ibeg + i1) - ibeg = (j1 + m) * (m * 2) + i1 := by omega
  have e3 : j1 * (m * 2) + (ibeg + i1) + m - ibeg = j1 * (m * 2) + (i1 + m) := by omega
  have e4 : (j1 + m) * (m * 2) + (ibeg + i1) + m - ibeg
      = (j1 + m) * (m * 2) + (i1 + m) := by omega
  have l1 := colmajor_index_lt (m * 2) i1 j1 (by omega) (by omega)
  have l2 := colmajor_index_lt (m * 2) i1 (j1 + m) (by omega) (by omega)
  have l3 := colmajor_index_lt (m * 2) (i1 + m) j1 (by omega) (by omega)
  have l4 := colmajor_index_lt (m * 2) (i1 + m) (j1 + m) (by omega) (by omega)
  unfold psolve_precond_entries
  simp only [c1, c2, e1, e2, e3, e4]
  refine ⟨by simp, ?_⟩
  intro row col hrow hcol
  rw [rd_set_colmajor _ _ _ _ _ _ _ hrow (by omega) (by simp; omega),
    rd_set_colmajor _ _ _ _ _ _ _ hrow (by omega) (by simp; omega),
    rd_set_colmajor _ _ _ _ _ _ _ hrow (by omega) (by simp; omega),
    rd_set_colmajor _ _ _ _ _ _ _ hrow (by omega) (by omega)]
  by_cases hr : row < m
  · by_cases hc : col < m
    · rw [leaf_local_lt m row hr, leaf_local_lt m col hc, if_neg (by omega),
        if_neg (by omega), if_neg (by omega)]
      by_cases h : row = i1 ∧ col = j1
      · obtain ⟨h1, h2⟩ := h
        subst h1 h2
        rw [if_pos ⟨rfl, rfl⟩, if_pos ⟨rfl, rfl⟩, leaf_operator_spec_off _ _ _ _ _ _ _
          (by rw [leaf_local_lt m _ hr, leaf_local_lt m _ hc]; exact hij),
          if_pos hr, if_pos hc, leaf_local_lt m _ hr, leaf_local_lt m _ hc]
      · rw [if_neg h, if_neg h]
    · rw [leaf_local_lt m row hr, leaf_local_ge m col (by omega), if_neg (by omega),
        if_neg (by omega)]
      by_cases h : row = i1 ∧ col = j1 + m
      · obtain ⟨h1, h2⟩ := h
        subst h1 h2
        rw [if_pos ⟨rfl, rfl⟩, if_pos ⟨rfl, by omega⟩, leaf_operator_spec_off _ _ _ _ _ _ _
          (by rw [leaf_local_lt m _ hr, leaf_local_ge m _ (by omega)]; omega),
          if_pos hr, if_neg hc, leaf_local_lt m _ hr, leaf_local_ge m _ (by omega)]
        have e : j1 + m - m = j1 := by omega
        rw [e]
      · rw [if_neg h, if_neg (by omega), if_neg (by omega)]
  · by_cases hc : col < m
    · rw [leaf_local_ge m row (by omega), leaf_local_lt m col hc, if_neg (by omega)]
      by_cases h : row = i1 + m ∧ col = j1
      · obtain ⟨h1, h2⟩ := h
        subst h1 h2
        rw [if_pos ⟨rfl, rfl⟩, if_pos ⟨by omega, rfl⟩, leaf_operator_spec_off _ _ _ _ _ _ _
          (by rw [leaf_local_ge m _ (by omega), leaf_local_lt m _ hc]; omega),
          if_neg hr, if_pos hc, leaf_local_ge m _ (by omega), leaf_local_lt m _ hc]
        have e : i1 + m - m = i1 := by omega
        rw [e]
      · rw [if_neg h, if_neg (by omega), if_neg (by omega), if_neg (by omega)]
    · rw [leaf_local_ge m row (by omega), leaf_local_ge m col (by omega)]
      by_cases h : row = i1 + m ∧ col = j1 + m
      · obtain ⟨h1, h2⟩ := h
        subst h1 h2
        rw [if_pos ⟨rfl, rfl⟩, if_pos ⟨by omega, by omega⟩,
          leaf_operator_spec_off _ _ _ _ _ _ _
            (by rw [leaf_local_ge m _ (by omega), leaf_local_ge m _ (by omega)]; omega),
          if_neg hr, if_neg hc, leaf_local_ge m _ (by omega), leaf_local_ge m _ (by omega)]
        have e : i1 + m - m = i1 := by omega
        have e5 : j1 + m - m = j1 := by omega
        rw [e, e5]
      · rw [if_neg h, if_neg (by omega), if_neg (by omega), if_neg (by omega),
          if_neg (by omega)]

/-- An inner loop of `psolve_precond` over the sources `ibeg + lo .. ibeg + lo + n - 1`,
none of which is the target. -/
theorem psolve_precond_sources_spec {K : Type} [Field K] (sqrt exp : K → K)
    (g : TreecodeGlobals K) (ibeg m i1 : Nat) (hi : i1 < m) (n lo : Nat) (hn : lo + n ≤ m)
    (hnot : i1 < lo ∨ lo + n ≤ i1) (A : List K) (hlen : m * 2 * (m * 2) ≤ A.length) :
    ((List.range' (ibeg + lo) n).foldl
        (fun A j => psolve_precond_entries sqrt exp g ibeg m (ibeg + i1) j A) A).length
      = A.length ∧
    ∀ row col, row < m * 2 → col < m * 2 →
      rd ((List.range' (ibeg + lo) n).foldl
          (fun A j => psolve_precond_entries sqrt exp g ibeg m (ibeg + i1) j A) A)
          (col * (m * 2) + row)
        = if leaf_local m row = i1 ∧ lo ≤ leaf_local m col ∧ leaf_local m col < lo + n
          then leaf_operator_spec sqrt exp g ibeg m row col
          else rd A (col * (m * 2) + row) := by
  induction n generalizing lo A with
  | zero =>
    refine ⟨rfl, ?_⟩
    intro row col _ _
    rw [if_neg (by omega)]
    rfl
  | succ n ih =>
    obtain ⟨s1, s2⟩ := psolve_precond_entries_spec sqrt exp g ibeg m i1 lo hi (by omega)
      (by omega) A hlen
    obtain ⟨h1, h2⟩ := ih (lo + 1) (by omega) (by omega)
      (psolve_precond_entries sqrt exp g ibeg m (ibeg + i1) (ibeg + lo) A) (by rw [s1]; exact hlen)
    simp only [List.range', List.foldl_cons]
    rw [Nat.add_assoc ibeg lo 1]
    refine ⟨by rw [h1, s1], ?_⟩
    intro row col hrow hcol
    rw [h2 row col hrow hcol, s2 row col hrow hcol]
    by_cases c1 : leaf_local m row = i1 ∧ lo + 1 ≤ leaf_local m col ∧ leaf_local m col < lo + 1 + n
    · rw [if_pos c1, if_pos (by omega)]
    · rw [if_neg c1]
      by_cases c2 : leaf_local m row = i1 ∧ leaf_local m col = lo
      · rw [if_pos c2, if_pos (by omega)]
      · rw [if_neg c2, if_neg (by omega)]

/-- The value of `leaf_operator_spec` on the diagonal blocks. -/
theorem leaf_operator_spec_diag {K : Type} [Field K] (sqrt exp : K → K)
    (g : TreecodeGlobals K) (ibeg m row col : Nat)
    (h : leaf_local m row = leaf_local m col) :
    leaf_operator_spec sqrt exp g ibeg m row col
      = if row = col then (if row < m then 1 / 2 * (1 + g.s_eps) else 1 / 2 * (1 + 1 / g.s_eps))
        else 0 := by
  unfold leaf_operator_spec
  simp only [if_pos h]
  have e1 : (1 + g.s_eps) / 2 = 1 / 2 * (1 + g.s_eps) := by ring
  have e2 : (1 + 1 / g.s_eps) / 2 = 1 / 2 * (1 + 1 / g.s_eps) := by ring
  rw [e1, e2]

/-- The pass of `psolve_precond` for one target fills the two rows of that target. -/
theorem psolve_precond_target_spec {K : Type} [Field K] (sqrt exp : K → K)
    (g : TreecodeGlobals K) (ibeg m i1 : Nat) (hi : i1 < m) (A : List K)
    (hlen : m * 2 * (m * 2) ≤ A.length)
    (hzero : ∀ row col, row < m * 2 → col < m * 2 → leaf_local m row = i1 →
      rd A (col * (m * 2) + row) = 0) :
    (psolve_precond_target sqrt exp g ibeg m (ibeg + i1) A).length = A.length ∧
    ∀ row col, row < m * 2 → col < m * 2 →
      rd (psolve_precond_target sqrt exp g ibeg m (ibeg + i1) A) (col * (m * 2) + row)
        = if leaf_local m row = i1 then leaf_operator_spec sqrt exp g ibeg m row col
          else rd A (col * (m * 2) + row) := by
  obtain ⟨a1, a2⟩ := psolve_precond_sources_spec sqrt exp g ibeg m i1 hi i1 0 (by omega)
    (by omega) A hlen
  have l1 := colmajor_index_lt (m * 2) i1 i1 (by omega) (by omega)
  have l4 := colmajor_index_lt (m * 2) (i1 + m) (i1 + m) (by omega) (by omega)
  obtain ⟨b1, b2⟩ := psolve_precond_sources_spec sqrt exp g ibeg m i1 hi (m - (i1 + 1))
    (i1 + 1) (by omega) (by omega)
    ((((List.range' (ibeg + 0) i1).foldl
        (fun A j => psolve_precond_entries sqrt exp g ibeg m (ibeg + i1) j A) A).set
        (i1 * (m * 2) + i1) (1 / 2 * (1 + g.s_eps))).set
        ((i1 + m) * (m * 2) + (i1 + m)) (1 / 2 * (1 + 1 / g.s_eps)))
    (by rw [List.length_set, List.length_set, a1]; exact hlen)
  have c1 : ibeg + i1 - ibeg = i1 := by omega
  have c2 : ibeg + i1 + m - ibeg = i1 + m := by omega
  have c3 : ibeg + m - (ibeg + i1 + 1) = m - (i1 + 1) := by omega
  have e1 : i1 * (m * 2) + (ibeg + i1) - ibeg = i1 * (m * 2) + i1 := by omega
  have e4 : (i1 + m) * (m * 2) + (ibeg + i1) + m - ibeg
      = (i1 + m) * (m * 2) + (i1 + m) := by omega
  unfold psolve_precond_target forLoop
  simp only [c1, c2, c3, e1, e4]
  rw [Nat.add_assoc ibeg i1 1]
  rw [Nat.add_zero] at a1 a2 b1 b2
  refine ⟨by rw [b1, List.length_set, List.length_set, a1], ?_⟩
  intro row col hrow hcol
  rw [b2 row col hrow hcol,
    rd_set_colmajor _ _ _ _ _ _ _ hrow (by omega) (by rw [List.length_set, a1]; omega),
    rd_set_colmajor _ _ _ _ _ _ _ hrow (by omega) (by rw [a1]; omega),
    a2 row col hrow hcol]
  by_cases hrow1 : leaf_local m row = i1
  · rw [if_pos hrow1]
    by_cases hc3 : i1 + 1 ≤ leaf_local m col ∧ leaf_local m col < i1 + 1 + (m - (i1 + 1))
    · rw [if_pos ⟨hrow1, hc3⟩]
    · rw [if_neg (fun h => hc3 h.2)]
      have hcm : leaf_local m col < m := by
        unfold leaf_local
        split <;> omega
      by_cases hc1 : leaf_local m col < i1
      · have n1 : ¬ (row = i1 + m ∧ col = i1 + m) := by
          rintro ⟨_, h⟩
          rw [h, leaf_local_ge m _ (by omega)] at hc1
          omega
        have n2 : ¬ (row = i1 ∧ col = i1) := by
          rintro ⟨_, h⟩
          rw [h, leaf_local_lt m _ hi] at hc1
          omega
        rw [if_neg n1, if_neg n2, if_pos ⟨hrow1, Nat.zero_le _, by omega⟩]
      · have hc2 : leaf_local m col = i1 := by omega
        rw [leaf_operator_spec_diag sqrt exp g ibeg m row col (by rw [hrow1, hc2])]
        by_cases hr : row < m
        · rw [leaf_local_lt m row hr] at hrow1
          subst hrow1
          by_cases hc : col < m
          · rw [leaf_local_lt m col hc] at hc2
            subst hc2
            rw [if_neg (by omega), if_pos ⟨rfl, rfl⟩, if_pos rfl, if_pos hr]
          · rw [leaf_local_ge m col (by omega)] at hc2
            rw [if_neg (by omega), if_neg (by omega), if_neg (by omega), if_neg (by omega)]
            exact hzero row col hrow hcol (leaf_local_lt m row hr)
        · rw [leaf_local_ge m row (by omega)] at hrow1
          by_cases hc : col < m
          · rw [leaf_local_lt m col hc] at hc2
            rw [if_neg (by omega), if_neg (by omega), if_neg (by omega), if_neg (by omega)]
            exact hzero row col hrow hcol (by rw [leaf_local_ge m row (by omega)]; exact hrow1)
          · rw [leaf_local_ge m col (by omega)] at hc2
            have hrc : row = col := by omega
            subst hrc
            rw [if_pos ⟨by omega, by omega⟩, if_pos rfl, if_neg hr]
  · rw [if_neg hrow1, if_neg (fun h => hrow1 h.1)]
    have n1 : ¬ (row = i1 + m ∧ col = i1 + m) := by
      rintro ⟨h, _⟩
      rw [h, leaf_local_ge m _ (by omega)] at hrow1
      omega
    have n2 : ¬ (row = i1 ∧ col = i1) := by
      rintro ⟨h, _⟩
      rw [h, leaf_local_lt m _ hi] at hrow1
      omega
    rw [if_neg n1, if_neg n2, if_neg (fun h => hrow1 h.1)]

theorem leaf_local_lt_of_lt (m r : Nat) (h : r < m * 2) : leaf_local m r < m := by
  unfold leaf_local
  split <;> omega

/-- The loop of `psolve_precond` over the targets `ibeg + lo .. ibeg + lo + n - 1`. -/
theorem psolve_precond_targets_spec {K : Type} [Field K] (sqrt exp : K → K)
    (g : TreecodeGlobals K) (ibeg m n lo : Nat) (hn : lo + n ≤ m) (A : List K)
    (hlen : m * 2 * (m * 2) ≤ A.length)
    (hzero : ∀ row col, row < m * 2 → col < m * 2 → lo ≤ leaf_local m row →
      rd A (col * (m * 2) + row) = 0) :
    ((List.range' (ibeg + lo) n).foldl
        (fun A i => psolve_precond_target sqrt exp g ibeg m i A) A).length = A.length ∧
    ∀ row col, row < m * 2 → col < m * 2 →
      rd ((List.range' (ibeg + lo) n).foldl
          (fun A i => psolve_precond_target sqrt exp g ibeg m i A) A) (col * (m * 2) + row)
        = if lo ≤ leaf_local m row ∧ leaf_local m row < lo + n
          then leaf_operator_spec sqrt exp g ibeg m row col
          else rd A (col * (m * 2) + row) := by
  induction n generalizing lo A with
  | zero =>
    refine ⟨rfl, ?_⟩
    intro row col _ _
    rw [if_neg (by omega)]
    rfl
  | succ n ih =>
    obtain ⟨s1, s2⟩ := psolve_precond_target_spec sqrt exp g ibeg m lo (by omega) A hlen
      (fun row col hrow hcol h => hzero row col hrow hcol (by omega))
    obtain ⟨h1, h2⟩ := ih (lo + 1) (by omega)
      (psolve_precond_target sqrt exp g ibeg m (ibeg + lo) A) (by rw [s1]; exact hlen)
      (fun row col hrow hcol h => by
        rw [s2 row col hrow hcol, if_neg (by omega)]
        exact hzero row col hrow hcol (by omega))
    simp only [List.range', List.foldl_cons]
    rw [Nat.add_assoc ibeg lo 1]
    refine ⟨by rw [h1, s1], ?_⟩
    intro row col hrow hcol
    rw [h2 row col hrow hcol, s2 row col hrow hcol]
    by_cases c1 : lo + 1 ≤ leaf_local m row ∧ leaf_local m row < lo + 1 + n
    · rw [if_pos c1, if_pos (by omega)]
    · rw [if_neg c1]
      by_cases c2 : leaf_local m row = lo
      · rw [if_pos c2, if_pos (by omega)]
      · rw [if_neg c2, if_neg (by omega)]

/-- The matrix assembled by `psolve_precond` for a leaf is the direct operator
restricted to the leaf, entry by entry. -/
theorem psolve_precond_assemble_entries {K : Type} [Field K] (sqrt exp : K → K)
    (g : TreecodeGlobals K) (ibeg m : Nat) (columnMajorA : List K)
    (row col : Nat) (hrow : row < m * 2) (hcol : col < m * 2) :
    rd (psolve_precond_assemble sqrt exp g ibeg m columnMajorA) (col * (m * 2) + row)
      = leaf_operator_spec sqrt exp g ibeg m row col := by
  obtain ⟨_, h2⟩ := psolve_precond_targets_spec sqrt exp g ibeg m m 0 (by omega)
    (List.replicate (m * 2 * (m * 2)) (0 : K) ++ columnMajorA.drop (m * 2 * (m * 2)))
    (by simp)
    (fun row col hrow hcol _ => by
      have hlt := colmajor_index_lt (m * 2) row col hrow hcol
      unfold rd
      rw [List.getD_eq_getElem?_getD, List.getElem?_append_left (by simpa using hlt)]
      simp [hlt])
  have c : ibeg + m - ibeg = m := by omega
  unfold psolve_precond_assemble forLoop
  simp only [c]
  rw [Nat.add_zero] at h2
  rw [h2 row col hrow hcol, if_pos ⟨Nat.zero_le _, by
    have := leaf_local_lt_of_lt m row hrow
    omega⟩]

/-- The entries of the result of `matvec` with `theta = 0` on a tree whose leaves
partition `[0, N)`, as sums of the terms of the direct summation. -/
theorem matvec_entries {K : Type} [LinearOrderedField K] (sqrt exp : K → K)
    (g : TreecodeGlobals K) (htheta : g.theta = 0) (hradii : radii_nonneg g.s_tree_root)
    (hleaves : (leaf_indices g.s_tree_root).Perm ((List.range g.s_numpars).map Int.ofNat))
    (alpha beta : K) (x y_prev : List K) (hy : y_prev.length = 2 * g.s_numpars)
    (i : Nat) (hi : i < g.s_numpars) :
    rd (matvec sqrt exp g alpha x beta y_prev).2 i
      = rd y_prev i * beta + (1 / 2 * (1 + g.s_eps) * rd x i
          - ∑ j in (Finset.range g.s_numpars).erase i,
              (s_ComputeDirectPB_body sqrt exp (matvec_target_globals g i) x
                (j : Int) (0, 0)).1) * alpha ∧
    rd (matvec sqrt exp g alpha x beta y_prev).2 (g.s_numpars + i)
      = rd y_prev (g.s_numpars + i) * beta
        + (1 / 2 * (1 + 1 / g.s_eps) * rd x (i + g.s_numpars)
          - ∑ j in (Finset.range g.s_numpars).erase i,
              (s_ComputeDirectPB_body sqrt exp (matvec_target_globals g i) x
                (j : Int) (0, 0)).2) * alpha := by
  obtain ⟨tc, sc, hk⟩ := s_ComputePBKernel_frame g x
  have hshape := s_ComputeAllMoments_shape
    { g with s_target_charge := tc, s_source_charge := sc } g.s_tree_root 1
  have hdrop : y_prev.drop (2 * g.s_numpars) = [] := List.drop_eq_nil_of_le (by omega)
  have hloop := matvec_loop_spec sqrt exp
    { g with s_target_charge := tc, s_source_charge := sc }
    (s_ComputeAllMoments { g with s_target_charge := tc, s_source_charge := sc }
      g.s_tree_root 1)
    htheta (hshape.2 hradii) (by rw [hshape.1]; exact hleaves) alpha x beta
    (y_prev.take (2 * g.s_numpars)) (1 / 2 * (1 + g.s_eps)) (1 / 2 * (1 + 1 / g.s_eps))
    (List.replicate (2 * g.s_numpars) (0 : K) ++ y_prev.drop (2 * g.s_numpars))
    (by rw [hdrop]; simp) i hi
  rw [rd_take _ _ _ (by omega : i < 2 * g.s_numpars),
    rd_take _ _ _ (by omega : g.s_numpars + i < 2 * g.s_numpars)] at hloop
  constructor
  · unfold matvec
    simp only [hk, Nat.div_one]
    exact hloop.1
  · unfold matvec
    simp only [hk, Nat.div_one]
    exact hloop.2

theorem rd_drop {K : Type} [Zero K] (l : List K) (n i : Nat) :
    rd (l.drop n) i = rd l (n + i) := by
  unfold rd
  simp [List.getD_eq_getElem?_getD, List.getElem?_drop]

/-- The product of the assembled leaf matrix with a vector, row by row. -/
theorem colmajor_mulVec_assemble {K : Type} [Field K] (sqrt exp : K → K)
    (g : TreecodeGlobals K) (ibeg m : Nat) (columnMajorA x : List K) (row : Nat)
    (hrow : row < m * 2) :
    colmajor_mulVec (psolve_precond_assemble sqrt exp g ibeg m columnMajorA) (m * 2) x row
      = ∑ col in Finset.range (m * 2), leaf_operator_spec sqrt exp g ibeg m row col * rd x col := by
  unfold colmajor_mulVec
  apply Finset.sum_congr rfl
  intro col hcol
  rw [psolve_precond_assemble_entries sqrt exp g ibeg m columnMajorA row col hrow
    (Finset.mem_range.mp hcol)]

/-- A row of the direct operator restricted to a leaf, applied to a vector: the diagonal
term and the sum over the other particles of the leaf. -/
theorem leaf_operator_row_sum {K : Type} [Field K] (spec : Nat → Nat → K) (m : Nat)
    (x : List K) (row i : Nat) (hi : i < m) :
    ∑ col in Finset.range (m * 2), spec row col * rd x col
      = spec row i * rd x i + spec row (m + i) * rd x (m + i)
        + ∑ j in (Finset.range m).erase i,
            (spec row j * rd x j + spec row (m + j) * rd x (m + j)) := by
  have e : m * 2 = m + m := by omega
  rw [e, Finset.sum_range_add, ← Finset.sum_add_distrib,
    ← Finset.add_sum_erase (Finset.range m) _ (Finset.mem_range.mpr hi)]

/-- The radius test of a single leaf and its particle range. -/
theorem leaf_globals_tree {K : Type} [LinearOrderedField K] (g : TreecodeGlobals K)
    (ibeg m : Nat) :
    radii_nonneg (leaf_globals g ibeg m).s_tree_root ∧
    (leaf_indices (leaf_globals g ibeg m).s_tree_root).Perm
      ((List.range (leaf_globals g ibeg m).s_numpars).map Int.ofNat) := by
  constructor
  · unfold leaf_globals
    simp only
    rw [radii_nonneg, radii_nonneg_children]
    exact ⟨le_refl _, trivial⟩
  · have e : leaf_indices (leaf_globals g ibeg m).s_tree_root
        = (List.range (leaf_globals g ibeg m).s_numpars).map Int.ofNat := by
      unfold leaf_globals
      simp only
      rw [leaf_indices]
      simp [intRange]
      generalize List.range m = l
      induction l with
      | nil => rfl
      | cons a l ih =>
        rw [List.flatMap_cons, ih]
        rfl
    rw [e]

/-- C13: for every leaf `[ibeg, iend]` of `m` elements at pairwise distinct positions,
the `2m x 2m` matrix that `psolve_precond` assembles (column-major, entry `(row, col)` at
`col*2m + row`) is the direct operator restricted to the leaf.  Its diagonal is
`c1 = (1+eps)/2` on the first `m` entries and `c2 = (1+1/eps)/2` on the last `m`; the
entries `(i, m+i)` and `(m+i, i)` are `0`; for `i ≠ j` the entries `(i,j)`, `(i,m+j)`,
`(m+i,j)`, `(m+i,m+j)` are `-L1*a_j`, `-L2*a_j`, `-L3*a_j`, `-L4*a_j` with target `i` and
source `j`; and for every `x`, `B*x` is the result of `matvec` with `alpha = 1`,
`beta = 0`, summing directly on a tree that consists of that single leaf. -/
theorem psolve_precond_leaf_matrix {K : Type} [LinearOrderedField K] (sqrt exp : K → K)
    (g : TreecodeGlobals K) (ibeg m : Nat) (columnMajorA : List K)
    (_hdistinct : ∀ i j, i < m → j < m → i ≠ j →
      ¬ (rd g.s_particle_position_x (ibeg + i) = rd g.s_particle_position_x (ibeg + j) ∧
         rd g.s_particle_position_y (ibeg + i) = rd g.s_particle_position_y (ibeg + j) ∧
         rd g.s_particle_position_z (ibeg + i) = rd g.s_particle_position_z (ibeg + j))) :
    (∀ i, i < m →
      rd (psolve_precond_assemble sqrt exp g ibeg m columnMajorA) (i * (m * 2) + i)
        = (1 + g.s_eps) / 2 ∧
      rd (psolve_precond_assemble sqrt exp g ibeg m columnMajorA)
          ((m + i) * (m * 2) + (m + i)) = (1 + 1 / g.s_eps) / 2 ∧
      rd (psolve_precond_assemble sqrt exp g ibeg m columnMajorA) ((m + i) * (m * 2) + i)
        = 0 ∧
      rd (psolve_precond_assemble sqrt exp g ibeg m columnMajorA) (i * (m * 2) + (m + i))
        = 0) ∧
    (∀ i j, i < m → j < m → i ≠ j →
      rd (psolve_precond_assemble sqrt exp g ibeg m columnMajorA) (j * (m * 2) + i)
        = -(kernel_spec sqrt exp g.s_eps g.s_kappa g.s_kappa2
            (rd g.s_particle_position_x (ibeg + j)) (rd g.s_particle_position_y (ibeg + j))
            (rd g.s_particle_position_z (ibeg + j)) (rd g.s_particle_normal_x (ibeg + j))
            (rd g.s_particle_normal_y (ibeg + j)) (rd g.s_particle_normal_z (ibeg + j))
            (rd g.s_particle_position_x (ibeg + i)) (rd g.s_particle_position_y (ibeg + i))
            (rd g.s_particle_position_z (ibeg + i)) (rd g.s_particle_normal_x (ibeg + i))
            (rd g.s_particle_normal_y (ibeg + i)) (rd g.s_particle_normal_z (ibeg + i))).1
          * rd g.s_particle_area (ibeg + j) ∧
      rd (psolve_precond_assemble sqrt exp g ibeg m columnMajorA) ((m + j) * (m * 2) + i)
        = -(kernel_spec sqrt exp g.s_eps g.s_kappa g.s_kappa2
            (rd g.s_particle_position_x (ibeg + j)) (rd g.s_particle_position_y (ibeg + j))
            (rd g.s_particle_position_z (ibeg + j)) (rd g.s_particle_normal_x (ibeg + j))
            (rd g.s_particle_normal_y (ibeg + j)) (rd g.s_particle_normal_z (ibeg + j))
            (rd g.s_particle_position_x (ibeg + i)) (rd g.s_particle_position_y (ibeg + i))
            (rd g.s_particle_position_z (ibeg + i)) (rd g.s_particle_normal_x (ibeg + i))
            (rd g.s_particle_normal_y (ibeg + i)) (rd g.s_particle_normal_z (ibeg + i))).2.1
          * rd g.s_particle_area (ibeg + j) ∧
      rd (psolve_precond_assemble sqrt exp g ibeg m columnMajorA) (j * (m * 2) + (m + i))
        = -(kernel_spec sqrt exp g.s_eps g.s_kappa g.s_kappa2
            (rd g.s_particle_position_x (ibeg + j)) (rd g.s_particle_position_y (ibeg + j))
            (rd g.s_particle_position_z (ibeg + j)) (rd g.s_particle_normal_x (ibeg + j))
            (rd g.s_particle_normal_y (ibeg + j)) (rd g.s_particle_normal_z (ibeg + j))
            (rd g.s_particle_position_x (ibeg + i)) (rd g.s_particle_position_y (ibeg + i))
            (rd g.s_particle_position_z (ibeg + i)) (rd g.s_particle_normal_x (ibeg + i))
            (rd g.s_particle_normal_y (ibeg + i)) (rd g.s_particle_normal_z (ibeg + i))).2.2.1
          * rd g.s_particle_area (ibeg + j) ∧
      rd (psolve_precond_assemble sqrt exp g ibeg m columnMajorA)
          ((m + j) * (m * 2) + (m + i))
        = -(kernel_spec sqrt exp g.s_eps g.s_kappa g.s_kappa2
            (rd g.s_particle_position_x (ibeg + j)) (rd g.s_particle_position_y (ibeg + j))
            (rd g.s_particle_position_z (ibeg + j)) (rd g.s_particle_normal_x (ibeg + j))
            (rd g.s_particle_normal_y (ibeg + j)) (rd g.s_particle_normal_z (ibeg + j))
            (rd g.s_particle_position_x (ibeg + i)) (rd g.s_particle_position_y (ibeg + i))
            (rd g.s_particle_position_z (ibeg + i)) (rd g.s_particle_normal_x (ibeg + i))
            (rd g.s_particle_normal_y (ibeg + i)) (rd g.s_particle_normal_z (ibeg + i))).2.2.2
          * rd g.s_particle_area (ibeg + j)) ∧
    (∀ x y_prev : List K, y_prev.length = 2 * m → ∀ i, i < m →
      colmajor_mulVec (psolve_precond_assemble sqrt exp g ibeg m columnMajorA) (m * 2) x i
        = rd (matvec sqrt exp (leaf_globals g ibeg m) 1 x 0 y_prev).2 i ∧
      colmajor_mulVec (psolve_precond_assemble sqrt exp g ibeg m columnMajorA) (m * 2) x
          (m + i)
        = rd (matvec sqrt exp (leaf_globals g ibeg m) 1 x 0 y_prev).2 (m + i)) := by
  have hA := psolve_precond_assemble_entries sqrt exp g ibeg m columnMajorA
  have ll : ∀ i, i < m → leaf_local m i = i := fun i h => leaf_local_lt m i h
  have lg : ∀ i, leaf_local m (m + i) = i := fun i => by
    rw [leaf_local_ge m _ (by omega)]; omega
  have spec_lo : ∀ i j, i < m → j < m → i ≠ j →
      leaf_operator_spec sqrt exp g ibeg m i j
        = -(kernel_spec sqrt exp g.s_eps g.s_kappa g.s_kappa2
            (rd g.s_particle_position_x (ibeg + j)) (rd g.s_particle_position_y (ibeg + j))
            (rd g.s_particle_position_z (ibeg + j)) (rd g.s_particle_normal_x (ibeg + j))
            (rd g.s_particle_normal_y (ibeg + j)) (rd g.s_particle_normal_z (ibeg + j))
            (rd g.s_particle_position_x (ibeg + i)) (rd g.s_particle_position_y (ibeg + i))
            (rd g.s_particle_position_z (ibeg + i)) (rd g.s_particle_normal_x (ibeg + i))
            (rd g.s_particle_normal_y (ibeg + i)) (rd g.s_particle_normal_z (ibeg + i))).1
          * rd g.s_particle_area (ibeg + j) ∧
      leaf_operator_spec sqrt exp g ibeg m i (m + j)
        = -(kernel_spec sqrt exp g.s_eps g.s_kappa g.s_kappa2
            (rd g.s_particle_position_x (ibeg + j)) (rd g.s_particle_position_y (ibeg + j))
            (rd g.s_particle_position_z (ibeg + j)) (rd g.s_particle_normal_x (ibeg + j))
            (rd g.s_particle_normal_y (ibeg + j)) (rd g.s_particle_normal_z (ibeg + j))
            (rd g.s_particle_position_x (ibeg + i)) (rd g.s_particle_position_y (ibeg + i))
            (rd g.s_particle_position_z (ibeg + i)) (rd g.s_particle_normal_x (ibeg + i))
            (rd g.s_particle_normal_y (ibeg + i)) (rd g.s_particle_normal_z (ibeg + i))).2.1
          * rd g.s_particle_area (ibeg + j) ∧
      leaf_operator_spec sqrt exp g ibeg m (m + i) j
        = -(kernel_spec sqrt exp g.s_eps g.s_kappa g.s_kappa2
            (rd g.s_particle_position_x (ibeg + j)) (rd g.s_particle_position_y (ibeg + j))
            (rd g.s_particle_position_z (ibeg + j)) (rd g.s_particle_normal_x (ibeg + j))
            (rd g.s_particle_normal_y (ibeg + j)) (rd g.s_particle_normal_z (ibeg + j))
            (rd g.s_particle_position_x (ibeg + i)) (rd g.s_particle_position_y (ibeg + i))
            (rd g.s_particle_position_z (ibeg + i)) (rd g.s_particle_normal_x (ibeg + i))
            (rd g.s_particle_normal_y (ibeg + i)) (rd g.s_particle_normal_z (ibeg + i))).2.2.1
          * rd g.s_particle_area (ibeg + j) ∧
      leaf_operator_spec sqrt exp g ibeg m (m + i) (m + j)
        = -(kernel_spec sqrt exp g.s_eps g.s_kappa g.s_kappa2
            (rd g.s_particle_position_x (ibeg + j)) (rd g.s_particle_position_y (ibeg + j))
            (rd g.s_particle_position_z (ibeg + j)) (rd g.s_particle_normal_x (ibeg + j))
            (rd g.s_particle_normal_y (ibeg + j)) (rd g.s_particle_normal_z (ibeg + j))
            (rd g.s_particle_position_x (ibeg + i)) (rd g.s_particle_position_y (ibeg + i))
            (rd g.s_particle_position_z (ibeg + i)) (rd g.s_particle_normal_x (ibeg + i))
            (rd g.s_particle_normal_y (ibeg + i)) (rd g.s_particle_normal_z (ibeg + i))).2.2.2
          * rd g.s_particle_area (ibeg + j) := by
    intro i j hi hj hij
    have n1 : ¬ m + i < m := by omega
    have n2 : ¬ m + j < m := by omega
    unfold leaf_operator_spec
    simp only [ll i hi, ll j hj, lg, if_neg hij, if_pos hi, if_pos hj, if_neg n1, if_neg n2]
    exact ⟨trivial, trivial, trivial, trivial⟩
  have spec_di : ∀ i, i < m →
      leaf_operator_spec sqrt exp g ibeg m i i = (1 + g.s_eps) / 2 ∧
      leaf_operator_spec sqrt exp g ibeg m (m + i) (m + i) = (1 + 1 / g.s_eps) / 2 ∧
      leaf_operator_spec sqrt exp g ibeg m i (m + i) = 0 ∧
      leaf_operator_spec sqrt exp g ibeg m (m + i) i = 0 := by
    intro i hi
    have n1 : ¬ m + i < m := by omega
    have n3 : ¬ i = m + i := by omega
    have n4 : ¬ m + i = i := by omega
    unfold leaf_operator_spec
    simp only [ll i hi, lg, if_pos hi, if_neg n1, if_neg n3, if_neg n4, if_true]
    exact ⟨trivial, trivial, trivial, trivial⟩
  refine ⟨?_, ?_, ?_⟩
  · intro i hi
    obtain ⟨d1, d2, d3, d4⟩ := spec_di i hi
    rw [hA i i (by omega) (by omega), hA (m + i) (m + i) (by omega) (by omega),
      hA i (m + i) (by omega) (by omega), hA (m + i) i (by omega) (by omega)]
    exact ⟨d1, d2, d3, d4⟩
  · intro i j hi hj hij
    obtain ⟨o1, o2, o3, o4⟩ := spec_lo i j hi hj hij
    rw [hA i j (by omega) (by omega), hA i (m + j) (by omega) (by omega),
      hA (m + i) j (by omega) (by omega), hA (m + i) (m + j) (by omega) (by omega)]
    exact ⟨o1, o2, o3, o4⟩
  · intro x y_prev hy i hi
    obtain ⟨t1, t2⟩ := leaf_globals_tree g ibeg m
    obtain ⟨m1, m2⟩ := matvec_entries sqrt exp (leaf_globals g ibeg m) rfl t1 t2 1 0 x y_prev
      hy i hi
    obtain ⟨d1, d2, d3, d4⟩ := spec_di i hi
    have hm : (leaf_globals g ibeg m).s_numpars = m := rfl
    have he : (leaf_globals g ibeg m).s_eps = g.s_eps := rfl
    rw [hm] at m1 m2
    rw [m1, m2, colmajor_mulVec_assemble sqrt exp g ibeg m columnMajorA x i (by omega),
      colmajor_mulVec_assemble sqrt exp g ibeg m columnMajorA x (m + i) (by omega),
      leaf_operator_row_sum _ m x i i hi, leaf_operator_row_sum _ m x (m + i) i hi,
      d1, d2, d3, d4, he]
    have hterm : ∀ j, j ∈ (Finset.range m).erase i →
        s_ComputeDirectPB_body sqrt exp (matvec_target_globals (leaf_globals g ibeg m) i) x
            (j : Int) (0, 0)
          = (-(leaf_operator_spec sqrt exp g ibeg m i j * rd x j
                + leaf_operator_spec sqrt exp g ibeg m i (m + j) * rd x (m + j)),
             -(leaf_operator_spec sqrt exp g ibeg m (m + i) j * rd x j
                + leaf_operator_spec sqrt exp g ibeg m (m + i) (m + j) * rd x (m + j))) := by
      intro j hj
      have hjm : j < m := Finset.mem_range.mp (Finset.mem_of_mem_erase hj)
      have hji : j ≠ i := Finset.ne_of_mem_erase hj
      obtain ⟨o1, o2, o3, o4⟩ := spec_lo i j hi hjm (fun h => hji h.symm)
      rw [direct_term_eq sqrt exp (leaf_globals g ibeg m) x i j hji, o1, o2, o3, o4]
      simp only [leaf_globals, rd_drop]
      refine Prod.ext ?_ ?_ <;> simp only <;> ring
    rw [Finset.sum_congr rfl (fun j hj => congrArg Prod.fst (hterm j hj)),
      Finset.sum_congr rfl (fun j hj => congrArg Prod.snd (hterm j hj))]
    simp only [Finset.sum_neg_distrib]
    rw [Nat.add_comm i m]
    constructor <;> ring

/-- C13 at a concrete input: the leaf `[2, 3]` of the four sample particles, assembled
into a buffer that held other values. -/
theorem psolve_precond_leaf_matrix_witness :
    (∀ i j, i < 2 → j < 2 → i ≠ j →
      ¬ (rd sampleGlobals.s_particle_position_x (2 + i)
            = rd sampleGlobals.s_particle_position_x (2 + j) ∧
         rd sampleGlobals.s_particle_position_y (2 + i)
            = rd sampleGlobals.s_particle_position_y (2 + j) ∧
         rd sampleGlobals.s_particle_position_z (2 + i)
            = rd sampleGlobals.s_particle_position_z (2 + j))) ∧
    rd (psolve_precond_assemble Real.sqrt Real.exp sampleGlobals 2 2 (List.replicate 16 7))
        (1 * (2 * 2) + 1) = (1 + sampleGlobals.s_eps) / 2 ∧
    colmajor_mulVec
        (psolve_precond_assemble Real.sqrt Real.exp sampleGlobals 2 2 (List.replicate 16 7))
        (2 * 2) [1, 2, 3, 4] (2 + 1)
      = rd (matvec Real.sqrt Real.exp (leaf_globals sampleGlobals 2 2) 1 [1, 2, 3, 4] 0
          [9, 9, 9, 9]).2 (2 + 1) := by
  have hdistinct : ∀ i j, i < 2 → j < 2 → i ≠ j →
      ¬ (rd sampleGlobals.s_particle_position_x (2 + i)
            = rd sampleGlobals.s_particle_position_x (2 + j) ∧
         rd sampleGlobals.s_particle_position_y (2 + i)
            = rd sampleGlobals.s_particle_position_y (2 + j) ∧
         rd sampleGlobals.s_particle_position_z (2 + i)
            = rd sampleGlobals.s_particle_position_z (2 + j)) := by
    intro i j hi hj hij
    interval_cases i <;> interval_cases j <;>
      first
        | exact absurd rfl hij
        | norm_num [rd, sampleGlobals]
  exact ⟨hdistinct,
    ((psolve_precond_leaf_matrix Real.sqrt Real.exp sampleGlobals 2 2 (List.replicate 16 7)
      hdistinct).1 1 (by decide)).1,
    ((psolve_precond_leaf_matrix Real.sqrt Real.exp sampleGlobals 2 2 (List.replicate 16 7)
      hdistinct).2.2 [1, 2, 3, 4] [9, 9, 9, 9] rfl 1 (by decide)).2⟩

/-! ## `treecode.c`: `lu_decomp` and `lu_solve` -/

/-- An invariant that depends on the loop counter. -/
theorem forLoop_induct {σ : Type} (P : Nat → σ → Prop) (body : Nat → σ → σ) (lo hi : Nat)
    (hle : lo ≤ hi) (s : σ) (h0 : P lo s)
    (hstep : ∀ k s, lo ≤ k → k < hi → P k s → P (k + 1) (body k s)) :
    P hi (forLoop lo hi body s) := by
  have key : ∀ n, lo + n ≤ hi →
      P (lo + n) ((List.range' lo n).foldl (fun s i => body i s) s) := by
    intro n
    induction n with
    | zero => intro _; exact h0
    | succ n ih =>
      intro hn
      rw [List.range'_concat, List.foldl_append]
      simp only [List.foldl_cons, List.foldl_nil, Nat.one_mul]
      exact hstep (lo + n) _ (Nat.le_add_right _ _) (by omega) (ih (by omega))
  have e := key (hi - lo) (by omega)
  rw [Nat.add_sub_cancel' hle] at e
  exact e

/-- An invariant that depends on the counter of a descending loop. -/
theorem forLoopDown_induct {σ : Type} (P : Nat → σ → Prop) (body : Nat → σ → σ) (n : Nat)
    (s : σ) (h0 : P n s) (hstep : ∀ i s, i < n → P (i + 1) s → P i (body i s)) :
    P 0 (forLoopDown n body s) := by
  unfold forLoopDown
  induction n generalizing s with
  | zero => exact h0
  | succ n ih =>
    rw [List.range_succ, List.reverse_append]
    simp only [List.reverse_cons, List.reverse_nil, List.nil_append, List.singleton_append,
      List.foldl_cons]
    exact ih _ (hstep n s (by omega) h0) (fun i s hi h => hstep i s (by omega) h)

theorem getD_set_rows {K : Type} (A : List (List K)) (r : Nat) (row : List K) (w : Nat)
    (h : r < A.length) :
    (A.set r row).getD w [] = if r = w then row else A.getD w [] := by
  by_cases c : r = w
  · subst c
    rw [if_pos rfl, List.getD_eq_getElem?_getD, List.getElem?_set_self h]
    rfl
  · rw [if_neg c, List.getD_eq_getElem?_getD, List.getElem?_set_ne c,
      ← List.getD_eq_getElem?_getD]

theorem lu_shape_wr2 {K : Type} (N : Nat) (A : List (List K)) (r c : Nat) (v : K)
    (h : lu_shape N A) : lu_shape N (wr2 A r c v) := by
  obtain ⟨h1, h2⟩ := h
  unfold wr2
  refine ⟨by rw [List.length_set]; exact h1, ?_⟩
  intro w hw
  by_cases hr : r < A.length
  · rw [getD_set_rows _ _ _ _ hr]
    by_cases e : r = w
    · rw [if_pos e, List.length_set, e]
      exact h2 w hw
    · rw [if_neg e]
      exact h2 w hw
  · rw [List.set_eq_of_length_le (by omega)]
    exact h2 w hw

theorem rd2_wr2 {K : Type} [Zero K] (N : Nat) (A : List (List K)) (r c : Nat) (v : K)
    (h : lu_shape N A) (hr : r < N) (hc : c < N) (w d : Nat) :
    rd2 (wr2 A r c v) w d = if w = r ∧ d = c then v else rd2 A w d := by
  obtain ⟨h1, h2⟩ := h
  unfold rd2 wr2
  rw [getD_set_rows _ _ _ _ (by omega)]
  by_cases e : r = w
  · subst e
    rw [if_pos rfl, rd_set _ _ _ _ (by rw [h2 r hr]; exact hc)]
    by_cases f : c = d
    · rw [if_pos f, if_pos ⟨rfl, f.symm⟩]
    · rw [if_neg f, if_neg (fun x => f x.2.symm)]
  · rw [if_neg e, if_neg (fun x => e x.1.symm)]

/-- The pivot search of column `i`: the row found lies in `[i, N)`, `maxA` is the magnitude
of its entry, and no entry of the column in the rows `i, ..., N-1` has a larger one. -/
theorem lu_pivot_search_spec {K : Type} [LinearOrderedField K] (A : List (List K))
    (N i : Nat) (hi : i < N) :
    i ≤ (lu_pivot_search A N i).2 ∧ (lu_pivot_search A N i).2 < N ∧
    (lu_pivot_search A N i).1 = |rd2 A (lu_pivot_search A N i).2 i| ∧
    ∀ k, i ≤ k → k < N → |rd2 A k i| ≤ (lu_pivot_search A N i).1 := by
  have h := forLoop_induct
    (fun k (st : K × Nat) => i ≤ st.2 ∧ (k = i → st = (0, i)) ∧
      (i < k → st.2 < k ∧ st.1 = |rd2 A st.2 i|) ∧
      ∀ m, i ≤ m → m < k → |rd2 A m i| ≤ st.1)
    (fun k (st : K × Nat) => if |rd2 A k i| > st.1 then (|rd2 A k i|, k) else st)
    i N (by omega) (0, i)
    ⟨le_refl _, fun _ => rfl, fun h => absurd h (lt_irrefl _), fun m h1 h2 => by omega⟩
    (by
      intro k st hk1 hk2 ⟨p1, p2, p3, p4⟩
      by_cases c : |rd2 A k i| > st.1
      · beta_reduce
        rw [if_pos c]
        refine ⟨hk1, fun e => by omega, fun _ => ⟨by omega, rfl⟩, ?_⟩
        intro m hm1 hm2
        by_cases e : m = k
        · rw [e]
        · exact le_of_lt (lt_of_le_of_lt (p4 m hm1 (by omega)) c)
      · beta_reduce
        rw [if_neg c]
        have c1 : |rd2 A k i| ≤ st.1 := not_lt.mp c
        refine ⟨p1, fun e => by omega, ?_, ?_⟩
        · intro _
          by_cases e : k = i
          · have hst := p2 e
            rw [hst] at c1 ⊢
            simp only at c1 ⊢
            rw [e] at c1
            exact ⟨by omega, (le_antisymm c1 (abs_nonneg _)).symm⟩
          · obtain ⟨q1, q2⟩ := p3 (by omega)
            exact ⟨by omega, q2⟩
        · intro m hm1 hm2
          by_cases e : m = k
          · rw [e]; exact c1
          · exact p4 m hm1 (by omega))
  obtain ⟨p1, _, p3, p4⟩ := h
  obtain ⟨q1, q2⟩ := p3 hi
  exact ⟨p1, q1, q2, p4⟩

/-- The exchange of the rows `i` and `imax`. -/
theorem lu_pivot_swap_spec {K : Type} (st : List (List K) × List Nat) (N i imax : Nat)
    (hs : lu_shape N st.1) (hp : N + 1 ≤ st.2.length) (hi : i ≤ imax) (hm : imax < N) :
    lu_shape N (lu_pivot_swap st N i imax).1 ∧
    (lu_pivot_swap st N i imax).2.length = st.2.length ∧
    (∀ r, (lu_pivot_swap st N i imax).1.getD r []
      = st.1.getD (if r = i then imax else if r = imax then i else r) []) ∧
    (∀ r, r < N → rdIdx (lu_pivot_swap st N i imax).2 r
      = rdIdx st.2 (if r = i then imax else if r = imax then i else r)) := by
  obtain ⟨h1, h2⟩ := hs
  unfold lu_pivot_swap
  by_cases c : imax = i
  · rw [if_neg (not_not.mpr c)]
    refine ⟨⟨h1, h2⟩, rfl, ?_, ?_⟩
    · intro r
      by_cases e : r = i
      · rw [if_pos e, c, e]
      · rw [if_neg e, if_neg (by rw [c]; exact e)]
    · intro r _
      by_cases e : r = i
      · rw [if_pos e, c, e]
      · rw [if_neg e, if_neg (by rw [c]; exact e)]
  · rw [if_pos c]
    simp only
    have rows : ∀ r, ((st.1.set i (st.1.getD imax [])).set imax (st.1.getD i [])).getD r []
        = st.1.getD (if r = i then imax else if r = imax then i else r) [] := by
      intro r
      rw [getD_set_rows _ _ _ _ (by rw [List.length_set]; omega),
        getD_set_rows _ _ _ _ (by omega)]
      by_cases e : r = i
      · rw [if_pos e, if_neg (by omega), if_pos e.symm]
      · rw [if_neg e]
        by_cases f : r = imax
        · rw [if_pos f, if_pos f.symm]
        · rw [if_neg f, if_neg (fun x => f x.symm), if_neg (fun x => e x.symm)]
    refine ⟨⟨by rw [List.length_set, List.length_set]; exact h1, ?_⟩,
      by rw [List.length_set, List.length_set, List.length_set], rows, ?_⟩
    · intro r hr
      rw [rows r]
      by_cases e : r = i
      · rw [if_pos e]; exact h2 imax hm
      · rw [if_neg e]
        by_cases f : r = imax
        · rw [if_pos f]; exact h2 i (by omega)
        · rw [if_neg f]; exact h2 r hr
    · intro r hr
      rw [rdIdx_set _ _ _ _ (by rw [List.length_set, List.length_set]; omega),
        if_neg (by omega),
        rdIdx_set _ _ _ _ (by rw [List.length_set]; omega),
        rdIdx_set _ _ _ _ (by omega)]
      by_cases e : r = i
      · rw [if_pos e, if_neg (by omega), if_pos e]
      · rw [if_neg e]
        by_cases f : r = imax
        · rw [if_pos f, if_pos f, if_neg e]
        · rw [if_neg f, if_neg f, if_neg e]

/-- The loop over `k` of the update of row `j`. -/
theorem lu_row_update_spec {K : Type} [Field K] (N i j : Nat) (B : List (List K))
    (hs : lu_shape N B) (hij : i < j) (hj : j < N) :
    lu_shape N (forLoop (i + 1) N
      (fun k A => wr2 A j k (rd2 A j k - rd2 A j i * rd2 A i k)) B) ∧
    ∀ r c, rd2 (forLoop (i + 1) N
        (fun k A => wr2 A j k (rd2 A j k - rd2 A j i * rd2 A i k)) B) r c
      = if r = j ∧ i < c ∧ c < N then rd2 B j c - rd2 B j i * rd2 B i c else rd2 B r c := by
  refine forLoop_induct
    (fun k (A : List (List K)) => lu_shape N A ∧ ∀ r c, rd2 A r c
      = if r = j ∧ i < c ∧ c < k then rd2 B j c - rd2 B j i * rd2 B i c else rd2 B r c)
    _ (i + 1) N (by omega) B ⟨hs, ?_⟩ ?_
  · intro r c
    rw [if_neg (by omega)]
  · intro k A hk1 hk2 ⟨p1, p2⟩
    refine ⟨lu_shape_wr2 N A j k _ p1, ?_⟩
    intro r c
    have a1 : rd2 A j k = rd2 B j k := by rw [p2 j k, if_neg (by omega)]
    have a2 : rd2 A j i = rd2 B j i := by rw [p2 j i, if_neg (by omega)]
    have a3 : rd2 A i k = rd2 B i k := by rw [p2 i k, if_neg (by omega)]
    rw [rd2_wr2 N A j k _ p1 hj hk2, a1, a2, a3, p2 r c]
    by_cases e : r = j ∧ c = k
    · rw [if_pos e, if_pos (by omega), e.2]
    · rw [if_neg e]
      by_cases f : r = j ∧ i < c ∧ c < k
      · rw [if_pos f, if_pos (by omega)]
      · rw [if_neg f, if_neg (by omega)]

/-- The update of row `j` in the elimination of column `i`. -/
theorem lu_eliminate_row_spec {K : Type} [Field K] (N i j : Nat) (A : List (List K))
    (hs : lu_shape N A) (hij : i < j) (hj : j < N) :
    lu_shape N (lu_eliminate_row N i j A) ∧
    ∀ r c, rd2 (lu_eliminate_row N i j A) r c
      = if r = j then
          (if c = i then rd2 A j i / rd2 A i i
           else if i < c ∧ c < N then rd2 A j c - rd2 A j i / rd2 A i i * rd2 A i c
           else rd2 A j c)
        else rd2 A r c := by
  unfold lu_eliminate_row
  have s1 := lu_shape_wr2 N A j i (rd2 A j i / rd2 A i i) hs
  have e1 := rd2_wr2 N A j i (rd2 A j i / rd2 A i i) hs hj (by omega)
  obtain ⟨q1, q2⟩ := lu_row_update_spec N i j _ s1 hij hj
  refine ⟨q1, ?_⟩
  intro r c
  simp only
  have a2 : rd2 (wr2 A j i (rd2 A j i / rd2 A i i)) j i = rd2 A j i / rd2 A i i := by
    rw [e1 j i, if_pos ⟨rfl, rfl⟩]
  have a3 : rd2 (wr2 A j i (rd2 A j i / rd2 A i i)) i c = rd2 A i c := by
    rw [e1 i c, if_neg (by omega)]
  rw [q2 r c, a2, a3]
  by_cases e : r = j
  · rw [if_pos e]
    by_cases f : c = i
    · rw [if_pos f, if_neg (by omega), e1 r c, if_pos ⟨e, f⟩]
    · rw [if_neg f]
      by_cases g : i < c ∧ c < N
      · rw [if_pos g, if_pos ⟨e, g⟩, e1 j c, if_neg (fun x => f x.2)]
      · rw [if_neg g, if_neg (fun x => g x.2), e1 r c, if_neg (fun x => f x.2), e]
  · rw [if_neg e, if_neg (fun x => e x.1), e1 r c, if_neg (fun x => e x.1)]

/-- The elimination of column `i`: the rows `r > i` receive the multiplier in column `i`
and are reduced in the columns `c > i`; nothing else changes. -/
theorem lu_eliminate_spec {K : Type} [Field K] (N i : Nat) (B : List (List K))
    (hs : lu_shape N B) (hi : i < N) :
    lu_shape N (lu_eliminate B N i) ∧
    ∀ r c, rd2 (lu_eliminate B N i) r c
      = if i < r ∧ r < N then
          (if c = i then rd2 B r i / rd2 B i i
           else if i < c ∧ c < N then rd2 B r c - rd2 B r i / rd2 B i i * rd2 B i c
           else rd2 B r c)
        else rd2 B r c := by
  unfold lu_eliminate
  refine forLoop_induct
    (fun j (A : List (List K)) => lu_shape N A ∧ ∀ r c, rd2 A r c
      = if i < r ∧ r < j then
          (if c = i then rd2 B r i / rd2 B i i
           else if i < c ∧ c < N then rd2 B r c - rd2 B r i / rd2 B i i * rd2 B i c
           else rd2 B r c)
        else rd2 B r c)
    _ (i + 1) N (by omega) B ⟨hs, ?_⟩ ?_
  · intro r c
    rw [if_neg (by omega)]
  · intro j A hj1 hj2 ⟨p1, p2⟩
    obtain ⟨q1, q2⟩ := lu_eliminate_row_spec N i j A p1 (by omega) hj2
    refine ⟨q1, ?_⟩
    intro r c
    rw [q2 r c]
    by_cases e : r = j
    · have a1 : ∀ d, rd2 A j d = rd2 B j d := fun d => by rw [p2 j d, if_neg (by omega)]
      have a2 : ∀ d, rd2 A i d = rd2 B i d := fun d => by rw [p2 i d, if_neg (by omega)]
      have c1 : i < r ∧ r < j + 1 := by omega
      rw [if_pos e, if_pos c1, e]
      simp only [a1, a2]
    · rw [if_neg e, p2 r c]
      by_cases f : i < r ∧ r < j
      · have c1 : i < r ∧ r < j + 1 := by omega
        rw [if_pos f, if_pos c1]
      · have c1 : ¬ (i < r ∧ r < j + 1) := by omega
        rw [if_neg f, if_neg c1]

/-- One pass of `lu_decomp` that finds a pivot keeps the invariant: stated on the entries
of the matrix after the exchange (`B`) and after the elimination (`C`). -/
theorem lu_step_invariant {K : Type} [LinearOrderedField K] (Tol : K)
    (A0 M B C : List (List K)) (p p1 : List Nat) (N len i imax : Nat) (hTol : 0 < Tol)
    (hi : i < N) (him : i ≤ imax) (hmN : imax < N)
    (hinv : lu_invariant Tol A0 N len i (M, p))
    (hpiv : Tol ≤ |rd2 M imax i|)
    (hmax : ∀ k, i ≤ k → k < N → |rd2 M k i| ≤ |rd2 M imax i|)
    (hB : ∀ r c, rd2 B r c = rd2 M (if r = i then imax else if r = imax then i else r) c)
    (hp1 : ∀ r, r < N →
      rdIdx p1 r = rdIdx p (if r = i then imax else if r = imax then i else r))
    (hlen : p1.length = len) (hCs : lu_shape N C)
    (hC : ∀ r c, rd2 C r c
      = if i < r ∧ r < N then
          (if c = i then rd2 B r i / rd2 B i i
           else if i < c ∧ c < N then rd2 B r c - rd2 B r i / rd2 B i i * rd2 B i c
           else rd2 B r c)
        else rd2 B r c) :
    lu_invariant Tol A0 N len (i + 1) (C, p1) := by
  obtain ⟨_, _, v1, v2, v3, v4, v5⟩ := hinv
  simp only at v1 v2 v3 v4 v5
  obtain ⟨σ, hσ⟩ : ∃ σ : Nat → Nat,
      ∀ r, σ r = if r = i then imax else if r = imax then i else r := ⟨_, fun _ => rfl⟩
  simp only [← hσ] at hB hp1
  have σlt : ∀ r, r < i → σ r = r := fun r h => by
    rw [hσ, if_neg (by omega), if_neg (by omega)]
  have σi : σ i = imax := by rw [hσ, if_pos rfl]
  have σge : ∀ r, i ≤ r → r < N → i ≤ σ r ∧ σ r < N := fun r h1 h2 => by
    rw [hσ]; split_ifs <;> omega
  have σN : ∀ r, r < N → σ r < N := fun r h => by
    rw [hσ]; split_ifs <;> omega
  have σinj : ∀ r s, σ r = σ s → r = s := fun r s h => by
    rw [hσ r, hσ s] at h; split_ifs at h <;> omega
  have hBii : rd2 B i i = rd2 M imax i := by rw [hB, σi]
  have hBne : rd2 B i i ≠ 0 := by
    intro h
    rw [hBii] at h
    rw [h, abs_zero] at hpiv
    exact absurd hTol (not_lt.mpr hpiv)
  have hCle : ∀ r c, r ≤ i → rd2 C r c = rd2 M (σ r) c := fun r c h => by
    have c1 : ¬ (i < r ∧ r < N) := by omega
    rw [hC, if_neg c1, hB]
  have hClow : ∀ r c, c < i → rd2 C r c = rd2 M (σ r) c := fun r c h => by
    rw [hC]
    by_cases c1 : i < r ∧ r < N
    · have c2 : ¬ c = i := by omega
      have c3 : ¬ (i < c ∧ c < N) := by omega
      rw [if_pos c1, if_neg c2, if_neg c3, hB r c]
    · rw [if_neg c1, hB r c]
  refine ⟨hCs, hlen, ?_, ?_, ?_, ?_, ?_⟩
  · intro r hr
    simp only
    rw [hp1 r hr]
    exact v1 _ (σN r hr)
  · intro r s hr hs h
    simp only at h
    rw [hp1 r hr, hp1 s hs] at h
    exact σinj r s (v2 _ _ (σN r hr) (σN s hs) h)
  · intro r c hr hc
    simp only
    rw [hp1 r hr, v3 (σ r) c (σN r hr) hc]
    by_cases hri : r ≤ i
    · have m1 : min r (i + 1) = r := by omega
      have m2 : min (σ r) i = r := by
        by_cases e : r = i
        · rw [e, σi]; omega
        · rw [σlt r (by omega)]; omega
      rw [m1, m2, hCle r c hri]
      congr 1
      apply Finset.sum_congr rfl
      intro k hk
      have hk1 : k < r := Finset.mem_range.mp hk
      rw [hClow r k (by omega), hCle k c (by omega), σlt k (by omega)]
    · have m1 : min r (i + 1) = i + 1 := by omega
      have m2 : min (σ r) i = i := by
        have := σge r (by omega) hr
        omega
      rw [m1, m2, Finset.sum_range_succ]
      have hsum : ∑ k in Finset.range i,
            (if k ≤ c then rd2 C r k * rd2 C k c else 0)
          = ∑ k in Finset.range i, (if k ≤ c then rd2 M (σ r) k * rd2 M k c else 0) := by
        apply Finset.sum_congr rfl
        intro k hk
        have hk1 : k < i := Finset.mem_range.mp hk
        rw [hClow r k hk1, hCle k c (by omega), σlt k hk1]
      rw [hsum, add_assoc]
      congr 1
      have c1 : i < r ∧ r < N := by omega
      have hCri : rd2 C r i = rd2 B r i / rd2 B i i := by
        rw [hC, if_pos c1, if_pos rfl]
      have hCic : rd2 C i c = rd2 B i c := by
        have c2 : ¬ (i < i ∧ i < N) := by omega
        rw [hC, if_neg c2]
      rw [hCri, hCic, ← hB r c]
      by_cases e1 : c < i
      · have c2 : ¬ i ≤ c := by omega
        have c3 : ¬ i + 1 ≤ c := by omega
        simp only [if_neg c2, if_neg c3, add_zero]
      · by_cases e2 : c = i
        · have c2 : i ≤ c := by omega
          have c3 : ¬ i + 1 ≤ c := by omega
          simp only [if_pos c2, if_neg c3, add_zero]
          rw [e2, div_mul_cancel₀ _ hBne]
        · have c2 : i ≤ c := by omega
          have c3 : i + 1 ≤ c := by omega
          have c4 : i < c ∧ c < N := by omega
          simp only [if_pos c2, if_pos c3]
          rw [hC, if_pos c1, if_neg e2, if_pos c4]
          ring
  · intro k hk
    simp only
    by_cases e : k = i
    · rw [e, hCle i i (le_refl _), σi]
      exact hpiv
    · rw [hCle k k (by omega), σlt k (by omega)]
      exact v4 k (by omega)
  · intro k r hk hkr hr
    simp only
    by_cases e : k = i
    · have c1 : i < r ∧ r < N := by omega
      rw [e, hC, if_pos c1, if_pos rfl, abs_div, hBii, hB]
      have hpos : 0 < |rd2 M imax i| := lt_of_lt_of_le hTol hpiv
      rw [div_le_one hpos]
      have := σge r (by omega) hr
      exact hmax _ this.1 this.2
    · rw [hClow r k (by omega)]
      have hσr : k < σ r := by
        by_cases f : r < i
        · rw [σlt r f]; exact hkr
        · have := σge r (by omega) hr
          omega
      exact v5 k (σ r) (by omega) hσr (σN r hr)

/-- One pass of `lu_decomp`: it executes `return 0` when every entry of the pivot column
in the rows `i, ..., N-1` has magnitude below `Tol`; otherwise some entry reaches `Tol`
and the pass keeps the invariant. -/
theorem lu_decomp_step_spec {K : Type} [LinearOrderedField K] (Tol : K)
    (A0 : List (List K)) (N len i : Nat) (st : List (List K) × List Nat) (hTol : 0 < Tol)
    (hi : i < N) (hlen : N + 1 ≤ len) (hinv : lu_invariant Tol A0 N len i st) :
    (lu_decomp_step Tol N i st = none ∧ ∀ k, i ≤ k → k < N → |rd2 st.1 k i| < Tol) ∨
    (∃ st1, lu_decomp_step Tol N i st = some st1 ∧ lu_invariant Tol A0 N len (i + 1) st1 ∧
      ∃ k, i ≤ k ∧ k < N ∧ Tol ≤ |rd2 st.1 k i|) := by
  obtain ⟨s1, s2, s3, s4⟩ := lu_pivot_search_spec st.1 N i hi
  unfold lu_decomp_step
  by_cases c : (lu_pivot_search st.1 N i).1 < Tol
  · left
    rw [if_pos c]
    exact ⟨rfl, fun k h1 h2 => lt_of_le_of_lt (s4 k h1 h2) c⟩
  · right
    rw [if_neg c]
    have c1 : Tol ≤ |rd2 st.1 (lu_pivot_search st.1 N i).2 i| := by
      rw [← s3]; exact not_lt.mp c
    refine ⟨_, rfl, ?_, ⟨_, s1, s2, c1⟩⟩
    obtain ⟨w1, w2, w3, w4⟩ := lu_pivot_swap_spec st N i (lu_pivot_search st.1 N i).2
      hinv.1 (by rw [hinv.2.1]; exact hlen) s1 s2
    obtain ⟨e1, e2⟩ := lu_eliminate_spec N i _ w1 hi
    exact lu_step_invariant Tol A0 st.1 _ _ st.2 _ N len i _ hTol hi s1 s2 hinv c1
      (fun k h1 h2 => by rw [← s3]; exact s4 k h1 h2)
      (fun r c => by unfold rd2; rw [w3 r])
      w4 (by rw [w2]; exact hinv.2.1) e1 e2

/-- The loop over `i` of `lu_decomp`, started before the pass `i` with `n` passes to go:
it returns `0`, or it returns `1` and the invariant holds for all `N` columns. -/
theorem lu_decomp_loop_spec {K : Type} [LinearOrderedField K] (Tol : K)
    (A0 : List (List K)) (N len : Nat) (hTol : 0 < Tol) (hlen : N + 1 ≤ len) (n : Nat) :
    ∀ (i : Nat) (st : List (List K) × List Nat), i + n = N →
      lu_invariant Tol A0 N len i st →
      (lu_decomp_loop Tol N (List.range' i n) st).1 = 0 ∨
      ((lu_decomp_loop Tol N (List.range' i n) st).1 = 1 ∧
        lu_invariant Tol A0 N len N (lu_decomp_loop Tol N (List.range' i n) st).2) := by
  induction n with
  | zero =>
    intro i st h hinv
    right
    have e : i = N := by omega
    rw [List.range'_zero, lu_decomp_loop]
    exact ⟨rfl, e ▸ hinv⟩
  | succ n ih =>
    intro i st h hinv
    rw [List.range'_succ, lu_decomp_loop]
    rcases lu_decomp_step_spec Tol A0 N len i st hTol (by omega) hlen hinv with
      ⟨h1, _⟩ | ⟨st1, h1, h2, _⟩
    · left
      rw [h1]
    · rw [h1]
      exact ih (i + 1) st1 (by omega) h2

theorem lu_Tol_pos {K : Type} [LinearOrderedField K] : (0 : K) < lu_Tol := by
  unfold lu_Tol
  positivity

/-- The loop `for (i = 0; i <= N; i++) ipiv[i] = i`. -/
theorem lu_ipiv_init_spec (N : Nat) (ipiv : List Nat) (hp : N + 1 ≤ ipiv.length) :
    (forLoop 0 (N + 1) (fun i ipiv => ipiv.set i i) ipiv).length = ipiv.length ∧
    ∀ r, r < N + 1 → rdIdx (forLoop 0 (N + 1) (fun i ipiv => ipiv.set i i) ipiv) r = r := by
  refine forLoop_induct
    (fun k (p : List Nat) => p.length = ipiv.length ∧ ∀ r, r < k → rdIdx p r = r)
    _ 0 (N + 1) (by omega) ipiv ⟨rfl, fun r h => by omega⟩ ?_
  intro k p _ hk2 ⟨p1, p2⟩
  refine ⟨by rw [List.length_set]; exact p1, ?_⟩
  intro r hr
  rw [rdIdx_set _ _ _ _ (by omega)]
  by_cases e : r = k
  · rw [if_pos e, e]
  · rw [if_neg e]
    exact p2 r (by omega)

/-- The function `lu_decomp` on an `N x N` matrix: it returns `0`, or it returns `1` and
leaves a factorisation of the permuted matrix. -/
theorem lu_decomp_spec {K : Type} [LinearOrderedField K] (A : List (List K)) (N : Nat)
    (ipiv : List Nat) (hs : lu_shape N A) (hp : N + 1 ≤ ipiv.length) :
    (lu_decomp A N ipiv).1 = 0 ∨
    ((lu_decomp A N ipiv).1 = 1 ∧
      lu_invariant lu_Tol A N ipiv.length N (lu_decomp A N ipiv).2) := by
  obtain ⟨q1, q2⟩ := lu_ipiv_init_spec N ipiv hp
  unfold lu_decomp
  apply lu_decomp_loop_spec lu_Tol A N ipiv.length lu_Tol_pos hp N 0 _ (by omega)
  refine ⟨hs, q1, ?_, ?_, ?_, ?_, ?_⟩
  · intro r hr
    simp only
    rw [q2 r (by omega)]
    exact hr
  · intro r s hr hs1 h
    simp only at h
    rw [q2 r (by omega), q2 s (by omega)] at h
    exact h
  · intro r c hr hc
    simp only
    rw [q2 r (by omega)]
    simp
  · intro k hk
    omega
  · intro k r hk
    omega

/-- The loop `for k in [lo, hi): x[i] -= M[i][k] * x[k]` with `i` outside `[lo, hi)`:
entry `i` loses the sum of the products, and no other entry changes. -/
theorem lu_dot_loop_spec {K : Type} [Field K] (M : List (List K)) (N i lo hi : Nat)
    (x0 : List K) (hx : x0.length = N) (hiN : i < N) (hle : lo ≤ hi)
    (hout : i < lo ∨ hi ≤ i) :
    (forLoop lo hi (fun k x => x.set i (rd x i - rd2 M i k * rd x k)) x0).length = N ∧
    (∀ v, v ≠ i →
      rd (forLoop lo hi (fun k x => x.set i (rd x i - rd2 M i k * rd x k)) x0) v
        = rd x0 v) ∧
    rd (forLoop lo hi (fun k x => x.set i (rd x i - rd2 M i k * rd x k)) x0) i
      = rd x0 i - ∑ k in Finset.Ico lo hi, rd2 M i k * rd x0 k := by
  refine forLoop_induct
    (fun k (x : List K) => x.length = N ∧ (∀ v, v ≠ i → rd x v = rd x0 v) ∧
      rd x i = rd x0 i - ∑ m in Finset.Ico lo k, rd2 M i m * rd x0 m)
    _ lo hi hle x0 ⟨hx, fun _ _ => rfl, by simp⟩ ?_
  intro k x hk1 hk2 ⟨p1, p2, p3⟩
  refine ⟨by rw [List.length_set]; exact p1, ?_, ?_⟩
  · intro v hv
    rw [rd_set_ne _ _ _ _ (fun e => hv e.symm)]
    exact p2 v hv
  · rw [rd_set _ _ _ _ (by omega), if_pos rfl, p3, p2 k (by omega),
      Finset.sum_Ico_succ_top hk1]
    ring

/-- The forward substitution of `lu_solve`: `y_i = rhs[ipiv[i]] - Σ_{k<i} M[i][k] * y_k`. -/
theorem lu_solve_forward_spec {K : Type} [Field K] (M : List (List K)) (N : Nat)
    (p : List Nat) (b xtemp : List K) (hx : xtemp.length = N) :
    (lu_solve_forward M N p b xtemp).length = N ∧
    ∀ r, r < N → rd (lu_solve_forward M N p b xtemp) r
      = rd b (rdIdx p r)
        - ∑ k in Finset.range r, rd2 M r k * rd (lu_solve_forward M N p b xtemp) k := by
  unfold lu_solve_forward
  refine forLoop_induct
    (fun i (x : List K) => x.length = N ∧ ∀ r, r < i → rd x r
      = rd b (rdIdx p r) - ∑ k in Finset.range r, rd2 M r k * rd x k)
    _ 0 N (by omega) xtemp ⟨hx, fun r h => by omega⟩ ?_
  intro i x _ hi ⟨p1, p2⟩
  obtain ⟨q1, q2, q3⟩ := lu_dot_loop_spec M N i 0 i (x.set i (rd b (rdIdx p i)))
    (by rw [List.length_set]; exact p1) hi (by omega) (Or.inr (le_refl _))
  refine ⟨q1, ?_⟩
  intro r hr
  have hsum : ∀ s, s ≤ i → ∑ k in Finset.range s, rd2 M s k
        * rd (forLoop 0 i (fun k x => x.set i (rd x i - rd2 M i k * rd x k))
            (x.set i (rd b (rdIdx p i)))) k
      = ∑ k in Finset.range s, rd2 M s k * rd x k := by
    intro s hs
    apply Finset.sum_congr rfl
    intro k hk
    have hk1 : k < s := Finset.mem_range.mp hk
    rw [q2 k (by omega), rd_set_ne _ _ _ _ (by omega)]
  rw [hsum r (by omega)]
  by_cases e : r = i
  · rw [e, q3, rd_set _ _ _ _ (by omega), if_pos rfl, ← Finset.range_eq_Ico]
    congr 1
    apply Finset.sum_congr rfl
    intro k hk
    have hk1 : k < i := Finset.mem_range.mp hk
    rw [rd_set_ne _ _ _ _ (by omega)]
  · rw [q2 r e, rd_set_ne _ _ _ _ (fun h => e h.symm)]
    exact p2 r (by omega)

/-- The backward substitution of `lu_solve`:
`x_i = (y_i - Σ_{k>i} M[i][k] * x_k) / M[i][i]`. -/
theorem lu_solve_backward_spec {K : Type} [Field K] (M : List (List K)) (N : Nat)
    (y : List K) (hy : y.length = N) :
    (lu_solve_backward M N y).length = N ∧
    ∀ r, r < N → rd (lu_solve_backward M N y) r
      = (rd y r - ∑ k in Finset.Ico (r + 1) N, rd2 M r k * rd (lu_solve_backward M N y) k)
        / rd2 M r r := by
  unfold lu_solve_backward
  have h := forLoopDown_induct
    (fun i (x : List K) => x.length = N ∧ (∀ r, r < i → rd x r = rd y r) ∧
      ∀ r, i ≤ r → r < N → rd x r
        = (rd y r - ∑ k in Finset.Ico (r + 1) N, rd2 M r k * rd x k) / rd2 M r r)
    (fun i xtemp =>
      (forLoop (i + 1) N
        (fun k xtemp => xtemp.set i (rd xtemp i - rd2 M i k * rd xtemp k)) xtemp).set i
        (rd (forLoop (i + 1) N
          (fun k xtemp => xtemp.set i (rd xtemp i - rd2 M i k * rd xtemp k)) xtemp) i
          / rd2 M i i))
    N y ⟨hy, fun _ _ => rfl, fun r h1 h2 => by omega⟩
    (by
      intro i x hi ⟨p1, p2, p3⟩
      obtain ⟨q1, q2, q3⟩ := lu_dot_loop_spec M N i (i + 1) N x p1 hi (by omega)
        (Or.inl (by omega))
      refine ⟨by rw [List.length_set]; exact q1, ?_, ?_⟩
      · intro r hr
        rw [rd_set_ne _ _ _ _ (by omega), q2 r (by omega)]
        exact p2 r (by omega)
      · intro r hr1 hr2
        have hsum : ∑ k in Finset.Ico (r + 1) N, rd2 M r k
              * rd ((forLoop (i + 1) N
                  (fun k xtemp => xtemp.set i (rd xtemp i - rd2 M i k * rd xtemp k)) x).set i
                (rd (forLoop (i + 1) N
                  (fun k xtemp => xtemp.set i (rd xtemp i - rd2 M i k * rd xtemp k)) x) i
                  / rd2 M i i)) k
            = ∑ k in Finset.Ico (r + 1) N, rd2 M r k * rd x k := by
          apply Finset.sum_congr rfl
          intro k hk
          have hk1 := Finset.mem_Ico.mp hk
          rw [rd_set_ne _ _ _ _ (by omega), q2 k (by omega)]
        rw [hsum]
        by_cases e : r = i
        · rw [e, rd_set _ _ _ _ (by omega), if_pos rfl, q3, p2 i (by omega)]
        · rw [rd_set_ne _ _ _ _ (fun h => e h.symm), q2 r e]
          exact p3 r (by omega) hr2)
  exact ⟨h.1, fun r hr => h.2.2 r (by omega) hr⟩

/-- The loop that copies `xtemp` back into `rhs`. -/
theorem lu_copy_spec {K : Type} [Zero K] (N : Nat) (xtemp rhs : List K)
    (hb : rhs.length = N) :
    ∀ r, r < N → rd (forLoop 0 N (fun i rhs => rhs.set i (rd xtemp i)) rhs) r
      = rd xtemp r := by
  have h := forLoop_induct
    (fun k (a : List K) => a.length = N ∧ ∀ r, r < k → rd a r = rd xtemp r)
    (fun i rhs => rhs.set i (rd xtemp i)) 0 N (by omega) rhs ⟨hb, fun r h => by omega⟩
    (by
      intro k a _ hk ⟨p1, p2⟩
      refine ⟨by rw [List.length_set]; exact p1, ?_⟩
      intro r hr
      by_cases e : r = k
      · rw [e, rd_set _ _ _ _ (by omega), if_pos rfl]
      · rw [rd_set_ne _ _ _ _ (fun h => e h.symm)]
        exact p2 r (by omega))
  exact h.2

/-- Row `k` of the upper factor applied to the result of the backward substitution. -/
theorem lu_upper_row {K : Type} [Field K] (M : List (List K)) (N : Nat) (y x : List K)
    (k : Nat) (hk : k < N) (hne : rd2 M k k ≠ 0)
    (hx : rd x k
      = (rd y k - ∑ c in Finset.Ico (k + 1) N, rd2 M k c * rd x c) / rd2 M k k) :
    ∑ c in Finset.range N, (if k ≤ c then rd2 M k c * rd x c else 0) = rd y k := by
  have hf : (Finset.range N).filter (fun c => k ≤ c) = Finset.Ico k N := by
    ext c
    simp only [Finset.mem_filter, Finset.mem_range, Finset.mem_Ico]
    omega
  rw [← Finset.sum_filter, hf, Finset.sum_eq_sum_Ico_succ_bot hk, hx,
    mul_div_cancel₀ _ hne]
  ring

/-- A row of the permuted matrix applied to a vector, through the factors: with
`u_k = Σ_{c ≥ k} M[k][c] * x_c` the rows of the upper factor applied to `x`, row `ipiv[r]`
of `A0` applied to `x` is `Σ_{k<r} M[r][k] * u_k + u_r`. -/
theorem lu_factor_apply {K : Type} [Field K] (A0 M : List (List K)) (p : List Nat)
    (N : Nat) (x : Nat → K) (hF : lu_partial A0 M p N N) (r : Nat) (hr : r < N) :
    ∑ c in Finset.range N, rd2 A0 (rdIdx p r) c * x c
      = ∑ k in Finset.range r, rd2 M r k
          * ∑ c in Finset.range N, (if k ≤ c then rd2 M k c * x c else 0)
        + ∑ c in Finset.range N, (if r ≤ c then rd2 M r c * x c else 0) := by
  have m : min r N = r := by omega
  have e1 : ∀ c ∈ Finset.range N, rd2 A0 (rdIdx p r) c * x c
      = ∑ k in Finset.range r, rd2 M r k * (if k ≤ c then rd2 M k c * x c else 0)
        + (if r ≤ c then rd2 M r c * x c else 0) := by
    intro c hc
    rw [hF r c hr (Finset.mem_range.mp hc), m, add_mul, Finset.sum_mul]
    congr 1
    · apply Finset.sum_congr rfl
      intro k _
      by_cases e : k ≤ c
      · rw [if_pos e, if_pos e]; ring
      · rw [if_neg e, if_neg e]; ring
    · by_cases e : r ≤ c
      · rw [if_pos e, if_pos e]
      · rw [if_neg e, if_neg e, zero_mul]
  rw [Finset.sum_congr rfl e1, Finset.sum_add_distrib, Finset.sum_comm]
  congr 1
  apply Finset.sum_congr rfl
  intro k _
  rw [← Finset.mul_sum]

/-- The two substitutions of `lu_solve` on a complete factorisation solve the permuted
system. -/
theorem lu_factor_solve {K : Type} [Field K] (A0 M : List (List K)) (p : List Nat)
    (N : Nat) (b y x : List K) (hF : lu_partial A0 M p N N)
    (hne : ∀ k, k < N → rd2 M k k ≠ 0)
    (hy : ∀ r, r < N → rd y r
      = rd b (rdIdx p r) - ∑ k in Finset.range r, rd2 M r k * rd y k)
    (hx : ∀ r, r < N → rd x r
      = (rd y r - ∑ k in Finset.Ico (r + 1) N, rd2 M r k * rd x k) / rd2 M r r)
    (r : Nat) (hr : r < N) :
    ∑ c in Finset.range N, rd2 A0 (rdIdx p r) c * rd x c = rd b (rdIdx p r) := by
  have hU : ∀ k, k < N →
      ∑ c in Finset.range N, (if k ≤ c then rd2 M k c * rd x c else 0) = rd y k :=
    fun k hk => lu_upper_row M N y x k hk (hne k hk) (hx k hk)
  have e2 : ∀ k ∈ Finset.range r,
      rd2 M r k * ∑ c in Finset.range N, (if k ≤ c then rd2 M k c * rd x c else 0)
        = rd2 M r k * rd y k := by
    intro k hk
    rw [hU k (lt_trans (Finset.mem_range.mp hk) hr)]
  rw [lu_factor_apply A0 M p N (rd x) hF r hr, hU r hr, Finset.sum_congr rfl e2, hy r hr]
  ring

/-- A complete factorisation with non-zero pivots has no non-zero vector in its kernel. -/
theorem lu_factor_injective {K : Type} [Field K] (A0 M : List (List K)) (p : List Nat)
    (N : Nat) (v : Nat → K) (hF : lu_partial A0 M p N N)
    (hne : ∀ k, k < N → rd2 M k k ≠ 0)
    (hv : ∀ r, r < N → ∑ c in Finset.range N, rd2 A0 (rdIdx p r) c * v c = 0) :
    ∀ c, c < N → v c = 0 := by
  have hu : ∀ r, r < N →
      ∑ c in Finset.range N, (if r ≤ c then rd2 M r c * v c else 0) = 0 := by
    intro r
    induction r using Nat.strong_induction_on with
    | _ r ih =>
      intro hr
      have h := lu_factor_apply A0 M p N v hF r hr
      rw [hv r hr, Finset.sum_eq_zero (fun k hk => by
        have hk1 : k < r := Finset.mem_range.mp hk
        rw [ih k hk1 (by omega), mul_zero]), zero_add] at h
      exact h.symm
  have hdown : ∀ d r, r < N → N - r ≤ d → v r = 0 := by
    intro d
    induction d with
    | zero => intro r h1 h2; omega
    | succ d ih =>
      intro r h1 h2
      have hf : (Finset.range N).filter (fun c => r ≤ c) = Finset.Ico r N := by
        ext c
        simp only [Finset.mem_filter, Finset.mem_range, Finset.mem_Ico]
        omega
      have h := hu r h1
      rw [← Finset.sum_filter, hf, Finset.sum_eq_sum_Ico_succ_bot h1,
        Finset.sum_eq_zero (fun c hc => by
          have hc1 := Finset.mem_Ico.mp hc
          rw [ih c hc1.2 (by omega), mul_zero]), add_zero] at h
      rcases mul_eq_zero.mp h with h3 | h3
      · exact absurd h3 (hne r h1)
      · exact h3
  intro c hc
  exact hdown (N - c) c hc (le_refl _)

/-- Distinct indices below `N` in the first `N` entries: these entries are a permutation
of `0, ..., N-1`. -/
theorem perm_range_of_injective (p : List Nat) (N : Nat) (hp : N ≤ p.length)
    (hlt : ∀ r, r < N → rdIdx p r < N)
    (hinj : ∀ r s, r < N → s < N → rdIdx p r = rdIdx p s → r = s) :
    (p.take N).Perm (List.range N) := by
  have hmap : p.take N = (List.range N).map (rdIdx p) := by
    apply List.ext_getElem
    · simp [hp]
    · intro n h1 h2
      have hn : n < N := by simpa [hp] using h1
      rw [List.getElem_take, List.getElem_map, List.getElem_range,
        rdIdx_eq_getElem p n (by omega)]
  have hnd : ((List.range N).map (rdIdx p)).Nodup := by
    apply List.Nodup.map_on _ (List.nodup_range N)
    intro r hr s hs h
    exact hinj r s (List.mem_range.mp hr) (List.mem_range.mp hs) h
  rw [hmap]
  apply (List.perm_ext_iff_of_nodup hnd (List.nodup_range N)).mpr
  intro a
  have hsub : ((List.range N).map (rdIdx p)).toFinset ⊆ Finset.range N := by
    intro v hv
    rw [List.mem_toFinset, List.mem_map] at hv
    obtain ⟨r, hr, rfl⟩ := hv
    exact Finset.mem_range.mpr (hlt r (List.mem_range.mp hr))
  have hcard : (Finset.range N).card ≤ ((List.range N).map (rdIdx p)).toFinset.card := by
    rw [List.toFinset_card_of_nodup hnd]
    simp
  have heq := Finset.eq_of_subset_of_card_le hsub hcard
  rw [← List.mem_toFinset, heq, Finset.mem_range, List.mem_range]

/-- C19: for every `N x N` matrix `A` on which `lu_decomp` returns `1` and every
right-hand side `b`, `lu_solve` applied to the factored matrix and the pivot vector
leaves in `b` a vector `x` with `A*x = b` for the original `A` (exact arithmetic), and the
first `N` entries of `ipiv` are a permutation of `0, ..., N-1`. -/
theorem lu_solve_solves {K : Type} [LinearOrderedField K] (A : List (List K)) (N : Nat)
    (ipiv : List Nat) (b xtemp : List K) (hs : lu_shape N A) (hp : N + 1 ≤ ipiv.length)
    (hb : b.length = N) (hx : xtemp.length = N) (hret : (lu_decomp A N ipiv).1 = 1) :
    (∀ r, r < N →
      ∑ c in Finset.range N, rd2 A r c
        * rd (lu_solve (lu_decomp A N ipiv).2.1 N (lu_decomp A N ipiv).2.2 b xtemp) c
        = rd b r) ∧
    ((lu_decomp A N ipiv).2.2.take N).Perm (List.range N) := by
  rcases lu_decomp_spec A N ipiv hs hp with h0 | ⟨_, _, v0, v1, v2, v3, v4, _⟩
  · rw [hret] at h0
    exact absurd h0 (by decide)
  have hperm := perm_range_of_injective (lu_decomp A N ipiv).2.2 N (by omega) v1 v2
  refine ⟨?_, hperm⟩
  intro r hr
  obtain ⟨f1, f2⟩ := lu_solve_forward_spec (lu_decomp A N ipiv).2.1 N
    (lu_decomp A N ipiv).2.2 b xtemp hx
  obtain ⟨g1, g2⟩ := lu_solve_backward_spec (lu_decomp A N ipiv).2.1 N _ f1
  have hcopy := lu_copy_spec N
    (lu_solve_backward (lu_decomp A N ipiv).2.1 N
      (lu_solve_forward (lu_decomp A N ipiv).2.1 N (lu_decomp A N ipiv).2.2 b xtemp))
    b hb
  have hne : ∀ k, k < N → rd2 (lu_decomp A N ipiv).2.1 k k ≠ 0 := by
    intro k hk h
    have := v4 k hk
    rw [h, abs_zero] at this
    exact absurd lu_Tol_pos (not_lt.mpr this)
  have hmem : r ∈ (lu_decomp A N ipiv).2.2.take N :=
    hperm.mem_iff.mpr (List.mem_range.mpr hr)
  obtain ⟨n, hn, hget⟩ := List.getElem_of_mem hmem
  have hnN : n < N := by rw [List.length_take] at hn; omega
  have hrn : rdIdx (lu_decomp A N ipiv).2.2 n = r := by
    rw [rdIdx_eq_getElem _ n (by omega), ← hget, List.getElem_take]
  have key := lu_factor_solve A (lu_decomp A N ipiv).2.1 (lu_decomp A N ipiv).2.2 N b _ _
    v3 hne f2 g2 n hnN
  rw [hrn] at key
  rw [← key]
  apply Finset.sum_congr rfl
  intro c hc
  unfold lu_solve
  simp only
  rw [hcopy c (Finset.mem_range.mp hc)]

/-- C19 at a concrete input: a `2 x 2` matrix whose first pivot is found in the second
row. -/
theorem lu_solve_solves_witness :
    lu_shape 2 sampleMatrix ∧ (lu_decomp sampleMatrix 2 [0, 0, 0]).1 = 1 ∧
    (∀ r, r < 2 →
      ∑ c in Finset.range 2, rd2 sampleMatrix r c
        * rd (lu_solve (lu_decomp sampleMatrix 2 [0, 0, 0]).2.1 2
            (lu_decomp sampleMatrix 2 [0, 0, 0]).2.2 [4, 3] [0, 0]) c
        = rd [4, 3] r) ∧
    ((lu_decomp sampleMatrix 2 [0, 0, 0]).2.2.take 2).Perm (List.range 2) := by
  have hs : lu_shape 2 sampleMatrix := by
    refine ⟨rfl, ?_⟩
    intro r hr
    interval_cases r <;> rfl
  have hret : (lu_decomp sampleMatrix 2 [0, 0, 0]).1 = 1 := by
    norm_num [lu_decomp, lu_decomp_loop, lu_decomp_step, lu_pivot_search, forLoop,
      List.range', lu_pivot_swap, lu_eliminate, lu_eliminate_row, wr2, rd2, rd, rdIdx,
      sampleMatrix, lu_Tol]
  exact ⟨hs, hret,
    lu_solve_solves sampleMatrix 2 [0, 0, 0] [4, 3] [0, 0] hs (by decide) rfl rfl hret⟩

/-! ## `treecode.c`: the value returned by `lu_decomp`, pass by pass -/

theorem lu_decomp_loop_append {K : Type} [LinearOrderedField K] (Tol : K) (N : Nat)
    (l1 l2 : List Nat) :
    ∀ st : List (List K) × List Nat,
      lu_decomp_loop Tol N (l1 ++ l2) st
        = if (lu_decomp_loop Tol N l1 st).1 = 1 then
            lu_decomp_loop Tol N l2 (lu_decomp_loop Tol N l1 st).2
          else lu_decomp_loop Tol N l1 st := by
  induction l1 with
  | nil =>
    intro st
    rw [List.nil_append, lu_decomp_loop, if_pos rfl]
  | cons i is ih =>
    intro st
    rw [List.cons_append, lu_decomp_loop, lu_decomp_loop]
    cases lu_decomp_step Tol N i st with
    | none => simp
    | some st1 => exact ih st1

/-- The loop over the passes `0, ..., n-1` returns `1` with the state that the passes
leave, or `0` when one of them has failed. -/
theorem lu_decomp_loop_passes {K : Type} [LinearOrderedField K] (Tol : K) (N : Nat)
    (st : List (List K) × List Nat) (n : Nat) :
    (∀ s, lu_decomp_passes Tol N n st = some s →
      lu_decomp_loop Tol N (List.range' 0 n) st = (1, s)) ∧
    (lu_decomp_passes Tol N n st = none →
      (lu_decomp_loop Tol N (List.range' 0 n) st).1 = 0) := by
  induction n with
  | zero =>
    refine ⟨fun s h => ?_, fun h => ?_⟩
    · rw [lu_decomp_passes] at h
      rw [List.range'_zero, lu_decomp_loop, Option.some.inj h]
    · rw [lu_decomp_passes] at h
      exact absurd h (by simp)
  | succ n ih =>
    have e : List.range' 0 (n + 1) = List.range' 0 n ++ [n] := by
      rw [List.range'_concat]
      simp
    rw [e, lu_decomp_loop_append, lu_decomp_passes]
    cases hp : lu_decomp_passes Tol N n st with
    | none =>
      have h0 := ih.2 hp
      have c : ¬ (lu_decomp_loop Tol N (List.range' 0 n) st).1 = 1 := by
        rw [h0]; decide
      rw [if_neg c]
      exact ⟨fun s h => absurd h (by simp), fun _ => h0⟩
    | some s0 =>
      have h1 := ih.1 s0 hp
      rw [h1, if_pos rfl]
      simp only []
      have e1 : lu_decomp_loop Tol N [n] s0
          = match lu_decomp_step Tol N n s0 with
            | none => (0, s0)
            | some s1 => (1, s1) := by
        rw [lu_decomp_loop]
        cases lu_decomp_step Tol N n s0 with
        | none => rfl
        | some s1 => rfl
      rw [e1]
      cases lu_decomp_step Tol N n s0 with
      | none => exact ⟨fun s h => absurd h (by simp), fun _ => rfl⟩
      | some s1 =>
        refine ⟨fun s h => ?_, fun h => absurd h (by simp)⟩
        rw [Option.some.inj h]

/-- A pass executes `return 0` exactly when every magnitude in rows `i, ..., N-1` of the
pivot column is below the tolerance. -/
theorem lu_decomp_step_none {K : Type} [LinearOrderedField K] (Tol : K) (N i : Nat)
    (st : List (List K) × List Nat) (hi : i < N) :
    (lu_decomp_step Tol N i st = none ↔ ∀ k, i ≤ k → k < N → |rd2 st.1 k i| < Tol) ∧
    (lu_decomp_step Tol N i st ≠ none ↔ ∃ k, i ≤ k ∧ k < N ∧ Tol ≤ |rd2 st.1 k i|) := by
  obtain ⟨s1, s2, s3, s4⟩ := lu_pivot_search_spec st.1 N i hi
  unfold lu_decomp_step
  by_cases c : (lu_pivot_search st.1 N i).1 < Tol
  · rw [if_pos c]
    refine ⟨⟨fun _ k h1 h2 => lt_of_le_of_lt (s4 k h1 h2) c, fun _ => rfl⟩,
      ⟨fun h => absurd rfl h, fun ⟨k, h1, h2, h3⟩ => ?_⟩⟩
    exact absurd (lt_of_le_of_lt (le_trans h3 (s4 k h1 h2)) c) (lt_irrefl _)
  · rw [if_neg c]
    have c1 : Tol ≤ |rd2 st.1 (lu_pivot_search st.1 N i).2 i| := by
      rw [← s3]; exact not_lt.mp c
    refine ⟨⟨fun h => absurd h (by simp), fun h => ?_⟩,
      ⟨fun _ => ⟨_, s1, s2, c1⟩, fun _ => by simp⟩⟩
    exact absurd (h _ s1 s2) (not_lt.mpr c1)

theorem lu_decomp_passes_none {K : Type} [LinearOrderedField K] (Tol : K) (N : Nat)
    (st : List (List K) × List Nat) (n : Nat) :
    lu_decomp_passes Tol N n st = none ↔
      ∃ i, i < n ∧ ∃ s, lu_decomp_passes Tol N i st = some s ∧
        lu_decomp_step Tol N i s = none := by
  induction n with
  | zero =>
    rw [lu_decomp_passes]
    constructor
    · intro h; exact absurd h (by simp)
    · intro ⟨i, hi, _⟩; omega
  | succ n ih =>
    rw [lu_decomp_passes]
    cases hp : lu_decomp_passes Tol N n st with
    | none =>
      obtain ⟨i, hi, h⟩ := ih.mp hp
      exact ⟨fun _ => ⟨i, by omega, h⟩, fun _ => rfl⟩
    | some s0 =>
      simp only []
      constructor
      · intro h
        exact ⟨n, by omega, s0, hp, h⟩
      · intro ⟨i, hi, s, h1, h2⟩
        by_cases e : i = n
        · subst e
          rw [hp] at h1
          rw [Option.some.inj h1]
          exact h2
        · have := ih.mpr ⟨i, by omega, s, h1, h2⟩
          rw [hp] at this
          exact absurd this (by simp)

theorem lu_decomp_passes_some {K : Type} [LinearOrderedField K] (Tol : K) (N : Nat)
    (st : List (List K) × List Nat) (n : Nat) :
    lu_decomp_passes Tol N n st ≠ none ↔
      ∀ i, i < n → ∃ s, lu_decomp_passes Tol N i st = some s ∧
        lu_decomp_step Tol N i s ≠ none := by
  constructor
  · intro h
    induction n with
    | zero => intro i hi; omega
    | succ n ih =>
      rw [lu_decomp_passes] at h
      cases hp : lu_decomp_passes Tol N n st with
      | none => rw [hp] at h; exact absurd rfl h
      | some s0 =>
        rw [hp] at h
        intro i hi
        by_cases e : i = n
        · subst e
          exact ⟨s0, hp, h⟩
        · exact ih (by rw [hp]; simp) i (by omega)
  · intro h hn
    obtain ⟨i, hi, s, h1, h2⟩ := (lu_decomp_passes_none Tol N st n).mp hn
    obtain ⟨s2, h3, h4⟩ := h i hi
    rw [h1] at h3
    rw [Option.some.inj h3] at h2
    exact h4 h2

/-- The value returned by `lu_decomp`: `0` exactly when some pass finds every magnitude
of its pivot column below the tolerance, and `1` exactly when every pass finds a
magnitude that is not. -/
theorem lu_decomp_return {K : Type} [LinearOrderedField K] (A : List (List K)) (N : Nat)
    (ipiv : List Nat) :
    ((lu_decomp A N ipiv).1 = 0 ↔
      ∃ i, i < N ∧ ∃ s, lu_decomp_passes lu_Tol N i
          (A, forLoop 0 (N + 1) (fun i ipiv => ipiv.set i i) ipiv) = some s ∧
        ∀ k, i ≤ k → k < N → |rd2 s.1 k i| < lu_Tol) ∧
    ((lu_decomp A N ipiv).1 = 1 ↔
      ∀ i, i < N → ∃ s, lu_decomp_passes lu_Tol N i
          (A, forLoop 0 (N + 1) (fun i ipiv => ipiv.set i i) ipiv) = some s ∧
        ∃ k, i ≤ k ∧ k < N ∧ lu_Tol ≤ |rd2 s.1 k i|) := by
  obtain ⟨p1, p2⟩ := lu_decomp_loop_passes (lu_Tol : K) N
    (A, forLoop 0 (N + 1) (fun i ipiv => ipiv.set i i) ipiv) N
  have hn := lu_decomp_passes_none (lu_Tol : K) N
    (A, forLoop 0 (N + 1) (fun i ipiv => ipiv.set i i) ipiv) N
  have hs := lu_decomp_passes_some (lu_Tol : K) N
    (A, forLoop 0 (N + 1) (fun i ipiv => ipiv.set i i) ipiv) N
  unfold lu_decomp
  constructor
  · constructor
    · intro h
      have hnone : lu_decomp_passes (lu_Tol : K) N N
          (A, forLoop 0 (N + 1) (fun i ipiv => ipiv.set i i) ipiv) = none := by
        cases hp : lu_decomp_passes (lu_Tol : K) N N
            (A, forLoop 0 (N + 1) (fun i ipiv => ipiv.set i i) ipiv) with
        | none => rfl
        | some s =>
          rw [p1 s hp] at h
          exact absurd h (by simp)
      obtain ⟨i, hi, s, h1, h2⟩ := hn.mp hnone
      exact ⟨i, hi, s, h1, (lu_decomp_step_none lu_Tol N i s hi).1.mp h2⟩
    · intro ⟨i, hi, s, h1, h2⟩
      exact p2 (hn.mpr ⟨i, hi, s, h1, (lu_decomp_step_none lu_Tol N i s hi).1.mpr h2⟩)
  · constructor
    · intro h
      have hsome : lu_decomp_passes (lu_Tol : K) N N
          (A, forLoop 0 (N + 1) (fun i ipiv => ipiv.set i i) ipiv) ≠ none := by
        intro hp
        rw [p2 hp] at h
        exact absurd h (by simp)
      intro i hi
      obtain ⟨s, h1, h2⟩ := hs.mp hsome i hi
      exact ⟨s, h1, (lu_decomp_step_none lu_Tol N i s hi).2.mp h2⟩
    · intro h
      have hsome : lu_decomp_passes (lu_Tol : K) N N
          (A, forLoop 0 (N + 1) (fun i ipiv => ipiv.set i i) ipiv) ≠ none := by
        apply hs.mpr
        intro i hi
        obtain ⟨s, h1, h2⟩ := h i hi
        exact ⟨s, h1, (lu_decomp_step_none lu_Tol N i s hi).2.mpr h2⟩
      cases hp : lu_decomp_passes (lu_Tol : K) N N
          (A, forLoop 0 (N + 1) (fun i ipiv => ipiv.set i i) ipiv) with
      | none => exact absurd hp hsome
      | some s => rw [p1 s hp]

/-- C20 (amended): `lu_decomp` reports failure (returns `0`) as soon as the largest
magnitude in the current pivot column, rows `i, ..., N-1` of the partially eliminated
matrix, is below `1e-14`, and returns `1` otherwise: a pass `i` that finds every magnitude
below the tolerance ends the loop with `0` and the matrix as it is, a pass that finds an
entry of magnitude at least the tolerance goes on to the next pass, and after the last
pass the value is `1`.  On an `N x N` matrix the value is `0` or `1`; it is `0` exactly
when some pass finds its pivot column below the tolerance and `1` exactly when no pass
does; a return of `1` implies that every pivot has magnitude at least `1e-14` and every
stored multiplier has magnitude at most `1`.  In exact arithmetic (the entries are
elements of an ordered field) every exactly singular matrix, one that sends a non-zero
vector to zero, is rejected. -/
theorem lu_decomp_failure {K : Type} [LinearOrderedField K] (A : List (List K)) (N : Nat)
    (ipiv : List Nat) (hs : lu_shape N A) (hp : N + 1 ≤ ipiv.length) :
    (∀ (i : Nat) (is : List Nat) (st : List (List K) × List Nat), i < N →
      ((∀ k, i ≤ k → k < N → |rd2 st.1 k i| < lu_Tol) →
        lu_decomp_loop lu_Tol N (i :: is) st = (0, st)) ∧
      ((∃ k, i ≤ k ∧ k < N ∧ lu_Tol ≤ |rd2 st.1 k i|) →
        ∃ st1, lu_decomp_step lu_Tol N i st = some st1 ∧
          lu_decomp_loop lu_Tol N (i :: is) st = lu_decomp_loop lu_Tol N is st1)) ∧
    (∀ st : List (List K) × List Nat, lu_decomp_loop lu_Tol N [] st = (1, st)) ∧
    ((lu_decomp A N ipiv).1 = 0 ∨ (lu_decomp A N ipiv).1 = 1) ∧
    ((∃ v : Nat → K, (∃ c, c < N ∧ v c ≠ 0) ∧
        ∀ r, r < N → ∑ c in Finset.range N, rd2 A r c * v c = 0) →
      (lu_decomp A N ipiv).1 = 0) ∧
    ((lu_decomp A N ipiv).1 = 1 →
      (∀ k, k < N → lu_Tol ≤ |rd2 (lu_decomp A N ipiv).2.1 k k|) ∧
      ∀ k r, k < r → r < N → |rd2 (lu_decomp A N ipiv).2.1 r k| ≤ 1) ∧
    ((lu_decomp A N ipiv).1 = 0 ↔
      ∃ i, i < N ∧ ∃ s, lu_decomp_passes lu_Tol N i
          (A, forLoop 0 (N + 1) (fun i ipiv => ipiv.set i i) ipiv) = some s ∧
        ∀ k, i ≤ k → k < N → |rd2 s.1 k i| < lu_Tol) ∧
    ((lu_decomp A N ipiv).1 = 1 ↔
      ∀ i, i < N → ∃ s, lu_decomp_passes lu_Tol N i
          (A, forLoop 0 (N + 1) (fun i ipiv => ipiv.set i i) ipiv) = some s ∧
        ∃ k, i ≤ k ∧ k < N ∧ lu_Tol ≤ |rd2 s.1 k i|) := by
  refine ⟨?_, fun _ => rfl, ?_, ?_, ?_, (lu_decomp_return A N ipiv).1,
    (lu_decomp_return A N ipiv).2⟩
  · intro i is st hi
    obtain ⟨s1, s2, s3, s4⟩ := lu_pivot_search_spec st.1 N i hi
    constructor
    · intro h
      have c : (lu_pivot_search st.1 N i).1 < lu_Tol := by
        rw [s3]; exact h _ s1 s2
      rw [lu_decomp_loop, lu_decomp_step, if_pos c]
    · intro ⟨k, h1, h2, h3⟩
      have c : ¬ (lu_pivot_search st.1 N i).1 < lu_Tol :=
        not_lt.mpr (le_trans h3 (s4 k h1 h2))
      refine ⟨_, by rw [lu_decomp_step, if_neg c], ?_⟩
      rw [lu_decomp_loop, lu_decomp_step, if_neg c]
  · rcases lu_decomp_spec A N ipiv hs hp with h | ⟨h, _⟩
    · exact Or.inl h
    · exact Or.inr h
  · intro ⟨v, ⟨c, hc, hvc⟩, hv⟩
    rcases lu_decomp_spec A N ipiv hs hp with h | ⟨_, _, _, v1, _, v3, v4, _⟩
    · exact h
    · have hne : ∀ k, k < N → rd2 (lu_decomp A N ipiv).2.1 k k ≠ 0 := by
        intro k hk h
        have := v4 k hk
        rw [h, abs_zero] at this
        exact absurd lu_Tol_pos (not_lt.mpr this)
      exact absurd (lu_factor_injective A _ _ N v v3 hne
        (fun r hr => hv _ (v1 r hr)) c hc) hvc
  · intro hret
    rcases lu_decomp_spec A N ipiv hs hp with h | ⟨_, _, _, _, _, _, v4, v5⟩
    · rw [hret] at h
      exact absurd h (by decide)
    · exact ⟨v4, fun k r h1 h2 => v5 k r (by omega) h1 h2⟩

/-- C20 at a concrete input: a `2 x 2` matrix whose second column is twice the first is
rejected, and `sampleMatrix` is accepted: each of its two passes finds an entry of
magnitude at least the tolerance in its pivot column. -/
theorem lu_decomp_failure_witness :
    lu_shape 2 singularMatrix ∧ 2 + 1 ≤ [0, 0, 0].length ∧
    (lu_decomp singularMatrix 2 [0, 0, 0]).1 = 0 ∧
    (lu_decomp sampleMatrix 2 [0, 0, 0]).1 = 1 ∧
    ∀ i, i < 2 → ∃ s, lu_decomp_passes lu_Tol 2 i
        (sampleMatrix, forLoop 0 (2 + 1) (fun i ipiv => ipiv.set i i) [0, 0, 0]) = some s ∧
      ∃ k, i ≤ k ∧ k < 2 ∧ lu_Tol ≤ |rd2 s.1 k i| := by
  have hs : lu_shape 2 singularMatrix := by
    refine ⟨rfl, ?_⟩
    intro r hr
    interval_cases r <;> rfl
  have hs2 : lu_shape 2 sampleMatrix := by
    refine ⟨rfl, ?_⟩
    intro r hr
    interval_cases r <;> rfl
  have hret : (lu_decomp sampleMatrix 2 [0, 0, 0]).1 = 1 := by
    norm_num [lu_decomp, lu_decomp_loop, lu_decomp_step, lu_pivot_search, forLoop,
      List.range', lu_pivot_swap, lu_eliminate, lu_eliminate_row, wr2, rd2, rd, rdIdx,
      sampleMatrix, lu_Tol]
  refine ⟨hs, by decide,
    (lu_decomp_failure singularMatrix 2 [0, 0, 0] hs (by decide)).2.2.2.1
      ⟨fun c => if c = 0 then 2 else -1, ⟨0, by decide, by norm_num⟩, ?_⟩,
    hret,
    (lu_decomp_failure sampleMatrix 2 [0, 0, 0] hs2 (by decide)).2.2.2.2.2.2.mp hret⟩
  intro r hr
  interval_cases r <;>
    norm_num [Finset.sum_range_succ, rd2, rd, singularMatrix]

/-! ## `treecode.c`: `lu_decomp` in rounded arithmetic -/

/-- With `fl` the identity, the rounded `lu_decomp` is the exact one. -/
theorem lu_decomp_fl_id {K : Type} [LinearOrderedField K] (A : List (List K)) (N : Nat)
    (ipiv : List Nat) : lu_decomp_fl (fun x => x) A N ipiv = lu_decomp A N ipiv := by
  have hloop : ∀ (l : List Nat) (st : List (List K) × List Nat),
      lu_decomp_loop_fl (fun x => x) lu_Tol N l st = lu_decomp_loop lu_Tol N l st := by
    intro l
    induction l with
    | nil => intro st; rfl
    | cons i is ih =>
      intro st
      have hstep : lu_decomp_step_fl (fun x => x) lu_Tol N i st = lu_decomp_step lu_Tol N i st :=
        rfl
      rw [lu_decomp_loop_fl, lu_decomp_loop, hstep]
      cases lu_decomp_step lu_Tol N i st with
      | none => rfl
      | some st1 => exact ih st1
  exact hloop _ _

/-- The value of `round_even` at a number that lies less than a half from an integer. -/
theorem round_even_eq (t : ℚ) (m : Int) (h : |t - m| < 1 / 2) : round_even t = m := by
  rw [abs_lt] at h
  obtain ⟨h1, h2⟩ := h
  unfold round_even
  by_cases c : (m : ℚ) ≤ t
  · have hf : ⌊t⌋ = m := Int.floor_eq_iff.mpr ⟨c, by linarith⟩
    rw [hf, if_pos h2]
  · have c2 := not_le.mp c
    have hf : ⌊t⌋ = m - 1 := Int.floor_eq_iff.mpr ⟨by push_cast; linarith, by push_cast; linarith⟩
    have n1 : ¬ t - ((m - 1 : Int) : ℚ) < 1 / 2 := by push_cast; linarith
    have n2 : 1 / 2 < t - ((m - 1 : Int) : ℚ) := by push_cast; linarith
    rw [hf, if_neg n1, if_pos n2]
    omega

/-- The value of `round_double` at a number of the binade `[2^e, 2^(e+1))` that lies less
than half a unit in the last place from `m * 2^(e-52)`. -/
theorem round_double_eq (q : ℚ) (e m : Int) (h1 : (2 : ℚ) ^ e ≤ |q|)
    (h2 : |q| < (2 : ℚ) ^ (e + 1)) (h3 : |q / 2 ^ (e - 52) - m| < 1 / 2) :
    round_double q = m * 2 ^ (e - 52) := by
  have hpos : 0 < |q| := lt_of_lt_of_le (zpow_pos (by norm_num) e) h1
  have hq : q ≠ 0 := abs_pos.mp hpos
  have hlog : Int.log 2 |q| = e := by
    have a : e ≤ Int.log 2 |q| :=
      (Int.zpow_le_iff_le_log (by norm_num) hpos).mp (by exact_mod_cast h1)
    have b : Int.log 2 |q| < e + 1 :=
      (Int.lt_zpow_iff_log_lt (by norm_num) hpos).mp (by exact_mod_cast h2)
    omega
  unfold round_double
  rw [if_neg hq, hlog, round_even_eq _ m h3]

/-- The four roundings that `lu_decomp` performs on `roundingMatrix`: the tolerance
`1.0e-14`, the multiplier `1/49`, the product of the multiplier with `49000`, and the
difference of `1000` and that product. -/
theorem round_double_values :
    round_double (1 / 100000000000000)
      = 6338253001141147 / 633825300114114700748351602688 ∧
    round_double (1 / 49) = 5882252574524729 / 288230376151711744 ∧
    round_double (36028797018963965125 / 36028797018963968)
      = 8796093022207999 / 8796093022208 ∧
    round_double (1 / 8796093022208) = 1 / 8796093022208 := by
  refine ⟨?_, ?_, ?_, ?_⟩
  · rw [round_double_eq _ (-47) 6338253001141147 (by norm_num [abs_of_pos])
      (by norm_num [abs_of_pos]) (by norm_num [abs_lt])]
    norm_num
  · rw [round_double_eq _ (-6) 5882252574524729 (by norm_num [abs_of_pos])
      (by norm_num [abs_of_pos]) (by norm_num [abs_lt])]
    norm_num
  · rw [round_double_eq _ 9 8796093022207999 (by norm_num [abs_of_pos])
      (by norm_num [abs_of_pos]) (by norm_num [abs_lt])]
    norm_num
  · rw [round_double_eq _ (-43) 4503599627370496 (by norm_num [abs_of_pos])
      (by norm_num [abs_of_pos]) (by norm_num [abs_lt])]
    norm_num

/-- The rounded `lu_decomp` on `roundingMatrix` for any rounding `fl` and tolerance
that let both passes through: the multiplier is `fl (1/49)` and the second pivot is `b`. -/
theorem lu_decomp_fl_two_by_two (fl : ℚ → ℚ) (Tol b : ℚ) (h0 : ¬ 49 < Tol)
    (hb : b = fl (1000 - fl (fl (1 / 49) * 49000))) (h1 : ¬ |b| < Tol) :
    lu_decomp_loop_fl fl Tol 2 (List.range' 0 2)
        (roundingMatrix, forLoop 0 (2 + 1) (fun i ipiv => ipiv.set i i) [0, 0, 0])
      = (1, [[49, 49000], [fl (1 / 49), b]], [1, 0, 3]) := by
  have hpos : 0 < |b| ∨ b = 0 := by
    by_cases c : b = 0
    · exact Or.inr c
    · exact Or.inl (abs_pos.mpr c)
  have e0 : lu_decomp_step_fl fl Tol 2 0 (roundingMatrix, [0, 1, 2])
      = some ([[49, 49000], [fl (1 / 49), b]], [1, 0, 3]) := by
    rw [hb]
    norm_num [lu_decomp_step_fl, lu_pivot_search, forLoop, List.range', lu_pivot_swap,
      lu_eliminate_fl, lu_eliminate_row_fl, wr2, rd2, rd, rdIdx, roundingMatrix, h0]
  have e1 : lu_decomp_step_fl fl Tol 2 1 ([[49, 49000], [fl (1 / 49), b]], [1, 0, 3])
      = some ([[49, 49000], [fl (1 / 49), b]], [1, 0, 3]) := by
    have hs : (lu_pivot_search [[49, 49000], [fl (1 / 49), b]] 2 1) = (|b|, 1) := by
      rcases hpos with c | c
      · norm_num [lu_pivot_search, forLoop, List.range', rd2, rd, c]
      · norm_num [lu_pivot_search, forLoop, List.range', rd2, rd, c]
    unfold lu_decomp_step_fl
    rw [hs, if_neg h1]
    norm_num [lu_pivot_swap, lu_eliminate_fl, forLoop, List.range']
  have ei : forLoop 0 (2 + 1) (fun i ipiv => ipiv.set i i) [0, 0, 0] = [0, 1, 2] := by
    decide
  rw [ei]
  show lu_decomp_loop_fl fl Tol 2 [0, 1] (roundingMatrix, [0, 1, 2]) = _
  rw [lu_decomp_loop_fl, e0]
  simp only []
  rw [lu_decomp_loop_fl, e1]
  rfl

/-- Counterexample to C20 as stated, in `double` arithmetic: the matrix `roundingMatrix`
is exactly singular (it sends `(1000, -1)` to zero) and the exact `lu_decomp` rejects it,
but with every operation rounded to the nearest `double` the multiplier `1/49` is
rounded, the eliminated entry becomes `2^-43 = 1.137e-13` instead of `0`, which is not
below the tolerance, and `lu_decomp` returns `1`. -/
theorem lu_decomp_accepts_singular :
    lu_shape 2 roundingMatrix ∧
    (∀ r, r < 2 →
      ∑ c in Finset.range 2, rd2 roundingMatrix r c * (if c = 0 then 1000 else -1) = 0) ∧
    (lu_decomp roundingMatrix 2 [0, 0, 0]).1 = 0 ∧
    (lu_decomp_fl round_double roundingMatrix 2 [0, 0, 0]).1 = 1 ∧
    rd2 (lu_decomp_fl round_double roundingMatrix 2 [0, 0, 0]).2.1 1 1
      = 1 / 8796093022208 := by
  obtain ⟨r1, r2, r3, r4⟩ := round_double_values
  have hs : lu_shape 2 roundingMatrix := by
    refine ⟨rfl, ?_⟩
    intro r hr
    interval_cases r <;> rfl
  have hT : (lu_Tol : ℚ) = 1 / 100000000000000 := by norm_num [lu_Tol]
  have e1 : (5882252574524729 : ℚ) / 288230376151711744 * 49000
      = 36028797018963965125 / 36028797018963968 := by norm_num
  have e2 : (1000 : ℚ) - 8796093022207999 / 8796093022208 = 1 / 8796093022208 := by
    norm_num
  have hfl := lu_decomp_fl_two_by_two round_double (round_double lu_Tol)
    (1 / 8796093022208)
    (by rw [hT, r1]; norm_num)
    (by rw [r2, e1, r3, e2, r4])
    (by rw [hT, r1, abs_of_pos (by norm_num)]; norm_num)
  refine ⟨hs, ?_, ?_, ?_, ?_⟩
  · intro r hr
    interval_cases r <;>
      norm_num [Finset.sum_range_succ, rd2, rd, roundingMatrix]
  · norm_num [lu_decomp, lu_decomp_loop, lu_decomp_step, lu_pivot_search, forLoop,
      List.range', lu_pivot_swap, lu_eliminate, lu_eliminate_row, wr2, rd2, rd, rdIdx,
      roundingMatrix, lu_Tol]
  · unfold lu_decomp_fl
    rw [hfl]
  · unfold lu_decomp_fl
    rw [hfl]
    rfl

/-! ## `params.cpp`: the constructor `Params::Params(char *infile)` -/

/-- One line of a well-formed file: the body of the loop exits with status `1` when the
line carries a configuration error, and otherwise goes on with the pqr file that the line
leaves open. -/
theorem Params_body_spec {K : Type} [LinearOrderedField K] (tolower : Char → Char)
    (stod : String → Option K) (stoi : String → Option Int)
    (pqr_good : Option String → String → Bool) (l : List String) (p : ParamsRecord K)
    (hl : well_formed_line tolower stod stoi l) :
    (Params.Params_body tolower stod stoi pqr_good l p = .exit 1 ∧
      (if lowercase tolower (l.getD 0 "") = "mol" ∨ lowercase tolower (l.getD 0 "") = "pqr"
        then !pqr_good p.pqr_file_ (l.getD 1 "")
        else value_out_of_range stod stoi (lowercase tolower (l.getD 0 ""))
          (lowercase tolower (l.getD 1 ""))) = true) ∨
    (∃ p1, Params.Params_body tolower stod stoi pqr_good l p = .done p1 ∧
      p1.pqr_file_
        = (if lowercase tolower (l.getD 0 "") = "mol"
              ∨ lowercase tolower (l.getD 0 "") = "pqr"
            then some (l.getD 1 "") else p.pqr_file_) ∧
      (if lowercase tolower (l.getD 0 "") = "mol" ∨ lowercase tolower (l.getD 0 "") = "pqr"
        then !pqr_good p.pqr_file_ (l.getD 1 "")
        else value_out_of_range stod stoi (lowercase tolower (l.getD 0 ""))
          (lowercase tolower (l.getD 1 ""))) = false) := by
  obtain ⟨h2, hd, hi⟩ := hl
  match l, h2 with
  | t0 :: t1 :: rest, _ =>
    simp only [List.getD_cons_zero, List.getD_cons_succ] at hd hi ⊢
    rw [show Params.Params_body tolower stod stoi pqr_good (t0 :: t1 :: rest) p
      = Params.Params_token stod stoi pqr_good (lowercase tolower t0)
          (lowercase tolower t1) t1 p from rfl]
    generalize lowercase tolower t0 = key at hd hi ⊢
    generalize lowercase tolower t1 = value at hd hi ⊢
    unfold Params.Params_token
    by_cases h1 : key = "mol" ∨ key = "pqr"
    · simp only [if_pos h1]
      cases hg : pqr_good p.pqr_file_ t1 <;> simp
    simp only [if_neg h1]
    by_cases h : key = "pdie"
    · rw [if_pos h]
      obtain ⟨v, hv⟩ := Option.isSome_iff_exists.mp (hd (by rw [h]; decide))
      subst h
      simp [value_out_of_range, hv]
    rw [if_neg h]
    have n_pdie := h
    clear h
    by_cases h : key = "sdie"
    · rw [if_pos h]
      obtain ⟨v, hv⟩ := Option.isSome_iff_exists.mp (hd (by rw [h]; decide))
      subst h
      simp [value_out_of_range, hv]
    rw [if_neg h]
    have n_sdie := h
    clear h
    by_cases h : key = "bulk"
    · rw [if_pos h]
      obtain ⟨v, hv⟩ := Option.isSome_iff_exists.mp (hd (by rw [h]; decide))
      subst h
      simp [value_out_of_range, hv]
    rw [if_neg h]
    have n_bulk := h
    clear h
    by_cases h : key = "temp"
    · rw [if_pos h]
      obtain ⟨v, hv⟩ := Option.isSome_iff_exists.mp (hd (by rw [h]; decide))
      subst h
      simp [value_out_of_range, hv]
    rw [if_neg h]
    have n_temp := h
    clear h
    by_cases h : key = "tree_degree"
    · rw [if_pos h]
      obtain ⟨n, hn⟩ := Option.isSome_iff_exists.mp (hi (by rw [h]; decide))
      subst h
      by_cases c : n ≤ 0 <;> simp [value_out_of_range, hn, c]
    rw [if_neg h]
    have n_tree_degree := h
    clear h
    by_cases h : key = "tree_theta"
    · rw [if_pos h]
      obtain ⟨v, hv⟩ := Option.isSome_iff_exists.mp (hd (by rw [h]; decide))
      subst h
      by_cases c : v < 0 ∨ 1 < v <;> simp [value_out_of_range, hv, c]
    rw [if_neg h]
    have n_tree_theta := h
    clear h
    by_cases h : key = "tree_max_per_leaf"
    · rw [if_pos h]
      obtain ⟨n, hn⟩ := Option.isSome_iff_exists.mp (hi (by rw [h]; decide))
      subst h
      by_cases c : n ≤ 0 <;> simp [value_out_of_range, hn, c]
    rw [if_neg h]
    have n_tree_max_per_leaf := h
    clear h
    by_cases h : key = "gmres_restart"
    · rw [if_pos h]
      obtain ⟨n, hn⟩ := Option.isSome_iff_exists.mp (hi (by rw [h]; decide))
      subst h
      by_cases c : n ≤ 0 <;> simp [value_out_of_range, hn, c]
    rw [if_neg h]
    have n_gmres_restart := h
    clear h
    by_cases h : key = "gmres_residual"
    · rw [if_pos h]
      obtain ⟨v, hv⟩ := Option.isSome_iff_exists.mp (hd (by rw [h]; decide))
      subst h
      by_cases c : v < 0 ∨ 1 < v <;> simp [value_out_of_range, hv, c]
    rw [if_neg h]
    have n_gmres_residual := h
    clear h
    by_cases h : key = "gmres_num_iter"
    · rw [if_pos h]
      obtain ⟨n, hn⟩ := Option.isSome_iff_exists.mp (hi (by rw [h]; decide))
      subst h
      by_cases c : n ≤ 0 <;> simp [value_out_of_range, hn, c]
    rw [if_neg h]
    have n_gmres_num_iter := h
    clear h
    by_cases h : key = "mesh"
    · rw [if_pos h]
      subst h
      by_cases a : value = "ses" <;> by_cases b : value = "skin" <;>
        simp [value_out_of_range, Params.mesh_table_, a, b]
    rw [if_neg h]
    have n_mesh := h
    clear h
    by_cases h : key = "mesh_format"
    · rw [if_pos h]
      subst h
      by_cases a : value = "msms" <;> by_cases b : value = "ply" <;>
        simp [value_out_of_range, Params.mesh_format_table_, a, b]
    rw [if_neg h]
    have n_mesh_format := h
    clear h
    by_cases h : key = "sdens"
    · rw [if_pos h]
      obtain ⟨v, hv⟩ := Option.isSome_iff_exists.mp (hd (by rw [h]; decide))
      subst h
      by_cases c : v < 0 <;> simp [value_out_of_range, hv, c]
    rw [if_neg h]
    have n_sdens := h
    clear h
    by_cases h : key = "srad"
    · rw [if_pos h]
      obtain ⟨v, hv⟩ := Option.isSome_iff_exists.mp (hd (by rw [h]; decide))
      subst h
      by_cases c : v < 0 <;> simp [value_out_of_range, hv, c]
    rw [if_neg h]
    have n_srad := h
    clear h
    by_cases h : key = "precondition"
    · rw [if_pos h]
      subst h
      refine Or.inr ⟨_, rfl, ?_, ?_⟩
      · split_ifs <;> rfl
      · simp [value_out_of_range]
    rw [if_neg h]
    have n_precondition := h
    clear h
    by_cases h : key = "nonpolar"
    · rw [if_pos h]
      subst h
      refine Or.inr ⟨_, rfl, ?_, ?_⟩
      · split_ifs <;> rfl
      · simp [value_out_of_range]
    rw [if_neg h]
    have n_nonpolar := h
    clear h
    by_cases h : key = "outdata"
    · rw [if_pos h]
      subst h
      refine Or.inr ⟨_, rfl, ?_, ?_⟩
      · split_ifs <;> rfl
      · simp [value_out_of_range]
    rw [if_neg h]
    have n_outdata := h
    clear h
    by_cases h : key = "output_prefix"
    · rw [if_pos h]
      subst h
      refine Or.inr ⟨_, rfl, ?_, ?_⟩
      · split_ifs <;> rfl
      · simp [value_out_of_range]
    rw [if_neg h]
    have n_output_prefix := h
    clear h
    by_cases h : key = "input_mesh_prefix"
    · rw [if_pos h]
      subst h
      refine Or.inr ⟨_, rfl, ?_, ?_⟩
      · split_ifs <;> rfl
      · simp [value_out_of_range]
    rw [if_neg h]
    have n_input_mesh_prefix := h
    clear h
    refine Or.inr ⟨_, rfl, rfl, ?_⟩
    simp [value_out_of_range, n_tree_degree, n_tree_theta, n_tree_max_per_leaf,
      n_gmres_restart, n_gmres_residual, n_gmres_num_iter, n_mesh, n_mesh_format, n_sdens,
      n_srad]

/-- The loop over the lines of a well-formed file: it exits with status `1` when the
lines hold a configuration error, and otherwise it reaches the end of the file. -/
theorem Params_loop_spec {K : Type} [LinearOrderedField K] (tolower : Char → Char)
    (stod : String → Option K) (stoi : String → Option Int)
    (pqr_good : Option String → String → Bool) (lines : List (List String))
    (hwf : ∀ l ∈ lines, well_formed_line tolower stod stoi l) :
    ∀ p : ParamsRecord K,
      (Params.Params_loop tolower stod stoi pqr_good lines p = .exit 1 ∧
        config_error tolower stod stoi pqr_good lines p.pqr_file_ = true) ∨
      (∃ p1, Params.Params_loop tolower stod stoi pqr_good lines p = .done p1 ∧
        config_error tolower stod stoi pqr_good lines p.pqr_file_ = false) := by
  induction lines with
  | nil =>
    intro p
    exact Or.inr ⟨p, rfl, rfl⟩
  | cons l ls ih =>
    intro p
    rw [Params.Params_loop, config_error]
    rcases Params_body_spec tolower stod stoi pqr_good l p
        (hwf l (List.mem_cons_self _ _)) with ⟨h1, h2⟩ | ⟨p1, h1, h2, h3⟩
    · left
      rw [h1]
      refine ⟨rfl, ?_⟩
      by_cases c : lowercase tolower (l.getD 0 "") = "mol"
          ∨ lowercase tolower (l.getD 0 "") = "pqr"
      · rw [if_pos c] at h2 ⊢
        rw [h2, Bool.true_or]
      · rw [if_neg c] at h2 ⊢
        rw [h2, Bool.true_or]
    · rw [h1]
      have hrest := ih (fun m hm => hwf m (List.mem_cons_of_mem _ hm)) p1
      by_cases c : lowercase tolower (l.getD 0 "") = "mol"
          ∨ lowercase tolower (l.getD 0 "") = "pqr"
      · rw [if_pos c] at h2 h3 ⊢
        rw [h3, Bool.false_or, ← h2]
        exact hrest
      · rw [if_neg c] at h2 h3 ⊢
        rw [h3, Bool.false_or, ← h2]
        exact hrest

/-- A line whose key is not recognised is skipped. -/
theorem Params_token_unknown {K : Type} [LinearOrderedField K]
    (stod : String → Option K) (stoi : String → Option Int)
    (pqr_good : Option String → String → Bool) (key value t1 : String) (p : ParamsRecord K)
    (h : key ∉ recognised_keys) :
    Params.Params_token stod stoi pqr_good key value t1 p = .done p := by
  unfold recognised_keys at h
  simp only [List.mem_cons, List.mem_singleton, List.not_mem_nil, not_or, or_false] at h
  obtain ⟨a1, a2, a3, a4, a5, a6, a7, a8, a9, a10, a11, a12, a13, a14, a15, a16, a17, a18,
    a19, a20, a21⟩ := h
  unfold Params.Params_token
  rw [if_neg (by rintro (e | e); exact a1 e; exact a2 e), if_neg a3, if_neg a4, if_neg a5,
    if_neg a6, if_neg a7, if_neg a8, if_neg a9, if_neg a10, if_neg a11, if_neg a12,
    if_neg a13, if_neg a14, if_neg a15, if_neg a16, if_neg a17, if_neg a18, if_neg a19,
    if_neg a20, if_neg a21]

/-- A recognised key that carries an out-of-range value does not always give exit
status `1`.  In the file `pdie abc` / `tree_degree 0` the conversion of
`abc` throws before the line `tree_degree 0` is read, and in a file that starts with an
empty line the constructor reads `tokenized_line[0]` outside the vector; in neither case
does it call `std::exit(1)`. -/
theorem Params_error_without_exit :
    Params.Params_infile id 1 Char.toLower sample_stod sample_stoi true (fun _ _ => true)
        [["pdie", "abc"], ["tree_degree", "0"]] sampleParamsRecord
      = ConstructorOutcome.exception ∧
    Params.Params_infile id 1 Char.toLower sample_stod sample_stoi true (fun _ _ => true)
        [[], ["tree_degree", "0"]] sampleParamsRecord
      = ConstructorOutcome.undefined ∧
    value_out_of_range sample_stod sample_stoi (lowercase Char.toLower "tree_degree")
      (lowercase Char.toLower "0") = true := by
  refine ⟨?_, ?_, ?_⟩
  · rfl
  · rfl
  · decide

/-- In an ordered field, on a parameter file in which every line has a key and a value
and the value of every numeric key converts, `Params::Params` calls `std::exit(1)` exactly when
the parameter file is not readable or some line carries a configuration error - an
out-of-range value of a recognised key, or a pqr file that does not open - and otherwise
it returns; a line whose key is not recognised is skipped and leaves every parameter
unchanged; and two keys with the same lower-case form are treated alike. -/
theorem Params_config_error {K : Type} [LinearOrderedField K] (sqrt : K → K)
    (BULK_COEFF : K) (tolower : Char → Char) (stod : String → Option K)
    (stoi : String → Option Int) (paramfile_good : Bool)
    (pqr_good : Option String → String → Bool) (lines : List (List String))
    (uninit : ParamsRecord K)
    (hwf : ∀ l ∈ lines, well_formed_line tolower stod stoi l) :
    (Params.Params_infile sqrt BULK_COEFF tolower stod stoi paramfile_good pqr_good lines
        uninit = .exit 1
      ↔ (paramfile_good = false
          ∨ config_error tolower stod stoi pqr_good lines none = true)) ∧
    (Params.Params_infile sqrt BULK_COEFF tolower stod stoi paramfile_good pqr_good lines
        uninit = .exit 1
      ∨ ∃ p, Params.Params_infile sqrt BULK_COEFF tolower stod stoi paramfile_good pqr_good
          lines uninit = .done p) ∧
    (∀ (l : List String) (p : ParamsRecord K), 2 ≤ l.length →
      lowercase tolower (l.getD 0 "") ∉ recognised_keys →
      Params.Params_body tolower stod stoi pqr_good l p = .done p) ∧
    (∀ (k1 k2 : String) (rest : List String) (p : ParamsRecord K),
      lowercase tolower k1 = lowercase tolower k2 →
      Params.Params_body tolower stod stoi pqr_good (k1 :: rest) p
        = Params.Params_body tolower stod stoi pqr_good (k2 :: rest) p) := by
  refine ⟨?_, ?_, ?_, ?_⟩
  · unfold Params.Params_infile
    cases paramfile_good with
    | false => simp
    | true =>
      simp only [Bool.not_eq_true, if_false, Bool.true_eq_false, false_or]
      rcases Params_loop_spec tolower stod stoi pqr_good lines hwf _ with
        ⟨h1, h2⟩ | ⟨p1, h1, h2⟩
      · rw [h1]
        simp only at h2
        simp [h2]
      · rw [h1]
        simp only at h2
        simp [h2]
  · unfold Params.Params_infile
    cases paramfile_good with
    | false => left; simp
    | true =>
      simp only [not_true_eq_false, if_false]
      rcases Params_loop_spec tolower stod stoi pqr_good lines hwf _ with
        ⟨h1, _⟩ | ⟨p1, h1, _⟩
      · left; rw [h1]
      · right; rw [h1]; exact ⟨_, rfl⟩
  · intro l p h2 hk
    match l, h2 with
    | t0 :: t1 :: rest, _ =>
      exact Params_token_unknown stod stoi pqr_good _ _ t1 p hk
  · intro k1 k2 rest p h
    cases rest with
    | nil => rfl
    | cons t1 rest =>
      rw [show Params.Params_body tolower stod stoi pqr_good (k1 :: t1 :: rest) p
          = Params.Params_token stod stoi pqr_good (lowercase tolower k1)
              (lowercase tolower t1) t1 p from rfl, h]
      rfl

/-- A well-formed file whose second line, written in mixed case, carries `tree_degree 0`:
the constructor exits with status `1`. -/
theorem Params_config_error_witness :
    (∀ l ∈ [["PDIE", "5"], ["Tree_Degree", "0"], ["foo", "bar"]],
      well_formed_line Char.toLower sample_stod sample_stoi l) ∧
    Params.Params_infile id 1 Char.toLower sample_stod sample_stoi true (fun _ _ => true)
        [["PDIE", "5"], ["Tree_Degree", "0"], ["foo", "bar"]] sampleParamsRecord
      = ConstructorOutcome.exit 1 := by
  have hwf : ∀ l ∈ [["PDIE", "5"], ["Tree_Degree", "0"], ["foo", "bar"]],
      well_formed_line Char.toLower sample_stod sample_stoi l := by
    intro l hl
    simp only [List.mem_cons, List.mem_singleton, List.not_mem_nil, or_false] at hl
    unfold well_formed_line
    rcases hl with rfl | rfl | rfl <;> decide
  exact ⟨hwf, (Params_config_error id 1 Char.toLower sample_stod sample_stoi true
    (fun _ _ => true) _ sampleParamsRecord hwf).1.mpr (Or.inr (by decide))⟩

/-! ## `params.cpp`: the lines that escape the validation -/

/-- The loop over the lines of a file goes on after a first part that it has read to the
end. -/
theorem Params_loop_append {K : Type} [Zero K] [One K] [LT K]
    [DecidableRel (fun a b : K => a < b)] (tolower : Char → Char)
    (stod : String → Option K) (stoi : String → Option Int)
    (pqr_good : Option String → String → Bool) (pre ls : List (List String)) :
    ∀ p0 p1 : ParamsRecord K,
      Params.Params_loop tolower stod stoi pqr_good pre p0 = .done p1 →
      Params.Params_loop tolower stod stoi pqr_good (pre ++ ls) p0
        = Params.Params_loop tolower stod stoi pqr_good ls p1 := by
  induction pre with
  | nil =>
    intro p0 p1 h
    have e : p0 = p1 := by
      rw [Params.Params_loop] at h
      exact ConstructorOutcome.done.inj h
    rw [List.nil_append, e]
  | cons l pre ih =>
    intro p0 p1 h
    rw [List.cons_append, Params.Params_loop]
    rw [Params.Params_loop] at h
    cases hb : Params.Params_body tolower stod stoi pqr_good l p0 with
    | done p2 =>
      rw [hb] at h
      exact ih p2 p1 h
    | exit s =>
      rw [hb] at h
      exact ConstructorOutcome.noConfusion h
    | exception =>
      rw [hb] at h
      exact ConstructorOutcome.noConfusion h
    | undefined =>
      rw [hb] at h
      exact ConstructorOutcome.noConfusion h

/-- The constructor on a readable file: the loop runs from the members that the
constructor initialises, and the last statements leave `tree_theta_` and
`gmres_residual_` as the loop leaves them. -/
theorem Params_infile_loop {K : Type} [Zero K] [One K] [OfNat K 10] [Pow K Nat] [Mul K]
    [Div K] [LT K] [DecidableRel (fun a b : K => a < b)] (sqrt : K → K) (BULK_COEFF : K)
    (tolower : Char → Char) (stod : String → Option K) (stoi : String → Option Int)
    (pqr_good : Option String → String → Bool) (uninit : ParamsRecord K) :
    ∃ p0 : ParamsRecord K, ∀ lines : List (List String),
      (∀ q, Params.Params_infile sqrt BULK_COEFF tolower stod stoi true pqr_good lines uninit
          = .done q →
        ∃ p1, Params.Params_loop tolower stod stoi pqr_good lines p0 = .done p1) ∧
      (∀ p1, Params.Params_loop tolower stod stoi pqr_good lines p0 = .done p1 →
        ∃ q, Params.Params_infile sqrt BULK_COEFF tolower stod stoi true pqr_good lines uninit
            = .done q ∧ q.tree_theta_ = p1.tree_theta_ ∧
          q.gmres_residual_ = p1.gmres_residual_) ∧
      (Params.Params_loop tolower stod stoi pqr_good lines p0 = .exception →
        Params.Params_infile sqrt BULK_COEFF tolower stod stoi true pqr_good lines uninit
          = .exception) ∧
      (Params.Params_loop tolower stod stoi pqr_good lines p0 = .undefined →
        Params.Params_infile sqrt BULK_COEFF tolower stod stoi true pqr_good lines uninit
          = .undefined) := by
  refine ⟨{ uninit with
      pqr_file_ := none, gmres_restart_ := 10, gmres_residual_ := 1 / 10 ^ 4,
      gmres_num_iter_ := 1000, output_vtk_ := false, output_ply_ := false,
      output_csv_ := false, output_csv_headers_ := false, output_timers_ := false,
      precondition_ := false, output_prefix_ := "output", input_mesh_prefix_ := "",
      mesh_ := Params.Mesh.SES, mesh_format_ := Params.MeshFormat.MSMS }, fun lines => ?_⟩
  unfold Params.Params_infile
  simp only [not_true_eq_false, if_false]
  refine ⟨fun q h => ?_, fun p1 h => ?_, fun h => ?_, fun h => ?_⟩
  · revert h
    cases Params.Params_loop tolower stod stoi pqr_good lines _ with
    | done p1 => exact fun _ => ⟨p1, rfl⟩
    | exit s => exact fun h => ConstructorOutcome.noConfusion h
    | exception => exact fun h => ConstructorOutcome.noConfusion h
    | undefined => exact fun h => ConstructorOutcome.noConfusion h
  · rw [h]
    exact ⟨_, rfl, rfl, rfl⟩
  · rw [h]
  · rw [h]

/-- A line with fewer than two words: the body of the loop reads `tokenized_line[0]` or
`tokenized_line[1]` outside the vector. -/
theorem Params_body_short {K : Type} [Zero K] [One K] [LT K]
    [DecidableRel (fun a b : K => a < b)] (tolower : Char → Char)
    (stod : String → Option K) (stoi : String → Option Int)
    (pqr_good : Option String → String → Bool) (l : List String) (p : ParamsRecord K)
    (h : l.length < 2) :
    Params.Params_body tolower stod stoi pqr_good l p = .undefined := by
  match l, h with
  | [], _ => rfl
  | [_], _ => rfl

/-- A key whose value is converted with `std::stod`, on a value that does not convert:
the exception leaves the constructor. -/
theorem Params_token_stod_none {K : Type} [Zero K] [One K] [LT K]
    [DecidableRel (fun a b : K => a < b)] (stod : String → Option K)
    (stoi : String → Option Int) (pqr_good : Option String → String → Bool)
    (key value t1 : String) (p : ParamsRecord K)
    (hk : key ∈ ["pdie", "sdie", "bulk", "temp", "tree_theta", "gmres_residual", "sdens",
      "srad"]) (hv : stod value = none) :
    Params.Params_token stod stoi pqr_good key value t1 p = .exception := by
  simp only [List.mem_cons, List.mem_singleton, List.not_mem_nil, or_false] at hk
  rcases hk with rfl | rfl | rfl | rfl | rfl | rfl | rfl | rfl <;>
    simp [Params.Params_token, hv]

/-- A key whose value is converted with `std::stoi`, on a value that does not convert:
the exception leaves the constructor. -/
theorem Params_token_stoi_none {K : Type} [Zero K] [One K] [LT K]
    [DecidableRel (fun a b : K => a < b)] (stod : String → Option K)
    (stoi : String → Option Int) (pqr_good : Option String → String → Bool)
    (key value t1 : String) (p : ParamsRecord K)
    (hk : key ∈ ["tree_degree", "tree_max_per_leaf", "gmres_restart", "gmres_num_iter"])
    (hv : stoi value = none) :
    Params.Params_token stod stoi pqr_good key value t1 p = .exception := by
  simp only [List.mem_cons, List.mem_singleton, List.not_mem_nil, or_false] at hk
  rcases hk with rfl | rfl | rfl | rfl <;>
    simp [Params.Params_token, hv]

/-- The keys `tree_theta` and `gmres_residual` on a value that is neither below `0` nor
above `1` in the comparisons of the code: the value is stored. -/
theorem Params_token_unit_interval {K : Type} [Zero K] [One K] [LT K]
    [DecidableRel (fun a b : K => a < b)] (stod : String → Option K)
    (stoi : String → Option Int) (pqr_good : Option String → String → Bool)
    (value t1 : String) (p : ParamsRecord K) (v : K) (hv : stod value = some v)
    (h0 : ¬ v < 0) (h1 : ¬ 1 < v) :
    Params.Params_token stod stoi pqr_good "tree_theta" value t1 p
      = .done { p with tree_theta_ := v } ∧
    Params.Params_token stod stoi pqr_good "gmres_residual" value t1 p
      = .done { p with gmres_residual_ := v } := by
  have h : ¬ (v < 0 ∨ v > 1) := fun c => c.elim h0 h1
  constructor <;> simp [Params.Params_token, hv, h]

/-- C15 (code bug): `Params::Params` validates the values of the parameter file and calls
`std::exit(1)` on the values it rejects, but three kinds of lines escape the validation.
After a first part `pre` of the file that the constructor reads to the end, in `double`
arithmetic and for any `tolower`, `std::stod`, `std::stoi` and pqr stream:
(1) a line with fewer than two words makes the constructor read `tokenized_line[0]` or
`tokenized_line[1]` outside the vector, whatever follows;
(2) a numeric key, in any case, whose value does not convert ends the constructor with the
exception of `std::stod` or `std::stoi`, which nothing catches, whatever follows;
(3) a last line `tree_theta` or `gmres_residual` whose value converts to NaN passes both
tests `value < 0` and `value > 1`: the constructor returns and the member holds NaN, which
is not in `[0,1]`.
In none of the three cases does the constructor exit with status `1`. -/
theorem Params_validation_slips (sqrt : Double → Double) (BULK_COEFF : Double)
    (tolower : Char → Char) (stod : String → Option Double) (stoi : String → Option Int)
    (pqr_good : Option String → String → Bool) (pre : List (List String))
    (uninit q : ParamsRecord Double)
    (hpre : Params.Params_infile sqrt BULK_COEFF tolower stod stoi true pqr_good pre uninit
      = .done q) :
    (∀ (l : List String) (rest : List (List String)), l.length < 2 →
      Params.Params_infile sqrt BULK_COEFF tolower stod stoi true pqr_good
        (pre ++ l :: rest) uninit = .undefined) ∧
    (∀ (k t1 : String) (more : List String) (rest : List (List String)),
      lowercase tolower k ∈ ["pdie", "sdie", "bulk", "temp", "tree_theta", "gmres_residual",
        "sdens", "srad"] →
      stod (lowercase tolower t1) = none →
      Params.Params_infile sqrt BULK_COEFF tolower stod stoi true pqr_good
        (pre ++ (k :: t1 :: more) :: rest) uninit = .exception) ∧
    (∀ (k t1 : String) (more : List String) (rest : List (List String)),
      lowercase tolower k ∈ ["tree_degree", "tree_max_per_leaf", "gmres_restart",
        "gmres_num_iter"] →
      stoi (lowercase tolower t1) = none →
      Params.Params_infile sqrt BULK_COEFF tolower stod stoi true pqr_good
        (pre ++ (k :: t1 :: more) :: rest) uninit = .exception) ∧
    (∀ (k t1 : String) (more : List String), lowercase tolower k = "tree_theta" →
      stod (lowercase tolower t1) = some Double.nan →
      ∃ p, Params.Params_infile sqrt BULK_COEFF tolower stod stoi true pqr_good
          (pre ++ [k :: t1 :: more]) uninit = .done p ∧ p.tree_theta_ = Double.nan) ∧
    (∀ (k t1 : String) (more : List String), lowercase tolower k = "gmres_residual" →
      stod (lowercase tolower t1) = some Double.nan →
      ∃ p, Params.Params_infile sqrt BULK_COEFF tolower stod stoi true pqr_good
          (pre ++ [k :: t1 :: more]) uninit = .done p ∧ p.gmres_residual_ = Double.nan) ∧
    ¬ ((0 : Double) ≤ Double.nan ∧ Double.nan ≤ 1) := by
  obtain ⟨p0, hinf⟩ := Params_infile_loop sqrt BULK_COEFF tolower stod stoi pqr_good uninit
  obtain ⟨p1, hp1⟩ := (hinf pre).1 q hpre
  have hbody : ∀ (k t1 : String) (more : List String),
      Params.Params_body tolower stod stoi pqr_good (k :: t1 :: more) p1
        = Params.Params_token stod stoi pqr_good (lowercase tolower k)
            (lowercase tolower t1) t1 p1 := fun _ _ _ => rfl
  have hnan := Double.nan_spec 0
  have hnan1 := Double.nan_spec 1
  refine ⟨fun l rest hl => ?_, fun k t1 more rest hk hv => ?_,
    fun k t1 more rest hk hv => ?_, fun k t1 more hk hv => ?_, fun k t1 more hk hv => ?_,
    fun h => hnan.2.2.2.2.2.2.2.2.2 h.1⟩
  · apply (hinf _).2.2.2
    rw [Params_loop_append tolower stod stoi pqr_good pre _ p0 p1 hp1, Params.Params_loop,
      Params_body_short tolower stod stoi pqr_good l p1 hl]
  · apply (hinf _).2.2.1
    rw [Params_loop_append tolower stod stoi pqr_good pre _ p0 p1 hp1, Params.Params_loop,
      hbody, Params_token_stod_none stod stoi pqr_good _ _ t1 p1 hk hv]
  · apply (hinf _).2.2.1
    rw [Params_loop_append tolower stod stoi pqr_good pre _ p0 p1 hp1, Params.Params_loop,
      hbody, Params_token_stoi_none stod stoi pqr_good _ _ t1 p1 hk hv]
  · obtain ⟨r, hr, ht, _⟩ := (hinf (pre ++ [k :: t1 :: more])).2.1
      { p1 with tree_theta_ := Double.nan } (by
        rw [Params_loop_append tolower stod stoi pqr_good pre _ p0 p1 hp1,
          Params.Params_loop, hbody, hk,
          (Params_token_unit_interval stod stoi pqr_good _ t1 p1 Double.nan hv
            hnan.2.2.2.2.2.2.1 hnan1.2.2.2.2.2.2.2.1).1]
        rfl)
    exact ⟨r, hr, ht⟩
  · obtain ⟨r, hr, _, hg⟩ := (hinf (pre ++ [k :: t1 :: more])).2.1
      { p1 with gmres_residual_ := Double.nan } (by
        rw [Params_loop_append tolower stod stoi pqr_good pre _ p0 p1 hp1,
          Params.Params_loop, hbody, hk,
          (Params_token_unit_interval stod stoi pqr_good _ t1 p1 Double.nan hv
            hnan.2.2.2.2.2.2.1 hnan1.2.2.2.2.2.2.2.1).2]
        rfl)
    exact ⟨r, hr, hg⟩

/-- C15 at concrete inputs, in `double` arithmetic: after the line `PDIE 5`, the files
that go on with an empty line, with `gmres_restart abc`, each followed by
`tree_degree 0`, and the file that ends with `Tree_Theta NaN`. -/
theorem Params_validation_slips_witness :
    (∃ q, Params.Params_infile (Double.sqrt Rat.sqrt) 1 Char.toLower sample_stod_double
        sample_stoi true (fun _ _ => true) [["PDIE", "5"]] sampleDoubleParamsRecord
      = ConstructorOutcome.done q) ∧
    Params.Params_infile (Double.sqrt Rat.sqrt) 1 Char.toLower sample_stod_double
        sample_stoi true (fun _ _ => true) [["PDIE", "5"], [], ["tree_degree", "0"]]
        sampleDoubleParamsRecord
      = ConstructorOutcome.undefined ∧
    Params.Params_infile (Double.sqrt Rat.sqrt) 1 Char.toLower sample_stod_double
        sample_stoi true (fun _ _ => true)
        [["PDIE", "5"], ["gmres_restart", "abc"], ["tree_degree", "0"]]
        sampleDoubleParamsRecord
      = ConstructorOutcome.exception ∧
    ∃ p, Params.Params_infile (Double.sqrt Rat.sqrt) 1 Char.toLower sample_stod_double
        sample_stoi true (fun _ _ => true) [["PDIE", "5"], ["Tree_Theta", "NaN"]]
        sampleDoubleParamsRecord
      = ConstructorOutcome.done p ∧ p.tree_theta_ = Double.nan :=
  ⟨⟨_, rfl⟩,
    (Params_validation_slips (Double.sqrt Rat.sqrt) 1 Char.toLower sample_stod_double
      sample_stoi (fun _ _ => true) [["PDIE", "5"]] sampleDoubleParamsRecord _ rfl).1
      [] [["tree_degree", "0"]] (by decide),
    (Params_validation_slips (Double.sqrt Rat.sqrt) 1 Char.toLower sample_stod_double
      sample_stoi (fun _ _ => true) [["PDIE", "5"]] sampleDoubleParamsRecord _ rfl).2.2.1
      "gmres_restart" "abc" [] [["tree_degree", "0"]] (by decide) (by decide),
    (Params_validation_slips (Double.sqrt Rat.sqrt) 1 Char.toLower sample_stod_double
      sample_stoi (fun _ _ => true) [["PDIE", "5"]] sampleDoubleParamsRecord _
      rfl).2.2.2.1 "Tree_Theta" "NaN" [] (by decide) (by decide)⟩

/-! ## `treecode.cpp` and `treecode.c`: the coefficients of a pair -/

/-- C21: for every target `j` and source `k` at positive distance, every `kappa` and
every `eps ≠ 0`, the coefficients of the C++ `particle_particle_interact`,
`L1 = cos_theta*tp1*(1 - tp2*eps)`, `L2 = G0 - Gk`, `L3 = G4 - G3`,
`L4 = cos_theta0*tp1*(1 - tp2/eps)`, equal the coefficients `L1 = G1 - eps*G2`,
`L2 = G0 - Gk`, `L3 = G4 - G3`, `L4 = G10 - G20/eps` that the C routine
`s_ComputeDirectPB` computes, which are those of the specification; so
`particle_particle_interact` adds to `potential[j]` and `potential[N+j]` what
`s_ComputeDirectPB` adds to `peng[0]` and `peng[1]` for the pair. -/
theorem pair_coefficients_eq_direct {K : Type} [LinearOrderedField K] (sqrt exp : K → K)
    (tc : Treecode K) (g : TreecodeGlobals K) (potential potential_old : List K)
    (j k : Nat) (hdata : same_pair_data tc g j k) (_heps : tc.params_.phys_eps_ ≠ 0)
    (hpos : 0 < sqrt ((rd tc.particles_.x_ k - rd tc.particles_.x_ j)
        * (rd tc.particles_.x_ k - rd tc.particles_.x_ j)
      + (rd tc.particles_.y_ k - rd tc.particles_.y_ j)
        * (rd tc.particles_.y_ k - rd tc.particles_.y_ j)
      + (rd tc.particles_.z_ k - rd tc.particles_.z_ j)
        * (rd tc.particles_.z_ k - rd tc.particles_.z_ j))) :
    pair_coefficients exp tc.params_.phys_eps_ tc.params_.phys_kappa_
        tc.params_.phys_kappa2_
        (sqrt ((rd tc.particles_.x_ k - rd tc.particles_.x_ j)
            * (rd tc.particles_.x_ k - rd tc.particles_.x_ j)
          + (rd tc.particles_.y_ k - rd tc.particles_.y_ j)
            * (rd tc.particles_.y_ k - rd tc.particles_.y_ j)
          + (rd tc.particles_.z_ k - rd tc.particles_.z_ j)
            * (rd tc.particles_.z_ k - rd tc.particles_.z_ j)))
        (rd tc.particles_.x_ k - rd tc.particles_.x_ j)
        (rd tc.particles_.y_ k - rd tc.particles_.y_ j)
        (rd tc.particles_.z_ k - rd tc.particles_.z_ j)
        (rd tc.particles_.nx_ k) (rd tc.particles_.ny_ k) (rd tc.particles_.nz_ k)
        (rd tc.particles_.nx_ j) (rd tc.particles_.ny_ j) (rd tc.particles_.nz_ j)
      = s_ComputeDirectPB_coefficients sqrt exp g (k : Int) ∧
    s_ComputeDirectPB_coefficients sqrt exp g (k : Int)
      = kernel_spec sqrt exp tc.params_.phys_eps_ tc.params_.phys_kappa_
          tc.params_.phys_kappa2_
          (rd tc.particles_.x_ k) (rd tc.particles_.y_ k) (rd tc.particles_.z_ k)
          (rd tc.particles_.nx_ k) (rd tc.particles_.ny_ k) (rd tc.particles_.nz_ k)
          (rd tc.particles_.x_ j) (rd tc.particles_.y_ j) (rd tc.particles_.z_ j)
          (rd tc.particles_.nx_ j) (rd tc.particles_.ny_ j) (rd tc.particles_.nz_ j) ∧
    tc.particle_particle_interact sqrt exp potential potential_old (j, j + 1) (k, k + 1)
      = (potential.set j (rd potential j
            + (s_ComputeDirectPB_body sqrt exp g potential_old (k : Int) (0, 0)).1)).set
          (j + tc.particles_.num_)
          (rd (potential.set j (rd potential j
              + (s_ComputeDirectPB_body sqrt exp g potential_old (k : Int) (0, 0)).1))
              (j + tc.particles_.num_)
            + (s_ComputeDirectPB_body sqrt exp g potential_old (k : Int) (0, 0)).2) := by
  obtain ⟨h1, h2, h3, h4, t0, t1, t2, n0, n1, n2, s0, s1, s2, m0, m1, m2, ha⟩ := hdata
  have e1 : pair_coefficients exp tc.params_.phys_eps_ tc.params_.phys_kappa_
        tc.params_.phys_kappa2_
        (sqrt ((rd tc.particles_.x_ k - rd tc.particles_.x_ j)
            * (rd tc.particles_.x_ k - rd tc.particles_.x_ j)
          + (rd tc.particles_.y_ k - rd tc.particles_.y_ j)
            * (rd tc.particles_.y_ k - rd tc.particles_.y_ j)
          + (rd tc.particles_.z_ k - rd tc.particles_.z_ j)
            * (rd tc.particles_.z_ k - rd tc.particles_.z_ j)))
        (rd tc.particles_.x_ k - rd tc.particles_.x_ j)
        (rd tc.particles_.y_ k - rd tc.particles_.y_ j)
        (rd tc.particles_.z_ k - rd tc.particles_.z_ j)
        (rd tc.particles_.nx_ k) (rd tc.particles_.ny_ k) (rd tc.particles_.nz_ k)
        (rd tc.particles_.nx_ j) (rd tc.particles_.ny_ j) (rd tc.particles_.nz_ j)
      = s_ComputeDirectPB_coefficients sqrt exp g (k : Int) := by
    simp only [pair_coefficients, s_ComputeDirectPB_coefficients, Int.toNat_ofNat, h1, h2,
      h3, t0, t1, t2, n0, n1, n2, s0, s1, s2, m0, m1, m2]
    refine Prod.ext ?_ (Prod.ext ?_ (Prod.ext ?_ ?_)) <;> simp only <;> ring
  refine ⟨e1, ?_, ?_⟩
  · simp only [kernel_spec, s_ComputeDirectPB_coefficients, Int.toNat_ofNat, h1, h2,
      h3, t0, t1, t2, n0, n1, n2, s0, s1, s2, m0, m1, m2]
    refine Prod.ext ?_ (Prod.ext ?_ (Prod.ext ?_ ?_)) <;> simp only
    ring
  · unfold Treecode.particle_particle_interact
    simp only [forLoop_single, if_pos hpos, e1, s_ComputeDirectPB_body, Int.toNat_ofNat,
      zero_add, ha, h4]

/-- C21 at a concrete input: target `0` and source `1` of the tetrahedron of
`sampleTreecode`, with the same data in the file-scope variables of treecode.c. -/
theorem pair_coefficients_eq_direct_witness :
    same_pair_data sampleTreecode { sampleGlobals with s_particle_area := [0, 0, 0, 0] } 0 1 ∧
    sampleTreecode.params_.phys_eps_ ≠ 0 ∧
    pair_coefficients Real.exp sampleTreecode.params_.phys_eps_
        sampleTreecode.params_.phys_kappa_ sampleTreecode.params_.phys_kappa2_
        (Real.sqrt ((rd sampleTreecode.particles_.x_ 1 - rd sampleTreecode.particles_.x_ 0)
            * (rd sampleTreecode.particles_.x_ 1 - rd sampleTreecode.particles_.x_ 0)
          + (rd sampleTreecode.particles_.y_ 1 - rd sampleTreecode.particles_.y_ 0)
            * (rd sampleTreecode.particles_.y_ 1 - rd sampleTreecode.particles_.y_ 0)
          + (rd sampleTreecode.particles_.z_ 1 - rd sampleTreecode.particles_.z_ 0)
            * (rd sampleTreecode.particles_.z_ 1 - rd sampleTreecode.particles_.z_ 0)))
        (rd sampleTreecode.particles_.x_ 1 - rd sampleTreecode.particles_.x_ 0)
        (rd sampleTreecode.particles_.y_ 1 - rd sampleTreecode.particles_.y_ 0)
        (rd sampleTreecode.particles_.z_ 1 - rd sampleTreecode.particles_.z_ 0)
        (rd sampleTreecode.particles_.nx_ 1) (rd sampleTreecode.particles_.ny_ 1)
        (rd sampleTreecode.particles_.nz_ 1) (rd sampleTreecode.particles_.nx_ 0)
        (rd sampleTreecode.particles_.ny_ 0) (rd sampleTreecode.particles_.nz_ 0)
      = s_ComputeDirectPB_coefficients Real.sqrt Real.exp
          { sampleGlobals with s_particle_area := [0, 0, 0, 0] } ((1 : Nat) : Int) := by
  have hdata : same_pair_data sampleTreecode
      { sampleGlobals with s_particle_area := [0, 0, 0, 0] } 0 1 := by
    unfold same_pair_data
    simp [rd, sampleTreecode, sampleGlobals, tetraParticles]
  have heps : sampleTreecode.params_.phys_eps_ ≠ 0 := by norm_num [sampleTreecode]
  exact ⟨hdata, heps,
    (pair_coefficients_eq_direct Real.sqrt Real.exp sampleTreecode
      { sampleGlobals with s_particle_area := [0, 0, 0, 0] } [0, 0, 0, 0, 0, 0, 0, 0]
      [1, 2, 3, 4, 5, 6, 7, 8] 0 1 hdata heps
      (Real.sqrt_pos.mpr (by norm_num [rd, sampleTreecode, tetraParticles]))).1⟩

/-! ## `elements.cpp`, `particles.cpp`: `triangle_area` -/

/-- Heron's formula as `triangle_area` evaluates it is half the length of the cross
product of two edge vectors. -/
theorem triangle_area_eq_cross {K : Type} [LinearOrderedField K] (sqrt : K → K)
    (hsqrt : ∀ s, 0 ≤ s → 0 ≤ sqrt s ∧ sqrt s * sqrt s = s) (v : Nat → Nat → K) :
    triangle_area sqrt v
      = 1 / 2 * sqrt
        (((v 1 1 - v 1 0) * (v 2 2 - v 2 0) - (v 2 1 - v 2 0) * (v 1 2 - v 1 0))
            * ((v 1 1 - v 1 0) * (v 2 2 - v 2 0) - (v 2 1 - v 2 0) * (v 1 2 - v 1 0))
          + ((v 2 1 - v 2 0) * (v 0 2 - v 0 0) - (v 0 1 - v 0 0) * (v 2 2 - v 2 0))
            * ((v 2 1 - v 2 0) * (v 0 2 - v 0 0) - (v 0 1 - v 0 0) * (v 2 2 - v 2 0))
          + ((v 0 1 - v 0 0) * (v 1 2 - v 1 0) - (v 1 1 - v 1 0) * (v 0 2 - v 0 0))
            * ((v 0 1 - v 0 0) * (v 1 2 - v 1 0) - (v 1 1 - v 1 0) * (v 0 2 - v 0 0))) := by
  have nn : ∀ x y z : K, 0 ≤ x * x + y * y + z * z := fun x y z =>
    add_nonneg (add_nonneg (mul_self_nonneg _) (mul_self_nonneg _)) (mul_self_nonneg _)
  obtain ⟨_, ha⟩ := hsqrt _ (nn (v 0 0 - v 0 1) (v 1 0 - v 1 1) (v 2 0 - v 2 1))
  obtain ⟨_, hb⟩ := hsqrt _ (nn (v 0 0 - v 0 2) (v 1 0 - v 1 2) (v 2 0 - v 2 2))
  obtain ⟨_, hc⟩ := hsqrt _ (nn (v 0 1 - v 0 2) (v 1 1 - v 1 2) (v 2 1 - v 2 2))
  have hq := nn ((v 1 1 - v 1 0) * (v 2 2 - v 2 0) - (v 2 1 - v 2 0) * (v 1 2 - v 1 0))
    ((v 2 1 - v 2 0) * (v 0 2 - v 0 0) - (v 0 1 - v 0 0) * (v 2 2 - v 2 0))
    ((v 0 1 - v 0 0) * (v 1 2 - v 1 0) - (v 1 1 - v 1 0) * (v 0 2 - v 0 0))
  generalize hA : sqrt ((v 0 0 - v 0 1) * (v 0 0 - v 0 1) + (v 1 0 - v 1 1) * (v 1 0 - v 1 1)
    + (v 2 0 - v 2 1) * (v 2 0 - v 2 1)) = aa at ha
  generalize hB : sqrt ((v 0 0 - v 0 2) * (v 0 0 - v 0 2) + (v 1 0 - v 1 2) * (v 1 0 - v 1 2)
    + (v 2 0 - v 2 2) * (v 2 0 - v 2 2)) = bb at hb
  generalize hC : sqrt ((v 0 1 - v 0 2) * (v 0 1 - v 0 2) + (v 1 1 - v 1 2) * (v 1 1 - v 1 2)
    + (v 2 1 - v 2 2) * (v 2 1 - v 2 2)) = cc at hc
  have hH : 1 / 2 * (aa + bb + cc) * (1 / 2 * (aa + bb + cc) - aa)
        * (1 / 2 * (aa + bb + cc) - bb) * (1 / 2 * (aa + bb + cc) - cc)
      = (((v 1 1 - v 1 0) * (v 2 2 - v 2 0) - (v 2 1 - v 2 0) * (v 1 2 - v 1 0))
            * ((v 1 1 - v 1 0) * (v 2 2 - v 2 0) - (v 2 1 - v 2 0) * (v 1 2 - v 1 0))
          + ((v 2 1 - v 2 0) * (v 0 2 - v 0 0) - (v 0 1 - v 0 0) * (v 2 2 - v 2 0))
            * ((v 2 1 - v 2 0) * (v 0 2 - v 0 0) - (v 0 1 - v 0 0) * (v 2 2 - v 2 0))
          + ((v 0 1 - v 0 0) * (v 1 2 - v 1 0) - (v 1 1 - v 1 0) * (v 0 2 - v 0 0))
            * ((v 0 1 - v 0 0) * (v 1 2 - v 1 0) - (v 1 1 - v 1 0) * (v 0 2 - v 0 0)))
        / 4 := by
    linear_combination (1 / 16) * ((2 * bb * bb + 2 * cc * cc
        - (aa * aa + ((v 0 0 - v 0 1) * (v 0 0 - v 0 1) + (v 1 0 - v 1 1) * (v 1 0 - v 1 1)
          + (v 2 0 - v 2 1) * (v 2 0 - v 2 1)))) * ha
      + (2 * ((v 0 0 - v 0 1) * (v 0 0 - v 0 1) + (v 1 0 - v 1 1) * (v 1 0 - v 1 1)
          + (v 2 0 - v 2 1) * (v 2 0 - v 2 1)) + 2 * cc * cc
        - (bb * bb + ((v 0 0 - v 0 2) * (v 0 0 - v 0 2) + (v 1 0 - v 1 2) * (v 1 0 - v 1 2)
          + (v 2 0 - v 2 2) * (v 2 0 - v 2 2)))) * hb
      + (2 * ((v 0 0 - v 0 1) * (v 0 0 - v 0 1) + (v 1 0 - v 1 1) * (v 1 0 - v 1 1)
          + (v 2 0 - v 2 1) * (v 2 0 - v 2 1))
        + 2 * ((v 0 0 - v 0 2) * (v 0 0 - v 0 2) + (v 1 0 - v 1 2) * (v 1 0 - v 1 2)
          + (v 2 0 - v 2 2) * (v 2 0 - v 2 2))
        - (cc * cc + ((v 0 1 - v 0 2) * (v 0 1 - v 0 2) + (v 1 1 - v 1 2) * (v 1 1 - v 1 2)
          + (v 2 1 - v 2 2) * (v 2 1 - v 2 2)))) * hc)
  unfold triangle_area
  simp only [hA, hB, hC]
  rw [hH]
  generalize ((v 1 1 - v 1 0) * (v 2 2 - v 2 0) - (v 2 1 - v 2 0) * (v 1 2 - v 1 0))
      * ((v 1 1 - v 1 0) * (v 2 2 - v 2 0) - (v 2 1 - v 2 0) * (v 1 2 - v 1 0))
    + ((v 2 1 - v 2 0) * (v 0 2 - v 0 0) - (v 0 1 - v 0 0) * (v 2 2 - v 2 0))
      * ((v 2 1 - v 2 0) * (v 0 2 - v 0 0) - (v 0 1 - v 0 0) * (v 2 2 - v 2 0))
    + ((v 0 1 - v 0 0) * (v 1 2 - v 1 0) - (v 1 1 - v 1 0) * (v 0 2 - v 0 0))
      * ((v 0 1 - v 0 0) * (v 1 2 - v 1 0) - (v 1 1 - v 1 0) * (v 0 2 - v 0 0)) = Q at hq ⊢
  obtain ⟨r1, r2⟩ := hsqrt (Q / 4) (by positivity)
  obtain ⟨s1, s2⟩ := hsqrt Q hq
  have hsq : sqrt (Q / 4) * sqrt (Q / 4) = (1 / 2 * sqrt Q) * (1 / 2 * sqrt Q) := by
    rw [r2]
    linear_combination (-(1 / 4 : K)) * s2
  exact (mul_self_inj r1 (by positivity)).mp hsq

/-- C22: for every three points `p0`, `p1`, `p2` (`v i k` is coordinate `i` of point `k`),
`triangle_area` - Heron's formula on the three edge lengths - returns the Euclidean area
of the triangle, `(1/2)*|(p1-p0) x (p2-p0)|`; the value is non-negative, zero for points
on one line, and independent of the order of the three vertices.  `sqrt` is a square root
on the non-negative numbers. -/
theorem triangle_area_euclidean {K : Type} [LinearOrderedField K] (sqrt : K → K)
    (hsqrt : ∀ s, 0 ≤ s → 0 ≤ sqrt s ∧ sqrt s * sqrt s = s) (v : Nat → Nat → K) :
    triangle_area sqrt v
      = 1 / 2 * sqrt
        (((v 1 1 - v 1 0) * (v 2 2 - v 2 0) - (v 2 1 - v 2 0) * (v 1 2 - v 1 0))
            * ((v 1 1 - v 1 0) * (v 2 2 - v 2 0) - (v 2 1 - v 2 0) * (v 1 2 - v 1 0))
          + ((v 2 1 - v 2 0) * (v 0 2 - v 0 0) - (v 0 1 - v 0 0) * (v 2 2 - v 2 0))
            * ((v 2 1 - v 2 0) * (v 0 2 - v 0 0) - (v 0 1 - v 0 0) * (v 2 2 - v 2 0))
          + ((v 0 1 - v 0 0) * (v 1 2 - v 1 0) - (v 1 1 - v 1 0) * (v 0 2 - v 0 0))
            * ((v 0 1 - v 0 0) * (v 1 2 - v 1 0) - (v 1 1 - v 1 0) * (v 0 2 - v 0 0))) ∧
    0 ≤ triangle_area sqrt v ∧
    ((∃ (q d : Nat → K) (t : Nat → K), ∀ i k, v i k = q i + t k * d i) →
      triangle_area sqrt v = 0) ∧
    (∀ σ : Nat → Nat, [σ 0, σ 1, σ 2].Perm [0, 1, 2] →
      triangle_area sqrt (fun i k => v i (σ k)) = triangle_area sqrt v) := by
  have nn : ∀ x y z : K, 0 ≤ x * x + y * y + z * z := fun x y z =>
    add_nonneg (add_nonneg (mul_self_nonneg _) (mul_self_nonneg _)) (mul_self_nonneg _)
  have hs0 : sqrt 0 = 0 := mul_self_eq_zero.mp (hsqrt 0 (le_refl _)).2
  refine ⟨triangle_area_eq_cross sqrt hsqrt v, ?_, ?_, ?_⟩
  · rw [triangle_area_eq_cross sqrt hsqrt v]
    exact mul_nonneg (by norm_num) (hsqrt _ (nn _ _ _)).1
  · rintro ⟨q, d, t, h⟩
    rw [triangle_area_eq_cross sqrt hsqrt v]
    have e : ((v 1 1 - v 1 0) * (v 2 2 - v 2 0) - (v 2 1 - v 2 0) * (v 1 2 - v 1 0))
          * ((v 1 1 - v 1 0) * (v 2 2 - v 2 0) - (v 2 1 - v 2 0) * (v 1 2 - v 1 0))
        + ((v 2 1 - v 2 0) * (v 0 2 - v 0 0) - (v 0 1 - v 0 0) * (v 2 2 - v 2 0))
          * ((v 2 1 - v 2 0) * (v 0 2 - v 0 0) - (v 0 1 - v 0 0) * (v 2 2 - v 2 0))
        + ((v 0 1 - v 0 0) * (v 1 2 - v 1 0) - (v 1 1 - v 1 0) * (v 0 2 - v 0 0))
          * ((v 0 1 - v 0 0) * (v 1 2 - v 1 0) - (v 1 1 - v 1 0) * (v 0 2 - v 0 0))
        = 0 := by
      simp only [h]
      ring
    rw [e, hs0, mul_zero]
  · intro σ hσ
    have m0 : σ 0 ∈ [0, 1, 2] := hσ.subset (by simp)
    have m1 : σ 1 ∈ [0, 1, 2] := hσ.subset (by simp)
    have m2 : σ 2 ∈ [0, 1, 2] := hσ.subset (by simp)
    have nd : [σ 0, σ 1, σ 2].Nodup := hσ.nodup_iff.mpr (by decide)
    simp only [List.nodup_cons, List.mem_cons, List.mem_singleton, List.not_mem_nil,
      not_or, or_false, List.nodup_nil, and_true, not_false_eq_true] at nd
    obtain ⟨⟨d01, d02⟩, d12⟩ := nd
    simp only [List.mem_cons, List.mem_singleton, List.not_mem_nil, or_false] at m0 m1 m2
    rw [triangle_area_eq_cross sqrt hsqrt v,
      triangle_area_eq_cross sqrt hsqrt (fun i k => v i (σ k))]
    congr 2
    rcases m0 with e0 | e0 | e0 <;> rcases m1 with e1 | e1 | e1 <;>
      rcases m2 with e2 | e2 | e2 <;>
      first
        | exact absurd (e0.trans e1.symm) d01
        | exact absurd (e0.trans e2.symm) d02
        | exact absurd (e1.trans e2.symm) d12
        | (simp only [e0, e1, e2]; done)
        | (simp only [e0, e1, e2]; ring)

/-- C22 at a concrete input: the right triangle with legs `3` and `4` has area `6`, over
the reals. -/
theorem triangle_area_euclidean_witness :
    (∀ s : ℝ, 0 ≤ s → 0 ≤ Real.sqrt s ∧ Real.sqrt s * Real.sqrt s = s) ∧
    0 ≤ triangle_area Real.sqrt
      (fun i k => if i = 0 ∧ k = 1 then 3 else if i = 1 ∧ k = 2 then 4 else 0) :=
  ⟨fun s hs => ⟨Real.sqrt_nonneg s, Real.mul_self_sqrt hs⟩,
    (triangle_area_euclidean Real.sqrt
      (fun s hs => ⟨Real.sqrt_nonneg s, Real.mul_self_sqrt hs⟩) _).2.1⟩

/-! ## `treecode.cpp`: what one source contributes to one target -/

/-- C26: for every tree in which the children of each internal node have particle ranges
that partition the range of the node, and for every target position, the nodes on which
`s_RunTreecode` performs an evaluation (`s_ComputeTreePB` on a node accepted by the test
`radius < theta*dist` and `numpar > 40`, `s_ComputeDirectPB` on a leaf) have particle
ranges that partition the range of the root - every source particle is accounted for
exactly once - and the `peng` returned at the root is the sum of those evaluations. -/
theorem s_RunTreecode_partition {K : Type} [LinearOrderedField K] (sqrt exp : K → K)
    (g : TreecodeGlobals K) (tpoten_old tempq : List K) (t : TreeLinkedListNode K) :
    ranges_partition t →
    ((s_RunTreecode_evaluations sqrt g t).flatMap (fun e => node_range e.2)).Perm
        (node_range t.data) ∧
    s_RunTreecode sqrt exp g tpoten_old tempq t
      = (((s_RunTreecode_evaluations sqrt g t).map
            (fun e => (evaluation_peng sqrt exp g tpoten_old tempq e).1)).sum,
         ((s_RunTreecode_evaluations sqrt g t).map
            (fun e => (evaluation_peng sqrt exp g tpoten_old tempq e).2)).sum) := by
  refine @TreeLinkedListNode.rec K
    (fun t => ranges_partition t →
      ((s_RunTreecode_evaluations sqrt g t).flatMap (fun e => node_range e.2)).Perm
          (node_range t.data) ∧
      s_RunTreecode sqrt exp g tpoten_old tempq t
        = (((s_RunTreecode_evaluations sqrt g t).map
              (fun e => (evaluation_peng sqrt exp g tpoten_old tempq e).1)).sum,
           ((s_RunTreecode_evaluations sqrt g t).map
              (fun e => (evaluation_peng sqrt exp g tpoten_old tempq e).2)).sum))
    (fun cs => ranges_partition_children cs →
      ((s_RunTreecode_evaluations_children sqrt g cs).flatMap
          (fun e => node_range e.2)).Perm (cs.flatMap (fun c => node_range c.data)) ∧
      ∀ peng : K × K, s_RunTreecode_children sqrt exp g tpoten_old tempq cs peng
        = (peng.1 + ((s_RunTreecode_evaluations_children sqrt g cs).map
              (fun e => (evaluation_peng sqrt exp g tpoten_old tempq e).1)).sum,
           peng.2 + ((s_RunTreecode_evaluations_children sqrt g cs).map
              (fun e => (evaluation_peng sqrt exp g tpoten_old tempq e).2)).sum))
    ?_ ?_ ?_ t
  · intro p child ih hr
    rw [ranges_partition] at hr
    rw [s_RunTreecode, s_RunTreecode_evaluations]
    simp only [TreeLinkedListNode.data]
    by_cases hmac : p.radius < sqrt ((p.x_mid - rd g.s_target_position 0)
          * (p.x_mid - rd g.s_target_position 0)
        + (p.y_mid - rd g.s_target_position 1) * (p.y_mid - rd g.s_target_position 1)
        + (p.z_mid - rd g.s_target_position 2) * (p.z_mid - rd g.s_target_position 2))
        * g.theta ∧ p.numpar > 40
    · rw [if_pos hmac, if_pos hmac]
      simp [evaluation_peng]
    · rw [if_neg hmac, if_neg hmac]
      by_cases hc : child.length = 0
      · rw [if_pos hc, if_pos hc]
        simp [evaluation_peng]
      · rw [if_neg hc, if_neg hc]
        obtain ⟨i1, i2⟩ := ih hr.2
        refine ⟨i1.trans (hr.1 hc), ?_⟩
        rw [i2]
        simp
  · intro _
    rw [s_RunTreecode_evaluations_children]
    refine ⟨by simp, ?_⟩
    intro peng
    rw [s_RunTreecode_children]
    simp
  · intro c cs ihc ihcs hr
    rw [ranges_partition_children] at hr
    obtain ⟨c1, c2⟩ := ihc hr.1
    obtain ⟨d1, d2⟩ := ihcs hr.2
    rw [s_RunTreecode_evaluations_children]
    refine ⟨?_, ?_⟩
    · rw [List.flatMap_append, List.flatMap_cons]
      exact c1.append d1
    · intro peng
      rw [s_RunTreecode_children, d2, c2]
      simp only [List.map_append, List.sum_append, add_assoc]

/-- C26 at a concrete input: the tree of `sampleGlobals`, a root over the particles
`0, ..., 3` with the leaves `0, 1` and `2, 3`. -/
theorem s_RunTreecode_partition_witness :
    ranges_partition sampleGlobals.s_tree_root ∧
    ((s_RunTreecode_evaluations Real.sqrt sampleGlobals sampleGlobals.s_tree_root).flatMap
        (fun e => node_range e.2)).Perm (node_range sampleGlobals.s_tree_root.data) := by
  have h : ranges_partition sampleGlobals.s_tree_root := by
    have e : ([TreeLinkedListNode.mk (sampleNodeData 2 0 1) [],
          TreeLinkedListNode.mk (sampleNodeData 2 2 3) []].flatMap
            (fun c => node_range c.data))
        = node_range (sampleNodeData 4 0 3) := by decide
    simp only [sampleGlobals, ranges_partition, ranges_partition_children, e,
      List.length_nil, ne_eq, not_true_eq_false, false_implies, and_true, and_self,
      implies_true, List.Perm.refl]
  exact ⟨h, (s_RunTreecode_partition Real.sqrt Real.exp sampleGlobals
    [1, 2, 3, 4, 5, 6, 7, 8] [0, 0, 0, 0] sampleGlobals.s_tree_root h).1⟩

/-! ## `treecode.c`: the moments that `s_ComputeTreePB` reads -/

/-- The pass `s_ComputeAllMoments(p, 0)`: a property of the nodes that holds once the
moments of a node are computed holds for every node at and below `p` afterwards. -/
theorem s_ComputeAllMoments_every_node {K : Type} [LinearOrderedField K]
    (g : TreecodeGlobals K) (Q R : NodeData K → Prop)
    (h : ∀ p, Q p →
      R (if p.exist_ms = 0 ∧ (0 : Int) = 0 then { s_ComputeMoments g p with exist_ms := 1 }
        else p))
    (t : TreeLinkedListNode K) :
    every_node Q t → every_node R (s_ComputeAllMoments g t 0) := by
  refine @TreeLinkedListNode.rec K
    (fun t => every_node Q t → every_node R (s_ComputeAllMoments g t 0))
    (fun cs => every_node_children Q cs →
      every_node_children R (s_ComputeAllMoments_children g cs))
    ?_ ?_ ?_ t
  · intro p child ih hq
    rw [every_node] at hq
    rw [s_ComputeAllMoments, every_node]
    exact ⟨h p hq.1, ih hq.2⟩
  · intro _
    rw [s_ComputeAllMoments_children, every_node_children]
    trivial
  · intro c cs ihc ihcs hq
    rw [every_node_children] at hq
    rw [s_ComputeAllMoments_children, every_node_children]
    exact ⟨ihc hq.1, ihcs hq.2⟩

/-- Every evaluation of `s_RunTreecode` is on a node of the tree. -/
theorem s_RunTreecode_evaluations_mem {K : Type} [LinearOrderedField K] (sqrt : K → K)
    (g : TreecodeGlobals K) (P : NodeData K → Prop) (t : TreeLinkedListNode K) :
    every_node P t → ∀ e ∈ s_RunTreecode_evaluations sqrt g t, P e.2 := by
  refine @TreeLinkedListNode.rec K
    (fun t => every_node P t → ∀ e ∈ s_RunTreecode_evaluations sqrt g t, P e.2)
    (fun cs => every_node_children P cs →
      ∀ e ∈ s_RunTreecode_evaluations_children sqrt g cs, P e.2)
    ?_ ?_ ?_ t
  · intro p child ih hp e he
    rw [every_node] at hp
    rw [s_RunTreecode_evaluations] at he
    split_ifs at he
    · rw [List.mem_singleton] at he
      rw [he]; exact hp.1
    · rw [List.mem_singleton] at he
      rw [he]; exact hp.1
    · exact ih hp.2 e he
  · intro _ e he
    rw [s_RunTreecode_evaluations_children] at he
    exact absurd he (List.not_mem_nil _)
  · intro c cs ihc ihcs hp e he
    rw [every_node_children] at hp
    rw [s_RunTreecode_evaluations_children, List.mem_append] at he
    rcases he with he | he
    · exact ihc hp.1 e he
    · exact ihcs hp.2 e he

theorem every_node_children_true {K : Type} (cs : List (TreeLinkedListNode K)) :
    every_node_children (fun _ => True) cs := by
  refine @TreeLinkedListNode.rec_1 K (fun t => every_node (fun _ => True) t)
    (fun cs => every_node_children (fun _ => True) cs) ?_ ?_ ?_ cs
  · intro p child ih
    exact ⟨trivial, ih⟩
  · exact trivial
  · intro c cs ihc ihcs
    exact ⟨ihc, ihcs⟩

theorem s_ComputeAllMoments_children_every_node {K : Type} [LinearOrderedField K]
    (g : TreecodeGlobals K) (Q R : NodeData K → Prop)
    (h : ∀ p, Q p →
      R (if p.exist_ms = 0 ∧ (0 : Int) = 0 then { s_ComputeMoments g p with exist_ms := 1 }
        else p))
    (cs : List (TreeLinkedListNode K)) :
    every_node_children Q cs →
    every_node_children R (s_ComputeAllMoments_children g cs) := by
  induction cs with
  | nil => intro _; exact trivial
  | cons c cs ih =>
    intro hq
    exact ⟨s_ComputeAllMoments_every_node g Q R h c hq.1, ih hq.2⟩

theorem s_RunTreecode_evaluations_children_mem {K : Type} [LinearOrderedField K]
    (sqrt : K → K) (g : TreecodeGlobals K) (P : NodeData K → Prop)
    (cs : List (TreeLinkedListNode K)) :
    every_node_children P cs →
    ∀ e ∈ s_RunTreecode_evaluations_children sqrt g cs, P e.2 := by
  induction cs with
  | nil =>
    intro _ e he
    exact absurd he (List.not_mem_nil _)
  | cons c cs ih =>
    intro hp e he
    have he1 : e ∈ s_RunTreecode_evaluations sqrt g c
        ++ s_RunTreecode_evaluations_children sqrt g cs := he
    rw [List.mem_append] at he1
    rcases he1 with he1 | he1
    · exact s_RunTreecode_evaluations_mem sqrt g P c hp.1 e he1
    · exact ih hp.2 e he1

/-- C27: `s_ComputeTreePB` only reads moments that have been computed.  The call
`s_ComputeAllMoments(root, 1)` leaves the root as it is and computes the moments of every
other node (every node below the root has `exist_ms ≠ 0` afterwards, and on a tree
without moments each holds the result of `s_ComputeMoments`); and `s_RunTreecode` never
takes the cluster branch on the root when `theta ≤ 1` and the distance of the target to
the centre of the root is at most the radius of the root, so every node on which it calls
`s_ComputeTreePB` lies below the root.  The distance is at most the radius for every
target inside the box of the root, when the centre is the midpoint of the box and the
radius its half-diagonal.  `sqrt` is a square root on the non-negative numbers. -/
theorem s_ComputeTreePB_reads_computed_moments {K : Type} [LinearOrderedField K]
    (sqrt : K → K) (hsqrt : ∀ s, 0 ≤ s → 0 ≤ sqrt s ∧ sqrt s * sqrt s = s)
    (g0 g : TreecodeGlobals K) (p : NodeData K) (child : List (TreeLinkedListNode K))
    (htheta : g.theta ≤ 1) :
    s_ComputeAllMoments g0 (.mk p child) 1 = .mk p (s_ComputeAllMoments_children g0 child) ∧
    every_node_children (fun d => d.exist_ms ≠ 0) (s_ComputeAllMoments_children g0 child) ∧
    (every_node_children (fun d => d.exist_ms = 0) child →
      every_node_children
        (fun d => ∃ p0, d = { s_ComputeMoments g0 p0 with exist_ms := 1 })
        (s_ComputeAllMoments_children g0 child)) ∧
    (sqrt ((p.x_mid - rd g.s_target_position 0) * (p.x_mid - rd g.s_target_position 0)
        + (p.y_mid - rd g.s_target_position 1) * (p.y_mid - rd g.s_target_position 1)
        + (p.z_mid - rd g.s_target_position 2) * (p.z_mid - rd g.s_target_position 2))
        ≤ p.radius →
      (∀ (exp : K → K) (tpoten_old tempq : List K),
        s_RunTreecode sqrt exp g tpoten_old tempq (s_ComputeAllMoments g0 (.mk p child) 1)
          = if (s_ComputeAllMoments_children g0 child).length = 0 then
              s_ComputeDirectPB sqrt exp g p.ibeg p.iend tpoten_old
            else s_RunTreecode_children sqrt exp g tpoten_old tempq
              (s_ComputeAllMoments_children g0 child) (0, 0)) ∧
      ∀ e ∈ s_RunTreecode_evaluations sqrt g (s_ComputeAllMoments g0 (.mk p child) 1),
        e.1 = true → e.2.exist_ms ≠ 0) ∧
    (p.x_min ≤ rd g.s_target_position 0 → rd g.s_target_position 0 ≤ p.x_max →
      p.y_min ≤ rd g.s_target_position 1 → rd g.s_target_position 1 ≤ p.y_max →
      p.z_min ≤ rd g.s_target_position 2 → rd g.s_target_position 2 ≤ p.z_max →
      p.x_mid = (p.x_min + p.x_max) / 2 → p.y_mid = (p.y_min + p.y_max) / 2 →
      p.z_mid = (p.z_min + p.z_max) / 2 →
      p.radius = 1 / 2 * sqrt ((p.x_max - p.x_min) * (p.x_max - p.x_min)
        + (p.y_max - p.y_min) * (p.y_max - p.y_min)
        + (p.z_max - p.z_min) * (p.z_max - p.z_min)) →
      sqrt ((p.x_mid - rd g.s_target_position 0) * (p.x_mid - rd g.s_target_position 0)
        + (p.y_mid - rd g.s_target_position 1) * (p.y_mid - rd g.s_target_position 1)
        + (p.z_mid - rd g.s_target_position 2) * (p.z_mid - rd g.s_target_position 2))
        ≤ p.radius) := by
  have nn : ∀ x y z : K, 0 ≤ x * x + y * y + z * z := fun x y z =>
    add_nonneg (add_nonneg (mul_self_nonneg _) (mul_self_nonneg _)) (mul_self_nonneg _)
  have hroot : s_ComputeAllMoments g0 (.mk p child) 1
      = .mk p (s_ComputeAllMoments_children g0 child) := by
    rw [s_ComputeAllMoments]
    have c : ¬ (p.exist_ms = 0 ∧ (1 : Int) = 0) := fun h => absurd h.2 (by decide)
    rw [if_neg c]
  have hflag := s_ComputeAllMoments_children_every_node g0 (fun _ => True)
    (fun d => d.exist_ms ≠ 0)
    (fun q _ => by
      by_cases c : q.exist_ms = 0 ∧ (0 : Int) = 0
      · rw [if_pos c]; exact one_ne_zero
      · rw [if_neg c]; exact fun h => c ⟨h, rfl⟩)
    child (every_node_children_true child)
  refine ⟨hroot, hflag, ?_, ?_, ?_⟩
  · exact s_ComputeAllMoments_children_every_node g0 (fun d => d.exist_ms = 0)
      (fun d => ∃ p0, d = { s_ComputeMoments g0 p0 with exist_ms := 1 })
      (fun q hq => by rw [if_pos ⟨hq, rfl⟩]; exact ⟨q, rfl⟩) child
  · intro hdist
    have hd0 := (hsqrt _ (nn (p.x_mid - rd g.s_target_position 0)
      (p.y_mid - rd g.s_target_position 1) (p.z_mid - rd g.s_target_position 2))).1
    have hmac : ¬ (p.radius < sqrt ((p.x_mid - rd g.s_target_position 0)
          * (p.x_mid - rd g.s_target_position 0)
        + (p.y_mid - rd g.s_target_position 1) * (p.y_mid - rd g.s_target_position 1)
        + (p.z_mid - rd g.s_target_position 2) * (p.z_mid - rd g.s_target_position 2))
        * g.theta ∧ p.numpar > 40) := by
      intro h
      have h1 := mul_le_mul_of_nonneg_left htheta hd0
      rw [mul_one] at h1
      exact absurd (lt_of_lt_of_le h.1 (le_trans h1 hdist)) (lt_irrefl _)
    rw [hroot]
    refine ⟨?_, ?_⟩
    · intro exp tpoten_old tempq
      rw [s_RunTreecode, if_neg hmac]
    · intro e he h1
      rw [s_RunTreecode_evaluations, if_neg hmac] at he
      split_ifs at he
      · rw [List.mem_singleton] at he
        rw [he] at h1
        exact absurd h1 (by simp)
      · exact s_RunTreecode_evaluations_children_mem sqrt g _ _ hflag e he
  · intro x0 x1 y0 y1 z0 z1 mx my mz hr
    obtain ⟨a1, a2⟩ := hsqrt _ (nn (p.x_mid - rd g.s_target_position 0)
      (p.y_mid - rd g.s_target_position 1) (p.z_mid - rd g.s_target_position 2))
    obtain ⟨b1, b2⟩ := hsqrt _ (nn (p.x_max - p.x_min) (p.y_max - p.y_min)
      (p.z_max - p.z_min))
    rw [hr]
    have hb : 0 ≤ 1 / 2 * sqrt ((p.x_max - p.x_min) * (p.x_max - p.x_min)
        + (p.y_max - p.y_min) * (p.y_max - p.y_min)
        + (p.z_max - p.z_min) * (p.z_max - p.z_min)) := mul_nonneg (by norm_num) b1
    apply (mul_self_le_mul_self_iff a1 hb).mpr
    rw [a2, mx, my, mz]
    have e : 1 / 2 * sqrt ((p.x_max - p.x_min) * (p.x_max - p.x_min)
          + (p.y_max - p.y_min) * (p.y_max - p.y_min)
          + (p.z_max - p.z_min) * (p.z_max - p.z_min))
        * (1 / 2 * sqrt ((p.x_max - p.x_min) * (p.x_max - p.x_min)
          + (p.y_max - p.y_min) * (p.y_max - p.y_min)
          + (p.z_max - p.z_min) * (p.z_max - p.z_min)))
        = 1 / 4 * ((p.x_max - p.x_min) * (p.x_max - p.x_min)
          + (p.y_max - p.y_min) * (p.y_max - p.y_min)
          + (p.z_max - p.z_min) * (p.z_max - p.z_min)) := by
      linear_combination (1 / 4 : K) * b2
    rw [e]
    have hx := mul_nonneg (sub_nonneg.mpr x0) (sub_nonneg.mpr x1)
    have hy := mul_nonneg (sub_nonneg.mpr y0) (sub_nonneg.mpr y1)
    have hz := mul_nonneg (sub_nonneg.mpr z0) (sub_nonneg.mpr z1)
    linarith

/-- C27 at a concrete input: the tree of `sampleGlobals`, over the reals. -/
theorem s_ComputeTreePB_reads_computed_moments_witness :
    (∀ s : ℝ, 0 ≤ s → 0 ≤ Real.sqrt s ∧ Real.sqrt s * Real.sqrt s = s) ∧
    sampleGlobals.theta ≤ 1 ∧
    every_node_children (fun d => d.exist_ms ≠ 0)
      (s_ComputeAllMoments_children sampleGlobals
        [TreeLinkedListNode.mk (sampleNodeData 2 0 1) [],
         TreeLinkedListNode.mk (sampleNodeData 2 2 3) []]) :=
  ⟨fun s hs => ⟨Real.sqrt_nonneg s, Real.mul_self_sqrt hs⟩,
    by norm_num [sampleGlobals],
    (s_ComputeTreePB_reads_computed_moments Real.sqrt
      (fun s hs => ⟨Real.sqrt_nonneg s, Real.mul_self_sqrt hs⟩) sampleGlobals sampleGlobals
      (sampleNodeData 4 0 3) _ (by norm_num [sampleGlobals])).2.1⟩

/-! ## `treecode.c`: what `matvec` leaves unchanged -/

/-- The body of the loop of `matvec` restores the position and the area that it changes
for the target: the geometry after the body is the geometry before it. -/
theorem matvec_body_geometry {K : Type} [LinearOrderedField K] (sqrt exp : K → K)
    (a : K) (x : List K) (b : K) (t : List K) (c1 c2 : K)
    (ii : Nat) (st : TreecodeGlobals K × List K) :
    (matvec_body sqrt exp a x b t c1 c2 ii st).1.s_particle_position_x
        = st.1.s_particle_position_x ∧
    (matvec_body sqrt exp a x b t c1 c2 ii st).1.s_particle_position_y
        = st.1.s_particle_position_y ∧
    (matvec_body sqrt exp a x b t c1 c2 ii st).1.s_particle_position_z
        = st.1.s_particle_position_z ∧
    (matvec_body sqrt exp a x b t c1 c2 ii st).1.s_particle_normal_x
        = st.1.s_particle_normal_x ∧
    (matvec_body sqrt exp a x b t c1 c2 ii st).1.s_particle_normal_y
        = st.1.s_particle_normal_y ∧
    (matvec_body sqrt exp a x b t c1 c2 ii st).1.s_particle_normal_z
        = st.1.s_particle_normal_z ∧
    (matvec_body sqrt exp a x b t c1 c2 ii st).1.s_particle_area
        = st.1.s_particle_area := by
  unfold matvec_body
  simp only [Nat.mul_one, Nat.add_zero]
  by_cases h : ii < st.1.s_numpars
  · simp only [if_pos h, set_restore]
    exact ⟨trivial, trivial, trivial, trivial, trivial, trivial, trivial⟩
  · simp only [if_neg h]
    exact ⟨trivial, trivial, trivial, trivial, trivial, trivial, trivial⟩

/-- C29: the C `matvec` leaves the geometry unchanged.  Although it shifts
`s_particle_position_x[i]` by `100.123456789` and zeroes `s_particle_area[i]` for each
target `i`, on return every particle position, every normal and every area equals its
value on entry, for every `alpha`, `beta`, `tpoten_old`, `tpoten` and every tree.  The
input vector `tpoten_old` is an argument that `matvec` and the functions it calls only
read: the embedding has no write to it. -/
theorem matvec_geometry_unchanged {K : Type} [LinearOrderedField K] (sqrt exp : K → K)
    (g : TreecodeGlobals K) (alpha : K) (tpoten_old : List K) (beta : K)
    (tpoten : List K) :
    (matvec sqrt exp g alpha tpoten_old beta tpoten).1.s_particle_position_x
      = g.s_particle_position_x ∧
    (matvec sqrt exp g alpha tpoten_old beta tpoten).1.s_particle_position_y
      = g.s_particle_position_y ∧
    (matvec sqrt exp g alpha tpoten_old beta tpoten).1.s_particle_position_z
      = g.s_particle_position_z ∧
    (matvec sqrt exp g alpha tpoten_old beta tpoten).1.s_particle_normal_x
      = g.s_particle_normal_x ∧
    (matvec sqrt exp g alpha tpoten_old beta tpoten).1.s_particle_normal_y
      = g.s_particle_normal_y ∧
    (matvec sqrt exp g alpha tpoten_old beta tpoten).1.s_particle_normal_z
      = g.s_particle_normal_z ∧
    (matvec sqrt exp g alpha tpoten_old beta tpoten).1.s_particle_area
      = g.s_particle_area := by
  obtain ⟨tc, sc, hk⟩ := s_ComputePBKernel_frame g tpoten_old
  unfold matvec
  simp only [hk]
  exact forLoop_invariant
    (fun st : TreecodeGlobals K × List K =>
      st.1.s_particle_position_x = g.s_particle_position_x ∧
      st.1.s_particle_position_y = g.s_particle_position_y ∧
      st.1.s_particle_position_z = g.s_particle_position_z ∧
      st.1.s_particle_normal_x = g.s_particle_normal_x ∧
      st.1.s_particle_normal_y = g.s_particle_normal_y ∧
      st.1.s_particle_normal_z = g.s_particle_normal_z ∧
      st.1.s_particle_area = g.s_particle_area)
    _
    (fun i st hs => by
      obtain ⟨b1, b2, b3, b4, b5, b6, b7⟩ := matvec_body_geometry sqrt exp alpha tpoten_old
        beta (tpoten.take (2 * g.s_numpars)) (1 / 2 * (1 + g.s_eps))
        (1 / 2 * (1 + 1 / g.s_eps)) i st
      obtain ⟨h1, h2, h3, h4, h5, h6, h7⟩ := hs
      exact ⟨b1.trans h1, b2.trans h2, b3.trans h3, b4.trans h4, b5.trans h5, b6.trans h6,
        b7.trans h7⟩)
    _ _ _ ⟨rfl, rfl, rfl, rfl, rfl, rfl, rfl⟩

/-! ## `particles.cpp`: the element accesses of `apply_order` -/

/-- C30: on a value array that holds exactly `n` elements from `v_begin` on, `n` the
length of the permutation, `apply_order` reads the element at index `v_begin + n`, one
past the end of the array: the copy `tmp(v_begin, v_end)` takes `n + 1` elements.  Every
other access, and every write, is inside the array.  In `Particles::reorder` this is the
case of `nx_` (and likewise `ny_`, `nz_`, `area_`), read at index `num_`, and of the
second half of `source_term_`, read at index `2 * num_`. -/
theorem apply_order_reads_past_end {K : Type} (order : List Nat) (v : List K)
    (v_begin : Nat) (hlen : v.length = v_begin + order.length) :
    v_begin + order.length ∈ apply_order_reads order v_begin ∧
    ¬ v_begin + order.length < v.length ∧
    (∀ idx ∈ apply_order_reads order v_begin, idx ≠ v_begin + order.length →
      idx < v.length) ∧
    (∀ idx ∈ apply_order_writes order v_begin, idx < v.length) := by
  unfold apply_order_reads apply_order_writes
  refine ⟨?_, by omega, ?_, ?_⟩
  · rw [List.mem_range'_1]; omega
  · intro idx h hne
    rw [List.mem_range'_1] at h; omega
  · intro idx h
    rw [List.mem_range'_1] at h; omega

/-- C30 at a concrete input: `Particles::reorder` on three particles reads `nx_[3]` and
`source_term_[6]`. -/
theorem apply_order_reads_past_end_witness :
    sampleParticles.nx_.length = 0 + sampleParticles.order_.length ∧
    sampleParticles.source_term_.length
      = sampleParticles.num_ + sampleParticles.order_.length ∧
    3 ∈ apply_order_reads sampleParticles.order_ 0 ∧ ¬ 3 < sampleParticles.nx_.length ∧
    6 ∈ apply_order_reads sampleParticles.order_ sampleParticles.num_ ∧
    ¬ 6 < sampleParticles.source_term_.length :=
  ⟨rfl, rfl,
    (apply_order_reads_past_end sampleParticles.order_ sampleParticles.nx_ 0 rfl).1,
    (apply_order_reads_past_end sampleParticles.order_ sampleParticles.nx_ 0 rfl).2.1,
    (apply_order_reads_past_end sampleParticles.order_ sampleParticles.source_term_
      sampleParticles.num_ rfl).1,
    (apply_order_reads_past_end sampleParticles.order_ sampleParticles.source_term_
      sampleParticles.num_ rfl).2.1⟩

/-! ## `gmres.cpp`: the Gram-Schmidt step `basis_` -/

/-- A loop that adds a term per index computes the sum of the terms. -/
theorem forLoop_sum {K : Type} [AddCommMonoid K] (f : Nat → K) (n : Nat) (s : K) :
    forLoop 0 n (fun idx acc => acc + f idx) s = s + ∑ idx in Finset.range n, f idx := by
  exact forLoop_induct (fun k (acc : K) => acc = s + ∑ idx in Finset.range k, f idx)
    _ 0 n (Nat.zero_le _) s (by simp)
    (fun k acc _ _ h => by
      have h2 : acc = s + ∑ idx in Finset.range k, f idx := h
      show acc + f k = s + ∑ idx in Finset.range (k + 1), f idx
      rw [h2, Finset.sum_range_succ, add_assoc])

/-- A loop that updates the entries `off, ..., off + n - 1` of an array, each from its
index and its old value. -/
theorem offset_update_spec {K : Type} [Zero K] (g : Nat → K → K) (off n : Nat)
    (a : List K) (hlen : off + n ≤ a.length) :
    (forLoop 0 n (fun idx c => c.set (off + idx) (g idx (rd c (off + idx)))) a).length
      = a.length ∧
    ∀ v, rd (forLoop 0 n (fun idx c => c.set (off + idx) (g idx (rd c (off + idx)))) a) v
      = if off ≤ v ∧ v < off + n then g (v - off) (rd a v) else rd a v := by
  have h := forLoop_induct
    (fun k (c : List K) => c.length = a.length ∧
      ∀ v, rd c v = if off ≤ v ∧ v < off + k then g (v - off) (rd a v) else rd a v)
    (fun idx c => c.set (off + idx) (g idx (rd c (off + idx)))) 0 n (Nat.zero_le _) a
    ⟨rfl, fun v => by
      have c : ¬ (off ≤ v ∧ v < off + 0) := by omega
      rw [if_neg c]⟩
    (by
      intro k c _ hk ⟨p1, p2⟩
      refine ⟨by rw [List.length_set]; exact p1, ?_⟩
      intro v
      have c0 : ¬ (off ≤ off + k ∧ off + k < off + k) := by omega
      by_cases e : off + k = v
      · have c1 : off ≤ v ∧ v < off + (k + 1) := by omega
        have e2 : v - off = k := by omega
        rw [rd_set _ _ _ _ (by omega), if_pos e, if_pos c1, p2 (off + k), if_neg c0, e2, e]
      · rw [rd_set_ne _ _ _ _ e, p2 v]
        by_cases c1 : off ≤ v ∧ v < off + k
        · have c2 : off ≤ v ∧ v < off + (k + 1) := by omega
          rw [if_pos c1, if_pos c2]
        · have c2 : ¬ (off ≤ v ∧ v < off + (k + 1)) := by omega
          rw [if_neg c1, if_neg c2])
  exact h

theorem ddot_spec {K : Type} [Field K] (n : Nat) (a : List K) (x : Nat) (b : List K)
    (y : Nat) :
    ddot_ n a x b y = ∑ idx in Finset.range n, rd a (x + idx) * rd b (y + idx) := by
  unfold ddot_
  rw [Int.toNat_ofNat, forLoop_sum, zero_add]

theorem dnrm2_spec {K : Type} [Field K] (sqrt : K → K) (n : Nat) (a : List K) (x : Nat) :
    dnrm2_ sqrt n a x = sqrt (∑ idx in Finset.range n, rd a (x + idx) * rd a (x + idx)) := by
  unfold dnrm2_
  rw [Int.toNat_ofNat, forLoop_sum, zero_add]

theorem daxpy_spec {K : Type} [Field K] (n : Nat) (alpha : K) (a : List K) (x : Nat)
    (b : List K) (y : Nat) (hlen : y + n ≤ b.length) :
    (daxpy_ n alpha a x b y).length = b.length ∧
    ∀ v, rd (daxpy_ n alpha a x b y) v
      = if y ≤ v ∧ v < y + n then rd b v + alpha * rd a (x + (v - y)) else rd b v := by
  unfold daxpy_
  rw [Int.toNat_ofNat]
  exact offset_update_spec (fun idx old => old + alpha * rd a (x + idx)) y n b hlen

theorem dscal_spec {K : Type} [Field K] (n : Nat) (alpha : K) (a : List K) (x : Nat)
    (hlen : x + n ≤ a.length) :
    (dscal_ n alpha a x).length = a.length ∧
    ∀ v, rd (dscal_ n alpha a x) v
      = if x ≤ v ∧ v < x + n then rd a v * alpha else rd a v := by
  unfold dscal_
  rw [Int.toNat_ofNat]
  exact offset_update_spec (fun _ old => old * alpha) x n a hlen

/-- The Gram-Schmidt loop of `basis_`: after `i` steps the remainder `w` plus the
projections onto the first `i` columns is the input vector, and the remainder is
orthogonal to these columns. -/
theorem basis_loop_spec {K : Type} [Field K] (i n : Nat) (h v : List K) (ldv : Nat)
    (w : List K) (hi : i ≤ h.length) (hn : n ≤ w.length)
    (horth : ∀ k, k < i → ∀ l, l < i →
      ∑ idx in Finset.range n, rd v (k * ldv + idx) * rd v (l * ldv + idx)
        = if k = l then 1 else 0) :
    (forLoop 0 i (fun k (st : List K × List K) =>
      let h := st.1.set k (ddot_ n st.2 0 v (k * ldv))
      (h, daxpy_ n (-(rd h k)) v (k * ldv) st.2 0)) (h, w)).1.length = h.length ∧
    (forLoop 0 i (fun k (st : List K × List K) =>
      let h := st.1.set k (ddot_ n st.2 0 v (k * ldv))
      (h, daxpy_ n (-(rd h k)) v (k * ldv) st.2 0)) (h, w)).2.length = w.length ∧
    (∀ idx, idx < n → rd w idx
      = rd (forLoop 0 i (fun k (st : List K × List K) =>
          let h := st.1.set k (ddot_ n st.2 0 v (k * ldv))
          (h, daxpy_ n (-(rd h k)) v (k * ldv) st.2 0)) (h, w)).2 idx
        + ∑ m in Finset.range i,
          rd (forLoop 0 i (fun k (st : List K × List K) =>
            let h := st.1.set k (ddot_ n st.2 0 v (k * ldv))
            (h, daxpy_ n (-(rd h k)) v (k * ldv) st.2 0)) (h, w)).1 m
            * rd v (m * ldv + idx)) ∧
    ∀ m, m < i → ∑ idx in Finset.range n,
      rd (forLoop 0 i (fun k (st : List K × List K) =>
        let h := st.1.set k (ddot_ n st.2 0 v (k * ldv))
        (h, daxpy_ n (-(rd h k)) v (k * ldv) st.2 0)) (h, w)).2 idx
        * rd v (m * ldv + idx) = 0 := by
  refine forLoop_induct
    (fun k (st : List K × List K) => st.1.length = h.length ∧ st.2.length = w.length ∧
      (∀ idx, idx < n → rd w idx
        = rd st.2 idx + ∑ m in Finset.range k, rd st.1 m * rd v (m * ldv + idx)) ∧
      ∀ m, m < k → ∑ idx in Finset.range n, rd st.2 idx * rd v (m * ldv + idx) = 0)
    _ 0 i (Nat.zero_le _) (h, w) ⟨rfl, rfl, fun idx _ => by simp, fun m hm => by omega⟩ ?_
  intro k s _ hk ⟨p1, p2, p3, p4⟩
  have hd := ddot_spec n s.2 0 v (k * ldv)
  have hset : rd (s.1.set k (ddot_ n s.2 0 v (k * ldv))) k = ddot_ n s.2 0 v (k * ldv) := by
    rw [rd_set _ _ _ _ (by omega), if_pos rfl]
  have ha := daxpy_spec n (-(ddot_ n s.2 0 v (k * ldv))) v (k * ldv) s.2 0 (by omega)
  have hw : ∀ idx, idx < n →
      rd (daxpy_ n (-(ddot_ n s.2 0 v (k * ldv))) v (k * ldv) s.2 0) idx
        = rd s.2 idx + -(ddot_ n s.2 0 v (k * ldv)) * rd v (k * ldv + idx) := by
    intro idx hidx
    have c : 0 ≤ idx ∧ idx < 0 + n := by omega
    rw [ha.2 idx, if_pos c, Nat.sub_zero]
  have hdd : ddot_ n s.2 0 v (k * ldv)
      = ∑ idx in Finset.range n, rd s.2 idx * rd v (k * ldv + idx) := by
    rw [hd]
    exact Finset.sum_congr rfl (fun idx _ => by rw [Nat.zero_add])
  show (s.1.set k (ddot_ n s.2 0 v (k * ldv))).length = h.length ∧
    (daxpy_ n (-(rd (s.1.set k (ddot_ n s.2 0 v (k * ldv))) k)) v (k * ldv) s.2 0).length
      = w.length ∧
    (∀ idx, idx < n → rd w idx
      = rd (daxpy_ n (-(rd (s.1.set k (ddot_ n s.2 0 v (k * ldv))) k)) v (k * ldv) s.2 0) idx
        + ∑ m in Finset.range (k + 1),
          rd (s.1.set k (ddot_ n s.2 0 v (k * ldv))) m * rd v (m * ldv + idx)) ∧
    ∀ m, m < k + 1 → ∑ idx in Finset.range n,
      rd (daxpy_ n (-(rd (s.1.set k (ddot_ n s.2 0 v (k * ldv))) k)) v (k * ldv) s.2 0) idx
        * rd v (m * ldv + idx) = 0
  rw [hset]
  refine ⟨by rw [List.length_set]; exact p1, by rw [ha.1]; exact p2, ?_, ?_⟩
  · intro idx hidx
    rw [hw idx hidx, Finset.sum_range_succ, hset, p3 idx hidx]
    have e : ∑ m in Finset.range k,
        rd (s.1.set k (ddot_ n s.2 0 v (k * ldv))) m * rd v (m * ldv + idx)
        = ∑ m in Finset.range k, rd s.1 m * rd v (m * ldv + idx) := by
      refine Finset.sum_congr rfl (fun m hm => ?_)
      have hm2 : k ≠ m := by
        have := Finset.mem_range.mp hm
        omega
      rw [rd_set_ne _ _ _ _ hm2]
    rw [e]
    ring
  · intro m hm
    have e : ∑ idx in Finset.range n,
        rd (daxpy_ n (-(ddot_ n s.2 0 v (k * ldv))) v (k * ldv) s.2 0) idx
          * rd v (m * ldv + idx)
        = ∑ idx in Finset.range n, rd s.2 idx * rd v (m * ldv + idx)
          - ddot_ n s.2 0 v (k * ldv)
            * ∑ idx in Finset.range n, rd v (k * ldv + idx) * rd v (m * ldv + idx) := by
      rw [Finset.mul_sum, ← Finset.sum_sub_distrib]
      refine Finset.sum_congr rfl (fun idx hidx => ?_)
      rw [hw idx (Finset.mem_range.mp hidx)]
      ring
    rw [e, horth k hk m (by omega)]
    by_cases c : m = k
    · subst c
      rw [if_pos rfl, ← hdd]
      ring
    · have c2 : ¬ k = m := fun x => c x.symm
      rw [if_neg c2, p4 m (by omega)]
      ring

/-- Claim C24: if the first `i` columns of `V` are orthonormal and the computed `h[i]` is
not zero, then after `basis_(i, n, h, v, ldv, w)` the columns before `i` are as they
were, the new column `v_i` has unit norm and is orthogonal to every `v_k` with `k < i`,
and the input vector is `sum over k <= i of h[k] * v_k` (the Arnoldi relation).  The
columns are `n` long with stride `ldv >= n`, and `sqrt` is a square root on the
non-negative numbers of an ordered field. -/
theorem basis_orthonormal {K : Type} [LinearOrderedField K] (sqrt : K → K)
    (hsqrt : ∀ s : K, 0 ≤ s → sqrt s * sqrt s = s)
    (i n : Nat) (h v : List K) (ldv : Nat) (w : List K)
    (hi : i < h.length) (hn : n ≤ w.length) (hv : i * ldv + n ≤ v.length) (hld : n ≤ ldv)
    (horth : ∀ k, k < i → ∀ l, l < i →
      ∑ idx in Finset.range n, rd v (k * ldv + idx) * rd v (l * ldv + idx)
        = if k = l then 1 else 0)
    (hne : rd (basis_ sqrt i n h v ldv w).1 i ≠ 0) :
    (∀ k, k < i → ∀ idx, idx < n →
      rd (basis_ sqrt i n h v ldv w).2.1 (k * ldv + idx) = rd v (k * ldv + idx)) ∧
    ∑ idx in Finset.range n, rd (basis_ sqrt i n h v ldv w).2.1 (i * ldv + idx)
      * rd (basis_ sqrt i n h v ldv w).2.1 (i * ldv + idx) = 1 ∧
    (∀ k, k < i → ∑ idx in Finset.range n,
      rd (basis_ sqrt i n h v ldv w).2.1 (i * ldv + idx)
        * rd (basis_ sqrt i n h v ldv w).2.1 (k * ldv + idx) = 0) ∧
    ∀ idx, idx < n → rd w idx = ∑ k in Finset.range (i + 1),
      rd (basis_ sqrt i n h v ldv w).1 k * rd (basis_ sqrt i n h v ldv w).2.1 (k * ldv + idx) := by
  obtain ⟨q1, q2, q3, q4⟩ := basis_loop_spec i n h v ldv w (by omega) hn horth
  unfold basis_ at hne ⊢
  simp only [] at hne ⊢
  generalize forLoop 0 i (fun k (st : List K × List K) =>
      let h := st.1.set k (ddot_ n st.2 0 v (k * ldv))
      (h, daxpy_ n (-(rd h k)) v (k * ldv) st.2 0)) (h, w) = st at q1 q2 q3 q4 hne ⊢
  obtain ⟨hh, ww⟩ := st
  simp only at q1 q2 q3 q4 hne ⊢
  have hset : rd (hh.set i (dnrm2_ sqrt n ww 0)) i = dnrm2_ sqrt n ww 0 := by
    rw [rd_set _ _ _ _ (by omega), if_pos rfl]
  rw [hset] at hne ⊢
  have hN : dnrm2_ sqrt n ww 0 * dnrm2_ sqrt n ww 0
      = ∑ idx in Finset.range n, rd ww idx * rd ww idx := by
    rw [dnrm2_spec]
    have e : ∑ idx in Finset.range n, rd ww (0 + idx) * rd ww (0 + idx)
        = ∑ idx in Finset.range n, rd ww idx * rd ww idx :=
      Finset.sum_congr rfl (fun idx _ => by rw [Nat.zero_add])
    rw [e]
    exact hsqrt _ (Finset.sum_nonneg (fun idx _ => mul_self_nonneg _))
  generalize dnrm2_ sqrt n ww 0 = N at hne hN hset ⊢
  have hc := offset_update_spec (fun idx (_ : K) => rd ww idx) (i * ldv) n v hv
  have hs := dscal_spec n (1 / N)
    (forLoop 0 n (fun idx v => v.set (i * ldv + idx) (rd ww idx)) v) (i * ldv)
    (by rw [hc.1]; exact hv)
  have hA : ∀ idx, idx < n → rd (dscal_ n (1 / N)
      (forLoop 0 n (fun idx v => v.set (i * ldv + idx) (rd ww idx)) v) (i * ldv))
        (i * ldv + idx) = rd ww idx * (1 / N) := by
    intro idx hidx
    have c : i * ldv ≤ i * ldv + idx ∧ i * ldv + idx < i * ldv + n := by omega
    have e : i * ldv + idx - i * ldv = idx := by omega
    rw [hs.2, if_pos c, hc.2, if_pos c, e]
  have hB : ∀ k, k < i → ∀ idx, idx < n → rd (dscal_ n (1 / N)
      (forLoop 0 n (fun idx v => v.set (i * ldv + idx) (rd ww idx)) v) (i * ldv))
        (k * ldv + idx) = rd v (k * ldv + idx) := by
    intro k hk idx hidx
    have hkl : (k + 1) * ldv ≤ i * ldv := Nat.mul_le_mul_right ldv hk
    rw [Nat.add_mul, Nat.one_mul] at hkl
    have c : ¬ (i * ldv ≤ k * ldv + idx ∧ k * ldv + idx < i * ldv + n) := by omega
    rw [hs.2, if_neg c, hc.2, if_neg c]
  have hNi : N * (1 / N) = 1 := by field_simp
  refine ⟨hB, ?_, ?_, ?_⟩
  · have e : ∑ idx in Finset.range n, rd (dscal_ n (1 / N)
        (forLoop 0 n (fun idx v => v.set (i * ldv + idx) (rd ww idx)) v) (i * ldv))
          (i * ldv + idx) * rd (dscal_ n (1 / N)
        (forLoop 0 n (fun idx v => v.set (i * ldv + idx) (rd ww idx)) v) (i * ldv))
          (i * ldv + idx)
        = (1 / N) * (1 / N) * ∑ idx in Finset.range n, rd ww idx * rd ww idx := by
      rw [Finset.mul_sum]
      refine Finset.sum_congr rfl (fun idx hidx => ?_)
      rw [hA idx (Finset.mem_range.mp hidx)]
      ring
    rw [e, ← hN]
    linear_combination (N * (1 / N) + 1) * hNi
  · intro k hk
    have e : ∑ idx in Finset.range n, rd (dscal_ n (1 / N)
        (forLoop 0 n (fun idx v => v.set (i * ldv + idx) (rd ww idx)) v) (i * ldv))
          (i * ldv + idx) * rd (dscal_ n (1 / N)
        (forLoop 0 n (fun idx v => v.set (i * ldv + idx) (rd ww idx)) v) (i * ldv))
          (k * ldv + idx)
        = (1 / N) * ∑ idx in Finset.range n, rd ww idx * rd v (k * ldv + idx) := by
      rw [Finset.mul_sum]
      refine Finset.sum_congr rfl (fun idx hidx => ?_)
      rw [hA idx (Finset.mem_range.mp hidx), hB k hk idx (Finset.mem_range.mp hidx)]
      ring
    rw [e, q4 k hk, mul_zero]
  · intro idx hidx
    rw [Finset.sum_range_succ, hset, hA idx hidx, q3 idx hidx]
    have e : ∑ k in Finset.range i, rd (hh.set i N) k * rd (dscal_ n (1 / N)
        (forLoop 0 n (fun idx v => v.set (i * ldv + idx) (rd ww idx)) v) (i * ldv))
          (k * ldv + idx)
        = ∑ k in Finset.range i, rd hh k * rd v (k * ldv + idx) := by
      refine Finset.sum_congr rfl (fun k hk => ?_)
      have hk2 := Finset.mem_range.mp hk
      have hk3 : i ≠ k := by omega
      rw [rd_set_ne _ _ _ _ hk3, hB k hk2 idx hidx]
    rw [e]
    linear_combination (- rd ww idx) * hNi

/-- C24 at a concrete input over the reals: `V` has the one column `(1, 0)`, the input
vector is `(3, 4)`; the computed `h[1]` is not zero and the new column has unit norm. -/
theorem basis_orthonormal_witness :
    rd (basis_ Real.sqrt 1 2 [0, 0] [1, 0, 0, 0] 2 [3, 4]).1 1 ≠ 0 ∧
    ∑ idx in Finset.range 2,
      rd (basis_ Real.sqrt 1 2 [0, 0] [1, 0, 0, 0] 2 [3, 4]).2.1 (1 * 2 + idx)
        * rd (basis_ Real.sqrt 1 2 [0, 0] [1, 0, 0, 0] 2 [3, 4]).2.1 (1 * 2 + idx) = 1 :=
  have hne : rd (basis_ Real.sqrt 1 2 [0, 0] [1, 0, 0, 0] 2 [3, 4]).1 1 ≠ 0 := by
    norm_num [basis_, forLoop, List.range', ddot_, daxpy_, dnrm2_, rd]
  ⟨hne, (basis_orthonormal Real.sqrt (fun s hs => Real.mul_self_sqrt hs) 1 2 [0, 0]
    [1, 0, 0, 0] 2 [3, 4] (by decide) (by decide) (by decide) (by decide)
    (by
      intro k hk l hl
      have hk0 : k = 0 := by omega
      have hl0 : l = 0 := by omega
      subst hk0
      subst hl0
      norm_num [Finset.sum_range_succ, rd])
    hne).2.1⟩

/-! ## `treecode.c`: the modified charges of `s_ComputeMoments` -/

theorem s_ComputeMoments_ms {K : Type} [LinearOrderedField K] (g : TreecodeGlobals K)
    (p : NodeData K) :
    (s_ComputeMoments g p).ms
      = forLoopInt 0 p.numpar (s_ComputeMoments_particle g p (s_ComputeMoments g p).tx
          (s_ComputeMoments g p).ty (s_ComputeMoments g p).tz)
          (List.replicate 4 (List.replicate g.s_torder3 0)) := rfl

theorem forLoopInt_zero {σ : Type} (hi : Int) (body : Int → σ → σ) (s : σ) :
    forLoopInt 0 hi body s = forLoop 0 hi.toNat (fun i s => body (i : Int) s) s := by
  unfold forLoopInt intRange forLoop
  rw [sub_zero, Nat.sub_zero, List.range_eq_range']
  generalize List.range' 0 hi.toNat = l
  induction l generalizing s with
  | nil => rfl
  | cons a l ih =>
    rw [List.foldl_cons, ← ih (body (a : Int) s)]
    have e : (0 : Int) + (a : Int) = (a : Int) := zero_add _
    rw [← e]
    rfl

/-- A loop whose every pass adds `d k x` to the value read at `x` adds the sum of the
`d k x`; `R` is what the passes keep and `Q` the places that are read. -/
theorem forLoop_accumulate {σ ι K : Type} [AddCommMonoid K] (R : σ → Prop) (Q : ι → Prop)
    (val : σ → ι → K) (body : Nat → σ → σ) (d : Nat → ι → K) (n : Nat)
    (hstep : ∀ k s, k < n → R s →
      R (body k s) ∧ ∀ x, Q x → val (body k s) x = val s x + d k x)
    (s : σ) (hs : R s) :
    R (forLoop 0 n body s) ∧
    ∀ x, Q x → val (forLoop 0 n body s) x = val s x + ∑ k in Finset.range n, d k x := by
  refine forLoop_induct
    (fun k t => R t ∧ ∀ x, Q x → val t x = val s x + ∑ k in Finset.range k, d k x)
    body 0 n (Nat.zero_le _) s ⟨hs, fun x _ => by simp⟩ ?_
  intro k t _ hk ⟨r1, r2⟩
  obtain ⟨a1, a2⟩ := hstep k t hk r1
  refine ⟨a1, fun x hx => ?_⟩
  rw [a2 x hx, r2 x hx, Finset.sum_range_succ, add_assoc]

theorem getD_set_row {K : Type} (s : List (List K)) (c : Nat) (row : List K) (c2 : Nat)
    (hc : c < s.length) :
    (s.set c row).getD c2 [] = if c = c2 then row else s.getD c2 [] := by
  simp only [List.getD_eq_getElem?_getD, List.getElem?_set]
  by_cases h : c = c2
  · subst h; simp [hc]
  · simp [h]

theorem summ_shape_replicate {K : Type} [Zero K] (T : Nat) :
    summ_shape T (List.replicate 4 (List.replicate T (0 : K))) ∧
    ∀ c x, rd2 (List.replicate 4 (List.replicate T (0 : K))) c x = 0 := by
  refine ⟨⟨by simp, fun c hc => ?_⟩, fun c x => ?_⟩
  · have e : (List.replicate 4 (List.replicate T (0 : K))).getD c [] = List.replicate T 0 := by
      rw [List.getD_eq_getElem?_getD, List.getElem?_replicate, if_pos hc]
      rfl
    rw [e, List.length_replicate]
  · unfold rd2 rd
    simp only [List.getD_eq_getElem?_getD, List.getElem?_replicate]
    by_cases hc : c < 4
    · by_cases hx : x < T
      · simp [hc, hx]
      · simp [hc, hx]
    · simp [hc]

/-- The four updates `summ[c][kk] += mom1 * qq[c]` (treecode.c:817-820). -/
theorem moment_write_spec {K : Type} [Field K] (T kk : Nat) (m : K) (qq : List K)
    (s : List (List K)) (hs : summ_shape T s) (hkk : kk < T) :
    summ_shape T (forLoop 0 4 (fun c summ =>
      summ.set c ((summ.getD c []).set kk (rd2 summ c kk + m * rd qq c))) s) ∧
    ∀ x : Nat × Nat, x.1 < 4 → rd2 (forLoop 0 4 (fun c summ =>
      summ.set c ((summ.getD c []).set kk (rd2 summ c kk + m * rd qq c))) s) x.1 x.2
      = rd2 s x.1 x.2 + if x.2 = kk then m * rd qq x.1 else 0 := by
  have h := forLoop_induct
    (fun k (t : List (List K)) => summ_shape T t ∧ ∀ c, c < 4 → ∀ x, rd2 t c x
      = rd2 s c x + if c < k ∧ x = kk then m * rd qq c else 0)
    (fun c summ => summ.set c ((summ.getD c []).set kk (rd2 summ c kk + m * rd qq c)))
    0 4 (by decide) s ⟨hs, fun c _ x => by simp⟩
    (by
      intro k t _ hk ⟨⟨r1, r2⟩, r3⟩
      refine ⟨⟨by rw [List.length_set]; exact r1, fun c hc => ?_⟩, fun c hc x => ?_⟩
      · rw [getD_set_row _ _ _ _ (by omega)]
        by_cases e : k = c
        · rw [if_pos e, List.length_set]
          exact r2 k hk
        · rw [if_neg e]
          exact r2 c hc
      · unfold rd2 at r3 ⊢
        rw [getD_set_row _ _ _ _ (by omega)]
        by_cases e : k = c
        · subst e
          rw [if_pos rfl, rd_set _ _ _ _ (by rw [r2 k hk]; exact hkk)]
          by_cases e2 : kk = x
          · subst e2
            have c1 : k < k + 1 ∧ kk = kk := ⟨by omega, rfl⟩
            have c2 : ¬ (k < k ∧ kk = kk) := by omega
            have := r3 k hk kk
            rw [if_neg c2, add_zero] at this
            rw [if_pos rfl, if_pos c1, this]
          · have c1 : ¬ (k < k + 1 ∧ x = kk) := fun y => e2 y.2.symm
            have c2 : ¬ (k < k ∧ x = kk) := by omega
            have := r3 k hk x
            rw [if_neg c2, add_zero] at this
            rw [if_neg e2, if_neg c1, add_zero]
            exact this
        · rw [if_neg e]
          have := r3 c hc x
          rw [this]
          by_cases c1 : c < k ∧ x = kk
          · have c2 : c < k + 1 ∧ x = kk := ⟨by omega, c1.2⟩
            rw [if_pos c1, if_pos c2]
          · have c2 : ¬ (c < k + 1 ∧ x = kk) := by omega
            rw [if_neg c1, if_neg c2])
  refine ⟨h.1, fun x hx => ?_⟩
  rw [h.2 x.1 hx x.2]
  by_cases e : x.2 = kk
  · have c1 : x.1 < 4 ∧ x.2 = kk := ⟨hx, e⟩
    rw [if_pos c1, if_pos e]
  · have c1 : ¬ (x.1 < 4 ∧ x.2 = kk) := fun y => e y.2
    rw [if_neg c1, if_neg e]

theorem grid_index_lt (lim k1 k2 k3 : Nat) (h1 : k1 < lim) (h2 : k2 < lim) (h3 : k3 < lim) :
    k1 * lim * lim + k2 * lim + k3 < lim * lim * lim := by
  have a : (k2 + 1) * lim ≤ lim * lim := Nat.mul_le_mul_right lim h2
  have b : (k1 + 1) * (lim * lim) ≤ lim * (lim * lim) := Nat.mul_le_mul_right (lim * lim) h1
  rw [Nat.add_mul, Nat.one_mul] at a b
  rw [Nat.mul_assoc, Nat.mul_assoc]
  omega

/-- The three nested loops over the grid of `s_ComputeMoments` (treecode.c:810-823) add
`mom1 * qq[c]` to the entry `kk` of each of the four rows. -/
theorem moment_loops_spec {K : Type} [Field K] (lim T : Nat) (mom : Nat → Nat → Nat → K)
    (qq : List K) (s : List (List K)) (hT : lim * lim * lim ≤ T) (hs : summ_shape T s) :
    summ_shape T (forLoop 0 lim (fun k1 summ =>
      forLoop 0 lim (fun k2 summ =>
        forLoop 0 lim (fun k3 summ =>
          forLoop 0 4 (fun c summ =>
            summ.set c ((summ.getD c []).set (k1 * lim * lim + k2 * lim + k3)
              (rd2 summ c (k1 * lim * lim + k2 * lim + k3) + mom k1 k2 k3 * rd qq c))) summ)
          summ) summ) s) ∧
    ∀ x : Nat × Nat, x.1 < 4 → rd2 (forLoop 0 lim (fun k1 summ =>
      forLoop 0 lim (fun k2 summ =>
        forLoop 0 lim (fun k3 summ =>
          forLoop 0 4 (fun c summ =>
            summ.set c ((summ.getD c []).set (k1 * lim * lim + k2 * lim + k3)
              (rd2 summ c (k1 * lim * lim + k2 * lim + k3) + mom k1 k2 k3 * rd qq c))) summ)
          summ) summ) s) x.1 x.2
      = rd2 s x.1 x.2 + ∑ k1 in Finset.range lim, ∑ k2 in Finset.range lim,
          ∑ k3 in Finset.range lim,
            if x.2 = k1 * lim * lim + k2 * lim + k3 then mom k1 k2 k3 * rd qq x.1 else 0 := by
  refine forLoop_accumulate (summ_shape T) (fun x : Nat × Nat => x.1 < 4)
    (fun s x => rd2 s x.1 x.2) _
    (fun k1 x => ∑ k2 in Finset.range lim, ∑ k3 in Finset.range lim,
      if x.2 = k1 * lim * lim + k2 * lim + k3 then mom k1 k2 k3 * rd qq x.1 else 0)
    lim ?_ s hs
  intro k1 s1 hk1 hs1
  refine forLoop_accumulate (summ_shape T) (fun x : Nat × Nat => x.1 < 4)
    (fun s x => rd2 s x.1 x.2) _
    (fun k2 x => ∑ k3 in Finset.range lim,
      if x.2 = k1 * lim * lim + k2 * lim + k3 then mom k1 k2 k3 * rd qq x.1 else 0)
    lim ?_ s1 hs1
  intro k2 s2 hk2 hs2
  refine forLoop_accumulate (summ_shape T) (fun x : Nat × Nat => x.1 < 4)
    (fun s x => rd2 s x.1 x.2) _
    (fun k3 x =>
      if x.2 = k1 * lim * lim + k2 * lim + k3 then mom k1 k2 k3 * rd qq x.1 else 0)
    lim ?_ s2 hs2
  intro k3 s3 hk3 hs3
  exact moment_write_spec T (k1 * lim * lim + k2 * lim + k3) (mom k1 k2 k3) qq s3 hs3
    (lt_of_lt_of_le (grid_index_lt lim k1 k2 k3 hk1 hk2 hk3) hT)

/-- One pass of the loop over the particles adds, to every entry `x` of every row `c`,
the particle's weight at the grid points with index `x` times its charge `qq[c]`. -/
theorem s_ComputeMoments_particle_spec {K : Type} [LinearOrderedField K]
    (g : TreecodeGlobals K) (p : NodeData K) (tx ty tz : List K) (i : Int)
    (summ : List (List K)) (T : Nat)
    (hT : g.s_torder_lim * g.s_torder_lim * g.s_torder_lim ≤ T) (hs : summ_shape T summ) :
    summ_shape T (s_ComputeMoments_particle g p tx ty tz i summ) ∧
    ∀ x : Nat × Nat, x.1 < 4 → rd2 (s_ComputeMoments_particle g p tx ty tz i summ) x.1 x.2
      = rd2 summ x.1 x.2 + ∑ k1 in Finset.range g.s_torder_lim,
          ∑ k2 in Finset.range g.s_torder_lim, ∑ k3 in Finset.range g.s_torder_lim,
            if x.2 = k1 * g.s_torder_lim * g.s_torder_lim + k2 * g.s_torder_lim + k3 then
              rd (s_ComputeMoments_weights g.s_torder_lim (s_ComputeMoments_w1i g) tx
                  (rd g.s_particle_position_x (p.ibeg + i).toNat)).1 k1
                * rd (s_ComputeMoments_weights g.s_torder_lim (s_ComputeMoments_w1i g) ty
                  (rd g.s_particle_position_y (p.ibeg + i).toNat)).1 k2
                * rd (s_ComputeMoments_weights g.s_torder_lim (s_ComputeMoments_w1i g) tz
                  (rd g.s_particle_position_z (p.ibeg + i).toNat)).1 k3
                * (1 / ((s_ComputeMoments_weights g.s_torder_lim (s_ComputeMoments_w1i g) tx
                    (rd g.s_particle_position_x (p.ibeg + i).toNat)).2
                  * (s_ComputeMoments_weights g.s_torder_lim (s_ComputeMoments_w1i g) ty
                    (rd g.s_particle_position_y (p.ibeg + i).toNat)).2
                  * (s_ComputeMoments_weights g.s_torder_lim (s_ComputeMoments_w1i g) tz
                    (rd g.s_particle_position_z (p.ibeg + i).toNat)).2))
                * rd (g.s_source_charge.getD (p.ibeg + i).toNat []) x.1
            else 0 :=
  moment_loops_spec g.s_torder_lim T
    (fun k1 k2 k3 =>
      rd (s_ComputeMoments_weights g.s_torder_lim (s_ComputeMoments_w1i g) tx
          (rd g.s_particle_position_x (p.ibeg + i).toNat)).1 k1
        * rd (s_ComputeMoments_weights g.s_torder_lim (s_ComputeMoments_w1i g) ty
          (rd g.s_particle_position_y (p.ibeg + i).toNat)).1 k2
        * rd (s_ComputeMoments_weights g.s_torder_lim (s_ComputeMoments_w1i g) tz
          (rd g.s_particle_position_z (p.ibeg + i).toNat)).1 k3
        * (1 / ((s_ComputeMoments_weights g.s_torder_lim (s_ComputeMoments_w1i g) tx
            (rd g.s_particle_position_x (p.ibeg + i).toNat)).2
          * (s_ComputeMoments_weights g.s_torder_lim (s_ComputeMoments_w1i g) ty
            (rd g.s_particle_position_y (p.ibeg + i).toNat)).2
          * (s_ComputeMoments_weights g.s_torder_lim (s_ComputeMoments_w1i g) tz
            (rd g.s_particle_position_z (p.ibeg + i).toNat)).2)))
    (g.s_source_charge.getD (p.ibeg + i).toNat []) summ hT hs

/-- The first loop over the interpolation points of one axis (treecode.c:777-788): the
quotients `a1i`, their sum, and `a1exactind`, the last point that `xx` coincides with. -/
theorem weights_loop_spec {K : Type} [LinearOrderedField K] (lim : Nat) (w1i tx : List K)
    (xx : K) :
    (forLoop 0 lim (fun j (st : List K × K × Int) =>
      let a1i := st.1.set j (rd w1i j / (xx - rd tx j))
      let sumA1 := st.2.1 + rd a1i j
      let a1exactind := if abs (xx - rd tx j) < DBL_MIN then (j : Int) else st.2.2
      (a1i, sumA1, a1exactind)) (List.replicate lim 0, 0, -1)).1.length = lim ∧
    (∀ j, j < lim → rd (forLoop 0 lim (fun j (st : List K × K × Int) =>
      let a1i := st.1.set j (rd w1i j / (xx - rd tx j))
      let sumA1 := st.2.1 + rd a1i j
      let a1exactind := if abs (xx - rd tx j) < DBL_MIN then (j : Int) else st.2.2
      (a1i, sumA1, a1exactind)) (List.replicate lim 0, 0, -1)).1 j
        = rd w1i j / (xx - rd tx j)) ∧
    (forLoop 0 lim (fun j (st : List K × K × Int) =>
      let a1i := st.1.set j (rd w1i j / (xx - rd tx j))
      let sumA1 := st.2.1 + rd a1i j
      let a1exactind := if abs (xx - rd tx j) < DBL_MIN then (j : Int) else st.2.2
      (a1i, sumA1, a1exactind)) (List.replicate lim 0, 0, -1)).2.1
        = ∑ j in Finset.range lim, rd w1i j / (xx - rd tx j) ∧
    (((forLoop 0 lim (fun j (st : List K × K × Int) =>
      let a1i := st.1.set j (rd w1i j / (xx - rd tx j))
      let sumA1 := st.2.1 + rd a1i j
      let a1exactind := if abs (xx - rd tx j) < DBL_MIN then (j : Int) else st.2.2
      (a1i, sumA1, a1exactind)) (List.replicate lim 0, 0, -1)).2.2 = -1 ∧
        ∀ j, j < lim → ¬ s_ComputeMoments_coincides tx xx j) ∨
      ∃ m : Nat, (forLoop 0 lim (fun j (st : List K × K × Int) =>
        let a1i := st.1.set j (rd w1i j / (xx - rd tx j))
        let sumA1 := st.2.1 + rd a1i j
        let a1exactind := if abs (xx - rd tx j) < DBL_MIN then (j : Int) else st.2.2
        (a1i, sumA1, a1exactind)) (List.replicate lim 0, 0, -1)).2.2 = (m : Int) ∧
        s_ComputeMoments_exactind lim tx xx m) := by
  refine forLoop_induct
    (fun k (st : List K × K × Int) => st.1.length = lim ∧
      (∀ j, j < k → rd st.1 j = rd w1i j / (xx - rd tx j)) ∧
      st.2.1 = ∑ j in Finset.range k, rd w1i j / (xx - rd tx j) ∧
      ((st.2.2 = -1 ∧ ∀ j, j < k → ¬ s_ComputeMoments_coincides tx xx j) ∨
        ∃ m : Nat, st.2.2 = (m : Int) ∧ s_ComputeMoments_exactind k tx xx m))
    _ 0 lim (Nat.zero_le _) (List.replicate lim 0, 0, -1)
    ⟨List.length_replicate _ _, fun j hj => by omega, by simp,
      Or.inl ⟨rfl, fun j hj => by omega⟩⟩ ?_
  intro k st _ hk ⟨p1, p2, p3, p4⟩
  have hset : rd (st.1.set k (rd w1i k / (xx - rd tx k))) k = rd w1i k / (xx - rd tx k) := by
    rw [rd_set _ _ _ _ (by omega), if_pos rfl]
  show (st.1.set k (rd w1i k / (xx - rd tx k))).length = lim ∧
    (∀ j, j < k + 1 → rd (st.1.set k (rd w1i k / (xx - rd tx k))) j
      = rd w1i j / (xx - rd tx j)) ∧
    st.2.1 + rd (st.1.set k (rd w1i k / (xx - rd tx k))) k
      = ∑ j in Finset.range (k + 1), rd w1i j / (xx - rd tx j) ∧
    (((if abs (xx - rd tx k) < DBL_MIN then (k : Int) else st.2.2) = -1 ∧
        ∀ j, j < k + 1 → ¬ s_ComputeMoments_coincides tx xx j) ∨
      ∃ m : Nat, (if abs (xx - rd tx k) < DBL_MIN then (k : Int) else st.2.2) = (m : Int) ∧
        s_ComputeMoments_exactind (k + 1) tx xx m)
  refine ⟨by rw [List.length_set]; exact p1, ?_, ?_, ?_⟩
  · intro j hj
    by_cases e : k = j
    · subst e
      exact hset
    · rw [rd_set_ne _ _ _ _ e]
      exact p2 j (by omega)
  · rw [hset, p3, Finset.sum_range_succ]
  · by_cases c : abs (xx - rd tx k) < DBL_MIN
    · rw [if_pos c]
      exact Or.inr ⟨k, rfl, by omega, c, fun m h1 h2 => by omega⟩
    · rw [if_neg c]
      rcases p4 with ⟨q1, q2⟩ | ⟨m, q1, q2, q3, q4⟩
      · refine Or.inl ⟨q1, fun j hj => ?_⟩
        by_cases e : j = k
        · subst e
          exact c
        · exact q2 j (by omega)
      · refine Or.inr ⟨m, q1, by omega, q3, fun j h1 h2 => ?_⟩
        by_cases e : j = k
        · subst e
          exact c
        · exact q4 j h1 (by omega)

/-- The loop `for (j = 0; j < s_torder_lim; j++) a1i[j] = 0.0` (treecode.c:792). -/
theorem zero_loop_spec {K : Type} [Zero K] (lim : Nat) (a : List K) (ha : a.length = lim) :
    (forLoop 0 lim (fun j a1i => a1i.set j (0 : K)) a).length = lim ∧
    ∀ v, rd (forLoop 0 lim (fun j a1i => a1i.set j (0 : K)) a) v = 0 := by
  obtain ⟨h1, h2⟩ := forLoop_update_spec (fun _ (_ : K) => (0 : K)) 0 lim a
  refine ⟨by rw [h1, ha], fun v => ?_⟩
  rw [h2 v]
  by_cases c : 0 ≤ v ∧ v < lim ∧ v < a.length
  · rw [if_pos c]
  · rw [if_neg c]
    exact rd_of_length_le a v (by omega)

/-- The exact-node branch of `s_ComputeMoments` (treecode.c:790-794): when `xx` coincides
with an interpolation point and `m` is the last such point, the array `a1i` is the
indicator of `m` and `sumA1` is `1`. -/
theorem s_ComputeMoments_weights_exact {K : Type} [LinearOrderedField K] (lim : Nat)
    (w1i tx : List K) (xx : K) (m : Nat) (hm : s_ComputeMoments_exactind lim tx xx m) :
    (s_ComputeMoments_weights lim w1i tx xx).2 = 1 ∧
    (s_ComputeMoments_weights lim w1i tx xx).1.length = lim ∧
    ∀ k, rd (s_ComputeMoments_weights lim w1i tx xx).1 k = if k = m then 1 else 0 := by
  obtain ⟨q1, _, _, q4⟩ := weights_loop_spec lim w1i tx xx
  unfold s_ComputeMoments_weights
  simp only []
  generalize forLoop 0 lim (fun j (st : List K × K × Int) =>
      let a1i := st.1.set j (rd w1i j / (xx - rd tx j))
      let sumA1 := st.2.1 + rd a1i j
      let a1exactind := if abs (xx - rd tx j) < DBL_MIN then (j : Int) else st.2.2
      (a1i, sumA1, a1exactind)) (List.replicate lim 0, 0, -1) = st at q1 q4 ⊢
  obtain ⟨hm1, hm2, hm3⟩ := hm
  have he : st.2.2 = (m : Int) := by
    rcases q4 with ⟨_, r2⟩ | ⟨m2, r1, r2, r3, r4⟩
    · exact absurd hm2 (r2 m hm1)
    · rw [r1]
      rcases Nat.lt_trichotomy m m2 with c | c | c
      · exact absurd r3 (hm3 m2 c r2)
      · rw [c]
      · exact absurd hm2 (r4 m c hm1)
  have c : st.2.2 > -1 := by rw [he]; omega
  rw [if_pos c, he, Int.toNat_ofNat]
  obtain ⟨z1, z2⟩ := zero_loop_spec lim st.1 q1
  refine ⟨rfl, by rw [List.length_set]; exact z1, fun k => ?_⟩
  show rd ((forLoop 0 lim (fun j a1i => a1i.set j (0 : K)) st.1).set m 1) k = _
  rw [rd_set _ _ _ _ (by omega), z2 k]
  by_cases e : m = k
  · have e2 : k = m := e.symm
    rw [if_pos e, if_pos e2]
  · have e2 : ¬ k = m := fun y => e y.symm
    rw [if_neg e, if_neg e2]

/-- The regular branch of `s_ComputeMoments`: when `xx` coincides with no interpolation
point, `a1i[j] = w1i[j] / (xx - tx[j])` and `sumA1` is their sum. -/
theorem s_ComputeMoments_weights_regular {K : Type} [LinearOrderedField K] (lim : Nat)
    (w1i tx : List K) (xx : K) (hno : ∀ j, j < lim → ¬ s_ComputeMoments_coincides tx xx j) :
    (s_ComputeMoments_weights lim w1i tx xx).2
      = ∑ j in Finset.range lim, rd w1i j / (xx - rd tx j) ∧
    (s_ComputeMoments_weights lim w1i tx xx).1.length = lim ∧
    ∀ j, j < lim → rd (s_ComputeMoments_weights lim w1i tx xx).1 j
      = rd w1i j / (xx - rd tx j) := by
  obtain ⟨q1, q2, q3, q4⟩ := weights_loop_spec lim w1i tx xx
  unfold s_ComputeMoments_weights
  simp only []
  generalize forLoop 0 lim (fun j (st : List K × K × Int) =>
      let a1i := st.1.set j (rd w1i j / (xx - rd tx j))
      let sumA1 := st.2.1 + rd a1i j
      let a1exactind := if abs (xx - rd tx j) < DBL_MIN then (j : Int) else st.2.2
      (a1i, sumA1, a1exactind)) (List.replicate lim 0, 0, -1) = st at q1 q2 q3 q4 ⊢
  have he : st.2.2 = -1 := by
    rcases q4 with ⟨r1, _⟩ | ⟨m2, _, r2, r3, _⟩
    · exact r1
    · exact absurd r3 (hno m2 r2)
  have c : ¬ st.2.2 > -1 := by rw [he]; omega
  rw [if_neg c]
  exact ⟨q3, q1, q2⟩

/-- In both branches the entries of `a1i` add up to `sumA1`. -/
theorem s_ComputeMoments_weights_sum {K : Type} [LinearOrderedField K] (lim : Nat)
    (w1i tx : List K) (xx : K) :
    ∑ k in Finset.range lim, rd (s_ComputeMoments_weights lim w1i tx xx).1 k
      = (s_ComputeMoments_weights lim w1i tx xx).2 := by
  obtain ⟨_, _, _, q4⟩ := weights_loop_spec lim w1i tx xx
  rcases q4 with ⟨_, r2⟩ | ⟨m, _, r2⟩
  · obtain ⟨a1, _, a3⟩ := s_ComputeMoments_weights_regular lim w1i tx xx r2
    rw [a1]
    exact Finset.sum_congr rfl (fun k hk => a3 k (Finset.mem_range.mp hk))
  · obtain ⟨a1, _, a3⟩ := s_ComputeMoments_weights_exact lim w1i tx xx m r2
    rw [a1]
    have e : ∑ k in Finset.range lim, rd (s_ComputeMoments_weights lim w1i tx xx).1 k
        = ∑ k in Finset.range lim, if k = m then (1 : K) else 0 :=
      Finset.sum_congr rfl (fun k _ => a3 k)
    rw [e, Finset.sum_ite_eq', if_pos (Finset.mem_range.mpr r2.1)]

/-- One pass of the loop over the particles, with the addend named. -/
theorem s_ComputeMoments_particle_addend {K : Type} [LinearOrderedField K]
    (g : TreecodeGlobals K) (p : NodeData K) (tx ty tz : List K) (i : Int)
    (summ : List (List K)) (T : Nat)
    (hT : g.s_torder_lim * g.s_torder_lim * g.s_torder_lim ≤ T) (hs : summ_shape T summ) :
    summ_shape T (s_ComputeMoments_particle g p tx ty tz i summ) ∧
    ∀ x : Nat × Nat, x.1 < 4 → rd2 (s_ComputeMoments_particle g p tx ty tz i summ) x.1 x.2
      = rd2 summ x.1 x.2 + moment_addend g.s_torder_lim
          (s_ComputeMoments_weights g.s_torder_lim (s_ComputeMoments_w1i g) tx
            (rd g.s_particle_position_x (p.ibeg + i).toNat))
          (s_ComputeMoments_weights g.s_torder_lim (s_ComputeMoments_w1i g) ty
            (rd g.s_particle_position_y (p.ibeg + i).toNat))
          (s_ComputeMoments_weights g.s_torder_lim (s_ComputeMoments_w1i g) tz
            (rd g.s_particle_position_z (p.ibeg + i).toNat))
          (g.s_source_charge.getD (p.ibeg + i).toNat []) x.1 x.2 :=
  s_ComputeMoments_particle_spec g p tx ty tz i summ T hT hs

/-- The modified charges of a node: each entry is the sum of what its particles add. -/
theorem s_ComputeMoments_ms_spec {K : Type} [LinearOrderedField K] (g : TreecodeGlobals K)
    (p : NodeData K)
    (hT : g.s_torder_lim * g.s_torder_lim * g.s_torder_lim ≤ g.s_torder3) :
    summ_shape g.s_torder3 (s_ComputeMoments g p).ms ∧
    ∀ x : Nat × Nat, x.1 < 4 → rd2 (s_ComputeMoments g p).ms x.1 x.2
      = ∑ i in Finset.range p.numpar.toNat, moment_addend g.s_torder_lim
          (s_ComputeMoments_a1i g p i) (s_ComputeMoments_a2j g p i)
          (s_ComputeMoments_a3k g p i)
          (g.s_source_charge.getD (p.ibeg + (i : Int)).toNat []) x.1 x.2 := by
  rw [s_ComputeMoments_ms, forLoopInt_zero]
  obtain ⟨z1, z2⟩ := @summ_shape_replicate K _ g.s_torder3
  obtain ⟨a1, a2⟩ := forLoop_accumulate (summ_shape g.s_torder3)
    (fun x : Nat × Nat => x.1 < 4) (fun s x => rd2 s x.1 x.2)
    (fun i s => s_ComputeMoments_particle g p (s_ComputeMoments g p).tx
      (s_ComputeMoments g p).ty (s_ComputeMoments g p).tz (i : Int) s)
    (fun i x => moment_addend g.s_torder_lim
      (s_ComputeMoments_a1i g p i) (s_ComputeMoments_a2j g p i)
      (s_ComputeMoments_a3k g p i)
      (g.s_source_charge.getD (p.ibeg + (i : Int)).toNat []) x.1 x.2)
    p.numpar.toNat
    (fun i s _ hs => s_ComputeMoments_particle_addend g p _ _ _ _ s g.s_torder3 hT hs)
    _ z1
  refine ⟨a1, fun x hx => ?_⟩
  have h := a2 x hx
  simp only [z2, zero_add] at h
  exact h

/-- The addends of one particle over all entries of a row: the product of the three sums
of weights, divided by the product of the normalising sums, times the charge. -/
theorem moment_addend_sum {K : Type} [Field K] (lim T : Nat) (A1 A2 A3 : List K × K)
    (qq : List K) (c : Nat) (hT : lim * lim * lim ≤ T) :
    ∑ x in Finset.range T, moment_addend lim A1 A2 A3 qq c x
      = (∑ k in Finset.range lim, rd A1.1 k) * (∑ k in Finset.range lim, rd A2.1 k)
        * (∑ k in Finset.range lim, rd A3.1 k) * (1 / (A1.2 * A2.2 * A3.2)) * rd qq c := by
  have h : ∑ x in Finset.range T, moment_addend lim A1 A2 A3 qq c x
      = ∑ k1 in Finset.range lim, ∑ k2 in Finset.range lim, ∑ k3 in Finset.range lim,
          rd A1.1 k1 * rd A2.1 k2 * rd A3.1 k3 * (1 / (A1.2 * A2.2 * A3.2)) * rd qq c := by
    unfold moment_addend
    rw [Finset.sum_comm]
    refine Finset.sum_congr rfl (fun k1 h1 => ?_)
    rw [Finset.sum_comm]
    refine Finset.sum_congr rfl (fun k2 h2 => ?_)
    rw [Finset.sum_comm]
    refine Finset.sum_congr rfl (fun k3 h3 => ?_)
    rw [Finset.sum_ite_eq', if_pos]
    exact Finset.mem_range.mpr (lt_of_lt_of_le (grid_index_lt lim k1 k2 k3
      (Finset.mem_range.mp h1) (Finset.mem_range.mp h2) (Finset.mem_range.mp h3)) hT)
  rw [h]
  simp only [← Finset.sum_mul, ← Finset.mul_sum]

/-- The addend of a particle whose three arrays of weights are indicators, with sums `1`:
its charge at the entry of the three indicated points, and `0` at every other entry. -/
theorem moment_addend_exact {K : Type} [Field K] (lim : Nat) (A1 A2 A3 : List K × K)
    (qq : List K) (c x m1 m2 m3 : Nat) (h1 : m1 < lim) (h2 : m2 < lim) (h3 : m3 < lim)
    (s1 : A1.2 = 1) (s2 : A2.2 = 1) (s3 : A3.2 = 1)
    (a1 : ∀ k, rd A1.1 k = if k = m1 then 1 else 0)
    (a2 : ∀ k, rd A2.1 k = if k = m2 then 1 else 0)
    (a3 : ∀ k, rd A3.1 k = if k = m3 then 1 else 0) :
    moment_addend lim A1 A2 A3 qq c x
      = if x = m1 * lim * lim + m2 * lim + m3 then rd qq c else 0 := by
  unfold moment_addend
  rw [Finset.sum_eq_single m1, Finset.sum_eq_single m2, Finset.sum_eq_single m3]
  · rw [a1, a2, a3, s1, s2, s3, if_pos rfl, if_pos rfl, if_pos rfl]
    by_cases e : x = m1 * lim * lim + m2 * lim + m3
    · rw [if_pos e, if_pos e]
      ring
    · rw [if_neg e, if_neg e]
  · intro k _ hk
    rw [a3 k, if_neg hk]
    simp
  · intro hk
    exact absurd (Finset.mem_range.mpr h3) hk
  · intro k _ hk
    refine Finset.sum_eq_zero (fun k3 _ => ?_)
    rw [a2 k, if_neg hk]
    simp
  · intro hk
    exact absurd (Finset.mem_range.mpr h2) hk
  · intro k _ hk
    refine Finset.sum_eq_zero (fun k2 _ => Finset.sum_eq_zero (fun k3 _ => ?_))
    rw [a1 k, if_neg hk]
    simp
  · intro hk
    exact absurd (Finset.mem_range.mpr h1) hk

theorem s_ComputeMoments_tx {K : Type} [LinearOrderedField K] (g : TreecodeGlobals K)
    (p : NodeData K) :
    (s_ComputeMoments g p).tx = forLoop 0 g.s_torder_lim (fun i tx =>
      tx.set i (p.x_min + (rd g.tt i + 1) / 2 * (p.x_max - p.x_min)))
      (List.replicate g.s_torder_lim 0) ∧
    (s_ComputeMoments g p).ty = forLoop 0 g.s_torder_lim (fun i ty =>
      ty.set i (p.y_min + (rd g.tt i + 1) / 2 * (p.y_max - p.y_min)))
      (List.replicate g.s_torder_lim 0) ∧
    (s_ComputeMoments g p).tz = forLoop 0 g.s_torder_lim (fun i tz =>
      tz.set i (p.z_min + (rd g.tt i + 1) / 2 * (p.z_max - p.z_min)))
      (List.replicate g.s_torder_lim 0) :=
  ⟨rfl, rfl, rfl⟩

/-- Claim C28: the upward pass conserves total charge.  For a node `p` with
`s_torder3 = s_torder_lim³` whose particles all have non-zero normalising sums `sumA1`,
`sumA2`, `sumA3` (they are `1` in the exact-node branch), the weights
`a1i[k1] * a2j[k2] * a3k[k3] * Dd` of each particle add up to `1` over the grid, and for
each of the four components the sum of `ms[c][kk]` over the grid is the sum of
`s_source_charge[ibeg + i][c]` over the particles of the node. -/
theorem s_ComputeMoments_conserves_charge {K : Type} [LinearOrderedField K]
    (g : TreecodeGlobals K) (p : NodeData K)
    (hT : g.s_torder3 = g.s_torder_lim * g.s_torder_lim * g.s_torder_lim)
    (hS : ∀ i : Nat, i < p.numpar.toNat →
      (s_ComputeMoments_a1i g p i).2 ≠ 0 ∧ (s_ComputeMoments_a2j g p i).2 ≠ 0 ∧
        (s_ComputeMoments_a3k g p i).2 ≠ 0) :
    (∀ i : Nat, i < p.numpar.toNat →
      ∑ k1 in Finset.range g.s_torder_lim, ∑ k2 in Finset.range g.s_torder_lim,
        ∑ k3 in Finset.range g.s_torder_lim,
          rd (s_ComputeMoments_a1i g p i).1 k1 * rd (s_ComputeMoments_a2j g p i).1 k2
            * rd (s_ComputeMoments_a3k g p i).1 k3
            * (1 / ((s_ComputeMoments_a1i g p i).2 * (s_ComputeMoments_a2j g p i).2
              * (s_ComputeMoments_a3k g p i).2)) = 1) ∧
    (∀ c, c < 4 → ∑ kk in Finset.range g.s_torder3, rd2 (s_ComputeMoments g p).ms c kk
      = ∑ i in Finset.range p.numpar.toNat,
          rd (g.s_source_charge.getD (p.ibeg + (i : Int)).toNat []) c) ∧
    ∀ (tx : List K) (xx : K) (m : Nat), s_ComputeMoments_exactind g.s_torder_lim tx xx m →
      (s_ComputeMoments_weights g.s_torder_lim (s_ComputeMoments_w1i g) tx xx).2 = 1 := by
  have w1 : ∀ i : Int, ∑ k in Finset.range g.s_torder_lim, rd (s_ComputeMoments_a1i g p i).1 k
      = (s_ComputeMoments_a1i g p i).2 := fun i => s_ComputeMoments_weights_sum _ _ _ _
  have w2 : ∀ i : Int, ∑ k in Finset.range g.s_torder_lim, rd (s_ComputeMoments_a2j g p i).1 k
      = (s_ComputeMoments_a2j g p i).2 := fun i => s_ComputeMoments_weights_sum _ _ _ _
  have w3 : ∀ i : Int, ∑ k in Finset.range g.s_torder_lim, rd (s_ComputeMoments_a3k g p i).1 k
      = (s_ComputeMoments_a3k g p i).2 := fun i => s_ComputeMoments_weights_sum _ _ _ _
  refine ⟨fun i hi => ?_, fun c hc => ?_, fun tx xx m hm =>
    (s_ComputeMoments_weights_exact _ _ tx xx m hm).1⟩
  · obtain ⟨n1, n2, n3⟩ := hS i hi
    simp only [← Finset.sum_mul, ← Finset.mul_sum]
    rw [w1, w2, w3]
    field_simp
  · obtain ⟨_, a2⟩ := s_ComputeMoments_ms_spec g p (le_of_eq hT.symm)
    have e : ∑ kk in Finset.range g.s_torder3, rd2 (s_ComputeMoments g p).ms c kk
        = ∑ kk in Finset.range g.s_torder3, ∑ i in Finset.range p.numpar.toNat,
            moment_addend g.s_torder_lim (s_ComputeMoments_a1i g p i)
              (s_ComputeMoments_a2j g p i) (s_ComputeMoments_a3k g p i)
              (g.s_source_charge.getD (p.ibeg + (i : Int)).toNat []) c kk :=
      Finset.sum_congr rfl (fun kk _ => a2 (c, kk) hc)
    rw [e, Finset.sum_comm]
    refine Finset.sum_congr rfl (fun i hi => ?_)
    obtain ⟨n1, n2, n3⟩ := hS i (Finset.mem_range.mp hi)
    rw [moment_addend_sum _ _ _ _ _ _ _ (le_of_eq hT.symm), w1, w2, w3]
    field_simp

/-- The particle `0` of `chargedGlobals`, at the corner `(0, 0, 0)` of the box
`[0, 4]³`, coincides on every axis with the interpolation point `1` and with no later
one. -/
theorem sample_exactind :
    s_ComputeMoments_exactind 2 (s_ComputeMoments chargedGlobals (sampleNodeData 1 0 0)).tx
      (rd chargedGlobals.s_particle_position_x 0) 1 ∧
    s_ComputeMoments_exactind 2 (s_ComputeMoments chargedGlobals (sampleNodeData 1 0 0)).ty
      (rd chargedGlobals.s_particle_position_y 0) 1 ∧
    s_ComputeMoments_exactind 2 (s_ComputeMoments chargedGlobals (sampleNodeData 1 0 0)).tz
      (rd chargedGlobals.s_particle_position_z 0) 1 := by
  obtain ⟨e1, e2, e3⟩ := s_ComputeMoments_tx chargedGlobals (sampleNodeData 1 0 0)
  rw [e1, e2, e3]
  refine ⟨⟨by decide, ?_, fun m h1 h2 => by omega⟩, ⟨by decide, ?_, fun m h1 h2 => by omega⟩,
    ⟨by decide, ?_, fun m h1 h2 => by omega⟩⟩ <;>
  norm_num [s_ComputeMoments_coincides, chargedGlobals, sampleGlobals, sampleNodeData,
    forLoop, List.range', rd, DBL_MIN]

/-- C28 at a concrete input: the node of `chargedGlobals` that holds the particle `0`;
the particle lies on interpolation points, its normalising sums are `1`, and the first
row of `ms` adds up to its first charge. -/
theorem s_ComputeMoments_conserves_charge_witness :
    chargedGlobals.s_torder3 = chargedGlobals.s_torder_lim * chargedGlobals.s_torder_lim
      * chargedGlobals.s_torder_lim ∧
    ∑ kk in Finset.range chargedGlobals.s_torder3,
      rd2 (s_ComputeMoments chargedGlobals (sampleNodeData 1 0 0)).ms 0 kk
      = ∑ i in Finset.range (sampleNodeData 1 0 0).numpar.toNat,
          rd (chargedGlobals.s_source_charge.getD
            ((sampleNodeData 1 0 0).ibeg + (i : Int)).toNat []) 0 :=
  ⟨rfl, (s_ComputeMoments_conserves_charge chargedGlobals (sampleNodeData 1 0 0) rfl
    (by
      intro i hi
      have hi0 : i = 0 := by
        have : (sampleNodeData 1 0 0).numpar.toNat = 1 := rfl
        omega
      subst hi0
      obtain ⟨x1, x2, x3⟩ := sample_exactind
      have s1 : (s_ComputeMoments_a1i chargedGlobals (sampleNodeData 1 0 0) (0 : Nat)).2 = 1 :=
        (s_ComputeMoments_weights_exact _ _ _ _ 1 x1).1
      have s2 : (s_ComputeMoments_a2j chargedGlobals (sampleNodeData 1 0 0) (0 : Nat)).2 = 1 :=
        (s_ComputeMoments_weights_exact _ _ _ _ 1 x2).1
      have s3 : (s_ComputeMoments_a3k chargedGlobals (sampleNodeData 1 0 0) (0 : Nat)).2 = 1 :=
        (s_ComputeMoments_weights_exact _ _ _ _ 1 x3).1
      rw [s1, s2, s3]
      exact ⟨one_ne_zero, one_ne_zero, one_ne_zero⟩)).2.1 0 (by decide)⟩

/-- Claim C23, amended: when the x, y and z coordinates of a particle coincide with
interpolation points of the node and `m1`, `m2`, `m3` are the last such points on each
axis, the three arrays of weights are the indicators of `m1`, `m2`, `m3`, the three
normalising sums are `1`, and the pass for the particle adds its four source charges in
full to the entry `(m1, m2, m3)` of the grid and nothing to any other entry.  A point
that is the only one its coordinate coincides with is the last one. -/
theorem s_ComputeMoments_exact_node {K : Type} [LinearOrderedField K]
    (g : TreecodeGlobals K) (p : NodeData K) (tx ty tz : List K) (i : Int)
    (summ : List (List K)) (T m1 m2 m3 : Nat)
    (hT : g.s_torder_lim * g.s_torder_lim * g.s_torder_lim ≤ T) (hs : summ_shape T summ)
    (h1 : s_ComputeMoments_exactind g.s_torder_lim tx
      (rd g.s_particle_position_x (p.ibeg + i).toNat) m1)
    (h2 : s_ComputeMoments_exactind g.s_torder_lim ty
      (rd g.s_particle_position_y (p.ibeg + i).toNat) m2)
    (h3 : s_ComputeMoments_exactind g.s_torder_lim tz
      (rd g.s_particle_position_z (p.ibeg + i).toNat) m3) :
    (s_ComputeMoments_weights g.s_torder_lim (s_ComputeMoments_w1i g) tx
        (rd g.s_particle_position_x (p.ibeg + i).toNat)
      = ((List.replicate g.s_torder_lim 0).set m1 1, 1)) ∧
    (s_ComputeMoments_weights g.s_torder_lim (s_ComputeMoments_w1i g) ty
        (rd g.s_particle_position_y (p.ibeg + i).toNat)
      = ((List.replicate g.s_torder_lim 0).set m2 1, 1)) ∧
    (s_ComputeMoments_weights g.s_torder_lim (s_ComputeMoments_w1i g) tz
        (rd g.s_particle_position_z (p.ibeg + i).toNat)
      = ((List.replicate g.s_torder_lim 0).set m3 1, 1)) ∧
    (∀ c, c < 4 → ∀ x, rd2 (s_ComputeMoments_particle g p tx ty tz i summ) c x
      = rd2 summ c x
        + if x = m1 * g.s_torder_lim * g.s_torder_lim + m2 * g.s_torder_lim + m3 then
            rd (g.s_source_charge.getD (p.ibeg + i).toNat []) c
          else 0) ∧
    ∀ (t : List K) (u : K) (k : Nat), k < g.s_torder_lim → s_ComputeMoments_coincides t u k →
      (∀ j, j < g.s_torder_lim → s_ComputeMoments_coincides t u j → j = k) →
      s_ComputeMoments_exactind g.s_torder_lim t u k := by
  have hind : ∀ (t : List K) (u : K) (m : Nat),
      s_ComputeMoments_exactind g.s_torder_lim t u m →
      s_ComputeMoments_weights g.s_torder_lim (s_ComputeMoments_w1i g) t u
        = ((List.replicate g.s_torder_lim 0).set m 1, 1) := by
    intro t u m hm
    obtain ⟨b1, b2, b3⟩ := s_ComputeMoments_weights_exact g.s_torder_lim
      (s_ComputeMoments_w1i g) t u m hm
    refine Prod.ext (list_ext_rd _ _ ?_ (fun v hv => ?_)) b1
    · rw [b2, List.length_set, List.length_replicate]
    · show rd _ v = rd ((List.replicate g.s_torder_lim 0).set m 1) v
      rw [b3 v, rd_set _ _ _ _ (by rw [List.length_replicate]; exact hm.1),
        rd_replicate_zero]
      by_cases e : v = m
      · rw [if_pos e, if_pos e.symm]
      · have e2 : ¬ m = v := fun y => e y.symm
        rw [if_neg e, if_neg e2]
  refine ⟨hind _ _ _ h1, hind _ _ _ h2, hind _ _ _ h3, fun c hc x => ?_,
    fun t u k hk hc hu => ⟨hk, hc, fun m hm1 hm2 hm3 => ?_⟩⟩
  · obtain ⟨_, a2⟩ := s_ComputeMoments_particle_addend g p tx ty tz i summ T hT hs
    obtain ⟨b1, _, b3⟩ := s_ComputeMoments_weights_exact g.s_torder_lim
      (s_ComputeMoments_w1i g) tx _ m1 h1
    obtain ⟨c1, _, c3⟩ := s_ComputeMoments_weights_exact g.s_torder_lim
      (s_ComputeMoments_w1i g) ty _ m2 h2
    obtain ⟨d1, _, d3⟩ := s_ComputeMoments_weights_exact g.s_torder_lim
      (s_ComputeMoments_w1i g) tz _ m3 h3
    rw [a2 (c, x) hc, moment_addend_exact _ _ _ _ _ _ _ m1 m2 m3 h1.1 h2.1 h3.1 b1 c1 d1
      b3 c3 d3]
  · have := hu m hm2 hm3
    omega

/-- C23 at a concrete input: the particle `0` of `chargedGlobals` in the box `[0, 4]³`,
which lies on the interpolation point `1` of every axis; its charges go to the entry
`7` of the grid. -/
theorem s_ComputeMoments_exact_node_witness :
    s_ComputeMoments_exactind 2 (s_ComputeMoments chargedGlobals (sampleNodeData 1 0 0)).tx
      (rd chargedGlobals.s_particle_position_x 0) 1 ∧
    ∀ c, c < 4 → ∀ x, rd2 (s_ComputeMoments_particle chargedGlobals (sampleNodeData 1 0 0)
        (s_ComputeMoments chargedGlobals (sampleNodeData 1 0 0)).tx
        (s_ComputeMoments chargedGlobals (sampleNodeData 1 0 0)).ty
        (s_ComputeMoments chargedGlobals (sampleNodeData 1 0 0)).tz 0
        (List.replicate 4 (List.replicate 8 0))) c x
      = rd2 (List.replicate 4 (List.replicate 8 (0 : ℝ))) c x
        + if x = 1 * 2 * 2 + 1 * 2 + 1 then rd (chargedGlobals.s_source_charge.getD 0 []) c
          else 0 :=
  ⟨sample_exactind.1,
    (s_ComputeMoments_exact_node chargedGlobals (sampleNodeData 1 0 0) _ _ _ 0
      (List.replicate 4 (List.replicate 8 0)) 8 1 1 1 (by decide)
      (summ_shape_replicate 8).1 sample_exactind.1 sample_exactind.2.1
      sample_exactind.2.2).2.2.2.1⟩

/-- The node `pointNodeData` has all its interpolation points at `0`: the particle `0`
coincides with every point, and the last one on each axis is the point `1`. -/
theorem point_exactind :
    s_ComputeMoments_exactind 2 (s_ComputeMoments chargedGlobals pointNodeData).tx
      (rd chargedGlobals.s_particle_position_x 0) 1 ∧
    s_ComputeMoments_exactind 2 (s_ComputeMoments chargedGlobals pointNodeData).ty
      (rd chargedGlobals.s_particle_position_y 0) 1 ∧
    s_ComputeMoments_exactind 2 (s_ComputeMoments chargedGlobals pointNodeData).tz
      (rd chargedGlobals.s_particle_position_z 0) 1 := by
  obtain ⟨e1, e2, e3⟩ := s_ComputeMoments_tx chargedGlobals pointNodeData
  rw [e1, e2, e3]
  refine ⟨⟨by decide, ?_, fun m h1 h2 => by omega⟩, ⟨by decide, ?_, fun m h1 h2 => by omega⟩,
    ⟨by decide, ?_, fun m h1 h2 => by omega⟩⟩ <;>
  norm_num [s_ComputeMoments_coincides, chargedGlobals, sampleGlobals, pointNodeData, forLoop,
    List.range', rd, DBL_MIN]

/-- Counterexample to C23 as stated: in the node `pointNodeData`, whose box is a single
point, the particle `0` coincides with the interpolation points `k1 = k2 = k3 = 0`, yet
the array `a1i` is not the indicator of `0`, nothing is added to the entry `(0, 0, 0)`
of the grid (index `0`), and the charge `qq[0] = 1` is added to the entry `(1, 1, 1)`
(index `7`). -/
theorem s_ComputeMoments_exact_node_not_first :
    s_ComputeMoments_coincides (s_ComputeMoments chargedGlobals pointNodeData).tx
      (rd chargedGlobals.s_particle_position_x 0) 0 ∧
    s_ComputeMoments_coincides (s_ComputeMoments chargedGlobals pointNodeData).ty
      (rd chargedGlobals.s_particle_position_y 0) 0 ∧
    s_ComputeMoments_coincides (s_ComputeMoments chargedGlobals pointNodeData).tz
      (rd chargedGlobals.s_particle_position_z 0) 0 ∧
    rd (s_ComputeMoments_a1i chargedGlobals pointNodeData 0).1 0 = 0 ∧
    rd (chargedGlobals.s_source_charge.getD 0 []) 0 = 1 ∧
    rd2 (s_ComputeMoments chargedGlobals pointNodeData).ms 0 0 = 0 ∧
    rd2 (s_ComputeMoments chargedGlobals pointNodeData).ms 0 7 = 1 := by
  obtain ⟨x1, x2, x3⟩ := point_exactind
  obtain ⟨b1, _, b3⟩ := s_ComputeMoments_weights_exact _
    (s_ComputeMoments_w1i chargedGlobals) _ _ 1 x1
  obtain ⟨c1, _, c3⟩ := s_ComputeMoments_weights_exact _
    (s_ComputeMoments_w1i chargedGlobals) _ _ 1 x2
  obtain ⟨d1, _, d3⟩ := s_ComputeMoments_weights_exact _
    (s_ComputeMoments_w1i chargedGlobals) _ _ 1 x3
  obtain ⟨_, a2⟩ := s_ComputeMoments_ms_spec chargedGlobals pointNodeData (by decide)
  have hq : rd (chargedGlobals.s_source_charge.getD 0 []) 0 = 1 := rfl
  have hn : pointNodeData.numpar.toNat = 1 := rfl
  have hadd : ∀ x, rd2 (s_ComputeMoments chargedGlobals pointNodeData).ms 0 x
      = if x = 1 * 2 * 2 + 1 * 2 + 1 then 1 else 0 := by
    intro x
    rw [a2 (0, x) (show 0 < 4 from by decide), hn, Finset.sum_range_one]
    exact (moment_addend_exact 2 _ _ _ _ 0 x 1 1 1 (by decide) (by decide) (by decide)
      b1 c1 d1 b3 c3 d3).trans (by rw [← hq]; rfl)
  obtain ⟨e1, e2, e3⟩ := s_ComputeMoments_tx chargedGlobals pointNodeData
  refine ⟨?_, ?_, ?_, ?_, hq, ?_, ?_⟩
  · rw [e1]
    norm_num [s_ComputeMoments_coincides, chargedGlobals, sampleGlobals, pointNodeData,
      forLoop, List.range', rd, DBL_MIN]
  · rw [e2]
    norm_num [s_ComputeMoments_coincides, chargedGlobals, sampleGlobals, pointNodeData,
      forLoop, List.range', rd, DBL_MIN]
  · rw [e3]
    norm_num [s_ComputeMoments_coincides, chargedGlobals, sampleGlobals, pointNodeData,
      forLoop, List.range', rd, DBL_MIN]
  · exact (b3 0).trans (if_neg (by decide))
  · rw [hadd 0, if_neg (by decide)]
  · rw [hadd 7, if_pos (by decide)]

end TABIPB
